import Mathlib

/-!
# NIP-13 miner: shallow embedding and checked properties

The miner core of `nip13_standalone.c` and `nip13_parallel.c` (the SHA-256 hasher, the
leading-zero counter, the text-level nonce serializer, the single-threaded search and the
nonce-space partition of the parallel search) is transcribed into Lean functions, and the
properties of the specification are stated and proved about these functions.

Conventions of the embedding:

* a byte, a 32-bit word and a 64-bit counter are natural numbers; every C operation whose
  result is stored in a `uint8_t`, `uint32_t` or `uint64_t` is followed by the matching
  reduction `% 2^8`, `% 2^32`, `% 2^64`;
* a byte buffer and a C string are lists of bytes; a C string is the list of its bytes
  before the terminating NUL, and a `char *` into it is an offset into that list
  (the byte read at the offset `length` is the terminator `0`);
* a `for` loop over a fixed index range is a fold over `List.range`; a `while` loop is a
  function recursive on a fuel argument, called with fuel that the loop cannot exhaust;
* a function whose C behaviour is undefined on some input (a result buffer that is never
  written, a null pointer handed to `strcat`) returns `none` there.

The hasher, the counter and the serializer are textually identical in the two C files.
-/

namespace Nip13

/-! ## SHA-256 (sha256_k, the macros, sha256_init, sha256_transform, sha256_update,
sha256_final, sha256_hash) -/

/-- The table `sha256_k[64]`, one source line of eight words per row. -/
def sha256_k : List Nat :=
  [0x428a2f98, 0x71374491, 0xb5c0fbcf, 0xe9b5dba5, 0x3956c25b, 0x59f111f1, 0x923f82a4, 0xab1c5ed5] ++
  [0xd807aa98, 0x12835b01, 0x243185be, 0x550c7dc3, 0x72be5d74, 0x80deb1fe, 0x9bdc06a7, 0xc19bf174] ++
  [0xe49b69c1, 0xefbe4786, 0x0fc19dc6, 0x240ca1cc, 0x2de92c6f, 0x4a7484aa, 0x5cb0a9dc, 0x76f988da] ++
  [0x983e5152, 0xa831c66d, 0xb00327c8, 0xbf597fc7, 0xc6e00bf3, 0xd5a79147, 0x06ca6351, 0x14292967] ++
  [0x27b70a85, 0x2e1b2138, 0x4d2c6dfc, 0x53380d13, 0x650a7354, 0x766a0abb, 0x81c2c92e, 0x92722c85] ++
  [0xa2bfe8a1, 0xa81a664b, 0xc24b8b70, 0xc76c51a3, 0xd192e819, 0xd6990624, 0xf40e3585, 0x106aa070] ++
  [0x19a4c116, 0x1e376c08, 0x2748774c, 0x34b0bcb5, 0x391c0cb3, 0x4ed8aa4a, 0x5b9cca4f, 0x682e6ff3] ++
  [0x748f82ee, 0x78a5636f, 0x84c87814, 0x8cc70208, 0x90befffa, 0xa4506ceb, 0xbef9a3f7, 0xc67178f2]

/-- The macro `ROTR(x, n)` on a `uint32_t`: `((x) >> (n)) | ((x) << (32 - (n)))`. -/
def ROTR (x n : Nat) : Nat := ((x >>> n) ||| (x <<< (32 - n))) % 2 ^ 32

/-- The macro `CH(x, y, z)`: `((x) & (y)) ^ (~(x) & (z))`; `~` is the 32-bit complement. -/
def CH (x y z : Nat) : Nat := (x &&& y) ^^^ ((x ^^^ 0xffffffff) &&& z)

/-- The macro `MAJ(x, y, z)`. -/
def MAJ (x y z : Nat) : Nat := (x &&& y) ^^^ (x &&& z) ^^^ (y &&& z)

/-- The macro `S0(x)` (upper case). -/
def S0 (x : Nat) : Nat := ROTR x 2 ^^^ ROTR x 13 ^^^ ROTR x 22

/-- The macro `S1(x)` (upper case). -/
def S1 (x : Nat) : Nat := ROTR x 6 ^^^ ROTR x 11 ^^^ ROTR x 25

/-- The macro `s0(x)` (lower case). -/
def s0 (x : Nat) : Nat := ROTR x 7 ^^^ ROTR x 18 ^^^ (x >>> 3)

/-- The macro `s1(x)` (lower case). -/
def s1 (x : Nat) : Nat := ROTR x 17 ^^^ ROTR x 19 ^^^ (x >>> 10)

/-- The struct `sha256_ctx_t`: `state[8]`, `count`, `buffer[64]`. -/
structure sha256_ctx_t where
  state : List Nat
  count : Nat
  buffer : List Nat
deriving DecidableEq, Repr

/-- The function `sha256_init`: it assigns the eight state words and the counter, and
leaves `buffer` as it finds it. -/
def sha256_init (ctx : sha256_ctx_t) : sha256_ctx_t :=
  { ctx with
    state := [0x6a09e667, 0xbb67ae85, 0x3c6ef372, 0xa54ff53a,
              0x510e527f, 0x9b05688c, 0x1f83d9ab, 0x5be0cd19],
    count := 0 }

/-- The read `p[i]` of a byte or word through a pointer `p` modelled by the list of the
cells it points to. -/
def rd (p : List Nat) (i : Nat) : Nat := p.getD i 0

/-- First loop of `sha256_transform`: `w[i]` for `i < 16` is the big-endian load
`(data[i*4] << 24) | (data[i*4+1] << 16) | (data[i*4+2] << 8) | data[i*4+3]`. -/
def load_word (data : List Nat) (i : Nat) : Nat :=
  ((rd data (i * 4) <<< 24) ||| (rd data (i * 4 + 1) <<< 16) |||
    (rd data (i * 4 + 2) <<< 8) ||| rd data (i * 4 + 3)) % 2 ^ 32

/-- Body of the second loop of `sha256_transform`:
`w[i] = s1(w[i - 2]) + w[i - 7] + s0(w[i - 15]) + w[i - 16]`. -/
def schedule_step (w : List Nat) (i : Nat) : List Nat :=
  w.set i ((s1 (rd w (i - 2)) + rd w (i - 7) + s0 (rd w (i - 15)) + rd w (i - 16)) % 2 ^ 32)

/-- The array `w[64]` after the two schedule loops of `sha256_transform`; the cells
`16..63`, not yet written when the second loop starts, are modelled as `0` and are each
written before they are read. -/
def message_schedule (data : List Nat) : List Nat :=
  (List.range' 16 48).foldl schedule_step
    ((List.range 16).map (load_word data) ++ List.replicate 48 0)

/-- The working variables `a, b, c, d, e, f, g, h` of `sha256_transform`. -/
structure WorkVars where
  a : Nat
  b : Nat
  c : Nat
  d : Nat
  e : Nat
  f : Nat
  g : Nat
  h : Nat
deriving DecidableEq, Repr

/-- Body of the main loop of `sha256_transform` at index `i`. -/
def round_step (w : List Nat) (v : WorkVars) (i : Nat) : WorkVars :=
  let t1 := (v.h + S1 v.e + CH v.e v.f v.g + rd sha256_k i + rd w i) % 2 ^ 32
  let t2 := (S0 v.a + MAJ v.a v.b v.c) % 2 ^ 32
  { h := v.g, g := v.f, f := v.e, e := (v.d + t1) % 2 ^ 32,
    d := v.c, c := v.b, b := v.a, a := (t1 + t2) % 2 ^ 32 }

/-- The function `sha256_transform` as a map on `ctx->state`; `data` models the pointer
argument, of which the 64 bytes `data[0..63]` are read. -/
def sha256_transform (state : List Nat) (data : List Nat) : List Nat :=
  let w := message_schedule data
  let v0 : WorkVars :=
    { a := rd state 0, b := rd state 1, c := rd state 2, d := rd state 3,
      e := rd state 4, f := rd state 5, g := rd state 6, h := rd state 7 }
  let v := (List.range 64).foldl (round_step w) v0
  [(rd state 0 + v.a) % 2 ^ 32, (rd state 1 + v.b) % 2 ^ 32,
   (rd state 2 + v.c) % 2 ^ 32, (rd state 3 + v.d) % 2 ^ 32,
   (rd state 4 + v.e) % 2 ^ 32, (rd state 5 + v.f) % 2 ^ 32,
   (rd state 6 + v.g) % 2 ^ 32, (rd state 7 + v.h) % 2 ^ 32]

/-- The call `memcpy(buf + off, src, n)` with `src` holding the `n` bytes copied. -/
def memcpy (buf : List Nat) (off : Nat) (src : List Nat) : List Nat :=
  buf.take off ++ src ++ buf.drop (off + src.length)

/-- The loop `while (len >= 64) { sha256_transform(ctx, data); data += 64; len -= 64; }`
of `sha256_update`: it returns the state and the bytes left over. -/
def update_blocks : Nat → List Nat → List Nat → List Nat × List Nat
  | 0, state, data => (state, data)
  | fuel + 1, state, data =>
    if 64 ≤ data.length then
      update_blocks fuel (sha256_transform state data) (data.drop 64)
    else (state, data)

/-- The function `sha256_update`; `data` holds the `len` bytes handed over. -/
def sha256_update (ctx : sha256_ctx_t) (data : List Nat) : sha256_ctx_t :=
  let buffer_space := 64 - ctx.count % 64
  let count := (ctx.count + data.length) % 2 ^ 64
  if buffer_space ≤ data.length then
    let buffer := memcpy ctx.buffer (64 - buffer_space) (data.take buffer_space)
    let state := sha256_transform ctx.state buffer
    let r := update_blocks (data.length / 64) state (data.drop buffer_space)
    if 0 < r.2.length then
      { state := r.1, count := count, buffer := memcpy buffer (count % 64 - r.2.length) r.2 }
    else
      { state := r.1, count := count, buffer := buffer }
  else if 0 < data.length then
    { state := ctx.state, count := count,
      buffer := memcpy ctx.buffer (count % 64 - data.length) data }
  else
    { state := ctx.state, count := count, buffer := ctx.buffer }

/-- The array `len_bytes[8]` of `sha256_final`: `bit_count` in big-endian order. -/
def len_bytes (bit_count : Nat) : List Nat :=
  [(bit_count >>> 56) &&& 0xff, (bit_count >>> 48) &&& 0xff, (bit_count >>> 40) &&& 0xff,
   (bit_count >>> 32) &&& 0xff, (bit_count >>> 24) &&& 0xff, (bit_count >>> 16) &&& 0xff,
   (bit_count >>> 8) &&& 0xff, bit_count &&& 0xff]

/-- The output loop of `sha256_final`: the four big-endian bytes of each state word. -/
def digest_bytes (state : List Nat) : List Nat :=
  (List.range 8).flatMap fun i =>
    [(rd state i >>> 24) &&& 0xff, (rd state i >>> 16) &&& 0xff,
     (rd state i >>> 8) &&& 0xff, rd state i &&& 0xff]

/-- The function `sha256_final`: the digest written to `digest`. -/
def sha256_final (ctx : sha256_ctx_t) : List Nat :=
  let bit_count := (ctx.count * 8) % 2 ^ 64
  let pad_len := if ctx.count % 64 < 56 then 56 - ctx.count % 64 else 120 - ctx.count % 64
  let padding := 0x80 :: List.replicate 63 0
  let ctx1 := sha256_update ctx (padding.take pad_len)
  let ctx2 := sha256_update ctx1 (len_bytes bit_count)
  digest_bytes ctx2.state

/-- The body of `sha256_hash` run with the local variable `ctx` holding `stack` before
`sha256_init` is called on it. -/
def sha256_hash_from (stack : sha256_ctx_t) (data : List Nat) : List Nat :=
  sha256_final (sha256_update (sha256_init stack) data)

/-- The function `sha256_hash`. Its local `ctx` is not initialised before `sha256_init`;
the content taken here is irrelevant (see `sha256_hash_from_eq`). -/
def sha256_hash (data : List Nat) : List Nat :=
  sha256_hash_from { state := List.replicate 8 0, count := 0, buffer := List.replicate 64 0 } data

/-! ## FIPS 180-4 SHA-256, written from the text of the standard

This second definition follows the standard (and the words of the specification), not the
C code: the constants are computed from their defining property, the message is padded as
a whole and cut into blocks, and the hash is a fold of the compression function. -/

/-- Trial-division primality test, used to enumerate the first primes. -/
def fips_is_prime (n : Nat) : Bool :=
  decide (2 ≤ n) && (List.range n).all fun d => decide (d < 2) || decide (n % d ≠ 0)

/-- The first 64 primes `2, 3, 5, ..., 311`. -/
def fips_primes : List Nat := (List.range 312).filter fips_is_prime

/-- Bitwise search for the integer `k`-th root: the bits `b-1 .. 0` are tried in turn. -/
def fips_iroot_bits (k n : Nat) : Nat → Nat → Nat
  | 0, r => r
  | b + 1, r => if (r + 2 ^ b) ^ k ≤ n then fips_iroot_bits k n b (r + 2 ^ b)
                else fips_iroot_bits k n b r

/-- The first 32 bits of the fractional part of the `k`-th root of `p`: the integer
`k`-th root of `p * 2^(32k)` reduced modulo `2^32`. -/
def fips_frac_root (k p : Nat) : Nat := fips_iroot_bits k (p * 2 ^ (32 * k)) 40 0 % 2 ^ 32

/-- FIPS 180-4 5.3.3: the initial hash value, from the square roots of the first 8 primes. -/
def fips_H0 : List Nat := (fips_primes.take 8).map (fips_frac_root 2)

/-- FIPS 180-4 4.2.2: the constants `K`, from the cube roots of the first 64 primes. -/
def fips_K : List Nat := fips_primes.map (fips_frac_root 3)

/-- FIPS 180-4 3.2: rotate right on 32-bit words. -/
def fips_rotr (n x : Nat) : Nat := ((x >>> n) ||| (x <<< (32 - n))) % 2 ^ 32

/-- FIPS 180-4 (4.2). -/
def fips_Ch (x y z : Nat) : Nat := (x &&& y) ^^^ ((x ^^^ (2 ^ 32 - 1)) &&& z)

/-- FIPS 180-4 (4.3). -/
def fips_Maj (x y z : Nat) : Nat := (x &&& y) ^^^ (x &&& z) ^^^ (y &&& z)

/-- FIPS 180-4 (4.4). -/
def fips_Sigma0 (x : Nat) : Nat := fips_rotr 2 x ^^^ fips_rotr 13 x ^^^ fips_rotr 22 x

/-- FIPS 180-4 (4.5). -/
def fips_Sigma1 (x : Nat) : Nat := fips_rotr 6 x ^^^ fips_rotr 11 x ^^^ fips_rotr 25 x

/-- FIPS 180-4 (4.6). -/
def fips_sigma0 (x : Nat) : Nat := fips_rotr 7 x ^^^ fips_rotr 18 x ^^^ (x >>> 3)

/-- FIPS 180-4 (4.7). -/
def fips_sigma1 (x : Nat) : Nat := fips_rotr 17 x ^^^ fips_rotr 19 x ^^^ (x >>> 10)

/-- The `t`-th 32-bit word of a block, as a big-endian integer. -/
def fips_word (M : List Nat) (t : Nat) : Nat :=
  M.getD (4 * t) 0 * 2 ^ 24 + M.getD (4 * t + 1) 0 * 2 ^ 16 + M.getD (4 * t + 2) 0 * 2 ^ 8 +
    M.getD (4 * t + 3) 0

/-- FIPS 180-4 6.2.2 step 1, for `t >= 16`: the schedule `W` grows by
`sigma1(W[t-2]) + W[t-7] + sigma0(W[t-15]) + W[t-16]` (mod `2^32`), `n` times. -/
def fips_schedule_ext : Nat → List Nat → List Nat
  | 0, W => W
  | n + 1, W =>
    let t := W.length
    fips_schedule_ext n (W ++ [(fips_sigma1 (W.getD (t - 2) 0) + W.getD (t - 7) 0 +
      fips_sigma0 (W.getD (t - 15) 0) + W.getD (t - 16) 0) % 2 ^ 32])

/-- FIPS 180-4 6.2.2 step 1: the message schedule `W_0 .. W_63` of a block. -/
def fips_schedule (M : List Nat) : List Nat :=
  fips_schedule_ext 48 ((List.range 16).map (fips_word M))

/-- FIPS 180-4 6.2.2 step 3: one round, on the working variables, with `K_t` and `W_t`. -/
def fips_round (v : WorkVars) (kw : Nat × Nat) : WorkVars :=
  let T1 := (v.h + fips_Sigma1 v.e + fips_Ch v.e v.f v.g + kw.1 + kw.2) % 2 ^ 32
  let T2 := (fips_Sigma0 v.a + fips_Maj v.a v.b v.c) % 2 ^ 32
  { h := v.g, g := v.f, f := v.e, e := (v.d + T1) % 2 ^ 32,
    d := v.c, c := v.b, b := v.a, a := (T1 + T2) % 2 ^ 32 }

/-- FIPS 180-4 6.2.2: the compression of one 64-byte block `M` into the hash value `H`. -/
def fips_compress (H : List Nat) (M : List Nat) : List Nat :=
  let v := (List.zip fips_K (fips_schedule M)).foldl fips_round
    { a := H.getD 0 0, b := H.getD 1 0, c := H.getD 2 0, d := H.getD 3 0,
      e := H.getD 4 0, f := H.getD 5 0, g := H.getD 6 0, h := H.getD 7 0 }
  List.zipWith (fun x y => (x + y) % 2 ^ 32) H [v.a, v.b, v.c, v.d, v.e, v.f, v.g, v.h]

/-- The shortest run of zero bytes that brings a message of `l` bytes, followed by `0x80`,
to a length of 56 modulo 64. -/
def fips_zero_run (l : Nat) : Nat :=
  ((List.range 64).find? fun k => decide ((l + 1 + k) % 64 = 56)).getD 0

/-- The integer `n` in 8 big-endian bytes. -/
def fips_be64 (n : Nat) : List Nat := (List.range 8).map fun i => n / 256 ^ (7 - i) % 256

/-- FIPS 180-4 5.1.1: the padded message. -/
def fips_pad (m : List Nat) : List Nat :=
  m ++ [0x80] ++ List.replicate (fips_zero_run m.length) 0 ++ fips_be64 (8 * m.length)

/-- The `i`-th 64-byte block of a byte sequence. -/
def fips_block (p : List Nat) (i : Nat) : List Nat := (p.drop (64 * i)).take 64

/-- The hash value after the successive 64-byte blocks of `p` are compressed into `H`. -/
def fips_absorb (H : List Nat) (p : List Nat) : List Nat :=
  (List.range (p.length / 64)).foldl (fun H i => fips_compress H (fips_block p i)) H

/-- The 32-bit word `x` in 4 big-endian bytes. -/
def fips_be32 (x : Nat) : List Nat := [x / 2 ^ 24 % 256, x / 2 ^ 16 % 256, x / 2 ^ 8 % 256, x % 256]

/-- FIPS 180-4 SHA-256 of the byte sequence `m`. -/
def fips_sha256 (m : List Nat) : List Nat :=
  (fips_absorb fips_H0 (fips_pad m)).flatMap fips_be32

/-! ## Notions used to state the properties of the hasher -/

/-- Every byte of the list is below 256. -/
def IsBytes (l : List Nat) : Prop := ∀ b ∈ l, b < 256

instance (l : List Nat) : Decidable (IsBytes l) :=
  inferInstanceAs (Decidable (∀ b ∈ l, b < 256))

/-- The context `ctx` has taken in the byte stream `P ++ t`: the full blocks `P` are
compressed into the state and the rest `t` waits at the start of the buffer. -/
structure Absorbed (ctx : sha256_ctx_t) (P t : List Nat) : Prop where
  aligned : P.length % 64 = 0
  short : t.length < 64
  state_eq : ctx.state = fips_absorb fips_H0 P
  count_eq : ctx.count = (P.length + t.length) % 2 ^ 64
  buf_len : ctx.buffer.length = 64
  buf_eq : ctx.buffer.take t.length = t

/-! ## The leading-zero counter (count_leading_zeros) -/

/-- The inner loop `while ((byte & 0x80) == 0) { zeros++; byte <<= 1; }` of
`count_leading_zeros`, on a `uint8_t byte`. It is entered with a non-zero byte, whose top
set bit reaches position 7 after at most 7 shifts (see `clz_byte_loop_fuel`). -/
def clz_byte_loop : Nat → Nat → Nat → Nat
  | 0, _, zeros => zeros
  | fuel + 1, byte, zeros =>
    if byte &&& 0x80 = 0 then clz_byte_loop fuel ((byte <<< 1) % 2 ^ 8) (zeros + 1)
    else zeros

/-- The loop `for (int i = 0; i < SHA256_DIGEST_SIZE; i++)` of `count_leading_zeros` with
`n` iterations left, at index `i`, with `zeros` counted so far; the `break` ends it. -/
def clz_loop (hash : List Nat) : Nat → Nat → Nat → Nat
  | 0, _, zeros => zeros
  | n + 1, i, zeros =>
    if rd hash i = 0 then clz_loop hash n (i + 1) (zeros + 8)
    else clz_byte_loop 8 (rd hash i) zeros

/-- The function `count_leading_zeros` on the 32 bytes `hash` points to. -/
def count_leading_zeros (hash : List Nat) : Nat := clz_loop hash 32 0 0

/-- The value of a byte sequence read as a big-endian integer. -/
def be_value (l : List Nat) : Nat := l.foldl (fun a b => a * 256 + b) 0

/-- The leading-zero count of a byte list, by recursion on the list (used in proofs). -/
def clz_list : List Nat → Nat
  | [] => 0
  | b :: t => if b = 0 then 8 + clz_list t else clz_byte_loop 8 b 0

/-! ## C strings and the nonce serializer (update_nonce_in_json) -/

/-- The bytes of an ASCII string literal. -/
def ascii (s : String) : List Nat := s.toList.map Char.toNat

/-- The library call `strstr(hay, needle)`: the offset of the first occurrence of `needle`
in `hay`, `none` for `NULL`. -/
def strstr : List Nat → List Nat → Option Nat
  | [], needle => if needle.isPrefixOf [] then some 0 else none
  | c :: hay, needle =>
    if needle.isPrefixOf (c :: hay) then some 0 else (strstr hay needle).map (· + 1)

/-- The offset of the first byte equal to `c` in a byte list. -/
def find_byte (c : Nat) : List Nat → Option Nat
  | [] => none
  | x :: t => if x = c then some 0 else (find_byte c t).map (· + 1)

/-- The library call `strchr(s + p, c)` for a non-zero `c` and `p` within the string: the
offset in `s` of the first `c` at or after `p`, `none` for `NULL`. -/
def strchr (s : List Nat) (p c : Nat) : Option Nat := (find_byte c (s.drop p)).map (· + p)

/-- A loop `while (cond(*p)) p++;` over the C string `s`, from the offset `p`. Every
condition used is false on the terminator, so the loop ends at the latest there and
`s.length + 1` units of fuel are never used up. -/
def skip_while (s : List Nat) (cond : Nat → Bool) : Nat → Nat → Nat
  | 0, p => p
  | fuel + 1, p => if cond (rd s p) then skip_while s cond fuel (p + 1) else p

/-- The digits of `n`, most significant first, in ASCII: the conversion loop behind `%llu`. -/
def utoa_digits : Nat → Nat → List Nat → List Nat
  | 0, _, acc => acc
  | fuel + 1, n, acc =>
    if n < 10 then (48 + n) :: acc else utoa_digits fuel (n / 10) ((48 + n % 10) :: acc)

/-- The text `sprintf` writes for `%llu` and the argument `(unsigned long long)n`; a 64-bit
value has at most 20 digits. -/
def fmt_llu (n : Nat) : List Nat := utoa_digits 20 (n % 2 ^ 64) []

/-- The buffer `nonce_str` after `sprintf(nonce_str, "\"%llu\"", nonce)`. -/
def nonce_str (nonce : Nat) : List Nat := ascii "\"" ++ fmt_llu nonce ++ ascii "\""

/-- The library call `strncpy(result, json, n)` followed by `result[n] = '\0'`, for
`n <= strlen(json)`: the string now held by `result`. -/
def strncpy (json : List Nat) (n : Nat) : List Nat := json.take n

/-- The library call `strcat(result, src)`: the string now held by `result`. -/
def strcat (result src : List Nat) : List Nat := result ++ src

/-- The function `update_nonce_in_json`: the string held by the returned buffer. The value
is `none` where the C function returns the buffer without having written to it (no `:`
after the `"nonce"` token; no `"nonce"` token and no `"tags"` token or no `[` after it) and
where it hands `NULL + 1` to `strcat` (a value that opens with `"` and is never closed). -/
def update_nonce_in_json (json : List Nat) (nonce : Nat) : Option (List Nat) :=
  match strstr json (ascii "\"nonce\"") with
  | some nonce_pos =>
    match strchr json nonce_pos 58 with
    | some colon =>
      let value_start :=
        skip_while json (fun c => c == 32 || c == 9) (json.length + 1) (colon + 1)
      if rd json value_start = 34 then
        match strchr json (value_start + 1) 34 with
        | some quote =>
          some (strcat (strcat (strncpy json value_start) (nonce_str nonce))
            (json.drop (quote + 1)))
        | none => none
      else
        let value_end :=
          skip_while json (fun c => c != 0 && c != 44 && c != 93 && c != 125)
            (json.length + 1) value_start
        some (strcat (strcat (strncpy json value_start) (nonce_str nonce))
          (json.drop value_end))
    | none => none
  | none =>
    match strstr json (ascii "\"tags\"") with
    | some tags_pos =>
      match strchr json tags_pos 91 with
      | some array_start =>
        let result := strncpy json (array_start + 1)
        let result := strcat result (ascii "[\"nonce\",")
        let result := strcat result (nonce_str nonce)
        let result := strcat result (ascii "]")
        let rest :=
          skip_while json (fun c => c == 32 || c == 9 || c == 10) (json.length + 1)
            (array_start + 1)
        if rd json rest ≠ 93 then
          some (strcat (strcat result (ascii ",")) (json.drop rest))
        else
          some (strcat result (json.drop rest))
      | none => none
    | none => none

/-! ## Notions and events used to state the properties of the serializer -/

/-- The decimal numeral of `n` in ASCII, most significant digit first, from the digits of
`n` in base 10. -/
def decimal (n : Nat) : List Nat :=
  if n = 0 then [48] else (Nat.digits 10 n).reverse.map (· + 48)

/-- The nonce tag `["nonce","<decimal N>"]`. -/
def nonce_tag (N : Nat) : List Nat := ascii "[\"nonce\",\"" ++ decimal N ++ ascii "\"]"

/-- A space, a tab or a newline: the bytes skipped after the `[` of the tags array. -/
def is_blank (c : Nat) : Bool := c == 32 || c == 9 || c == 10

/-- An event whose tags array holds one space: `{"tags":[ ]}`. -/
def event_blank_tags : List Nat := ascii "\x7b\"tags\":[ ]\x7d"

/-- An event with a nonce tag `["nonce","0"]` and a field after the tags array:
`{"tags":[["nonce","0"]],"content":"hi"}`. -/
def event_nonce_then_content : List Nat :=
  ascii "\x7b\"tags\":[[\"nonce\",\"0\"]],\"content\":\"hi\"\x7d"

/-- The event of the scenarios S1, S2 and S5. -/
def event_S1 : List Nat :=
  ascii "\x7b\"content\":\"hi\",\"created_at\":1700000000,\"tags\":[]\x7d"

/-- The event of the scenario S3: the same with a nonce tag `["nonce","99"]`. -/
def event_S3 : List Nat :=
  ascii "\x7b\"content\":\"hi\",\"created_at\":1700000000,\"tags\":[[\"nonce\",\"99\"]]\x7d"

/-! ## The single-threaded search (nip13_mine_range) -/

/-- What `nip13_mine_range` hands back: its return value, the value it stored through
`found_nonce` (`none` when it stored nothing) and the value of `*attempts`. -/
structure MineResult where
  ret : Nat
  found_nonce : Option Nat
  attempts : Nat
deriving DecidableEq, Repr

/-- The loop `while (nonce < end_nonce)` of `nip13_mine_range`, from the values `nonce` and
`attempts` of its variables. The result is `none` when the serializer result is undefined
and when the fuel is used up; `nip13_mine_range` supplies fuel the loop cannot use up. -/
def mine_loop (event_json : List Nat) (difficulty : Int) (end_nonce : Nat) :
    Nat → Nat → Nat → Option MineResult
  | 0, _, _ => none
  | fuel + 1, nonce, attempts =>
    if nonce < end_nonce then
      match update_nonce_in_json event_json nonce with
      | none => none
      | some event_with_nonce =>
        let hash := sha256_hash event_with_nonce
        let attempts := (attempts + 1) % 2 ^ 64
        let leading_zeros := count_leading_zeros hash
        if (leading_zeros : Int) ≥ difficulty then
          some { ret := 1, found_nonce := some nonce, attempts := attempts }
        else
          mine_loop event_json difficulty end_nonce fuel ((nonce + 1) % 2 ^ 64) attempts
    else
      some { ret := 0, found_nonce := none, attempts := attempts }

/-- The function `nip13_mine_range`. -/
def nip13_mine_range (event_json : List Nat) (difficulty : Int) (start_nonce end_nonce : Nat) :
    Option MineResult :=
  mine_loop event_json difficulty end_nonce (end_nonce - start_nonce + 1) start_nonce 0

/-- The nonce `N` is a solution for the event at difficulty `D`: the serializer produces the
event with `N`, and its digest has at least `D` leading zero bits. -/
def Solves (event_json : List Nat) (D : Int) (N : Nat) : Prop :=
  ∃ out, update_nonce_in_json event_json N = some out ∧
    (count_leading_zeros (sha256_hash out) : Int) ≥ D

/-- The nonce `N` serializes, and the digest has fewer than `D` leading zero bits. -/
def Misses (event_json : List Nat) (D : Int) (N : Nat) : Prop :=
  ∃ out, update_nonce_in_json event_json N = some out ∧
    (count_leading_zeros (sha256_hash out) : Int) < D

/-! ## The nonce-space partition (nip13_mine_range_parallel, nip13_mine_parallel) -/

/-- The fields `start_nonce` and `end_nonce` that the dispatch loop of
`nip13_mine_range_parallel` stores in `thread_data[i]`, in 64-bit arithmetic. -/
def range_parallel_bounds (num_threads start_nonce end_nonce i : Nat) : Nat × Nat :=
  let range_size := (end_nonce + 2 ^ 64 - start_nonce) % 2 ^ 64
  let nonces_per_thread := range_size / num_threads
  let remainder := range_size % num_threads
  let thread_start := (start_nonce + (i * nonces_per_thread) % 2 ^ 64) % 2 ^ 64
  let thread_end := (start_nonce + ((i + 1) * nonces_per_thread) % 2 ^ 64) % 2 ^ 64
  (thread_start, if i = num_threads - 1 then (thread_end + remainder) % 2 ^ 64 else thread_end)

/-- The fields `start_nonce` and `end_nonce` that the dispatch loop of `nip13_mine_parallel`
stores in `thread_data[i]`, in 64-bit arithmetic. -/
def parallel_bounds (num_threads max_iterations i : Nat) : Nat × Nat :=
  let nonces_per_thread := max_iterations / num_threads
  let remainder := max_iterations % num_threads
  let thread_start := (i * nonces_per_thread) % 2 ^ 64
  let thread_end := ((i + 1) * nonces_per_thread) % 2 ^ 64
  (thread_start, if i = num_threads - 1 then (thread_end + remainder) % 2 ^ 64 else thread_end)

/-- The incremental use of the hasher: `sha256_init` on a context holding `stack`, one
`sha256_update` per chunk in order, then `sha256_final`. -/
def sha256_chunks (stack : sha256_ctx_t) (chunks : List (List Nat)) : List Nat :=
  sha256_final (chunks.foldl sha256_update (sha256_init stack))

/-- The integer `n` in `len` big-endian bytes. -/
def be_encode (len n : Nat) : List Nat :=
  (List.range len).map fun k => n / 256 ^ (len - 1 - k) % 256

/-! ## The timestamp serializers (update_timestamp_in_json, increment_timestamp_in_json) -/

/-- The function `update_timestamp_in_json`: the string held by the returned buffer. The
value is `none` where the C function returns the buffer without having written to it (a
`"created_at"` token with no `:` after it). -/
def update_timestamp_in_json (json : List Nat) (timestamp : Nat) : Option (List Nat) :=
  let timestamp_str := fmt_llu timestamp
  match strstr json (ascii "\"created_at\"") with
  | some timestamp_pos =>
    match strchr json timestamp_pos 58 with
    | some colon =>
      let value_start :=
        skip_while json (fun c => c == 32 || c == 9) (json.length + 1) (colon + 1)
      let value_end :=
        skip_while json (fun c => c != 0 && c != 44 && c != 93 && c != 125)
          (json.length + 1) value_start
      some (strcat (strcat (strncpy json value_start) timestamp_str) (json.drop value_end))
    | none => none
  | none => some json

/-- The test `isspace(c)` of the C locale. -/
def isspace (c : Nat) : Bool := c == 32 || (9 ≤ c && c ≤ 13)

/-- The test `isdigit(c)`. -/
def isdigit (c : Nat) : Bool := 48 ≤ c && c ≤ 57

/-- The library call `strtol(s + p, NULL, 10)` with a 64-bit `long`: leading white space, an
optional sign, then the longest run of decimal digits (value 0 if there is none); a value
out of range is clamped to `LONG_MIN` or `LONG_MAX`. -/
def strtol (s : List Nat) (p : Nat) : Int :=
  let p1 := skip_while s isspace (s.length + 1) p
  let p2 := if rd s p1 = 45 ∨ rd s p1 = 43 then p1 + 1 else p1
  let v : Nat :=
    ((s.drop p2).takeWhile isdigit).foldl (fun (a c : Nat) => 10 * a + (c - 48)) 0
  if rd s p1 = 45 then (if 2 ^ 63 < v then -(2 ^ 63 : Int) else -(v : Int))
  else (if 2 ^ 63 - 1 < v then (2 ^ 63 - 1 : Int) else (v : Int))

/-- The text `snprintf` writes for `%ld` and a `long` argument. -/
def fmt_ld (x : Int) : List Nat :=
  if x < 0 then 45 :: fmt_llu (-x).toNat else fmt_llu x.toNat

/-- The function `increment_timestamp_in_json`: the string held by the returned buffer. The
value is `none` where `current_timestamp + increment_seconds` overflows the `long`. -/
def increment_timestamp_in_json (json_str : List Nat) (increment_seconds : Int) :
    Option (List Nat) :=
  match strstr json_str (ascii "\"created_at\"") with
  | none => some json_str
  | some created_at_pos =>
    match strchr json_str created_at_pos 58 with
    | none => some json_str
    | some colon_pos =>
      let value_start :=
        skip_while json_str (fun c => c == 32 || c == 9) (json_str.length + 1) (colon_pos + 1)
      let value_end :=
        skip_while json_str (fun c => c != 0 && c != 44 && c != 125 && c != 32)
          (json_str.length + 1) value_start
      let current_timestamp := strtol json_str value_start
      let new_timestamp := current_timestamp + increment_seconds
      if new_timestamp < -(2 ^ 63 : Int) ∨ (2 ^ 63 : Int) ≤ new_timestamp then none
      else
        let timestamp_str := fmt_ld new_timestamp
        some (strcat (strcat (strncpy json_str value_start) timestamp_str)
          (json_str.drop value_end))

/-! ## Notions used to state the properties of the replacement paths -/

/-- A space or a tab: the bytes skipped after the `:`. -/
def is_space_tab (c : Nat) : Bool := c == 32 || c == 9

/-- A byte that continues an unquoted value in `update_nonce_in_json` and in
`update_timestamp_in_json`: any byte but the terminator and `,`, `]`, `}`. -/
def is_value_byte (c : Nat) : Bool := c != 0 && c != 44 && c != 93 && c != 125

/-- A byte that continues the value in `increment_timestamp_in_json`: any byte but the
terminator and `,`, `}`, space. -/
def is_incr_value_byte (c : Nat) : Bool := c != 0 && c != 44 && c != 125 && c != 32

/-- The quoted numeral `"<decimal N>"`. -/
def quoted_decimal (N : Nat) : List Nat := ascii "\"" ++ decimal N ++ ascii "\""

/-- An event with no `"nonce"` token and no `"tags"` token: `{"content":"hi"}`. -/
def event_no_tags : List Nat := ascii "\x7b\"content\":\"hi\"\x7d"

/-- An event whose `created_at` value is followed by a space: `{"created_at":1 ,"a":2}`. -/
def event_ts_space : List Nat := ascii "\x7b\"created_at\":1 ,\"a\":2\x7d"

/-- An event with a `"nonce"` field in key-value form: `{"nonce": "0","tags":[]}`. -/
def event_nonce_field : List Nat := ascii "\x7b\"nonce\": \"0\",\"tags\":[]\x7d"

/-- A byte at which neither `update_timestamp_in_json` nor `increment_timestamp_in_json`
ends the value: any byte but the terminator and `,`, `]`, `}`, space. -/
def is_inner_value_byte (c : Nat) : Bool := c != 0 && c != 44 && c != 93 && c != 125 && c != 32

/-! ## The parallel search (worker_thread, nip13_mine_range_parallel)

The workers are interleaved at the accesses to the shared latch: one step of a worker is
either the evaluation of its loop condition, which reads `solution_found` without the
mutex, or one run of its loop body, whose only shared access is the block between
`pthread_mutex_lock` and `pthread_mutex_unlock`. A schedule lists which worker takes the
next step; with each step it says whether the unlocked read of `solution_found` returns the
value the flag had when the search started (a stale read) or its current value. -/

/-- Where a worker stands in `worker_thread`: before the loop condition, before the loop
body (the condition has just held), or after its `return`. -/
inductive WorkerPc where
  | loop_test
  | loop_body
  | returned
deriving DecidableEq

/-- The fields of `thread_data_t` that differ between the workers of one search
(`event_json` and `difficulty` are the same for all). -/
structure thread_data_t where
  start_nonce : Nat
  end_nonce : Nat
  attempts : Nat
  found_nonce : Option Nat
  found_solution : Nat
deriving DecidableEq

/-- A worker: its `thread_data_t`, its local variable `nonce` and where it stands. -/
structure WorkerState where
  data : thread_data_t
  nonce : Nat
  pc : WorkerPc
deriving DecidableEq

/-- The state of a parallel search: the latch `solution_found`, `global_found_nonce`, the
workers, and whether a worker has run into undefined behaviour (the serializer returned a
buffer it had not written). -/
structure ParState where
  solution_found : Nat
  global_found_nonce : Nat
  workers : Nat → WorkerState
  crashed : Bool

/-- The state with worker `i` replaced. -/
def set_worker (σ : ParState) (i : Nat) (w : WorkerState) : ParState :=
  { σ with workers := fun j => if j = i then w else σ.workers j }

/-- One step of worker `i` in `worker_thread`. At `loop_test` it evaluates
`nonce < data->end_nonce && !solution_found`; at `loop_body` it serializes, hashes, counts
the attempt and, on a hit, runs the mutex-protected block and leaves the loop, otherwise
increments `nonce`. -/
def worker_step (event_json : List Nat) (difficulty : Int) (σ : ParState) (i : Nat)
    (stale : Bool) : ParState :=
  if σ.crashed then σ
  else
    let w := σ.workers i
    match w.pc with
    | .returned => σ
    | .loop_test =>
      let seen := if stale then 0 else σ.solution_found
      if w.nonce < w.data.end_nonce ∧ seen = 0 then set_worker σ i { w with pc := .loop_body }
      else set_worker σ i { w with pc := .returned }
    | .loop_body =>
      match update_nonce_in_json event_json w.nonce with
      | none => { σ with crashed := true }
      | some event_with_nonce =>
        let hash := sha256_hash event_with_nonce
        let data := { w.data with attempts := (w.data.attempts + 1) % 2 ^ 64 }
        let leading_zeros := count_leading_zeros hash
        if (leading_zeros : Int) ≥ difficulty then
          if σ.solution_found = 0 then
            { set_worker σ i
                { w with
                  data := { data with found_nonce := some w.nonce, found_solution := 1 },
                  pc := .returned } with
              solution_found := 1, global_found_nonce := w.nonce }
          else set_worker σ i { w with data := data, pc := .returned }
        else
          set_worker σ i { data := data, nonce := (w.nonce + 1) % 2 ^ 64, pc := .loop_test }

/-- The steps of a schedule, in order. -/
def par_run (event_json : List Nat) (difficulty : Int) (σ : ParState)
    (sched : List (Nat × Bool)) : ParState :=
  sched.foldl (fun σ x => worker_step event_json difficulty σ x.1 x.2) σ

/-- The call `pthread_join(threads[i], NULL)`: worker `i` runs until it has returned. -/
def worker_join (event_json : List Nat) (difficulty : Int) : Nat → ParState → Nat → ParState
  | 0, σ, _ => σ
  | fuel + 1, σ, i =>
    if (σ.workers i).pc = .returned then σ
    else worker_join event_json difficulty fuel (worker_step event_json difficulty σ i false) i

/-- The loop of `pthread_join` calls. A worker with `n` nonces in its subrange takes at most
`2 * n + 1` steps, so the fuel given here is never used up. -/
def join_all (event_json : List Nat) (difficulty : Int) (num_threads : Nat) (σ : ParState) :
    ParState :=
  (List.range num_threads).foldl
    (fun σ i =>
      worker_join event_json difficulty
        (2 * ((σ.workers i).data.end_nonce - (σ.workers i).data.start_nonce) + 2) σ i) σ

/-- The state when the workers of `nip13_mine_range_parallel` are dispatched:
`solution_found` is reset, `global_found_nonce` keeps the value `global0` it had, and worker
`i` is at the start of its loop with `nonce = start_nonce`, `attempts = 0` and
`found_solution = 0`. -/
def par_init (num_threads start_nonce end_nonce global0 : Nat) : ParState :=
  { solution_found := 0
    global_found_nonce := global0
    crashed := false
    workers := fun i =>
      let b := range_parallel_bounds num_threads start_nonce end_nonce i
      { data := { start_nonce := b.1, end_nonce := b.2, attempts := 0, found_nonce := none,
                  found_solution := 0 },
        nonce := b.1,
        pc := if i < num_threads then .loop_test else .returned } }

/-- The function `nip13_mine_range_parallel` with `num_threads` workers, run under the
schedule `sched` and then joined: its return value, the nonce stored through `found_nonce`
and the total stored through `attempts`; `none` when a worker ran into undefined behaviour. -/
def nip13_mine_range_parallel (num_threads : Nat) (event_json : List Nat) (difficulty : Int)
    (start_nonce end_nonce global0 : Nat) (sched : List (Nat × Bool)) : Option MineResult :=
  let σ := join_all event_json difficulty num_threads
    (par_run event_json difficulty (par_init num_threads start_nonce end_nonce global0) sched)
  if σ.crashed then none
  else
    let attempts :=
      (List.range num_threads).foldl (fun a i => (a + (σ.workers i).data.attempts) % 2 ^ 64) 0
    if σ.solution_found ≠ 0 then
      some { ret := 1, found_nonce := some σ.global_found_nonce, attempts := attempts }
    else some { ret := 0, found_nonce := none, attempts := attempts }

/-- What holds of a worker with subrange `b` at every moment of a search, `sf` being the
current value of `solution_found`. -/
structure WorkerInv (e : List Nat) (D : Int) (b : Nat × Nat) (sf : Nat) (w : WorkerState) :
    Prop where
  start_eq : w.data.start_nonce = b.1
  end_eq : w.data.end_nonce = b.2
  lo : b.1 ≤ w.nonce
  hi : w.nonce ≤ b.2
  body_lt : w.pc = .loop_body → w.nonce < b.2
  missed : ∀ M, b.1 ≤ M → M < w.nonce → Misses e D M
  att : w.data.attempts = w.nonce - b.1 ∨
    (w.data.attempts = w.nonce - b.1 + 1 ∧ w.pc = .returned ∧ Solves e D w.nonce ∧
      w.nonce < b.2)
  exit : w.pc = .returned → w.nonce = b.2 ∨ sf = 1

/-- What holds at every moment of a search by `W` workers over `[s, t)`. -/
structure ParInv (e : List Nat) (D : Int) (W s t : Nat) (σ : ParState) : Prop where
  flag : σ.solution_found = 0 ∨ σ.solution_found = 1
  latch : σ.solution_found = 1 →
    s ≤ σ.global_found_nonce ∧ σ.global_found_nonce < t ∧ Solves e D σ.global_found_nonce
  worker : ∀ i, i < W →
    WorkerInv e D (range_parallel_bounds W s t i) σ.solution_found (σ.workers i)
  idle : ∀ i, W ≤ i → (σ.workers i).pc = .returned
  crash : σ.crashed = true → s < t ∧ ∀ N, update_nonce_in_json e N = none

/-- What holds of the latch at every moment of a search started with the flag clear: once
the flag is set, the nonce stored is a solution, and a worker that has returned holds it
as the nonce it found. -/
structure LatchInv (e : List Nat) (D : Int) (σ : ParState) : Prop where
  flag : σ.solution_found = 0 ∨ σ.solution_found = 1
  writer : σ.solution_found = 1 →
    Solves e D σ.global_found_nonce ∧
    ∃ i, (σ.workers i).pc = .returned ∧ (σ.workers i).data.found_solution = 1 ∧
      (σ.workers i).data.found_nonce = some σ.global_found_nonce ∧
      (σ.workers i).nonce = σ.global_found_nonce

/-- A bound on the steps that a worker whose subrange ends at `b2` can still take. -/
def steps_left (b2 : Nat) (w : WorkerState) : Nat :=
  match w.pc with
  | .returned => 0
  | .loop_test => 2 * (b2 - w.nonce) + 1
  | .loop_body => 2 * (b2 - w.nonce)

instance (e : List Nat) (D : Int) (N : Nat) : Decidable (Misses e D N) :=
  match h : update_nonce_in_json e N with
  | none => isFalse fun ⟨_, ho, _⟩ => by rw [h] at ho; cases ho
  | some out =>
    if hc : (count_leading_zeros (sha256_hash out) : Int) < D then isTrue ⟨out, h, hc⟩
    else isFalse fun ⟨o, ho, hlt⟩ => by rw [h] at ho; cases ho; exact hc hlt

/-- Six steps of worker 0: from `par_init 2 0 10 _` on `event_S1` at difficulty 2 it tests and
hashes the nonces 0, 1 and 2, and the last of them meets the difficulty. -/
def sched_first_hit : List (Nat × Bool) := List.replicate 6 (0, false)

/-- A context as the stack may hold it before `sha256_init` runs: state and counter left
over from an earlier hash, every byte of the buffer `0xff`. -/
def ctx_dirty : sha256_ctx_t :=
  { state := List.replicate 8 0xdeadbeef, count := 77, buffer := List.replicate 64 0xff }

/-! ## The single-threaded miner of the standalone tool (nip13_mine) -/

/-- The loop `while (nonce < max_iterations)` of `nip13_mine`, from the value `nonce` of its
variable: the return value and the value stored through `found_nonce`. The progress
reports only print. The result is `none` when the serializer result is undefined and when
the fuel is used up; `nip13_mine` supplies fuel the loop cannot use up. -/
def nip13_mine_loop (event_json : List Nat) (difficulty : Int) (max_iterations : Nat) :
    Nat → Nat → Option (Nat × Option Nat)
  | 0, _ => none
  | fuel + 1, nonce =>
    if nonce < max_iterations then
      match update_nonce_in_json event_json nonce with
      | none => none
      | some event_with_nonce =>
        let hash := sha256_hash event_with_nonce
        let leading_zeros := count_leading_zeros hash
        if (leading_zeros : Int) ≥ difficulty then some (1, some nonce)
        else nip13_mine_loop event_json difficulty max_iterations fuel ((nonce + 1) % 2 ^ 64)
    else some (0, none)

/-- The function `nip13_mine`: its return value and the nonce stored through `found_nonce`. -/
def nip13_mine (event_json : List Nat) (difficulty : Int) (max_iterations : Nat) :
    Option (Nat × Option Nat) :=
  nip13_mine_loop event_json difficulty max_iterations (max_iterations + 1) 0

instance (e : List Nat) (D : Int) (N : Nat) : Decidable (Solves e D N) :=
  match h : update_nonce_in_json e N with
  | none => isFalse fun ⟨_, ho, _⟩ => by rw [h] at ho; cases ho
  | some out =>
    if hc : (count_leading_zeros (sha256_hash out) : Int) ≥ D then isTrue ⟨out, h, hc⟩
    else isFalse fun ⟨o, ho, hlt⟩ => by rw [h] at ho; cases ho; exact hc hlt

/-! ## What sha256_update does to the buffer and which blocks it compresses -/

/-- The blocks handed to `sha256_transform` by the loop
`while (len >= 64) { sha256_transform(ctx, data); data += 64; len -= 64; }`, in call order
(each is the 64 bytes at the pointer passed). -/
def update_blocks_calls : Nat → List Nat → List (List Nat)
  | 0, _ => []
  | fuel + 1, data =>
    if 64 ≤ data.length then data.take 64 :: update_blocks_calls fuel (data.drop 64)
    else []

/-- The blocks handed to `sha256_transform` during one call of `sha256_update`, in call
order: the buffer once `memcpy` has filled it up, then the blocks taken from `data`. -/
def sha256_update_calls (ctx : sha256_ctx_t) (data : List Nat) : List (List Nat) :=
  let buffer_space := 64 - ctx.count % 64
  if buffer_space ≤ data.length then
    memcpy ctx.buffer (64 - buffer_space) (data.take buffer_space) ::
      update_blocks_calls (data.length / 64) (data.drop buffer_space)
  else []

/-- The calls `memcpy(ctx->buffer + off, src, n)` made during one call of `sha256_update`,
in order: the offset `off` as the C expression gives it (an integer, so that an offset
below the buffer would show) and the `n` bytes copied. -/
def sha256_update_writes (ctx : sha256_ctx_t) (data : List Nat) : List (Int × List Nat) :=
  let buffer_space := 64 - ctx.count % 64
  let count := (ctx.count + data.length) % 2 ^ 64
  if buffer_space ≤ data.length then
    let rest := (update_blocks (data.length / 64) ctx.state (data.drop buffer_space)).2
    (((64 : Int) - buffer_space, data.take buffer_space)) ::
      (if 0 < rest.length then [(((count % 64 : Nat) : Int) - rest.length, rest)] else [])
  else if 0 < data.length then [(((count % 64 : Nat) : Int) - data.length, data)]
  else []

/-- The bytes of the stream that wait in the buffer of a context: `buffer[0 .. count % 64)`. -/
def sha256_pending (ctx : sha256_ctx_t) : List Nat := ctx.buffer.take (ctx.count % 64)

/-- A context in the middle of a stream: 60 bytes wait in the buffer. -/
def ctx_midstream : sha256_ctx_t :=
  { state := [0x6a09e667, 0xbb67ae85, 0x3c6ef372, 0xa54ff53a,
              0x510e527f, 0x9b05688c, 0x1f83d9ab, 0x5be0cd19],
    count := 60, buffer := List.replicate 64 7 }

/-- An input of 70 bytes: with 60 bytes pending it completes two blocks and leaves 2 bytes. -/
def data_seventy : List Nat := List.replicate 70 1

/-! ## The padding of sha256_final -/

/-- The local `pad_len` of `sha256_final` for a context whose counter is `count`. -/
def sha256_final_pad_len (count : Nat) : Nat :=
  if count % 64 < 56 then 56 - count % 64 else 120 - count % 64

/-- The bytes `sha256_final` hands to its first `sha256_update`: the first `pad_len` bytes
of the array `padding[64] = {0x80}`. -/
def sha256_final_padding (count : Nat) : List Nat :=
  (0x80 :: List.replicate 63 0).take (sha256_final_pad_len count)

/-- The context after the two `sha256_update` calls of `sha256_final`. -/
def sha256_final_ctx (ctx : sha256_ctx_t) : sha256_ctx_t :=
  sha256_update (sha256_update ctx (sha256_final_padding ctx.count))
    (len_bytes ((ctx.count * 8) % 2 ^ 64))

/-! ## The benchmark drivers (benchmark_mode_parallel, benchmark_mode)

The drivers are modelled over the search they call: `search n event_json difficulty
start_nonce end_nonce` is what the `n`-th call made by the driver returns, `none` when that
call has no defined result. The index `n` lets the parallel search, whose result depends
on the interleaving of its workers, answer differently from call to call. The model hands
back, next to the return value, the list of the calls made. -/

/-- What a benchmark driver is given for the search it calls. -/
abbrev SearchFn := Nat → List Nat → Int → Nat → Nat → Option MineResult

/-- One call of the search by a benchmark driver: the value of `solutions_found` when it was
made, its arguments, and what it returned. -/
structure SearchCall where
  round : Nat
  event : List Nat
  start_nonce : Nat
  end_nonce : Nat
  result : Option MineResult
deriving DecidableEq

/-- The locals `solutions_found`, `total_attempts`, `starting_nonce` of a benchmark driver
and the string held by `working_json` (by `event_json` in `benchmark_mode`). -/
structure BenchState where
  solutions_found : Nat
  total_attempts : Nat
  starting_nonce : Nat
  working_json : List Nat
deriving DecidableEq

/-- How a run of a benchmark driver ends: it returns a value, it runs into undefined
behaviour, or the fuel of the model is used up (which the drivers below never do). -/
inductive BenchOutcome where
  | returned (code : Nat)
  | undefined
  | out_of_fuel
deriving DecidableEq

/-- A run of a benchmark driver: how it ends, its locals at that point, and the calls of
the search it made, in order. -/
structure BenchRun where
  outcome : BenchOutcome
  final : BenchState
  searches : List SearchCall

/-- Whether a call of the search returned non-zero. -/
def SearchCall.succeeded (c : SearchCall) : Bool :=
  match c.result with
  | some r => r.ret != 0
  | none => false

/-- Whether a call of the search returned zero. -/
def SearchCall.failed (c : SearchCall) : Bool :=
  match c.result with
  | some r => r.ret == 0
  | none => false

/-- The loop `while (solutions_found < target_solutions)` of `benchmark_mode_parallel`, from
the state `σ` of its locals, `n` calls of the search having been made. -/
def benchmark_parallel_loop (search : SearchFn) (difficulty : Int) (target_solutions : Nat) :
    Nat → Nat → BenchState → BenchRun
  | 0, _, σ => { outcome := .out_of_fuel, final := σ, searches := [] }
  | fuel + 1, n, σ =>
    if σ.solutions_found < target_solutions then
      let end_nonce := (σ.starting_nonce + 100000000) % 2 ^ 64
      let res := search n σ.working_json difficulty σ.starting_nonce end_nonce
      let call : SearchCall :=
        { round := σ.solutions_found, event := σ.working_json,
          start_nonce := σ.starting_nonce, end_nonce := end_nonce, result := res }
      match res with
      | none => { outcome := .undefined, final := σ, searches := [call] }
      | some r =>
        if r.ret ≠ 0 then
          match increment_timestamp_in_json σ.working_json 1 with
          | none => { outcome := .undefined, final := σ, searches := [call] }
          | some new_json =>
            let run := benchmark_parallel_loop search difficulty target_solutions fuel (n + 1)
              { solutions_found := σ.solutions_found + 1,
                total_attempts := (σ.total_attempts + r.attempts) % 2 ^ 64,
                starting_nonce := 1,
                working_json := new_json }
            { run with searches := call :: run.searches }
        else
          let starting_nonce := (σ.starting_nonce + 100000000) % 2 ^ 64
          if starting_nonce > 1000000000000 then
            { outcome := .returned 0, final := { σ with starting_nonce := starting_nonce },
              searches := [call] }
          else
            let run := benchmark_parallel_loop search difficulty target_solutions fuel (n + 1)
              { σ with starting_nonce := starting_nonce }
            { run with searches := call :: run.searches }
    else { outcome := .returned 1, final := σ, searches := [] }

/-- The function `benchmark_mode_parallel`, without the lines it prints in the loop and the
statistics it prints after it. No more than `10^4` searches are made per solution, so the
fuel is not used up. -/
def benchmark_mode_parallel (search : SearchFn) (event_json : List Nat) (difficulty : Int)
    (target_solutions : Nat) : BenchRun :=
  benchmark_parallel_loop search difficulty target_solutions (target_solutions * 10000 + 1) 0
    { solutions_found := 0, total_attempts := 0, starting_nonce := 1,
      working_json := event_json }

/-- The loop `while (solutions_found < target_solutions)` of `benchmark_mode`, from the state
`σ` of its locals, `n` calls of the search having been made. A search that returns
non-zero without storing a nonce leaves `found_nonce` uninitialised where it is read. -/
def benchmark_loop (search : SearchFn) (difficulty : Int) (target_solutions : Nat) :
    Nat → Nat → BenchState → BenchRun
  | 0, _, σ => { outcome := .out_of_fuel, final := σ, searches := [] }
  | fuel + 1, n, σ =>
    if σ.solutions_found < target_solutions then
      let end_nonce := (σ.starting_nonce + 100000000) % 2 ^ 64
      let res := search n σ.working_json difficulty σ.starting_nonce end_nonce
      let call : SearchCall :=
        { round := σ.solutions_found, event := σ.working_json,
          start_nonce := σ.starting_nonce, end_nonce := end_nonce, result := res }
      match res with
      | none => { outcome := .undefined, final := σ, searches := [call] }
      | some r =>
        if r.ret ≠ 0 then
          match r.found_nonce with
          | none => { outcome := .undefined, final := σ, searches := [call] }
          | some found_nonce =>
            let run := benchmark_loop search difficulty target_solutions fuel (n + 1)
              { σ with
                solutions_found := σ.solutions_found + 1,
                total_attempts := (σ.total_attempts + r.attempts) % 2 ^ 64,
                starting_nonce := (found_nonce + 1000) % 2 ^ 64 }
            { run with searches := call :: run.searches }
        else
          let starting_nonce := (σ.starting_nonce + 100000000) % 2 ^ 64
          if starting_nonce > 1000000000000 then
            { outcome := .returned 0, final := { σ with starting_nonce := starting_nonce },
              searches := [call] }
          else
            let run := benchmark_loop search difficulty target_solutions fuel (n + 1)
              { σ with starting_nonce := starting_nonce }
            { run with searches := call :: run.searches }
    else { outcome := .returned 1, final := σ, searches := [] }

/-- The function `benchmark_mode`, without the lines it prints in the loop and the
statistics it prints after it. Between two solutions no more than `10^4 + 2` searches are
made, so the fuel is not used up. -/
def benchmark_mode (search : SearchFn) (event_json : List Nat) (difficulty : Int)
    (target_solutions : Nat) : BenchRun :=
  benchmark_loop search difficulty target_solutions (target_solutions * 10002 + 1) 0
    { solutions_found := 0, total_attempts := 0, starting_nonce := 1,
      working_json := event_json }

/-- The search `benchmark_mode` calls: `nip13_mine_range`. -/
def search_range : SearchFn :=
  fun _ event_json difficulty start_nonce end_nonce =>
    nip13_mine_range event_json difficulty start_nonce end_nonce

/-- The search `benchmark_mode_parallel` calls: `nip13_mine_range_parallel` with `num_threads`
workers, the `n`-th call running under the schedule `sched n`. The global
`global_found_nonce` is read only after a worker has written it, so its value before the
call does not matter; it is taken as 0. -/
def search_range_parallel (num_threads : Nat) (sched : Nat → List (Nat × Bool)) : SearchFn :=
  fun n event_json difficulty start_nonce end_nonce =>
    nip13_mine_range_parallel num_threads event_json difficulty start_nonce end_nonce 0 (sched n)

/-- The value `strtol` reads where `increment_timestamp_in_json` parses the timestamp: the
number after the first `:` that follows the first `"created_at"` token, spaces and tabs
skipped; `none` when there is no such token or no `:` after it. -/
def created_at_value (json_str : List Nat) : Option Int :=
  match strstr json_str (ascii "\"created_at\"") with
  | none => none
  | some created_at_pos =>
    match strchr json_str created_at_pos 58 with
    | none => none
    | some colon_pos =>
      some (strtol json_str
        (skip_while json_str (fun c => c == 32 || c == 9) (json_str.length + 1)
          (colon_pos + 1)))

/-- A search that finds nothing in its first call and a solution in every later one, at the
start of the window, having counted every nonce it tried. -/
def search_second_window : SearchFn :=
  fun n _ _ start_nonce _ =>
    if n = 0 then some { ret := 0, found_nonce := none, attempts := 100000000 }
    else some { ret := 1, found_nonce := some (start_nonce + 4), attempts := 5 }

/-- How a call of the search by `benchmark_mode_parallel` follows the one before it: after a
call that returned 0 the same event is searched from a start `10^8` higher; after one that
returned non-zero the event that `increment_timestamp_in_json(working_json, 1)` gives is
searched from nonce 1. -/
def ParallelBenchNext (c1 c2 : SearchCall) : Prop :=
  (c1.failed = true → c2.round = c1.round ∧ c2.event = c1.event ∧
    c2.start_nonce = c1.start_nonce + 100000000) ∧
  (c1.succeeded = true → c2.round = c1.round + 1 ∧ c2.start_nonce = 1 ∧
    increment_timestamp_in_json c1.event 1 = some c2.event)

/-- How a call of the search by `benchmark_mode` follows the one before it: the event stays;
after a call that returned 0 the start is `10^8` higher, after one that returned non-zero
it is the found nonce plus 1000. -/
def BenchNext (c1 c2 : SearchCall) : Prop :=
  c2.event = c1.event ∧
  (c1.failed = true → c2.round = c1.round ∧
    c2.start_nonce = (c1.start_nonce + 100000000) % 2 ^ 64) ∧
  (c1.succeeded = true → c2.round = c1.round + 1 ∧
    ∃ r N, c1.result = some r ∧ r.found_nonce = some N ∧
      c2.start_nonce = (N + 1000) % 2 ^ 64)

/-- The attempts returned by the calls of a list that returned non-zero, added up. -/
def attempts_of_successes (calls : List SearchCall) : Nat :=
  (calls.filterMap fun c =>
    match c.result with
    | some r => if r.ret ≠ 0 then some r.attempts else none
    | none => none).sum

/-- The attempts returned by all the calls of a list, added up. -/
def attempts_of_all (calls : List SearchCall) : Nat :=
  (calls.filterMap fun c => c.result.map fun r => r.attempts).sum

/-- A bound on the searches `benchmark_mode_parallel` can still make from the state `σ`. -/
def parallel_bench_left (target_solutions : Nat) (σ : BenchState) : Nat :=
  if σ.solutions_found < target_solutions then
    (target_solutions - σ.solutions_found - 1) * 10000 +
      (10000 - (σ.starting_nonce - 1) / 100000000)
  else 0

/-- What holds of a run of the loop of `benchmark_mode_parallel` from the state `σ`. -/
structure ParallelBenchSpec (K : Nat) (σ : BenchState) (run : BenchRun) : Prop where
  fuel_ok : run.outcome ≠ .out_of_fuel
  count : run.searches.length ≤ parallel_bench_left K σ
  calls : ∀ c ∈ run.searches, c.start_nonce ≤ 1000000000000 ∧
    c.start_nonce % 100000000 = 1 ∧ c.end_nonce = c.start_nonce + 100000000 ∧
    σ.solutions_found ≤ c.round ∧ c.round < K
  first : ∀ c ∈ run.searches.head?, c.round = σ.solutions_found ∧
    c.event = σ.working_json ∧ c.start_nonce = σ.starting_nonce
  chain : List.Chain' ParallelBenchNext run.searches
  final_start : run.final.starting_nonce ≤ 1000000000000 + 100000000
  abort_iff : run.outcome = .returned 0 ↔ run.final.starting_nonce > 1000000000000
  abort_last : run.outcome = .returned 0 → ∃ c, run.searches.getLast? = some c ∧
    c.failed = true ∧ run.final.starting_nonce = c.start_nonce + 100000000
  success : run.outcome = .returned 1 → run.final.solutions_found = K ∧
    σ.solutions_found + (run.searches.filter SearchCall.succeeded).length = K ∧
    run.final.total_attempts =
      (σ.total_attempts + attempts_of_successes run.searches) % 2 ^ 64
  codes : ∀ code, run.outcome = .returned code → code = 0 ∨ code = 1
  undefined : run.outcome = .undefined → ∃ c, run.searches.getLast? = some c ∧
    (c.result = none ∨ (c.succeeded = true ∧ increment_timestamp_in_json c.event 1 = none))

/-- A bound on the searches `benchmark_mode` can still make before its next solution or its
abort, the next search starting at `s`: the start goes up by `10^8` per failed search and
the loop aborts once it is above `10^12`; a start within `10^8` of `2^64` wraps once. -/
def bench_round_left (s : Nat) : Nat :=
  if s ≤ 1000000000000 then (1000000000000 - s) / 100000000 + 1
  else if s + 100000000 < 2 ^ 64 then 1
  else (1000000000000 - (s + 100000000 - 2 ^ 64)) / 100000000 + 2

/-- A bound on the searches `benchmark_mode` can still make from the state `σ`. -/
def bench_left (target_solutions : Nat) (σ : BenchState) : Nat :=
  if σ.solutions_found < target_solutions then
    (target_solutions - σ.solutions_found - 1) * 10002 + bench_round_left σ.starting_nonce
  else 0

/-- What holds of a run of the loop of `benchmark_mode` from the state `σ`. -/
structure BenchSpec (K : Nat) (σ : BenchState) (run : BenchRun) : Prop where
  fuel_ok : run.outcome ≠ .out_of_fuel
  count : run.searches.length ≤ bench_left K σ
  calls : ∀ c ∈ run.searches, c.start_nonce < 2 ^ 64 ∧
    c.end_nonce = (c.start_nonce + 100000000) % 2 ^ 64 ∧
    σ.solutions_found ≤ c.round ∧ c.round < K ∧ c.event = σ.working_json
  first : ∀ c ∈ run.searches.head?, c.round = σ.solutions_found ∧
    c.start_nonce = σ.starting_nonce
  chain : List.Chain' BenchNext run.searches
  abort : run.outcome = .returned 0 → run.final.starting_nonce > 1000000000000 ∧
    ∃ c, run.searches.getLast? = some c ∧ c.failed = true ∧
      run.final.starting_nonce = (c.start_nonce + 100000000) % 2 ^ 64
  success : run.outcome = .returned 1 → run.final.solutions_found = K ∧
    σ.solutions_found + (run.searches.filter SearchCall.succeeded).length = K ∧
    run.final.total_attempts =
      (σ.total_attempts + attempts_of_successes run.searches) % 2 ^ 64
  codes : ∀ code, run.outcome = .returned code → code = 0 ∨ code = 1
  undefined : run.outcome = .undefined → ∃ c, run.searches.getLast? = some c ∧
    (c.result = none ∨
      (c.succeeded = true ∧ ∀ r, c.result = some r → r.found_nonce = none))

/-- A search that returns 0 in its first 9999 calls, having tried every nonce of the window,
and from then on finds the last nonce of the window it is given. -/
def search_late_hit : SearchFn :=
  fun n _ _ start_nonce end_nonce =>
    if n < 9999 then some { ret := 0, found_nonce := none, attempts := end_nonce - start_nonce }
    else some { ret := 1, found_nonce := some (end_nonce - 1),
                attempts := end_nonce - start_nonce }

/-- The order of two calls of the search in a run: the round does not go down, and it goes up
after a call that returned non-zero. -/
def RoundsOrdered (c1 c2 : SearchCall) : Prop :=
  c1.round ≤ c2.round ∧ (c1.succeeded = true → c1.round < c2.round)

/-- The schedule that leaves every step of every call to the joins. -/
def sched_joins : Nat → List (Nat × Bool) := fun _ => []

/-! ## The entry points (main of nip13_standalone.c and of nip13_parallel.c)

The arguments are the strings of `argv`; `fopen` gives the bytes of a file that can be
opened for reading and `none` for one that cannot. The value of `main` is its exit code,
`none` where the run has undefined behaviour. -/

/-- The library call `atoi(s)`: the number `strtol` reads, converted to a 32-bit `int`. -/
def atoi (s : List Nat) : Int := (strtol s 0 + 2 ^ 31) % 2 ^ 32 - 2 ^ 31

/-- The library call `atoll(s)` with a 64-bit `long long`. -/
def atoll (s : List Nat) : Int := strtol s 0

/-- The C string in `event_json` once `main` has read the file, terminated it and cut the
newlines and spaces at its end. -/
def read_event (file : List Nat) : List Nat :=
  ((file.reverse.dropWhile fun c => c == 10 || c == 32).reverse).takeWhile fun c => c != 0

/-- The function `main` of the standalone tool. The single mode writes the name of its
output file with `sprintf(output_file, "mined_%s", json_file)` into 256 bytes. -/
def main_standalone (argv : List (List Nat)) (fopen : List Nat → Option (List Nat)) :
    Option Nat :=
  let argc := argv.length
  if argc < 2 then some 1
  else
    let json_file := argv.getD 1 []
    let difficulty : Int := if argc > 2 then atoi (argv.getD 2 []) else 16
    let is_benchmark_mode : Bool := decide (argc > 3) && (argv.getD 3 [] == ascii "benchmark")
    let target_solutions : Int :=
      if is_benchmark_mode then (if argc > 4 then atoi (argv.getD 4 []) else 5) else 0
    let max_attempts : Nat :=
      if argc > 3 ∧ is_benchmark_mode = false then
        ((atoll (argv.getD 3 []) * 1000000) % 2 ^ 64).toNat
      else 100000000
    if difficulty < 1 ∨ difficulty > 32 then some 1
    else if is_benchmark_mode = true ∧ target_solutions < 1 then some 1
    else
      match fopen json_file with
      | none => some 1
      | some file =>
        let event_json := read_event file
        if is_benchmark_mode then
          match (benchmark_mode search_range event_json difficulty
              target_solutions.toNat).outcome with
          | .returned solutions_found =>
            some (if (solutions_found : Int) = target_solutions then 0 else 1)
          | _ => none
        else
          match nip13_mine event_json difficulty max_attempts with
          | some (ret, found) =>
            if ret ≠ 0 then
              match found with
              | some found_nonce =>
                match update_nonce_in_json event_json found_nonce with
                | some _ => if 6 + json_file.length + 1 ≤ 256 then some 0 else none
                | none => none
              | none => none
            else some 1
          | none => none

/-- The function `nip13_mine_parallel` with `num_threads` workers, entered with
`solution_found = 0` as `main` does, run under the schedule `sched` and then joined: its
return value and the nonce stored through `found_nonce`; `none` when a worker, or the
serializer call that prints the solution, ran into undefined behaviour. -/
def nip13_mine_parallel (num_threads : Nat) (event_json : List Nat) (difficulty : Int)
    (max_iterations : Nat) (sched : List (Nat × Bool)) : Option (Nat × Option Nat) :=
  let σ0 : ParState :=
    { solution_found := 0
      global_found_nonce := 0
      crashed := false
      workers := fun i =>
        let b := parallel_bounds num_threads max_iterations i
        { data := { start_nonce := b.1, end_nonce := b.2, attempts := 0, found_nonce := none,
                    found_solution := 0 },
          nonce := b.1,
          pc := if i < num_threads then .loop_test else .returned } }
  let σ := join_all event_json difficulty num_threads (par_run event_json difficulty σ0 sched)
  if σ.crashed then none
  else
    let winning_thread : Int :=
      (List.range num_threads).foldl
        (fun w i => if (σ.workers i).data.found_solution ≠ 0 then (i : Int) else w) (-1)
    if σ.solution_found ≠ 0 ∧ winning_thread ≥ 0 then
      match update_nonce_in_json event_json σ.global_found_nonce with
      | some _ => some (1, some σ.global_found_nonce)
      | none => none
    else some (0, none)

/-- The function `main` of the parallel tool, on a machine with `cores` processors online;
the `n`-th search of the benchmark runs under the schedule `sched n`, the search of the
single mode under `sched 0`. The single mode writes the name of its output file with
`sprintf(output_file, "mined_parallel_%s", json_file)` into 256 bytes. -/
def main_parallel (cores : Int) (argv : List (List Nat))
    (fopen : List Nat → Option (List Nat)) (sched : Nat → List (Nat × Bool)) : Option Nat :=
  let argc := argv.length
  if argc < 2 then some 1
  else
    let json_file := argv.getD 1 []
    let difficulty : Int := if argc > 2 then atoi (argv.getD 2 []) else 16
    let is_benchmark_mode : Bool := decide (argc > 3) && (argv.getD 3 [] == ascii "benchmark")
    let target_solutions : Int :=
      if is_benchmark_mode then (if argc > 4 then atoi (argv.getD 4 []) else 5) else 0
    let max_attempts : Nat :=
      if argc > 3 ∧ is_benchmark_mode = false then
        ((atoll (argv.getD 3 []) * 1000000) % 2 ^ 64).toNat
      else 100000000
    let num_threads : Int :=
      if is_benchmark_mode then (if argc > 5 then atoi (argv.getD 5 []) else cores)
      else if argc > 4 then atoi (argv.getD 4 []) else cores
    if num_threads < 1 ∨ num_threads > 128 then some 1
    else if difficulty < 1 ∨ difficulty > 32 then some 1
    else if is_benchmark_mode = true ∧ target_solutions < 1 then some 1
    else
      match fopen json_file with
      | none => some 1
      | some file =>
        let event_json := read_event file
        if is_benchmark_mode then
          match (benchmark_mode_parallel (search_range_parallel num_threads.toNat sched)
              event_json difficulty target_solutions.toNat).outcome with
          | .returned result => some (if result ≠ 0 then 0 else 1)
          | _ => none
        else
          match nip13_mine_parallel num_threads.toNat event_json difficulty max_attempts
              (sched 0) with
          | some (ret, found) =>
            if ret ≠ 0 then
              match found with
              | some found_nonce =>
                match update_nonce_in_json event_json found_nonce with
                | some _ => if 15 + json_file.length + 1 ≤ 256 then some 0 else none
                | none => none
              | none => none
            else some 1
          | none => none

/-- The command line `prog event.json 8 benchmark 2`. -/
def argv_benchmark_two : List (List Nat) :=
  [ascii "prog", ascii "event.json", ascii "8", ascii "benchmark", ascii "2"]

/-- The command line `prog event.json 8 benchmark 2 4`, with four threads. -/
def argv_benchmark_two_threads : List (List Nat) :=
  [ascii "prog", ascii "event.json", ascii "8", ascii "benchmark", ascii "2", ascii "4"]

/-- A file system in which `event.json` holds the scenario event and a newline, and no
other file can be opened. -/
def fopen_S1 : List Nat → Option (List Nat) :=
  fun name => if name = ascii "event.json" then some (event_S1 ++ [10]) else none

/-- The scenario event with the timestamp one second later, as `benchmark_mode_parallel`
re-stamps it after its first solution. -/
def event_S1_next : List Nat :=
  ascii "\x7b\"content\":\"hi\",\"created_at\":1700000001,\"tags\":[]\x7d"

/-! ## The cases in which update_nonce_in_json writes a result -/

/-- The insertion case of `update_nonce_in_json`: the text has no `"nonce"` token, and its
first `"tags"` token is followed by a `[`. -/
def nonce_insertion_case (e : List Nat) : Bool :=
  match strstr e (ascii "\"nonce\"") with
  | some _ => false
  | none =>
    match strstr e (ascii "\"tags\"") with
    | some tp => (strchr e tp 91).isSome
    | none => false

/-- The replacement case of `update_nonce_in_json` with a well-terminated value: the first
`"nonce"` token is followed by a `:`, and the value after it (spaces and tabs skipped) is
either a quoted string with a closing quote, or does not open with a quote (such a value
runs up to the next `,`, `]`, `}` or to the end of the text). -/
def nonce_replacement_case (e : List Nat) : Bool :=
  match strstr e (ascii "\"nonce\"") with
  | none => false
  | some np =>
    match strchr e np 58 with
    | none => false
    | some c =>
      let value := (e.drop (c + 1)).dropWhile is_space_tab
      if value.headD 0 = 34 then (find_byte 34 (value.drop 1)).isSome else true

/-- The number of spaces, tabs and newlines that `update_nonce_in_json` skips after the `[`
at offset `k`. -/
def blanks_skipped (e : List Nat) (k : Nat) : Nat := ((e.drop (k + 1)).takeWhile is_blank).length

/-- The tags array opened by the `[` at offset `k` is non-empty: the first byte after the
`[` that is not a space, a tab or a newline is not `]`. -/
def array_nonempty (e : List Nat) (k : Nat) : Bool :=
  ((e.drop (k + 1)).dropWhile is_blank).head? != some 93
/-- What holds of the `found_solution` fields at every moment of a search by `W` workers
over `[s, t)`: a worker that has set its field has returned, having counted one attempt for
each nonce from the start of its subrange up to the one it stands at; the entries past the
last worker are never set. -/
structure FoundInv (W s t : Nat) (σ : ParState) : Prop where
  idle : ∀ i, W ≤ i → (σ.workers i).data.found_solution = 0
  found : ∀ i, i < W → (σ.workers i).data.found_solution = 1 →
    (σ.workers i).pc = .returned ∧
    (σ.workers i).data.attempts =
      (σ.workers i).nonce - (range_parallel_bounds W s t i).1 + 1

/-! ## Further events used to state properties -/

/-- An event whose nonce value opens with a quote that is never closed:
`{"content":"hi","nonce":"12}`. -/
def event_nonce_unterminated : List Nat := ascii "\x7b\"content\":\"hi\",\"nonce\":\"12\x7d"

/-- An event that ends within an unquoted nonce value: `{"content":"hi","nonce":12`. -/
def event_nonce_unquoted_end : List Nat := ascii "\x7b\"content\":\"hi\",\"nonce\":12"

/-- An event with a tags array and no `created_at` field: `{"content":"hi","tags":[]}`. -/
def event_tags_only : List Nat := ascii "\x7b\"content\":\"hi\",\"tags\":[]\x7d"

/-! ## Lemmas: the hasher -/

theorem fips_K_eq : fips_K = sha256_k := by decide!

theorem fips_H0_eq (ctx : sha256_ctx_t) : (sha256_init ctx).state = fips_H0 := by
  show _ = fips_H0
  have h : fips_H0 = [0x6a09e667, 0xbb67ae85, 0x3c6ef372, 0xa54ff53a,
              0x510e527f, 0x9b05688c, 0x1f83d9ab, 0x5be0cd19] := by decide!
  rw [h]; rfl

theorem ROTR_eq (x n : Nat) : ROTR x n = fips_rotr n x := rfl
theorem CH_eq (x y z : Nat) : CH x y z = fips_Ch x y z := rfl
theorem MAJ_eq (x y z : Nat) : MAJ x y z = fips_Maj x y z := rfl
theorem S0_eq (x : Nat) : S0 x = fips_Sigma0 x := rfl
theorem S1_eq (x : Nat) : S1 x = fips_Sigma1 x := rfl
theorem s0_eq (x : Nat) : s0 x = fips_sigma0 x := rfl
theorem s1_eq (x : Nat) : s1 x = fips_sigma1 x := rfl

theorem be_load (b0 b1 b2 b3 : Nat) (h0 : b0 < 256) (h1 : b1 < 256) (h2 : b2 < 256)
    (h3 : b3 < 256) :
    ((b0 <<< 24) ||| (b1 <<< 16) ||| (b2 <<< 8) ||| b3) % 2 ^ 32 =
      b0 * 2 ^ 24 + b1 * 2 ^ 16 + b2 * 2 ^ 8 + b3 := by
  have e1 : (b0 <<< 24) ||| (b1 <<< 16) = b0 * 2 ^ 24 + b1 * 2 ^ 16 := by
    rw [Nat.shiftLeft_eq, Nat.shiftLeft_eq, Nat.mul_comm b0, ← Nat.mul_add_lt_is_or (by omega)]
  have e2 : (b0 * 2 ^ 24 + b1 * 2 ^ 16) ||| (b2 <<< 8) = b0 * 2 ^ 24 + b1 * 2 ^ 16 + b2 * 2 ^ 8 := by
    have : b0 * 2 ^ 24 + b1 * 2 ^ 16 = 2 ^ 16 * (b0 * 2 ^ 8 + b1) := by ring
    rw [Nat.shiftLeft_eq, this, ← Nat.mul_add_lt_is_or (by omega)]
  have e3 : (b0 * 2 ^ 24 + b1 * 2 ^ 16 + b2 * 2 ^ 8) ||| b3
      = b0 * 2 ^ 24 + b1 * 2 ^ 16 + b2 * 2 ^ 8 + b3 := by
    have : b0 * 2 ^ 24 + b1 * 2 ^ 16 + b2 * 2 ^ 8 = 2 ^ 8 * (b0 * 2 ^ 16 + b1 * 2 ^ 8 + b2) := by
      ring
    rw [this, ← Nat.mul_add_lt_is_or (by omega)]
  rw [e1, e2, e3]
  apply Nat.mod_eq_of_lt
  omega


theorem rd_lt_of_isBytes {l : List Nat} (h : IsBytes l) (i : Nat) : rd l i < 256 := by
  unfold rd
  rw [List.getD_eq_getElem?_getD]
  cases hi : l[i]? with
  | none => simp
  | some b =>
    have := List.getElem?_mem hi
    simpa using h b this

theorem load_word_eq {data : List Nat} (h : IsBytes data) (i : Nat) :
    load_word data i = fips_word data i := by
  unfold load_word fips_word
  rw [be_load _ _ _ _ (rd_lt_of_isBytes h _) (rd_lt_of_isBytes h _) (rd_lt_of_isBytes h _)
    (rd_lt_of_isBytes h _)]
  simp only [rd, Nat.mul_comm i 4]

theorem getD_append_zeros (W : List Nat) (m i : Nat) :
    (W ++ List.replicate m 0).getD i 0 = W.getD i 0 := by
  rw [List.getD_eq_getElem?_getD, List.getD_eq_getElem?_getD]
  by_cases h : i < W.length
  · rw [List.getElem?_append_left h]
  · have h' : W.length ≤ i := Nat.le_of_not_lt h
    rw [List.getElem?_append_right h', List.getElem?_eq_none h']
    by_cases h2 : i - W.length < m
    · simp [List.getElem?_replicate, h2]
    · simp [List.getElem?_replicate, h2]

theorem schedule_fold_eq (n : Nat) (W : List Nat) :
    (List.range' W.length n).foldl schedule_step (W ++ List.replicate n 0) =
      fips_schedule_ext n W := by
  induction n generalizing W with
  | zero => simp [fips_schedule_ext]
  | succ n ih =>
    rw [List.range'_succ, List.foldl_cons, fips_schedule_ext]
    have hstep : schedule_step (W ++ List.replicate (n + 1) 0) W.length =
        (W ++ [(fips_sigma1 (W.getD (W.length - 2) 0) + W.getD (W.length - 7) 0 +
          fips_sigma0 (W.getD (W.length - 15) 0) + W.getD (W.length - 16) 0) % 2 ^ 32]) ++
          List.replicate n 0 := by
      unfold schedule_step rd
      simp only [getD_append_zeros, s1_eq, s0_eq]
      rw [List.replicate_succ, List.set_append_right _ _ (Nat.le_refl _)]
      simp
    rw [hstep]
    have := ih (W ++ [(fips_sigma1 (W.getD (W.length - 2) 0) + W.getD (W.length - 7) 0 +
          fips_sigma0 (W.getD (W.length - 15) 0) + W.getD (W.length - 16) 0) % 2 ^ 32])
    simpa using this

theorem message_schedule_eq {data : List Nat} (h : IsBytes data) :
    message_schedule data = fips_schedule data := by
  unfold message_schedule fips_schedule
  have hm : (List.range 16).map (load_word data) = (List.range 16).map (fips_word data) :=
    List.map_congr_left fun i _ => load_word_eq h i
  rw [hm]
  have := schedule_fold_eq 48 ((List.range 16).map (fips_word data))
  simpa using this

theorem fips_schedule_ext_length (n : Nat) (W : List Nat) :
    (fips_schedule_ext n W).length = W.length + n := by
  induction n generalizing W with
  | zero => simp [fips_schedule_ext]
  | succ n ih => rw [fips_schedule_ext, ih]; simp; omega

theorem fips_schedule_length (M : List Nat) : (fips_schedule M).length = 64 := by
  simp [fips_schedule, fips_schedule_ext_length]

theorem map_getD_pair_eq_zip (A B : List Nat) (h : A.length = B.length) :
    (List.range A.length).map (fun i => (A.getD i 0, B.getD i 0)) = List.zip A B := by
  apply List.ext_getElem
  · simp [h]
  · intro i h1 h2
    simp only [List.length_map, List.length_range] at h1
    have hb : i < B.length := h ▸ h1
    simp [List.getD_eq_getElem?_getD, List.getElem?_eq_getElem h1, List.getElem?_eq_getElem hb]

theorem round_fold_eq (w : List Nat) (hw : w.length = 64) (v0 : WorkVars) :
    (List.range 64).foldl (round_step w) v0 = (List.zip fips_K w).foldl fips_round v0 := by
  have hK : fips_K.length = w.length := by rw [fips_K_eq, hw]; rfl
  rw [← map_getD_pair_eq_zip fips_K w hK, List.foldl_map, fips_K_eq]
  rfl

theorem sha256_transform_eq {state data : List Nat} (hs : state.length = 8)
    (h : IsBytes data) : sha256_transform state data = fips_compress state data := by
  unfold sha256_transform fips_compress
  simp only [message_schedule_eq h, round_fold_eq _ (fips_schedule_length data), rd]
  match state, hs with
  | [a, b, c, d, e, f, g, h], _ => rfl

theorem fips_word_take (M : List Nat) (t : Nat) (ht : t < 16) :
    fips_word (M.take 64) t = fips_word M t := by
  unfold fips_word
  have e : ∀ j, j < 64 → (M.take 64).getD j 0 = M.getD j 0 := by
    intro j hj
    rw [List.getD_eq_getElem?_getD, List.getD_eq_getElem?_getD, List.getElem?_take_of_lt hj]
  rw [e _ (by omega), e _ (by omega), e _ (by omega), e _ (by omega)]

theorem fips_compress_take (H M : List Nat) :
    fips_compress H (M.take 64) = fips_compress H M := by
  unfold fips_compress fips_schedule
  have : (List.range 16).map (fips_word (M.take 64)) = (List.range 16).map (fips_word M) :=
    List.map_congr_left fun i hi => fips_word_take M i (List.mem_range.mp hi)
  rw [this]

theorem fips_compress_length (H M : List Nat) (hH : H.length = 8) :
    (fips_compress H M).length = 8 := by
  simp [fips_compress, hH]

theorem fips_absorb_length (H p : List Nat) (hH : H.length = 8) :
    (fips_absorb H p).length = 8 := by
  unfold fips_absorb
  generalize List.range (p.length / 64) = l
  induction l generalizing H with
  | nil => simpa using hH
  | cons i l ih => rw [List.foldl_cons]; exact ih _ (fips_compress_length _ _ hH)

theorem fips_absorb_short (H p : List Nat) (hp : p.length < 64) : fips_absorb H p = H := by
  unfold fips_absorb
  rw [Nat.div_eq_of_lt hp]; rfl

theorem fips_block_succ (p : List Nat) (i : Nat) :
    fips_block p (i + 1) = fips_block (p.drop 64) i := by
  unfold fips_block
  rw [List.drop_drop]
  congr 2
  omega

/-- Absorbing a sequence that starts with one full block. -/
theorem fips_absorb_step (H p : List Nat) (hp : 64 ≤ p.length) :
    fips_absorb H p = fips_absorb (fips_compress H p) (p.drop 64) := by
  unfold fips_absorb
  have hlen : p.length / 64 = (p.drop 64).length / 64 + 1 := by
    rw [List.length_drop]; omega
  rw [hlen, List.range_succ_eq_map, List.foldl_cons, List.foldl_map]
  have h0 : fips_block p 0 = p.take 64 := by simp [fips_block]
  rw [h0, fips_compress_take]
  simp only [Nat.succ_eq_add_one, fips_block_succ]

theorem fips_absorb_append (H a b : List Nat) (n : Nat) (ha : a.length = 64 * n) :
    fips_absorb H (a ++ b) = fips_absorb (fips_absorb H a) b := by
  induction n generalizing H a with
  | zero =>
    have : a = [] := List.length_eq_zero.mp (by simpa using ha)
    subst this
    simp [fips_absorb_short]
  | succ n ih =>
    have h64 : 64 ≤ a.length := by omega
    rw [fips_absorb_step H (a ++ b) (by simp; omega), fips_absorb_step H a h64]
    have hc : fips_compress H (a ++ b) = fips_compress H a := by
      rw [← fips_compress_take H (a ++ b), ← fips_compress_take H a,
        List.take_append_of_le_length h64]
    have hd : (a ++ b).drop 64 = a.drop 64 ++ b := List.drop_append_of_le_length h64
    rw [hc, hd]
    exact ih _ _ (by rw [List.length_drop]; omega)

theorem isBytes_drop {l : List Nat} (h : IsBytes l) (n : Nat) : IsBytes (l.drop n) :=
  fun b hb => h b (List.mem_of_mem_drop hb)

theorem isBytes_take {l : List Nat} (h : IsBytes l) (n : Nat) : IsBytes (l.take n) :=
  fun b hb => h b (List.mem_of_mem_take hb)

theorem isBytes_append {a b : List Nat} (ha : IsBytes a) (hb : IsBytes b) : IsBytes (a ++ b) :=
  fun x hx => (List.mem_append.mp hx).elim (ha x) (hb x)

/-- The block loop of `sha256_update` absorbs every full block of `data` and hands back the
rest, when it is given at least `data.length / 64` units of fuel. -/
theorem update_blocks_eq (fuel : Nat) (state data : List Nat) (hs : state.length = 8)
    (hd : IsBytes data) (hf : data.length / 64 ≤ fuel) :
    update_blocks fuel state data =
      (fips_absorb state data, data.drop (data.length / 64 * 64)) := by
  induction fuel generalizing state data with
  | zero =>
    have hlt : data.length < 64 := by omega
    simp [update_blocks, fips_absorb_short _ _ hlt, Nat.div_eq_of_lt hlt]
  | succ fuel ih =>
    unfold update_blocks
    by_cases h64 : 64 ≤ data.length
    · rw [if_pos h64, sha256_transform_eq hs hd,
        ih _ _ (fips_compress_length _ _ hs) (isBytes_drop hd 64)
          (by rw [List.length_drop]; omega),
        ← fips_absorb_step _ _ h64, List.drop_drop, List.length_drop]
      congr 2
      omega
    · have hlt : data.length < 64 := by omega
      rw [if_neg h64]
      simp [fips_absorb_short _ _ hlt, Nat.div_eq_of_lt hlt]

theorem fips_H0_length : fips_H0.length = 8 := by decide!

theorem fips_absorb_one (H B : List Nat) (hB : B.length = 64) :
    fips_absorb H B = fips_compress H B := by
  rw [fips_absorb_step H B (by omega), fips_absorb_short]
  rw [List.length_drop]; omega

theorem fips_absorb_take_full (H D : List Nat) :
    fips_absorb H (D.take (D.length / 64 * 64)) = fips_absorb H D := by
  conv_rhs => rw [← List.take_append_drop (D.length / 64 * 64) D]
  rw [fips_absorb_append H _ _ (D.length / 64) (by rw [List.length_take]; omega),
    fips_absorb_short _ (D.drop _)]
  rw [List.length_drop]; omega

theorem take_append_len (X Y : List Nat) (n : Nat) (h : n = X.length) :
    (X ++ Y).take n = X := by
  subst h; simp

theorem memcpy_length (buf src : List Nat) (off : Nat) (h : off + src.length ≤ buf.length) :
    (memcpy buf off src).length = buf.length := by
  simp [memcpy]; omega

theorem sha256_update_absorbed {ctx : sha256_ctx_t} {P t : List Nat} (d : List Nat)
    (h : Absorbed ctx P t) (ht : IsBytes t) (hd : IsBytes d) :
    Absorbed (sha256_update ctx d)
      (P ++ (t ++ d).take ((t.length + d.length) / 64 * 64))
      ((t ++ d).drop ((t.length + d.length) / 64 * 64)) := by
  obtain ⟨hal, hsh, hst, hct, hbl, hbe⟩ := h
  have hs8 : ctx.state.length = 8 := by rw [hst]; exact fips_absorb_length _ _ fips_H0_length
  have hc64 : ctx.count % 64 = t.length := by rw [hct]; omega
  have hcnt : (ctx.count + d.length) % 2 ^ 64 = (P.length + t.length + d.length) % 2 ^ 64 := by
    rw [hct]; omega
  have hnew64 : (ctx.count + d.length) % 2 ^ 64 % 64 = (t.length + d.length) % 64 := by
    rw [hcnt]; omega
  unfold sha256_update
  simp only [hc64]
  by_cases hA : 64 - t.length ≤ d.length
  · -- the buffer fills up: one block from the buffer, then whole blocks from `d`
    rw [if_pos hA]
    have hoff : 64 - (64 - t.length) = t.length := by omega
    have hB : memcpy ctx.buffer (64 - (64 - t.length)) (d.take (64 - t.length)) =
        t ++ d.take (64 - t.length) := by
      unfold memcpy
      rw [hoff, hbe, List.drop_eq_nil_of_le, List.append_nil]
      rw [hbl, List.length_take]; omega
    rw [hB]
    have hBlen : (t ++ d.take (64 - t.length)).length = 64 := by
      rw [List.length_append, List.length_take]; omega
    have hBb : IsBytes (t ++ d.take (64 - t.length)) := isBytes_append ht (isBytes_take hd _)
    rw [sha256_transform_eq hs8 hBb,
      update_blocks_eq _ _ _ (fips_compress_length _ _ hs8) (isBytes_drop hd _)
        (by rw [List.length_drop]; omega)]
    have hsplit : t ++ d = (t ++ d.take (64 - t.length)) ++ d.drop (64 - t.length) := by
      rw [List.append_assoc, List.take_append_drop]
    have hk : (t.length + d.length) / 64 * 64 =
        64 + (d.drop (64 - t.length)).length / 64 * 64 := by
      rw [List.length_drop]; omega
    have htake : (t ++ d).take ((t.length + d.length) / 64 * 64) =
        (t ++ d.take (64 - t.length)) ++
          (d.drop (64 - t.length)).take ((d.drop (64 - t.length)).length / 64 * 64) := by
      rw [hk]
      conv_lhs => rw [hsplit]
      rw [List.take_append_eq_append_take, hBlen, List.take_of_length_le (by omega),
        Nat.add_sub_cancel_left]
    have hdrop : (t ++ d).drop ((t.length + d.length) / 64 * 64) =
        (d.drop (64 - t.length)).drop ((d.drop (64 - t.length)).length / 64 * 64) := by
      rw [hk]
      conv_lhs => rw [hsplit]
      rw [List.drop_append_eq_append_drop, hBlen, List.drop_eq_nil_of_le (by omega)]
      simp
    have hstate : fips_absorb (fips_compress ctx.state (t ++ d.take (64 - t.length)))
        (d.drop (64 - t.length)) =
        fips_absorb fips_H0 (P ++ (t ++ d).take ((t.length + d.length) / 64 * 64)) := by
      rw [htake, fips_absorb_append fips_H0 P _ (P.length / 64) (by omega),
        fips_absorb_append _ (t ++ d.take (64 - t.length)) _ 1 (by omega),
        fips_absorb_one _ _ hBlen, fips_absorb_take_full, hst]
    have htl : ((t ++ d).drop ((t.length + d.length) / 64 * 64)).length =
        (t.length + d.length) % 64 := by
      rw [List.length_drop, List.length_append]; omega
    rw [← hdrop]
    have hPal : (P ++ (t ++ d).take ((t.length + d.length) / 64 * 64)).length % 64 = 0 := by
      rw [List.length_append, List.length_take, List.length_append]; omega
    have hcount' : (ctx.count + d.length) % 2 ^ 64 =
        ((P ++ (t ++ d).take ((t.length + d.length) / 64 * 64)).length +
          ((t ++ d).drop ((t.length + d.length) / 64 * 64)).length) % 2 ^ 64 := by
      rw [hcnt, htl, List.length_append, List.length_take, List.length_append]
      congr 1
      omega
    by_cases hr : 0 < ((t ++ d).drop ((t.length + d.length) / 64 * 64)).length
    · simp only [if_pos hr]
      refine ⟨hPal, by rw [htl]; omega, hstate, hcount', ?_, ?_⟩
      · show (memcpy _ _ _).length = 64
        rw [memcpy_length _ _ _ (by rw [hBlen, hnew64, htl]; omega), hBlen]
      · show (memcpy _ _ _).take _ = _
        rw [hnew64, htl, Nat.sub_self]
        unfold memcpy
        rw [List.take_zero, List.nil_append]
        exact take_append_len _ _ _ htl.symm
    · simp only [if_neg hr]
      have hnil : (t ++ d).drop ((t.length + d.length) / 64 * 64) = [] :=
        List.length_eq_zero.mp (by omega)
      refine ⟨hPal, by rw [htl]; omega, hstate, hcount', hBlen, ?_⟩
      rw [hnil]; simp
  · -- the bytes fit in the free part of the buffer
    rw [if_neg hA]
    have hk : (t.length + d.length) / 64 * 64 = 0 := by omega
    rw [hk, List.take_zero, List.drop_zero, List.append_nil]
    by_cases hpos : 0 < d.length
    · rw [if_pos hpos]
      have hcount' : (ctx.count + d.length) % 2 ^ 64 = (P.length + (t ++ d).length) % 2 ^ 64 := by
        rw [hcnt, List.length_append, Nat.add_assoc]
      refine ⟨hal, by rw [List.length_append]; omega, hst, hcount', ?_, ?_⟩
      · show (memcpy _ _ _).length = 64
        rw [memcpy_length _ _ _ (by rw [hnew64, hbl]; omega), hbl]
      · show (memcpy _ _ _).take _ = _
        have : (ctx.count + d.length) % 2 ^ 64 % 64 - d.length = t.length := by
          rw [hnew64]; omega
        rw [this]
        unfold memcpy
        rw [hbe]
        exact take_append_len _ _ _ rfl
    · rw [if_neg hpos]
      have : d = [] := List.length_eq_zero.mp (by omega)
      subst this
      have hcount' : (ctx.count + ([] : List Nat).length) % 2 ^ 64 =
          (P.length + (t ++ []).length) % 2 ^ 64 := by
        rw [hct]; simp
      exact ⟨hal, by simpa using hsh, hst, hcount', hbl, by simpa using hbe⟩

theorem and_ff (x : Nat) : x &&& 0xff = x % 256 := Nat.and_pow_two_sub_one_eq_mod _ 8

theorem len_bytes_eq (n : Nat) : len_bytes n = fips_be64 n := by
  have h : fips_be64 n = [n / 256 ^ 7 % 256, n / 256 ^ 6 % 256, n / 256 ^ 5 % 256,
      n / 256 ^ 4 % 256, n / 256 ^ 3 % 256, n / 256 ^ 2 % 256, n / 256 ^ 1 % 256,
      n / 256 ^ 0 % 256] := rfl
  rw [h]
  unfold len_bytes
  simp only [and_ff, Nat.shiftRight_eq_div_pow]
  norm_num

theorem isBytes_len_bytes (n : Nat) : IsBytes (len_bytes n) := by
  intro b hb
  simp only [len_bytes, and_ff, List.mem_cons, List.mem_singleton,
    List.not_mem_nil, or_false] at hb
  omega

theorem digest_bytes_eq (state : List Nat) (hs : state.length = 8) :
    digest_bytes state = state.flatMap fips_be32 := by
  match state, hs with
  | [a, b, c, d, e, f, g, h], _ =>
    show [_, _, _, _, _, _, _, _, _, _, _, _, _, _, _, _, _, _, _, _, _, _, _, _, _, _, _, _,
      _, _, _, _] = [_, _, _, _, _, _, _, _, _, _, _, _, _, _, _, _, _, _, _, _, _, _, _, _, _,
      _, _, _, _, _, _, _]
    simp only [rd, and_ff, Nat.shiftRight_eq_div_pow, List.getD_cons_zero, List.getD_cons_succ]

theorem fips_zero_run_mod (l : Nat) : fips_zero_run l = fips_zero_run (l % 64) := by
  unfold fips_zero_run
  have : (fun k => decide ((l + 1 + k) % 64 = 56)) =
      (fun k => decide ((l % 64 + 1 + k) % 64 = 56)) := by
    funext k
    congr 1
    apply propext
    constructor <;> intro h <;> omega
  rw [this]

theorem fips_zero_run_small (r : Nat) (hr : r < 64) :
    fips_zero_run r = if r < 56 then 55 - r else 119 - r := by
  interval_cases r <;> rfl

theorem fips_zero_run_eq (l : Nat) :
    fips_zero_run l = (if l % 64 < 56 then 56 - l % 64 else 120 - l % 64) - 1 := by
  rw [fips_zero_run_mod, fips_zero_run_small _ (Nat.mod_lt _ (by omega))]
  split <;> omega

theorem padding_take (n : Nat) (h1 : 1 ≤ n) (h2 : n ≤ 64) :
    (0x80 :: List.replicate 63 0).take n = [0x80] ++ List.replicate (n - 1) 0 := by
  obtain ⟨k, rfl⟩ : ∃ k, n = k + 1 := ⟨n - 1, by omega⟩
  rw [List.take_succ_cons, List.take_replicate]
  simp
  omega

theorem isBytes_padding (n : Nat) : IsBytes ([0x80] ++ List.replicate n 0) := by
  intro b hb
  simp only [List.singleton_append, List.mem_cons, List.mem_replicate] at hb
  omega

/-- What `sha256_final` returns for a context that has taken in the stream `P ++ t`. -/
theorem sha256_final_absorbed {ctx : sha256_ctx_t} {P t : List Nat} (h : Absorbed ctx P t)
    (hb : IsBytes (P ++ t)) (hlen : (P ++ t).length < 2 ^ 61) :
    sha256_final ctx = fips_sha256 (P ++ t) := by
  have ht : IsBytes t := fun b hb' => hb b (List.mem_append_right _ hb')
  have hc64 : ctx.count % 64 = t.length := by rw [h.count_eq]; have := h.aligned; have := h.short; omega
  have hlen' : P.length + t.length < 2 ^ 61 := by simpa using hlen
  have hcount : ctx.count = P.length + t.length := by
    rw [h.count_eq]; apply Nat.mod_eq_of_lt; omega
  have hbits : ctx.count * 8 % 2 ^ 64 = 8 * (P ++ t).length := by
    rw [hcount, List.length_append]; omega
  have hmod : (P ++ t).length % 64 = t.length := by
    rw [List.length_append]; have := h.aligned; have := h.short; omega
  unfold sha256_final
  simp only [hc64, hbits]
  have hpl1 : 1 ≤ (if t.length < 56 then 56 - t.length else 120 - t.length) := by
    have := h.short; split <;> omega
  have hpl2 : (if t.length < 56 then 56 - t.length else 120 - t.length) ≤ 64 := by
    split <;> omega
  rw [padding_take _ hpl1 hpl2]
  have hrun : (if t.length < 56 then 56 - t.length else 120 - t.length) - 1 =
      fips_zero_run (P ++ t).length := by
    rw [fips_zero_run_eq, hmod]
  rw [hrun]
  set pad := [0x80] ++ List.replicate (fips_zero_run (P ++ t).length) 0 with hpad
  have hpadlen : t.length + pad.length = 56 ∨ t.length + pad.length = 120 := by
    rw [hpad, List.length_append, List.length_replicate, ← hrun]
    have := h.short
    simp only [List.length_singleton]
    split <;> omega
  have h1 := sha256_update_absorbed pad h ht (isBytes_padding _)
  have ht1 : IsBytes ((t ++ pad).drop ((t.length + pad.length) / 64 * 64)) :=
    isBytes_drop (isBytes_append ht (isBytes_padding _)) _
  have h2 := sha256_update_absorbed (len_bytes (8 * (P ++ t).length)) h1 ht1
    (isBytes_len_bytes _)
  have hl1 : ((t ++ pad).drop ((t.length + pad.length) / 64 * 64)).length = 56 := by
    rw [List.length_drop, List.length_append]; omega
  have hlb : (len_bytes (8 * (P ++ t).length)).length = 8 := rfl
  rw [hl1, hlb] at h2
  have h64 : (56 + 8) / 64 * 64 = 64 := rfl
  have htk : List.take 64 ((t ++ pad).drop ((t.length + pad.length) / 64 * 64) ++
      len_bytes (8 * (P ++ t).length)) = (t ++ pad).drop ((t.length + pad.length) / 64 * 64) ++
      len_bytes (8 * (P ++ t).length) :=
    List.take_of_length_le (by rw [List.length_append, hl1, hlb])
  rw [h64, htk] at h2
  have hst := h2.state_eq
  have hall : P ++ (t ++ pad).take ((t.length + pad.length) / 64 * 64) ++
      ((t ++ pad).drop ((t.length + pad.length) / 64 * 64) ++
        len_bytes (8 * (P ++ t).length)) = P ++ t ++ pad ++ fips_be64 (8 * (P ++ t).length) := by
    rw [List.append_assoc P, ← List.append_assoc ((t ++ pad).take _), List.take_append_drop,
      len_bytes_eq]
    simp only [List.append_assoc]
  rw [hall] at hst
  rw [digest_bytes_eq _ (by rw [hst]; exact fips_absorb_length _ _ fips_H0_length), hst]
  unfold fips_sha256 fips_pad
  rw [hpad]
  simp only [List.append_assoc]

theorem sha256_init_absorbed (stack : sha256_ctx_t) (hbuf : stack.buffer.length = 64) :
    Absorbed (sha256_init stack) [] [] where
  aligned := rfl
  short := by decide
  state_eq := by rw [fips_absorb_short _ _ (by decide)]; exact fips_H0_eq stack
  count_eq := rfl
  buf_len := hbuf
  buf_eq := rfl

/-- The digest computed by the body of `sha256_hash` does not depend on what the local
context holds before `sha256_init`, and is the FIPS 180-4 digest. -/
theorem sha256_hash_from_eq (stack : sha256_ctx_t) (m : List Nat)
    (hbuf : stack.buffer.length = 64) (hb : IsBytes m) (hlen : m.length < 2 ^ 61) :
    sha256_hash_from stack m = fips_sha256 m := by
  have h1 := sha256_update_absorbed m (sha256_init_absorbed stack hbuf)
    (fun _ h => absurd h (List.not_mem_nil _)) hb
  have hm : ([] : List Nat) ++ ([] ++ m).take ((([] : List Nat).length + m.length) / 64 * 64) ++
      ([] ++ m).drop ((([] : List Nat).length + m.length) / 64 * 64) = m := by
    rw [List.nil_append, List.nil_append, List.take_append_drop]
  have h2 := sha256_final_absorbed h1 (by rw [hm]; exact hb) (by rw [hm]; exact hlen)
  rw [hm] at h2
  exact h2

/-- C1: for every byte sequence `m` shorter than `2^61` bytes, `sha256_hash m` is the
FIPS 180-4 SHA-256 digest of `m`: the big-endian bytes of the hash value obtained from the
initial value by compressing, block after block, the message followed by `0x80`, the
shortest run of zero bytes that brings the length to 56 modulo 64, and the bit length as a
64-bit big-endian integer. -/
theorem C1_sha256_hash_eq_fips (m : List Nat) (hb : IsBytes m) (hlen : m.length < 2 ^ 61) :
    sha256_hash m = fips_sha256 m :=
  sha256_hash_from_eq _ m rfl hb hlen

theorem C1_sha256_hash_eq_fips_witness :
    IsBytes [0x61, 0x62, 0x63] ∧ [0x61, 0x62, 0x63].length < 2 ^ 61 ∧
      sha256_hash [0x61, 0x62, 0x63] = fips_sha256 [0x61, 0x62, 0x63] :=
  ⟨by decide, by decide, C1_sha256_hash_eq_fips [0x61, 0x62, 0x63] (by decide) (by decide)⟩

/-- C2: `sha256_hash` of the empty message is `e3b0c442...7852b855` and `sha256_hash` of the
three bytes `abc` is `ba7816bf...f20015ad`, byte for byte. -/
theorem C2_sha256_hash_test_vectors :
    sha256_hash [] =
      [0xe3, 0xb0, 0xc4, 0x42, 0x98, 0xfc, 0x1c, 0x14, 0x9a, 0xfb, 0xf4, 0xc8, 0x99, 0x6f,
       0xb9, 0x24, 0x27, 0xae, 0x41, 0xe4, 0x64, 0x9b, 0x93, 0x4c, 0xa4, 0x95, 0x99, 0x1b,
       0x78, 0x52, 0xb8, 0x55] ∧
    sha256_hash [0x61, 0x62, 0x63] =
      [0xba, 0x78, 0x16, 0xbf, 0x8f, 0x01, 0xcf, 0xea, 0x41, 0x41, 0x40, 0xde, 0x5d, 0xae,
       0x22, 0x23, 0xb0, 0x03, 0x61, 0xa3, 0x96, 0x17, 0x7a, 0x9c, 0xb4, 0x10, 0xff, 0x61,
       0xf2, 0x00, 0x15, 0xad] := by
  decide!

/-! ## Lemmas: the leading-zero counter -/

theorem clz_byte_loop_acc (fuel b z : Nat) :
    clz_byte_loop fuel b z = z + clz_byte_loop fuel b 0 := by
  induction fuel generalizing b z with
  | zero => simp [clz_byte_loop]
  | succ n ih =>
    unfold clz_byte_loop
    split
    · rw [ih _ (z + 1), ih _ (0 + 1)]; omega
    · rfl

/-- For a non-zero byte the inner loop leaves through its condition, within 7 rounds: the
count it adds is at most 7 (8 rounds without an exit would add 8), and one more unit of
fuel does not change the result. -/
theorem clz_byte_loop_fuel : ∀ b, b < 256 → b ≠ 0 →
    clz_byte_loop 8 b 0 = clz_byte_loop 9 b 0 ∧ clz_byte_loop 8 b 0 ≤ 7 := by
  decide!

theorem clz_byte_spec : ∀ b, b < 256 → b ≠ 0 → ∀ d, d < 9 →
    (d ≤ clz_byte_loop 8 b 0 ↔ b < 2 ^ (8 - d)) := by
  decide!

theorem clz_loop_eq (hash : List Nat) (n i z : Nat) (h : i + n ≤ hash.length) :
    clz_loop hash n i z = z + clz_list ((hash.drop i).take n) := by
  induction n generalizing i z with
  | zero => simp [clz_loop, clz_list]
  | succ n ih =>
    have hi : i < hash.length := by omega
    have hd : hash.drop i = hash[i] :: hash.drop (i + 1) := List.drop_eq_getElem_cons hi
    have hr : rd hash i = hash[i] := by
      simp [rd, List.getD_eq_getElem?_getD, List.getElem?_eq_getElem hi]
    rw [clz_loop, hd, List.take_succ_cons, clz_list, hr]
    by_cases h0 : hash[i] = 0
    · rw [if_pos h0, if_pos h0, ih (i + 1) (z + 8) (by omega)]; omega
    · rw [if_neg h0, if_neg h0, clz_byte_loop_acc]

theorem count_leading_zeros_eq (hash : List Nat) (h : hash.length = 32) :
    count_leading_zeros hash = clz_list hash := by
  unfold count_leading_zeros
  rw [clz_loop_eq hash 32 0 0 (by omega)]
  simp [← h]

theorem be_value_foldl (l : List Nat) (a : Nat) :
    l.foldl (fun a b => a * 256 + b) a = a * 256 ^ l.length + be_value l := by
  unfold be_value
  induction l generalizing a with
  | nil => simp
  | cons b t ih =>
    rw [List.foldl_cons, List.foldl_cons, ih (a * 256 + b), ih (0 * 256 + b), List.length_cons]
    ring

theorem be_value_cons (b : Nat) (t : List Nat) :
    be_value (b :: t) = b * 256 ^ t.length + be_value t := by
  show List.foldl _ _ _ = _
  rw [List.foldl_cons, be_value_foldl]
  simp

theorem be_value_lt (l : List Nat) (h : IsBytes l) : be_value l < 256 ^ l.length := by
  induction l with
  | nil => simp [be_value]
  | cons b t ih =>
    rw [be_value_cons, List.length_cons, pow_succ]
    have hb : b < 256 := h b (List.mem_cons_self _ _)
    have ht := ih (fun x hx => h x (List.mem_cons_of_mem _ hx))
    nlinarith

theorem clz_list_spec (l : List Nat) (h : IsBytes l) (D : Nat) (hD : D ≤ 8 * l.length) :
    D ≤ clz_list l ↔ be_value l < 2 ^ (8 * l.length - D) := by
  induction l generalizing D with
  | nil =>
    have : D = 0 := by simpa using hD
    subst this
    simp [clz_list, be_value]
  | cons b t ih =>
    have hb : b < 256 := h b (List.mem_cons_self _ _)
    have ht : IsBytes t := fun x hx => h x (List.mem_cons_of_mem _ hx)
    have hv := be_value_lt t ht
    have hM : (256 : Nat) ^ t.length = 2 ^ (8 * t.length) := by
      rw [show (256 : Nat) = 2 ^ 8 by norm_num, ← pow_mul]
    rw [hM] at hv
    rw [List.length_cons] at hD ⊢
    rw [be_value_cons, hM, clz_list]
    by_cases h0 : b = 0
    · subst h0
      rw [if_pos rfl, Nat.zero_mul, Nat.zero_add]
      by_cases hD8 : D ≤ 8
      · have hle : 2 ^ (8 * t.length) ≤ 2 ^ (8 * (t.length + 1) - D) :=
          Nat.pow_le_pow_right (by omega) (by omega)
        constructor
        · intro _; omega
        · intro _; omega
      · have := ih ht (D - 8) (by omega)
        have he : 8 * (t.length + 1) - D = 8 * t.length - (D - 8) := by omega
        rw [he, ← this]
        omega
    · rw [if_neg h0]
      by_cases hD8 : D ≤ 8
      · rw [clz_byte_spec b hb h0 D (by omega)]
        have he : 8 * (t.length + 1) - D = (8 - D) + 8 * t.length := by omega
        rw [he, pow_add]
        constructor
        · intro hlt
          have : b + 1 ≤ 2 ^ (8 - D) := hlt
          calc b * 2 ^ (8 * t.length) + be_value t
              < b * 2 ^ (8 * t.length) + 2 ^ (8 * t.length) := by omega
            _ = (b + 1) * 2 ^ (8 * t.length) := by ring
            _ ≤ 2 ^ (8 - D) * 2 ^ (8 * t.length) := Nat.mul_le_mul_right _ this
        · intro hlt
          by_contra hge
          have hge' : 2 ^ (8 - D) ≤ b := Nat.le_of_not_lt hge
          have := Nat.mul_le_mul_right (2 ^ (8 * t.length)) hge'
          omega
      · have hc := (clz_byte_loop_fuel b hb h0).2
        have hle : 2 ^ (8 * (t.length + 1) - D) ≤ 2 ^ (8 * t.length) :=
          Nat.pow_le_pow_right (by omega) (by omega)
        have hb1 : 1 ≤ b := Nat.pos_of_ne_zero h0
        have := Nat.mul_le_mul_right (2 ^ (8 * t.length)) hb1
        constructor
        · intro _; omega
        · intro _; omega

/-- C3: for a 32-byte digest `h`, `count_leading_zeros h` is the number of leading zero bits
of `h` read as a 256-bit big-endian number: for every `D` in `0..256`, the count is at least
`D` exactly when the big-endian value of `h` is below `2^(256 - D)`; and a digest that
begins with the bytes `00 7f` has count exactly 9. -/
theorem C3_count_leading_zeros_bits (h : List Nat) (hlen : h.length = 32) (hb : IsBytes h) :
    (∀ D, D ≤ 256 → (D ≤ count_leading_zeros h ↔ be_value h < 2 ^ (256 - D))) ∧
    (∀ rest, h = 0x00 :: 0x7f :: rest → count_leading_zeros h = 9) := by
  constructor
  · intro D hD
    rw [count_leading_zeros_eq h hlen]
    have := clz_list_spec h hb D (by omega)
    rwa [hlen] at this
  · intro rest hr
    subst hr
    have h1 : (127 : Nat) &&& 128 = 0 := by decide
    have h2 : ¬ ((254 : Nat) &&& 128 = 0) := by decide
    simp [count_leading_zeros, clz_loop, rd, clz_byte_loop, h1, h2]

theorem C3_count_leading_zeros_bits_witness :
    (0x00 :: 0x7f :: List.replicate 30 0xff).length = 32 ∧
    IsBytes (0x00 :: 0x7f :: List.replicate 30 0xff) ∧
    (∀ D, D ≤ 256 → (D ≤ count_leading_zeros (0x00 :: 0x7f :: List.replicate 30 0xff) ↔
      be_value (0x00 :: 0x7f :: List.replicate 30 0xff) < 2 ^ (256 - D))) ∧
    (∀ rest, 0x00 :: 0x7f :: List.replicate 30 0xff = 0x00 :: 0x7f :: rest →
      count_leading_zeros (0x00 :: 0x7f :: List.replicate 30 0xff) = 9) :=
  ⟨by decide, by decide,
    C3_count_leading_zeros_bits (0x00 :: 0x7f :: List.replicate 30 0xff) (by decide) (by decide)⟩

/-! ## Lemmas: the library calls of the serializer -/

/-- The offset `strstr` returns is that of the first occurrence of the needle. -/
theorem strstr_some (hay needle : List Nat) (i : Nat) (h : strstr hay needle = some i) :
    needle <+: hay.drop i ∧ ∀ j, j < i → ¬ needle <+: hay.drop j := by
  induction hay generalizing i with
  | nil =>
    rw [strstr] at h
    split at h
    · rename_i hp
      cases h
      exact ⟨List.isPrefixOf_iff_prefix.mp hp, fun j hj => absurd hj (Nat.not_lt_zero j)⟩
    · simp at h
  | cons c t ih =>
    rw [strstr] at h
    split at h
    · rename_i hp
      cases h
      exact ⟨List.isPrefixOf_iff_prefix.mp hp, fun j hj => absurd hj (Nat.not_lt_zero j)⟩
    · rename_i hp
      cases ht : strstr t needle with
      | none => rw [ht] at h; simp at h
      | some k =>
        rw [ht] at h
        simp only [Option.map_some', Option.some.injEq] at h
        subst h
        obtain ⟨h1, h2⟩ := ih k ht
        refine ⟨by simpa using h1, ?_⟩
        intro j hj
        cases j with
        | zero => simpa [List.isPrefixOf_iff_prefix] using hp
        | succ j => simpa using h2 j (by omega)

/-- When `strstr` returns `NULL` the needle occurs nowhere. -/
theorem strstr_none (hay needle : List Nat) (h : strstr hay needle = none) (j : Nat) :
    ¬ needle <+: hay.drop j := by
  induction hay generalizing j with
  | nil =>
    rw [strstr] at h
    split at h
    · simp at h
    · rename_i hp
      simpa [List.isPrefixOf_iff_prefix] using hp
  | cons c t ih =>
    rw [strstr] at h
    split at h
    · simp at h
    · rename_i hp
      cases ht : strstr t needle with
      | some k => rw [ht] at h; simp at h
      | none =>
        cases j with
        | zero => simpa [List.isPrefixOf_iff_prefix] using hp
        | succ j => simpa using ih ht j

/-- No byte between the start and the offset `strchr` returns is `c`. -/
theorem strchr_first (s : List Nat) (p c k : Nat) (h : strchr s p c = some k) (j : Nat)
    (h1 : p ≤ j) (h2 : j < k) : s.getD j 0 ≠ c := by
  unfold strchr at h
  cases hf : find_byte c (s.drop p) with
  | none => rw [hf] at h; simp at h
  | some i =>
    rw [hf] at h
    simp only [Option.map_some', Option.some.injEq] at h
    subst h
    have key : ∀ (l : List Nat) (i : Nat), find_byte c l = some i →
        ∀ m, m < i → l.getD m 0 ≠ c := by
      intro l
      induction l with
      | nil => intro i hi; simp [find_byte] at hi
      | cons x t ih =>
        intro i hi m hm
        rw [find_byte] at hi
        by_cases hx : x = c
        · rw [if_pos hx] at hi; cases hi; omega
        · rw [if_neg hx] at hi
          cases ht : find_byte c t with
          | none => rw [ht] at hi; simp at hi
          | some n =>
            rw [ht] at hi
            simp only [Option.map_some', Option.some.injEq] at hi
            subst hi
            cases m with
            | zero => simpa using hx
            | succ m => simpa using ih n ht m (by omega)
    have := key (s.drop p) i hf (j - p) (by omega)
    rw [List.getD_eq_getElem?_getD, List.getElem?_drop] at this
    rw [List.getD_eq_getElem?_getD]
    rwa [show p + (j - p) = j by omega] at this

/-! ## Lemmas: the serializer and the search -/

/-- Whether `update_nonce_in_json` writes a result depends on the event text only. -/
theorem update_nonce_none_indep (json : List Nat) (N M : Nat)
    (h : update_nonce_in_json json N = none) : update_nonce_in_json json M = none := by
  unfold update_nonce_in_json at h ⊢
  cases h1 : strstr json (ascii "\"nonce\"") with
  | some nonce_pos =>
    simp only [h1] at h ⊢
    cases h2 : strchr json nonce_pos 58 with
    | none => rfl
    | some colon =>
      simp only [h2] at h ⊢
      split at h
      · rename_i h3
        rw [if_pos h3]
        split at h
        · simp at h
        · rfl
      · simp at h
  | none =>
    simp only [h1] at h ⊢
    cases h2 : strstr json (ascii "\"tags\"") with
    | none => rfl
    | some tags_pos =>
      simp only [h2] at h ⊢
      cases h3 : strchr json tags_pos 91 with
      | none => rfl
      | some array_start =>
        simp only [h3] at h
        split at h <;> simp at h

theorem update_nonce_some_indep (json : List Nat) (N M : Nat) (out : List Nat)
    (h : update_nonce_in_json json N = some out) :
    ∃ out', update_nonce_in_json json M = some out' := by
  cases hM : update_nonce_in_json json M with
  | none => rw [update_nonce_none_indep json M N hM] at h; exact absurd h (by simp)
  | some o => exact ⟨o, rfl⟩

theorem misses_not_solves {e : List Nat} {D : Int} {N : Nat} (h : Misses e D N) :
    ¬ Solves e D N := by
  rintro ⟨out, ho, hge⟩
  obtain ⟨out', ho', hlt⟩ := h
  rw [ho] at ho'
  cases ho'
  omega

theorem solves_or_misses {e : List Nat} {D : Int} {N : Nat} {out : List Nat}
    (h : update_nonce_in_json e N = some out) : Solves e D N ∨ Misses e D N := by
  by_cases hge : (count_leading_zeros (sha256_hash out) : Int) ≥ D
  · exact Or.inl ⟨out, h, hge⟩
  · exact Or.inr ⟨out, h, by omega⟩

/-- What the search loop returns, when it returns: either the first solution at or after
`nonce`, with all nonces before it tried and missed, or `0` after the whole range missed. -/
theorem mine_loop_some (e : List Nat) (D : Int) (t : Nat) (ht : t < 2 ^ 64) (fuel n a : Nat)
    (ha : a + (t - n) < 2 ^ 64) (r : MineResult) (h : mine_loop e D t fuel n a = some r) :
    (r.ret = 1 ∧ ∃ N, r.found_nonce = some N ∧ n ≤ N ∧ N < t ∧ Solves e D N ∧
        (∀ M, n ≤ M → M < N → Misses e D M) ∧ r.attempts = a + (N - n) + 1) ∨
    (r.ret = 0 ∧ r.found_nonce = none ∧ (∀ M, n ≤ M → M < t → Misses e D M) ∧
        r.attempts = a + (t - n)) := by
  induction fuel generalizing n a with
  | zero => simp [mine_loop] at h
  | succ fuel ih =>
    unfold mine_loop at h
    by_cases hn : n < t
    · rw [if_pos hn] at h
      cases hu : update_nonce_in_json e n with
      | none => rw [hu] at h; simp at h
      | some out =>
        rw [hu] at h
        simp only at h
        have ha1 : (a + 1) % 2 ^ 64 = a + 1 := Nat.mod_eq_of_lt (by omega)
        have hn1 : (n + 1) % 2 ^ 64 = n + 1 := Nat.mod_eq_of_lt (by omega)
        by_cases hge : (count_leading_zeros (sha256_hash out) : Int) ≥ D
        · rw [if_pos hge] at h
          cases h
          refine Or.inl ⟨rfl, n, rfl, Nat.le_refl _, hn, ⟨out, hu, hge⟩, ?_, ?_⟩
          · intro M h1 h2; omega
          · show (a + 1) % 2 ^ 64 = _
            rw [ha1]; omega
        · rw [if_neg hge, ha1, hn1] at h
          have hmiss : Misses e D n := ⟨out, hu, by omega⟩
          rcases ih (n + 1) (a + 1) (by omega) h with
            ⟨h1, N, hN, hle, hlt, hs, hm, hat⟩ | ⟨h0, hnone, hm, hat⟩
          · refine Or.inl ⟨h1, N, hN, by omega, hlt, hs, ?_, by omega⟩
            intro M hM1 hM2
            by_cases hMn : M = n
            · subst hMn; exact hmiss
            · exact hm M (by omega) hM2
          · refine Or.inr ⟨h0, hnone, ?_, by omega⟩
            intro M hM1 hM2
            by_cases hMn : M = n
            · subst hMn; exact hmiss
            · exact hm M (by omega) hM2
    · rw [if_neg hn] at h
      cases h
      refine Or.inr ⟨rfl, rfl, ?_, ?_⟩
      · intro M h1 h2; omega
      · show a = _
        omega

/-- The search loop has no result only where the serializer has none: with more fuel than
nonces left, the fuel is never used up. -/
theorem mine_loop_none (e : List Nat) (D : Int) (t : Nat) (ht : t < 2 ^ 64) (fuel n a : Nat)
    (hf : t - n < fuel) (h : mine_loop e D t fuel n a = none) :
    n < t ∧ ∀ N, update_nonce_in_json e N = none := by
  induction fuel generalizing n a with
  | zero => omega
  | succ fuel ih =>
    unfold mine_loop at h
    by_cases hn : n < t
    · rw [if_pos hn] at h
      cases hu : update_nonce_in_json e n with
      | none => exact ⟨hn, fun N => update_nonce_none_indep e n N hu⟩
      | some out =>
        rw [hu] at h
        simp only at h
        have hn1 : (n + 1) % 2 ^ 64 = n + 1 := Nat.mod_eq_of_lt (by omega)
        by_cases hge : (count_leading_zeros (sha256_hash out) : Int) ≥ D
        · rw [if_pos hge] at h; simp at h
        · rw [if_neg hge, hn1] at h
          exact ⟨hn, (ih (n + 1) _ (by omega) h).2⟩
    · rw [if_neg hn] at h; simp at h

theorem nip13_mine_range_some (e : List Nat) (D : Int) (s t : Nat) (ht : t < 2 ^ 64)
    (r : MineResult) (h : nip13_mine_range e D s t = some r) :
    (r.ret = 1 ∧ ∃ N, r.found_nonce = some N ∧ s ≤ N ∧ N < t ∧ Solves e D N ∧
        (∀ M, s ≤ M → M < N → Misses e D M) ∧ r.attempts = N - s + 1) ∨
    (r.ret = 0 ∧ r.found_nonce = none ∧ (∀ M, s ≤ M → M < t → Misses e D M) ∧
        r.attempts = t - s) := by
  have := mine_loop_some e D t ht _ s 0 (by omega) r h
  simpa using this

/-- C4: soundness of the single-threaded search. If `nip13_mine_range` returns 1 and stores
the nonce `N`, then `N` lies in `[start, end)` and the digest of the event serialized with
`N` has at least `D` leading zero bits. -/
theorem C4_mine_range_sound (e : List Nat) (D : Int) (s t : Nat) (ht : t < 2 ^ 64)
    (r : MineResult) (N : Nat) (h : nip13_mine_range e D s t = some r) (hret : r.ret = 1)
    (hN : r.found_nonce = some N) :
    s ≤ N ∧ N < t ∧ ∃ out, update_nonce_in_json e N = some out ∧
      (count_leading_zeros (sha256_hash out) : Int) ≥ D := by
  rcases nip13_mine_range_some e D s t ht r h with ⟨_, N', hN', h1, h2, hs, _, _⟩ | ⟨h0, _⟩
  · rw [hN] at hN'
    cases hN'
    exact ⟨h1, h2, hs⟩
  · omega

theorem C4_mine_range_sound_witness :
    10 < 2 ^ 64 ∧
    nip13_mine_range event_S1 1 0 10 = some { ret := 1, found_nonce := some 2, attempts := 3 } ∧
    (0 ≤ 2 ∧ 2 < 10 ∧ ∃ out, update_nonce_in_json event_S1 2 = some out ∧
      (count_leading_zeros (sha256_hash out) : Int) ≥ 1) :=
  have h : nip13_mine_range event_S1 1 0 10 =
      some { ret := 1, found_nonce := some 2, attempts := 3 } := by decide!
  ⟨by decide, h, C4_mine_range_sound event_S1 1 0 10 (by decide) _ 2 h rfl rfl⟩

/-- C5: completeness of the single-threaded search. For `start <= end`, `nip13_mine_range`
returns 0 exactly when every nonce of `[start, end)` serializes to a text whose digest has
fewer than `D` leading zero bits, and it then reports `end - start` attempts. Where the
serializer writes a result for the event, the search returns, with 0 or 1, and it returns 0
exactly when no nonce of the range is a solution. -/
theorem C5_mine_range_complete (e : List Nat) (D : Int) (s t : Nat) (_hst : s ≤ t)
    (ht : t < 2 ^ 64) :
    ((∃ r, nip13_mine_range e D s t = some r ∧ r.ret = 0) ↔
        ∀ N, s ≤ N → N < t → Misses e D N) ∧
    (∀ r, nip13_mine_range e D s t = some r → r.ret = 0 → r.attempts = t - s) ∧
    ((∃ out, update_nonce_in_json e s = some out) →
      ∃ r, nip13_mine_range e D s t = some r ∧ (r.ret = 0 ∨ r.ret = 1) ∧
        (r.ret = 0 ↔ ∀ N, s ≤ N → N < t → ¬ Solves e D N)) := by
  have key : ∀ r, nip13_mine_range e D s t = some r →
      (r.ret = 0 ↔ ∀ N, s ≤ N → N < t → Misses e D N) := by
    intro r hr
    rcases nip13_mine_range_some e D s t ht r hr with
      ⟨h1, N, _, hN1, hN2, hs, _, _⟩ | ⟨h0, _, hm, _⟩
    · constructor
      · intro h0; omega
      · intro hall; exact absurd hs (misses_not_solves (hall N hN1 hN2))
    · exact ⟨fun _ => hm, fun _ => h0⟩
  refine ⟨⟨?_, ?_⟩, ?_, ?_⟩
  · rintro ⟨r, hr, h0⟩
    exact (key r hr).mp h0
  · intro hall
    cases hr : nip13_mine_range e D s t with
    | none =>
      have hn := mine_loop_none e D t ht _ s 0 (by omega) hr
      obtain ⟨out, ho, _⟩ := hall s (Nat.le_refl _) hn.1
      rw [hn.2 s] at ho
      exact absurd ho (by simp)
    | some r => exact ⟨r, rfl, (key r hr).mpr hall⟩
  · intro r hr h0
    rcases nip13_mine_range_some e D s t ht r hr with ⟨h1, _⟩ | ⟨_, _, _, hat⟩
    · omega
    · exact hat
  · rintro ⟨out, ho⟩
    cases hr : nip13_mine_range e D s t with
    | none =>
      have hn := mine_loop_none e D t ht _ s 0 (by omega) hr
      rw [hn.2 s] at ho
      exact absurd ho (by simp)
    | some r =>
      refine ⟨r, rfl, ?_, ?_⟩
      · rcases nip13_mine_range_some e D s t ht r hr with ⟨h1, _⟩ | ⟨h0, _⟩
        · exact Or.inr h1
        · exact Or.inl h0
      · rw [key r hr]
        constructor
        · intro hall N h1 h2; exact misses_not_solves (hall N h1 h2)
        · intro hall N h1 h2
          obtain ⟨o, hN⟩ := update_nonce_some_indep e s N out ho
          rcases solves_or_misses (D := D) hN with hs | hm
          · exact absurd hs (hall N h1 h2)
          · exact hm

theorem C5_mine_range_complete_witness :
    5 ≤ 8 ∧ 8 < 2 ^ 64 ∧
    (((∃ r, nip13_mine_range event_S1 30 5 8 = some r ∧ r.ret = 0) ↔
        ∀ N, 5 ≤ N → N < 8 → Misses event_S1 30 N) ∧
    (∀ r, nip13_mine_range event_S1 30 5 8 = some r → r.ret = 0 → r.attempts = 8 - 5) ∧
    ((∃ out, update_nonce_in_json event_S1 5 = some out) →
      ∃ r, nip13_mine_range event_S1 30 5 8 = some r ∧ (r.ret = 0 ∨ r.ret = 1) ∧
        (r.ret = 0 ↔ ∀ N, 5 ≤ N → N < 8 → ¬ Solves event_S1 30 N))) :=
  ⟨by decide, by decide, C5_mine_range_complete event_S1 30 5 8 (by decide) (by decide)⟩

/-- C6: the single-threaded search returns the first solution. If `nip13_mine_range` returns
1 and stores the nonce `N`, then `N` is a solution in `[start, end)`, no solution of the
range is smaller than `N`, and the attempts reported are `N - start + 1`; the nonce and the
attempts are thereby fixed by the event, the difficulty and the range. -/
theorem C6_mine_range_first (e : List Nat) (D : Int) (s t : Nat) (ht : t < 2 ^ 64)
    (r : MineResult) (N : Nat) (h : nip13_mine_range e D s t = some r) (hret : r.ret = 1)
    (hN : r.found_nonce = some N) :
    (s ≤ N ∧ N < t ∧ Solves e D N) ∧
    (∀ M, s ≤ M → M < t → Solves e D M → N ≤ M) ∧
    r.attempts = N - s + 1 := by
  rcases nip13_mine_range_some e D s t ht r h with ⟨_, N', hN', h1, h2, hs, hm, hat⟩ | ⟨h0, _⟩
  · rw [hN] at hN'
    cases hN'
    refine ⟨⟨h1, h2, hs⟩, ?_, hat⟩
    intro M hM1 _ hsol
    by_contra hlt
    exact misses_not_solves (hm M hM1 (by omega)) hsol
  · omega

theorem C6_mine_range_first_witness :
    50 < 2 ^ 64 ∧
    nip13_mine_range event_S1 4 5 50 = some { ret := 1, found_nonce := some 7, attempts := 3 } ∧
    ((5 ≤ 7 ∧ 7 < 50 ∧ Solves event_S1 4 7) ∧
      (∀ M, 5 ≤ M → M < 50 → Solves event_S1 4 M → 7 ≤ M) ∧
      (3 : Nat) = 7 - 5 + 1) :=
  have h : nip13_mine_range event_S1 4 5 50 =
      some { ret := 1, found_nonce := some 7, attempts := 3 } := by decide!
  ⟨by decide, h, C6_mine_range_first event_S1 4 5 50 (by decide) _ 7 h rfl rfl⟩

theorem decimal_of_lt_ten (n : Nat) (h : n < 10) : decimal n = [48 + n] := by
  unfold decimal
  by_cases h0 : n = 0
  · subst h0; rfl
  · rw [if_neg h0, Nat.digits_of_lt 10 n h0 h]
    simp [Nat.add_comm]

theorem decimal_of_ge_ten (n : Nat) (h : ¬ n < 10) :
    decimal n = decimal (n / 10) ++ [48 + n % 10] := by
  unfold decimal
  have h0 : n ≠ 0 := by omega
  have h1 : n / 10 ≠ 0 := by omega
  rw [if_neg h0, if_neg h1, Nat.digits_def' (by decide) (by omega)]
  simp [Nat.add_comm]

theorem utoa_digits_eq (fuel n : Nat) (acc : List Nat) (h : n < 10 ^ (fuel + 1)) :
    utoa_digits (fuel + 1) n acc = decimal n ++ acc := by
  induction fuel generalizing n acc with
  | zero =>
    have h10 : n < 10 := by simpa using h
    rw [utoa_digits, if_pos h10, decimal_of_lt_ten n h10]
    rfl
  | succ fuel ih =>
    rw [utoa_digits]
    by_cases h10 : n < 10
    · rw [if_pos h10, decimal_of_lt_ten n h10]
      rfl
    · rw [if_neg h10, ih (n / 10) _ (by rw [pow_succ] at h; omega), decimal_of_ge_ten n h10]
      simp

/-- The digits written for `%llu` are the decimal numeral of the 64-bit value. -/
theorem fmt_llu_eq (n : Nat) (h : n < 2 ^ 64) : fmt_llu n = decimal n := by
  unfold fmt_llu
  rw [Nat.mod_eq_of_lt h, utoa_digits_eq 19 n [] (by omega), List.append_nil]

theorem rd_eq_head_drop (s : List Nat) (p : Nat) : rd s p = (s.drop p).headD 0 := by
  unfold rd
  rw [List.getD_eq_getElem?_getD]
  by_cases hp : p < s.length
  · rw [List.drop_eq_getElem_cons hp, List.getElem?_eq_getElem hp]; rfl
  · rw [List.drop_eq_nil_of_le (by omega), List.getElem?_eq_none (by omega)]; rfl

/-- A pointer scan stops at the first byte that fails the condition: it skips the longest
run of bytes that satisfy it. -/
theorem skip_while_eq (s : List Nat) (cond : Nat → Bool) (h0 : cond 0 = false)
    (fuel p : Nat) (hf : s.length - p < fuel) :
    skip_while s cond fuel p = p + ((s.drop p).takeWhile cond).length := by
  induction fuel generalizing p with
  | zero => omega
  | succ fuel ih =>
    rw [skip_while]
    by_cases hp : p < s.length
    · have hd : s.drop p = s[p] :: s.drop (p + 1) := List.drop_eq_getElem_cons hp
      have hr : rd s p = s[p] := by rw [rd_eq_head_drop, hd]; rfl
      rw [hr, hd, List.takeWhile_cons]
      by_cases hc : cond s[p] = true
      · rw [if_pos hc, if_pos hc, ih (p + 1) (by omega), List.length_cons]
        omega
      · rw [if_neg hc, if_neg hc]; rfl
    · have hr : rd s p = 0 := by
        rw [rd_eq_head_drop, List.drop_eq_nil_of_le (by omega)]; rfl
      rw [hr, h0, List.drop_eq_nil_of_le (by omega)]
      simp

theorem drop_length_takeWhile (cond : Nat → Bool) (l : List Nat) :
    l.drop (l.takeWhile cond).length = l.dropWhile cond := by
  induction l with
  | nil => rfl
  | cons x t ih =>
    rw [List.takeWhile_cons, List.dropWhile_cons]
    by_cases hc : cond x = true
    · rw [if_pos hc, if_pos hc, List.length_cons, List.drop_succ_cons, ih]
    · rw [if_neg hc, if_neg hc]; rfl

theorem drop_skip_while (s : List Nat) (cond : Nat → Bool) (h0 : cond 0 = false) (p : Nat) :
    s.drop (skip_while s cond (s.length + 1) p) = (s.drop p).dropWhile cond := by
  rw [skip_while_eq s cond h0 _ p (by omega), ← List.drop_drop,
    drop_length_takeWhile]

/-- The insertion path of `update_nonce_in_json`, in terms of the text before and after the
opening bracket of the tags array. -/
theorem update_nonce_insert_eq (e : List Nat) (N tp k : Nat) (hN : N < 2 ^ 64)
    (hn : strstr e (ascii "\"nonce\"") = none) (htags : strstr e (ascii "\"tags\"") = some tp)
    (hk : strchr e tp 91 = some k) :
    update_nonce_in_json e N =
      some (e.take (k + 1) ++ nonce_tag N ++
        (if ((e.drop (k + 1)).dropWhile is_blank).head? = some 93 then []
         else ascii ",") ++ (e.drop (k + 1)).dropWhile is_blank) := by
  unfold update_nonce_in_json
  simp only [hn, htags, hk]
  have hb : (fun c : Nat => c == 32 || c == 9 || c == 10) = is_blank := rfl
  rw [hb, rd_eq_head_drop, drop_skip_while e is_blank rfl]
  have htag : strcat (strcat (strcat (strncpy e (k + 1)) (ascii "[\"nonce\",")) (nonce_str N))
      (ascii "]") = e.take (k + 1) ++ nonce_tag N := by
    unfold strcat strncpy nonce_str nonce_tag
    rw [fmt_llu_eq N hN]
    have h1 : ascii "[\"nonce\",\"" = ascii "[\"nonce\"," ++ ascii "\"" := by decide
    have h2 : ascii "\"]" = ascii "\"" ++ ascii "]" := by decide
    rw [h1, h2]
    simp only [List.append_assoc]
  rw [htag]
  cases hrest : (e.drop (k + 1)).dropWhile is_blank with
  | nil => simp [strcat]
  | cons x rest =>
    by_cases hx : x = 93
    · subst hx; simp [strcat]
    · simp [strcat, hx]

theorem find_byte_some (c : Nat) (l : List Nat) (i : Nat) (h : find_byte c l = some i) :
    l.take (i + 1) = l.take i ++ [c] := by
  induction l generalizing i with
  | nil => simp [find_byte] at h
  | cons x t ih =>
    rw [find_byte] at h
    by_cases hx : x = c
    · rw [if_pos hx] at h
      cases h
      simp [hx]
    · rw [if_neg hx] at h
      cases hf : find_byte c t with
      | none => rw [hf] at h; simp at h
      | some j =>
        rw [hf] at h
        simp only [Option.map_some', Option.some.injEq] at h
        subst h
        rw [List.take_succ_cons, List.take_succ_cons, ih j hf]
        rfl

/-- The offset `strchr` returns is at or after the start, and the byte there is `c`. -/
theorem strchr_some (s : List Nat) (p c k : Nat) (h : strchr s p c = some k) :
    p ≤ k ∧ s.take (k + 1) = s.take k ++ [c] := by
  unfold strchr at h
  cases hf : find_byte c (s.drop p) with
  | none => rw [hf] at h; simp at h
  | some i =>
    rw [hf] at h
    simp only [Option.map_some', Option.some.injEq] at h
    subst h
    refine ⟨by omega, ?_⟩
    have h1 := find_byte_some c (s.drop p) i hf
    have e1 : s.take (p + (i + 1)) = s.take p ++ (s.drop p).take (i + 1) := List.take_add ..
    have e2 : s.take (p + i) = s.take p ++ (s.drop p).take i := List.take_add ..
    rw [show i + p + 1 = p + (i + 1) by omega, show i + p = p + i by omega, e1, e2, h1,
      List.append_assoc]

theorem dropWhile_blanks (cond : Nat → Bool) (blanks rest : List Nat)
    (hb : ∀ c ∈ blanks, cond c = true) (hr : ∀ x ∈ rest.head?, cond x = false) :
    (blanks ++ rest).dropWhile cond = rest := by
  induction blanks with
  | nil =>
    cases rest with
    | nil => rfl
    | cons x t =>
      have := hr x (by simp)
      simp [List.dropWhile_cons, this]
  | cons b t ih =>
    rw [List.cons_append, List.dropWhile_cons, if_pos (hb b (List.mem_cons_self _ _))]
    exact ih fun c hc => hb c (List.mem_cons_of_mem _ hc)

/-- C8, at the failing inputs: for the S3 event no `:` follows the `"nonce"` token, so
`update_nonce_in_json` writes no result at all; and where a `:` follows later, as in
`{"tags":[["nonce","0"]],"content":"hi"}`, the value after that `:` is replaced and the
nonce tag is left as it was. -/
theorem C8_update_nonce_replace_at_failing_input :
    update_nonce_in_json event_S3 7 = none ∧
    update_nonce_in_json event_nonce_then_content 7 =
      some (ascii "\x7b\"tags\":[[\"nonce\",\"0\"]],\"content\":\"7\"\x7d") := by
  decide

/-- C9, as stated, fails: for the event `{"tags":[ ]}` (no `"nonce"` token, `"tags"` at
offset 1, `[` at offset 8) and the nonce 5, the result `{"tags":[["nonce","5"]]}` is
neither `e[0..9) ++ tag ++ e[9..)` nor `e[0..9) ++ tag ++ "," ++ e[9..)`: the space that
follows the `[` is dropped. -/
theorem C9_update_nonce_frame_counterexample :
    strstr event_blank_tags (ascii "\"nonce\"") = none ∧
    strstr event_blank_tags (ascii "\"tags\"") = some 1 ∧
    strchr event_blank_tags 1 91 = some 8 ∧
    update_nonce_in_json event_blank_tags 5 = some (ascii "\x7b\"tags\":[[\"nonce\",\"5\"]]\x7d") ∧
    update_nonce_in_json event_blank_tags 5 ≠
      some (event_blank_tags.take 9 ++ ascii "[\"nonce\",\"5\"]" ++ event_blank_tags.drop 9) ∧
    update_nonce_in_json event_blank_tags 5 ≠
      some (event_blank_tags.take 9 ++ ascii "[\"nonce\",\"5\"]," ++ event_blank_tags.drop 9) := by
  decide

/-- C9, amended: in the insertion case, with the `[` at offset `k`, the text after the `[`
splits into a run of blanks (spaces, tabs, newlines) and a rest that does not start with a
blank, and the result is `e[0..k] ++ ins ++ rest` with `ins` the tag `["nonce","N"]` or the
tag and a comma: the bytes up to the `[` and the bytes of the rest are copied unchanged, and
the run of blanks is dropped. With no blank after the `[`, the result is
`e[0..k] ++ ins ++ e[k+1..)`. -/
theorem C9_update_nonce_frame (e : List Nat) (N tp k : Nat) (hN : N < 2 ^ 64)
    (hn : strstr e (ascii "\"nonce\"") = none) (htags : strstr e (ascii "\"tags\"") = some tp)
    (hk : strchr e tp 91 = some k) :
    ∃ blanks rest ins, e.drop (k + 1) = blanks ++ rest ∧
      (∀ c ∈ blanks, is_blank c = true) ∧ (∀ x ∈ rest.head?, is_blank x = false) ∧
      (ins = nonce_tag N ∨ ins = nonce_tag N ++ ascii ",") ∧
      update_nonce_in_json e N = some (e.take (k + 1) ++ ins ++ rest) ∧
      (blanks = [] → update_nonce_in_json e N = some (e.take (k + 1) ++ ins ++ e.drop (k + 1))) := by
  have key := update_nonce_insert_eq e N tp k hN hn htags hk
  refine ⟨(e.drop (k + 1)).takeWhile is_blank, (e.drop (k + 1)).dropWhile is_blank,
    nonce_tag N ++ (if ((e.drop (k + 1)).dropWhile is_blank).head? = some 93 then []
         else ascii ","), (List.takeWhile_append_dropWhile _ _).symm, ?_, ?_, ?_, ?_, ?_⟩
  · intro c hc
    exact List.mem_takeWhile_imp hc
  · intro x hx
    cases hd : (e.drop (k + 1)).dropWhile is_blank with
    | nil => rw [hd] at hx; simp at hx
    | cons y t =>
      rw [hd] at hx
      simp only [List.head?_cons, Option.mem_def, Option.some.injEq] at hx
      subst hx
      have := List.head_dropWhile_not is_blank (e.drop (k + 1)) (by rw [hd]; simp)
      simpa [hd] using this
  · split
    · left; simp
    · right; rfl
  · rw [key]; simp only [List.append_assoc]
  · intro hnil
    have : (e.drop (k + 1)).dropWhile is_blank = e.drop (k + 1) := by
      conv_rhs => rw [← List.takeWhile_append_dropWhile is_blank (e.drop (k + 1)), hnil]
      rfl
    rw [key, this]; simp only [List.append_assoc]

theorem C9_update_nonce_frame_witness :
    (5 < 2 ^ 64 ∧ strstr event_blank_tags (ascii "\"nonce\"") = none ∧
      strstr event_blank_tags (ascii "\"tags\"") = some 1 ∧
      strchr event_blank_tags 1 91 = some 8) ∧
    ∃ blanks rest ins, event_blank_tags.drop (8 + 1) = blanks ++ rest ∧
      (∀ c ∈ blanks, is_blank c = true) ∧ (∀ x ∈ rest.head?, is_blank x = false) ∧
      (ins = nonce_tag 5 ∨ ins = nonce_tag 5 ++ ascii ",") ∧
      update_nonce_in_json event_blank_tags 5 = some (event_blank_tags.take (8 + 1) ++ ins ++ rest) ∧
      (blanks = [] → update_nonce_in_json event_blank_tags 5 =
        some (event_blank_tags.take (8 + 1) ++ ins ++ event_blank_tags.drop (8 + 1))) :=
  ⟨⟨by decide, by decide, by decide, by decide⟩,
    C9_update_nonce_frame event_blank_tags 5 1 8 (by decide) (by decide) (by decide)
      (by decide)⟩

/-! ## Lemmas: the partition -/

theorem mul_div_le_of_le (W size i : Nat) (hi : i ≤ W) : i * (size / W) ≤ size :=
  Nat.le_trans (Nat.mul_le_mul_right _ hi) (Nat.mul_div_le size W)

/-- The bounds of worker `i` without the reductions modulo `2^64`: no step overflows. -/
theorem range_parallel_bounds_eq (W s t i : Nat) (hst : s ≤ t)
    (ht : t < 2 ^ 64) (hi : i < W) :
    range_parallel_bounds W s t i =
      (s + i * ((t - s) / W),
       s + (i + 1) * ((t - s) / W) + if i = W - 1 then (t - s) % W else 0) := by
  have hsize : (t + 2 ^ 64 - s) % 2 ^ 64 = t - s := by omega
  have h1 := mul_div_le_of_le W (t - s) i (by omega)
  have h2 := mul_div_le_of_le W (t - s) (i + 1) (by omega)
  have hW := Nat.div_add_mod (t - s) W
  unfold range_parallel_bounds
  simp only [hsize]
  have e1 : i * ((t - s) / W) % 2 ^ 64 = i * ((t - s) / W) := Nat.mod_eq_of_lt (by omega)
  have e2 : (i + 1) * ((t - s) / W) % 2 ^ 64 = (i + 1) * ((t - s) / W) :=
    Nat.mod_eq_of_lt (by omega)
  have e3 : (s + i * ((t - s) / W)) % 2 ^ 64 = s + i * ((t - s) / W) :=
    Nat.mod_eq_of_lt (by omega)
  have e4 : (s + (i + 1) * ((t - s) / W)) % 2 ^ 64 = s + (i + 1) * ((t - s) / W) :=
    Nat.mod_eq_of_lt (by omega)
  rw [e1, e2, e3, e4]
  by_cases hl : i = W - 1
  · rw [if_pos hl, if_pos hl]
    have hWi : W = i + 1 := by omega
    have : s + (i + 1) * ((t - s) / W) + (t - s) % W = t := by
      rw [← hWi]; omega
    rw [this, Nat.mod_eq_of_lt ht]
  · rw [if_neg hl, if_neg hl]; rfl

theorem parallel_bounds_eq (W m i : Nat) (hm : m < 2 ^ 64) :
    parallel_bounds W m i = range_parallel_bounds W 0 m i := by
  unfold parallel_bounds range_parallel_bounds
  have hsize : (m + 2 ^ 64 - 0) % 2 ^ 64 = m := by omega
  simp only [hsize, Nat.zero_add, Nat.mod_mod]

/-- The subranges in closed form: with `q` the quotient and `r` the remainder of the range
size by the worker count, worker `i` gets `[s + i*q, s + (i+1)*q)`, the last one `r` more. -/
theorem range_parallel_bounds_closed (W s t : Nat) (hst : s ≤ t) (ht : t < 2 ^ 64) :
    ∃ q r, q = (t - s) / W ∧ r = (t - s) % W ∧ W * q + r = t - s ∧
      ∀ i, i < W → range_parallel_bounds W s t i =
        (s + i * q, s + (i + 1) * q + if i = W - 1 then r else 0) :=
  ⟨_, _, rfl, rfl, Nat.div_add_mod (t - s) W,
    fun i hi => range_parallel_bounds_eq W s t i hst ht hi⟩

theorem partition_chain (W s t : Nat) (hW : 1 ≤ W) (hst : s ≤ t) (ht : t < 2 ^ 64) :
    (range_parallel_bounds W s t 0).1 = s ∧
    (∀ i, i + 1 < W →
      (range_parallel_bounds W s t i).2 = (range_parallel_bounds W s t (i + 1)).1) ∧
    (range_parallel_bounds W s t (W - 1)).2 = t ∧
    (∀ i, i < W → (range_parallel_bounds W s t i).1 ≤ (range_parallel_bounds W s t i).2) := by
  obtain ⟨q, r, _, _, hdm, hb⟩ := range_parallel_bounds_closed W s t hst ht
  refine ⟨?_, ?_, ?_, ?_⟩
  · rw [hb 0 (by omega)]
    simp
  · intro i hi
    rw [hb i (by omega), hb (i + 1) hi]
    have : i ≠ W - 1 := by omega
    simp [this]
  · rw [hb (W - 1) (by omega)]
    have : W - 1 + 1 = W := by omega
    simp only [if_true, this]
    omega
  · intro i hi
    rw [hb i hi]
    show s + i * q ≤ s + (i + 1) * q + _
    rw [Nat.add_mul]
    omega

theorem partition_cover (W s t : Nat) (hW : 1 ≤ W) (hst : s ≤ t) (ht : t < 2 ^ 64) (n : Nat) :
    (s ≤ n ∧ n < t) ↔
      ∃ i, i < W ∧ (range_parallel_bounds W s t i).1 ≤ n ∧
        n < (range_parallel_bounds W s t i).2 := by
  obtain ⟨q, r, _, _, hdm, hb⟩ := range_parallel_bounds_closed W s t hst ht
  constructor
  · rintro ⟨h1, h2⟩
    by_cases hlast : s + (W - 1) * q ≤ n
    · refine ⟨W - 1, by omega, ?_⟩
      rw [hb (W - 1) (by omega)]
      have hWW : W - 1 + 1 = W := by omega
      simp only [if_true, hWW]
      exact ⟨hlast, by omega⟩
    · rcases Nat.eq_zero_or_pos q with h0 | hq
      · subst h0
        simp at hlast
        omega
      · obtain ⟨k, m, hk, hm⟩ : ∃ k m, n - s = k * q + m ∧ m < q :=
          ⟨(n - s) / q, (n - s) % q, by rw [Nat.mul_comm]; exact (Nat.div_add_mod _ _).symm,
            Nat.mod_lt _ hq⟩
        have hkW : k < W - 1 := by
          by_contra hge
          have : (W - 1) * q ≤ k * q := Nat.mul_le_mul_right _ (by omega)
          omega
        refine ⟨k, by omega, ?_⟩
        rw [hb k (by omega)]
        have hne : k ≠ W - 1 := by omega
        simp only [if_neg hne, Nat.add_zero]
        rw [Nat.add_mul, Nat.one_mul]
        constructor <;> omega
  · rintro ⟨i, hi, h1, h2⟩
    rw [hb i hi] at h1 h2
    simp only at h1 h2
    have hle : (i + 1) * q ≤ W * q := Nat.mul_le_mul_right _ (by omega)
    refine ⟨by omega, ?_⟩
    by_cases hl : i = W - 1
    · rw [if_pos hl] at h2
      have hWi : i + 1 = W := by omega
      rw [hWi] at h2
      omega
    · rw [if_neg hl] at h2
      omega

theorem partition_disjoint (W s t : Nat) (hst : s ≤ t) (ht : t < 2 ^ 64)
    (i j n : Nat) (hi : i < W) (hj : j < W)
    (hin : (range_parallel_bounds W s t i).1 ≤ n ∧ n < (range_parallel_bounds W s t i).2)
    (hjn : (range_parallel_bounds W s t j).1 ≤ n ∧ n < (range_parallel_bounds W s t j).2) :
    i = j := by
  obtain ⟨q, r, _, _, hdm, hb⟩ := range_parallel_bounds_closed W s t hst ht
  rw [hb i hi] at hin
  rw [hb j hj] at hjn
  simp only at hin hjn
  by_contra hne
  rcases Nat.lt_or_gt_of_ne hne with hlt | hgt
  · have hl : i ≠ W - 1 := by omega
    rw [if_neg hl] at hin
    have : (i + 1) * q ≤ j * q := Nat.mul_le_mul_right _ (by omega)
    omega
  · have hl : j ≠ W - 1 := by omega
    rw [if_neg hl] at hjn
    have : (j + 1) * q ≤ i * q := Nat.mul_le_mul_right _ (by omega)
    omega

/-- C10: the partition invariant. For `W >= 1` workers and a range `start <= end`, the
subranges `[start_i, end_i)` that `nip13_mine_range_parallel` assigns are chained
(`start_0 = start`, `end_i = start_(i+1)`, `end_(W-1) = end`), their union is exactly
`[start, end)`, they are pairwise disjoint, and no bound overflows 64 bits: each bound has
its unreduced value `start + i*q` (plus the remainder for the last worker) and is at most
`end`. The bounds `nip13_mine_parallel` assigns are those of the range `[0, max_iterations)`. -/
theorem C10_partition_invariant (W s t : Nat) (hW : 1 ≤ W) (hst : s ≤ t) (ht : t < 2 ^ 64) :
    ((range_parallel_bounds W s t 0).1 = s ∧
      (∀ i, i + 1 < W →
        (range_parallel_bounds W s t i).2 = (range_parallel_bounds W s t (i + 1)).1) ∧
      (range_parallel_bounds W s t (W - 1)).2 = t) ∧
    (∀ n, (s ≤ n ∧ n < t) ↔
      ∃ i, i < W ∧ (range_parallel_bounds W s t i).1 ≤ n ∧
        n < (range_parallel_bounds W s t i).2) ∧
    (∀ i j n, i < W → j < W →
      ((range_parallel_bounds W s t i).1 ≤ n ∧ n < (range_parallel_bounds W s t i).2) →
      ((range_parallel_bounds W s t j).1 ≤ n ∧ n < (range_parallel_bounds W s t j).2) →
      i = j) ∧
    (∀ i, i < W →
      (range_parallel_bounds W s t i).1 = s + i * ((t - s) / W) ∧
      (range_parallel_bounds W s t i).2 =
        s + (i + 1) * ((t - s) / W) + (if i = W - 1 then (t - s) % W else 0) ∧
      (range_parallel_bounds W s t i).1 ≤ (range_parallel_bounds W s t i).2 ∧
      (range_parallel_bounds W s t i).2 ≤ t) ∧
    (∀ i, parallel_bounds W t i = range_parallel_bounds W 0 t i) := by
  have hc := partition_chain W s t hW hst ht
  refine ⟨⟨hc.1, hc.2.1, hc.2.2.1⟩, partition_cover W s t hW hst ht,
    fun i j n hi hj => partition_disjoint W s t hst ht i j n hi hj, ?_,
    fun i => parallel_bounds_eq W t i ht⟩
  intro i hi
  have he := range_parallel_bounds_eq W s t i hst ht hi
  refine ⟨by rw [he], by rw [he], hc.2.2.2 i hi, ?_⟩
  by_cases hl : i = W - 1
  · rw [hl, hc.2.2.1]
  · have hn := hc.2.1 i (by omega)
    have hcov := (partition_cover W s t hW hst ht (range_parallel_bounds W s t (i + 1)).1)
    by_contra hgt
    have hlt : t < (range_parallel_bounds W s t (i + 1)).1 := by omega
    have h1 := hc.2.2.2 (i + 1) (by omega)
    rw [range_parallel_bounds_eq W s t (i + 1) hst ht (by omega)] at hlt
    have hb := mul_div_le_of_le W (t - s) (i + 1) (by omega)
    simp only at hlt
    omega

theorem C10_partition_invariant_witness :
    (1 ≤ 4 ∧ 0 ≤ 10 ∧ 10 < 2 ^ 64) ∧
    (((range_parallel_bounds 4 0 10 0).1 = 0 ∧
      (∀ i, i + 1 < 4 →
        (range_parallel_bounds 4 0 10 i).2 = (range_parallel_bounds 4 0 10 (i + 1)).1) ∧
      (range_parallel_bounds 4 0 10 (4 - 1)).2 = 10) ∧
    (∀ n, (0 ≤ n ∧ n < 10) ↔
      ∃ i, i < 4 ∧ (range_parallel_bounds 4 0 10 i).1 ≤ n ∧
        n < (range_parallel_bounds 4 0 10 i).2) ∧
    (∀ i j n, i < 4 → j < 4 →
      ((range_parallel_bounds 4 0 10 i).1 ≤ n ∧ n < (range_parallel_bounds 4 0 10 i).2) →
      ((range_parallel_bounds 4 0 10 j).1 ≤ n ∧ n < (range_parallel_bounds 4 0 10 j).2) →
      i = j) ∧
    (∀ i, i < 4 →
      (range_parallel_bounds 4 0 10 i).1 = 0 + i * ((10 - 0) / 4) ∧
      (range_parallel_bounds 4 0 10 i).2 =
        0 + (i + 1) * ((10 - 0) / 4) + (if i = 4 - 1 then (10 - 0) % 4 else 0) ∧
      (range_parallel_bounds 4 0 10 i).1 ≤ (range_parallel_bounds 4 0 10 i).2 ∧
      (range_parallel_bounds 4 0 10 i).2 ≤ 10) ∧
    (∀ i, parallel_bounds 4 10 i = range_parallel_bounds 4 0 10 i)) :=
  ⟨⟨by decide, by decide, by decide⟩,
    C10_partition_invariant 4 0 10 (by decide) (by decide) (by decide)⟩

/-! ## Lemmas: incremental hashing -/

theorem absorbed_foldl (chunks : List (List Nat)) (ctx : sha256_ctx_t) (P t : List Nat)
    (h : Absorbed ctx P t) (ht : IsBytes t) (hc : ∀ c ∈ chunks, IsBytes c) :
    ∃ P' t', Absorbed (chunks.foldl sha256_update ctx) P' t' ∧ IsBytes t' ∧
      P' ++ t' = P ++ t ++ chunks.flatten := by
  induction chunks generalizing ctx P t with
  | nil => exact ⟨P, t, h, ht, by simp⟩
  | cons d rest ih =>
    have hd : IsBytes d := hc d (List.mem_cons_self _ _)
    have h1 := sha256_update_absorbed d h ht hd
    have ht1 : IsBytes ((t ++ d).drop ((t.length + d.length) / 64 * 64)) :=
      isBytes_drop (isBytes_append ht hd) _
    obtain ⟨P', t', h2, ht2, he⟩ := ih _ _ _ h1 ht1 (fun c hc' => hc c (List.mem_cons_of_mem _ hc'))
    refine ⟨P', t', h2, ht2, ?_⟩
    rw [he, List.append_assoc P, List.take_append_drop]
    simp [List.append_assoc]

theorem absorbed_unique {ctx ctx' : sha256_ctx_t} {P t P' t' : List Nat}
    (h : Absorbed ctx P t) (h' : Absorbed ctx' P' t') (he : P ++ t = P' ++ t') :
    P = P' ∧ t = t' := by
  have h1 := h.aligned
  have h2 := h.short
  have h3 := h'.aligned
  have h4 := h'.short
  have hl : P.length + t.length = P'.length + t'.length := by
    have := congrArg List.length he
    simpa using this
  have hP : P.length = P'.length := by omega
  exact List.append_inj he hP

/-- Two contexts that have taken in the same stream give the same digest. -/
theorem sha256_final_congr {ctx ctx' : sha256_ctx_t} {P t : List Nat} (h : Absorbed ctx P t)
    (h' : Absorbed ctx' P t) (ht : IsBytes t) : sha256_final ctx = sha256_final ctx' := by
  have hc : ctx.count = ctx'.count := by rw [h.count_eq, h'.count_eq]
  unfold sha256_final
  simp only [hc]
  have hp : IsBytes (List.take (if ctx'.count % 64 < 56 then 56 - ctx'.count % 64
      else 120 - ctx'.count % 64) (0x80 :: List.replicate 63 0)) :=
    isBytes_take (isBytes_padding 63) _
  have h1 := sha256_update_absorbed _ h ht hp
  have h1' := sha256_update_absorbed _ h' ht hp
  have ht1 := isBytes_drop (isBytes_append ht hp)
  have h2 := sha256_update_absorbed (len_bytes (ctx'.count * 8 % 2 ^ 64)) h1 (ht1 _)
    (isBytes_len_bytes _)
  have h2' := sha256_update_absorbed (len_bytes (ctx'.count * 8 % 2 ^ 64)) h1' (ht1 _)
    (isBytes_len_bytes _)
  rw [h2.state_eq, h2'.state_eq]

/-- C13: incremental hashing equals one-shot hashing. For every way of cutting a byte
sequence into consecutive chunks (of any sizes, empty ones included), `sha256_init`, one
`sha256_update` per chunk and `sha256_final` give the digest that `sha256_hash` gives for
the whole sequence, whatever the context holds before `sha256_init`. -/
theorem C13_incremental_eq_oneshot (stack : sha256_ctx_t) (chunks : List (List Nat))
    (hbuf : stack.buffer.length = 64) (hb : ∀ c ∈ chunks, IsBytes c) :
    sha256_chunks stack chunks = sha256_hash chunks.flatten := by
  have hnil : IsBytes ([] : List Nat) := fun _ h => absurd h (List.not_mem_nil _)
  obtain ⟨P, t, h1, ht, he⟩ :=
    absorbed_foldl chunks _ [] [] (sha256_init_absorbed stack hbuf) hnil hb
  have hm : IsBytes chunks.flatten := by
    intro b hb'
    obtain ⟨c, hc, hbc⟩ := List.mem_flatten.mp hb'
    exact hb c hc b hbc
  obtain ⟨P', t', h2, ht', he'⟩ :=
    absorbed_foldl [chunks.flatten] _ [] []
      (sha256_init_absorbed
        { state := List.replicate 8 0, count := 0, buffer := List.replicate 64 0 } rfl)
      hnil (fun c hc => by rw [List.mem_singleton.mp hc]; exact hm)
  have heq : P ++ t = P' ++ t' := by rw [he, he']; simp
  obtain ⟨hP, hT⟩ := absorbed_unique h1 h2 heq
  subst hP hT
  exact sha256_final_congr h1 h2 ht

theorem C13_incremental_eq_oneshot_witness :
    (({ state := [], count := 7, buffer := List.replicate 64 0xee } : sha256_ctx_t).buffer.length
        = 64 ∧
      ∀ c ∈ [[0x61], [], [0x62, 0x63]], IsBytes c) ∧
    sha256_chunks { state := [], count := 7, buffer := List.replicate 64 0xee }
      [[0x61], [], [0x62, 0x63]] = sha256_hash [[0x61], [], [0x62, 0x63]].flatten :=
  ⟨⟨by decide, by decide⟩,
    C13_incremental_eq_oneshot _ [[0x61], [], [0x62, 0x63]] (by decide) (by decide)⟩

/-- C14: for each `i` in `0..256`, `count_leading_zeros` of the 32-byte big-endian encoding
of `2^(256-i) - 1` (`i` zero bits, then ones; all zero for `i = 256`) is exactly `i`. The
encoding is the 32-byte list whose big-endian value is that integer. -/
theorem C14_count_leading_zeros_synthetic : ∀ i, i < 257 →
    count_leading_zeros (be_encode 32 (2 ^ (256 - i) - 1)) = i ∧
    (be_encode 32 (2 ^ (256 - i) - 1)).length = 32 ∧
    be_value (be_encode 32 (2 ^ (256 - i) - 1)) = 2 ^ (256 - i) - 1 := by
  decide!

theorem C14_count_leading_zeros_synthetic_witness :
    9 < 257 ∧
    (count_leading_zeros (be_encode 32 (2 ^ (256 - 9) - 1)) = 9 ∧
    (be_encode 32 (2 ^ (256 - 9) - 1)).length = 32 ∧
    be_value (be_encode 32 (2 ^ (256 - 9) - 1)) = 2 ^ (256 - 9) - 1) :=
  ⟨by decide, C14_count_leading_zeros_synthetic 9 (by decide)⟩

/-! ## Lemmas: the replacement paths of the serializers -/

theorem take_length_takeWhile (cond : Nat → Bool) (l : List Nat) :
    l.take (l.takeWhile cond).length = l.takeWhile cond := by
  induction l with
  | nil => rfl
  | cons x t ih =>
    rw [List.takeWhile_cons]
    by_cases hc : cond x = true
    · rw [if_pos hc, List.length_cons, List.take_succ_cons, ih]
    · rw [if_neg hc]; rfl

theorem take_skip_while (s : List Nat) (cond : Nat → Bool) (h0 : cond 0 = false) (p : Nat) :
    s.take (skip_while s cond (s.length + 1) p) = s.take p ++ (s.drop p).takeWhile cond := by
  rw [skip_while_eq s cond h0 _ p (by omega)]
  have := List.take_add s p ((s.drop p).takeWhile cond).length
  rw [this, take_length_takeWhile]

theorem rd_skip_while (s : List Nat) (cond : Nat → Bool) (h0 : cond 0 = false) (p : Nat) :
    rd s (skip_while s cond (s.length + 1) p) = ((s.drop p).dropWhile cond).headD 0 := by
  rw [rd_eq_head_drop, drop_skip_while s cond h0]

theorem drop_succ_skip_while (s : List Nat) (cond : Nat → Bool) (h0 : cond 0 = false)
    (p n : Nat) :
    s.drop (skip_while s cond (s.length + 1) p + n) = ((s.drop p).dropWhile cond).drop n := by
  rw [← drop_skip_while s cond h0, List.drop_drop]

theorem nonce_str_eq (N : Nat) (hN : N < 2 ^ 64) : nonce_str N = quoted_decimal N := by
  unfold nonce_str quoted_decimal
  rw [fmt_llu_eq N hN]

/-- The replacement path of `update_nonce_in_json`, in terms of the text after the `:`. -/
theorem update_nonce_replace_eq (e : List Nat) (N np c : Nat) (hN : N < 2 ^ 64)
    (hnp : strstr e (ascii "\"nonce\"") = some np) (hc : strchr e np 58 = some c) :
    update_nonce_in_json e N =
      if ((e.drop (c + 1)).dropWhile is_space_tab).headD 0 = 34 then
        match find_byte 34 (((e.drop (c + 1)).dropWhile is_space_tab).drop 1) with
        | some q =>
          some (e.take (c + 1) ++ (e.drop (c + 1)).takeWhile is_space_tab ++ quoted_decimal N ++
            (((e.drop (c + 1)).dropWhile is_space_tab).drop 1).drop (q + 1))
        | none => none
      else
        some (e.take (c + 1) ++ (e.drop (c + 1)).takeWhile is_space_tab ++ quoted_decimal N ++
          ((e.drop (c + 1)).dropWhile is_space_tab).dropWhile is_value_byte) := by
  unfold update_nonce_in_json
  simp only [hnp, hc]
  have hb : (fun c : Nat => c == 32 || c == 9) = is_space_tab := rfl
  have hv : (fun c : Nat => c != 0 && c != 44 && c != 93 && c != 125) = is_value_byte := rfl
  rw [hb, hv, rd_skip_while e is_space_tab rfl]
  have hpre : strncpy e (skip_while e is_space_tab (e.length + 1) (c + 1)) =
      e.take (c + 1) ++ (e.drop (c + 1)).takeWhile is_space_tab :=
    take_skip_while e is_space_tab rfl (c + 1)
  rw [hpre, nonce_str_eq N hN]
  by_cases hq : ((e.drop (c + 1)).dropWhile is_space_tab).headD 0 = 34
  · rw [if_pos hq, if_pos hq]
    unfold strchr
    rw [drop_succ_skip_while e is_space_tab rfl]
    cases hf : find_byte 34 (((e.drop (c + 1)).dropWhile is_space_tab).drop 1) with
    | none => rfl
    | some q =>
      simp only [Option.map_some', strcat]
      rw [show q + (skip_while e is_space_tab (e.length + 1) (c + 1) + 1) + 1 =
        skip_while e is_space_tab (e.length + 1) (c + 1) + (1 + (q + 1)) by omega,
        drop_succ_skip_while e is_space_tab rfl]
      have hdd : ∀ X : List Nat, X.drop (1 + (q + 1)) = (X.drop 1).drop (q + 1) :=
        fun X => by rw [List.drop_drop]
      rw [hdd]
  · rw [if_neg hq, if_neg hq]
    simp only [strcat]
    rw [drop_skip_while e is_value_byte rfl, drop_skip_while e is_space_tab rfl]

theorem headD_eq_iff_head? (l : List Nat) (x : Nat) (hx : x ≠ 0) :
    l.headD 0 = x ↔ l.head? = some x := by
  cases l with
  | nil => simp [hx.symm]
  | cons a t => simp

/-- The replacement of an existing nonce value, where the code writes a result. For an event
text whose first `"nonce"` token is followed by a `:` (the next one, at offset `c`) and a
64-bit `N`, the result is `prefix ++ "<decimal N>" ++ suffix`: the prefix is the text up to
and including the `:` and the spaces and tabs after it; when the value starts with `"` and
another `"` follows, the suffix starts after that `"`; when the value does not start with
`"`, the suffix starts at the first `,`, `]` or `}` (or is empty when there is none). -/
theorem update_nonce_replaces_value (e : List Nat) (N np c : Nat) (hN : N < 2 ^ 64)
    (hnp : strstr e (ascii "\"nonce\"") = some np) (hc : strchr e np 58 = some c) :
    (np ≤ c ∧ e.take (c + 1) = e.take c ++ ascii ":") ∧
    (∀ v q, (e.drop (c + 1)).dropWhile is_space_tab = 34 :: v → find_byte 34 v = some q →
      update_nonce_in_json e N =
        some (e.take (c + 1) ++ (e.drop (c + 1)).takeWhile is_space_tab ++ quoted_decimal N ++
          v.drop (q + 1))) ∧
    (((e.drop (c + 1)).dropWhile is_space_tab).head? ≠ some 34 →
      update_nonce_in_json e N =
        some (e.take (c + 1) ++ (e.drop (c + 1)).takeWhile is_space_tab ++ quoted_decimal N ++
          ((e.drop (c + 1)).dropWhile is_space_tab).dropWhile is_value_byte)) := by
  have key := update_nonce_replace_eq e N np c hN hnp hc
  refine ⟨strchr_some e np 58 c hc, ?_, ?_⟩
  · intro v q hv hq
    rw [key, hv]
    simp [hq]
  · intro hne
    rw [key, if_neg]
    rwa [headD_eq_iff_head? _ 34 (by decide)]

/-- The replacement at the event `{"nonce": "0","tags":[]}`, for the nonce 7. -/
theorem update_nonce_replaces_value_at_nonce_field :
    (7 < 2 ^ 64 ∧ strstr event_nonce_field (ascii "\"nonce\"") = some 1 ∧
      strchr event_nonce_field 1 58 = some 8) ∧
    ((1 ≤ 8 ∧ event_nonce_field.take (8 + 1) = event_nonce_field.take 8 ++ ascii ":") ∧
    (∀ v q, (event_nonce_field.drop (8 + 1)).dropWhile is_space_tab = 34 :: v →
      find_byte 34 v = some q →
      update_nonce_in_json event_nonce_field 7 =
        some (event_nonce_field.take (8 + 1) ++
          (event_nonce_field.drop (8 + 1)).takeWhile is_space_tab ++ quoted_decimal 7 ++
          v.drop (q + 1))) ∧
    (((event_nonce_field.drop (8 + 1)).dropWhile is_space_tab).head? ≠ some 34 →
      update_nonce_in_json event_nonce_field 7 =
        some (event_nonce_field.take (8 + 1) ++
          (event_nonce_field.drop (8 + 1)).takeWhile is_space_tab ++ quoted_decimal 7 ++
          ((event_nonce_field.drop (8 + 1)).dropWhile is_space_tab).dropWhile is_value_byte))) :=
  ⟨⟨by decide, by decide, by decide⟩,
    update_nonce_replaces_value event_nonce_field 7 1 8 (by decide) (by decide)
      (by decide)⟩

/-- C15, at a failing input: in `{"content":"hi","nonce":"12}` the value after `"nonce":`
opens with a quote and no quote follows. `strchr(value_start + 1, '"')` is `NULL`, the code
adds 1 to it without a test and hands the sum to `strcat`: no result is written. The
sibling branch for a value without quotes tests for the end of the text: for
`{"content":"hi","nonce":12`, where the value runs to the end, the result is
`{"content":"hi","nonce":"7"`. -/
theorem C15_update_nonce_unterminated_at_failing_input :
    strstr event_nonce_unterminated (ascii "\"nonce\"") = some 16 ∧
    strchr event_nonce_unterminated 16 58 = some 23 ∧
    (event_nonce_unterminated.drop (23 + 1)).dropWhile is_space_tab = 34 :: ascii "12\x7d" ∧
    strchr event_nonce_unterminated (24 + 1) 34 = none ∧
    update_nonce_in_json event_nonce_unterminated 7 = none ∧
    update_nonce_in_json event_nonce_unquoted_end 7 =
      some (ascii "\x7b\"content\":\"hi\",\"nonce\":\"7\"") := by
  decide

/-- When the value opens with `"` and no `"` follows, `update_nonce_in_json` hands
`NULL + 1` to `strcat`: it has no result. -/
theorem update_nonce_unterminated (e : List Nat) (N np c : Nat) (hN : N < 2 ^ 64)
    (hnp : strstr e (ascii "\"nonce\"") = some np) (hc : strchr e np 58 = some c) (v : List Nat)
    (hv : (e.drop (c + 1)).dropWhile is_space_tab = 34 :: v) (hq : find_byte 34 v = none) :
    update_nonce_in_json e N = none := by
  rw [update_nonce_replace_eq e N np c hN hnp hc, hv]
  simp [hq]

/-- Without a `"nonce"` token and without a tags array, `update_nonce_in_json` writes
nothing to the buffer it returns. -/
theorem update_nonce_malformed (e : List Nat) (N : Nat)
    (hn : strstr e (ascii "\"nonce\"") = none)
    (ht : ∀ tp, strstr e (ascii "\"tags\"") = some tp → strchr e tp 91 = none) :
    update_nonce_in_json e N = none := by
  unfold update_nonce_in_json
  simp only [hn]
  cases h : strstr e (ascii "\"tags\"") with
  | none => rfl
  | some tp => simp only [ht tp h]

/-- C16, at a failing input: the event `{"content":"hi"}` has no `"nonce"` token and no
`"tags"` token, and `update_nonce_in_json` returns its buffer without having written the
event, or anything else, to it; the sibling `update_timestamp_in_json` copies an event
without a `"created_at"` token. -/
theorem C16_update_nonce_malformed_at_failing_input :
    strstr event_no_tags (ascii "\"nonce\"") = none ∧
    strstr event_no_tags (ascii "\"tags\"") = none ∧
    update_nonce_in_json event_no_tags 1 = none ∧
    update_nonce_in_json event_no_tags 1 ≠ some event_no_tags ∧
    update_timestamp_in_json event_no_tags 1 = some event_no_tags := by
  decide

/-- The replacement path of `update_timestamp_in_json`, in terms of the text after the `:`. -/
theorem update_timestamp_eq (e : List Nat) (T cp c : Nat)
    (hcp : strstr e (ascii "\"created_at\"") = some cp) (hc : strchr e cp 58 = some c) :
    update_timestamp_in_json e T =
      some (e.take (c + 1) ++ (e.drop (c + 1)).takeWhile is_space_tab ++ fmt_llu T ++
        ((e.drop (c + 1)).dropWhile is_space_tab).dropWhile is_value_byte) := by
  unfold update_timestamp_in_json
  simp only [hcp, hc]
  have hb : (fun c : Nat => c == 32 || c == 9) = is_space_tab := rfl
  have hv : (fun c : Nat => c != 0 && c != 44 && c != 93 && c != 125) = is_value_byte := rfl
  have hpre : strncpy e (skip_while e is_space_tab (e.length + 1) (c + 1)) =
      e.take (c + 1) ++ (e.drop (c + 1)).takeWhile is_space_tab :=
    take_skip_while e is_space_tab rfl (c + 1)
  rw [hb, hv, hpre, drop_skip_while e is_value_byte rfl, drop_skip_while e is_space_tab rfl]
  rfl

/-- The replacement path of `increment_timestamp_in_json`. -/
theorem increment_timestamp_eq (e : List Nat) (d : Int) (cp c : Nat)
    (hcp : strstr e (ascii "\"created_at\"") = some cp) (hc : strchr e cp 58 = some c)
    (hlo : -(2 ^ 63 : Int) ≤
      strtol e (c + 1 + ((e.drop (c + 1)).takeWhile is_space_tab).length) + d)
    (hhi : strtol e (c + 1 + ((e.drop (c + 1)).takeWhile is_space_tab).length) + d <
      (2 ^ 63 : Int)) :
    increment_timestamp_in_json e d =
      some (e.take (c + 1) ++ (e.drop (c + 1)).takeWhile is_space_tab ++
        fmt_ld (strtol e (c + 1 + ((e.drop (c + 1)).takeWhile is_space_tab).length) + d) ++
        ((e.drop (c + 1)).dropWhile is_space_tab).dropWhile is_incr_value_byte) := by
  unfold increment_timestamp_in_json
  simp only [hcp, hc]
  have hb : (fun c : Nat => c == 32 || c == 9) = is_space_tab := rfl
  have hv : (fun c : Nat => c != 0 && c != 44 && c != 125 && c != 32) = is_incr_value_byte :=
    rfl
  have hpre : strncpy e (skip_while e is_space_tab (e.length + 1) (c + 1)) =
      e.take (c + 1) ++ (e.drop (c + 1)).takeWhile is_space_tab :=
    take_skip_while e is_space_tab rfl (c + 1)
  have hvs : skip_while e is_space_tab (e.length + 1) (c + 1) =
      c + 1 + ((e.drop (c + 1)).takeWhile is_space_tab).length :=
    skip_while_eq e is_space_tab rfl _ _ (by omega)
  rw [hb, hv, hpre, drop_skip_while e is_incr_value_byte rfl,
    drop_skip_while e is_space_tab rfl, hvs]
  rw [if_neg (by omega)]
  rfl

/-- C18, as stated, fails: in `{"created_at":1 ,"a":2}` the value starts at offset 14 and
the first `,`, `}`, `]` or space at or after it is the space at offset 15, but
`update_timestamp_in_json` does not end the value at a space: with `T = 5` the result is
`{"created_at":5,"a":2}` and not `e[0..14) ++ "5" ++ e[15..)`. -/
theorem C18_update_timestamp_counterexample :
    strstr event_ts_space (ascii "\"created_at\"") = some 1 ∧
    strchr event_ts_space 1 58 = some 13 ∧
    (event_ts_space.drop 14).dropWhile (fun c => c != 44 && c != 125 && c != 93 && c != 32) =
      event_ts_space.drop 15 ∧
    update_timestamp_in_json event_ts_space 5 = some (ascii "\x7b\"created_at\":5,\"a\":2\x7d") ∧
    update_timestamp_in_json event_ts_space 5 ≠
      some (event_ts_space.take 14 ++ ascii "5" ++ event_ts_space.drop 15) := by
  decide

/-- C18, amended: for an event text whose first `"created_at"` token is followed by a `:`
(the next one, at offset `c`) and a 64-bit `T`, `update_timestamp_in_json` returns
`prefix ++ decimal(T) ++ suffix`: the prefix is the text up to and including the `:` and the
spaces and tabs after it, the suffix is the text from the first `,`, `]` or `}` at or after
the value start (empty when there is none); a space does not end the value. -/
theorem C18_update_timestamp_replaces_value (e : List Nat) (T cp c : Nat) (hT : T < 2 ^ 64)
    (hcp : strstr e (ascii "\"created_at\"") = some cp) (hc : strchr e cp 58 = some c) :
    (cp ≤ c ∧ e.take (c + 1) = e.take c ++ ascii ":") ∧
    update_timestamp_in_json e T =
      some (e.take (c + 1) ++ (e.drop (c + 1)).takeWhile is_space_tab ++ decimal T ++
        ((e.drop (c + 1)).dropWhile is_space_tab).dropWhile is_value_byte) := by
  refine ⟨strchr_some e cp 58 c hc, ?_⟩
  rw [update_timestamp_eq e T cp c hcp hc, fmt_llu_eq T hT]

theorem C18_update_timestamp_replaces_value_witness :
    (5 < 2 ^ 64 ∧ strstr event_ts_space (ascii "\"created_at\"") = some 1 ∧
      strchr event_ts_space 1 58 = some 13) ∧
    ((1 ≤ 13 ∧ event_ts_space.take (13 + 1) = event_ts_space.take 13 ++ ascii ":") ∧
    update_timestamp_in_json event_ts_space 5 =
      some (event_ts_space.take (13 + 1) ++
        (event_ts_space.drop (13 + 1)).takeWhile is_space_tab ++ decimal 5 ++
        ((event_ts_space.drop (13 + 1)).dropWhile is_space_tab).dropWhile is_value_byte)) :=
  ⟨⟨by decide, by decide, by decide⟩,
    C18_update_timestamp_replaces_value event_ts_space 5 1 13 (by decide) (by decide)
      (by decide)⟩

/-- C19: an event text without a `"created_at"` token is returned unchanged by
`update_timestamp_in_json`, for every `T`, and by `increment_timestamp_in_json`, for every
increment. -/
theorem C19_timestamp_absent_copy (e : List Nat) (T : Nat) (d : Int)
    (h : strstr e (ascii "\"created_at\"") = none) :
    update_timestamp_in_json e T = some e ∧ increment_timestamp_in_json e d = some e := by
  unfold update_timestamp_in_json increment_timestamp_in_json
  simp only [h, and_self]

theorem C19_timestamp_absent_copy_witness :
    strstr event_no_tags (ascii "\"created_at\"") = none ∧
    (update_timestamp_in_json event_no_tags 1700000000 = some event_no_tags ∧
      increment_timestamp_in_json event_no_tags 1 = some event_no_tags) :=
  ⟨by decide, C19_timestamp_absent_copy event_no_tags 1700000000 1 (by decide)⟩

theorem dropWhile_mono (P Q : Nat → Bool) (hPQ : ∀ c, P c = true → Q c = true) (l : List Nat)
    (hend : ∀ x, (l.dropWhile P).head? = some x → Q x = false) :
    l.dropWhile Q = l.dropWhile P := by
  induction l with
  | nil => rfl
  | cons a t ih =>
    rw [List.dropWhile_cons, List.dropWhile_cons]
    by_cases hP : P a = true
    · rw [if_pos hP, if_pos (hPQ a hP)]
      apply ih
      intro x hx
      apply hend x
      rw [List.dropWhile_cons, if_pos hP]
      exact hx
    · rw [if_neg hP]
      have : Q a = false := by
        apply hend a
        rw [List.dropWhile_cons, if_neg hP]
        rfl
      rw [if_neg (by simp [this])]

/-- C20, as stated, fails: in `{"created_at":1 ,"a":2}` the value parses to 1; with the
increment 4, `increment_timestamp_in_json` ends the value at the space and returns
`{"created_at":5 ,"a":2}`, while `update_timestamp_in_json` with 5 ends it at the comma and
returns `{"created_at":5,"a":2}`. -/
theorem C20_increment_timestamp_counterexample :
    strtol event_ts_space 14 = 1 ∧
    increment_timestamp_in_json event_ts_space 4 =
      some (ascii "\x7b\"created_at\":5 ,\"a\":2\x7d") ∧
    update_timestamp_in_json event_ts_space 5 = some (ascii "\x7b\"created_at\":5,\"a\":2\x7d") ∧
    increment_timestamp_in_json event_ts_space 4 ≠ update_timestamp_in_json event_ts_space 5 := by
  decide

/-- C20, amended: for an event text whose first `"created_at"` token is followed by a `:`
and whose value is ended by `,`, by `}` or by the end of the text (the first byte at or
after the value start that is one of `,`, `]`, `}`, space is a `,` or a `}`), and an
increment `d` such that the value parses to `v` with `0 <= v + d < 2^63`,
`increment_timestamp_in_json(e, d)` is `update_timestamp_in_json(e, v + d)`, byte for byte. -/
theorem C20_increment_is_update (e : List Nat) (d : Int) (cp c : Nat)
    (hcp : strstr e (ascii "\"created_at\"") = some cp) (hc : strchr e cp 58 = some c)
    (hend : ∀ x, (((e.drop (c + 1)).dropWhile is_space_tab).dropWhile
      is_inner_value_byte).head? = some x → x = 44 ∨ x = 125 ∨ x = 0)
    (hlo : 0 ≤ strtol e (c + 1 + ((e.drop (c + 1)).takeWhile is_space_tab).length) + d)
    (hhi : strtol e (c + 1 + ((e.drop (c + 1)).takeWhile is_space_tab).length) + d <
      (2 ^ 63 : Int)) :
    increment_timestamp_in_json e d =
      update_timestamp_in_json e
        (strtol e (c + 1 + ((e.drop (c + 1)).takeWhile is_space_tab).length) + d).toNat ∧
    ∃ out, increment_timestamp_in_json e d = some out := by
  have h1 : ((e.drop (c + 1)).dropWhile is_space_tab).dropWhile is_value_byte =
      ((e.drop (c + 1)).dropWhile is_space_tab).dropWhile is_inner_value_byte := by
    apply dropWhile_mono
    · intro x hx
      simp only [is_inner_value_byte, is_value_byte, Bool.and_eq_true] at hx ⊢
      exact hx.1
    · intro x hx
      rcases hend x hx with h | h | h <;> subst h <;> rfl
  have h2 : ((e.drop (c + 1)).dropWhile is_space_tab).dropWhile is_incr_value_byte =
      ((e.drop (c + 1)).dropWhile is_space_tab).dropWhile is_inner_value_byte := by
    apply dropWhile_mono
    · intro x hx
      simp only [is_inner_value_byte, is_incr_value_byte, Bool.and_eq_true] at hx ⊢
      exact ⟨⟨hx.1.1.1, hx.1.2⟩, hx.2⟩
    · intro x hx
      rcases hend x hx with h | h | h <;> subst h <;> rfl
  rw [increment_timestamp_eq e d cp c hcp hc (by omega) hhi,
    update_timestamp_eq e _ cp c hcp hc, h1, h2]
  refine ⟨?_, _, rfl⟩
  unfold fmt_ld
  rw [if_neg (by omega)]

theorem C20_increment_is_update_witness :
    (strstr event_S1 (ascii "\"created_at\"") = some 16 ∧ strchr event_S1 16 58 = some 28 ∧
      (∀ x, (((event_S1.drop (28 + 1)).dropWhile is_space_tab).dropWhile
        is_inner_value_byte).head? = some x → x = 44 ∨ x = 125 ∨ x = 0) ∧
      0 ≤ strtol event_S1
        (28 + 1 + ((event_S1.drop (28 + 1)).takeWhile is_space_tab).length) + 1 ∧
      strtol event_S1 (28 + 1 + ((event_S1.drop (28 + 1)).takeWhile is_space_tab).length) + 1 <
        (2 ^ 63 : Int)) ∧
    (increment_timestamp_in_json event_S1 1 =
      update_timestamp_in_json event_S1
        (strtol event_S1
          (28 + 1 + ((event_S1.drop (28 + 1)).takeWhile is_space_tab).length) + 1).toNat ∧
    ∃ out, increment_timestamp_in_json event_S1 1 = some out) :=
  ⟨⟨by decide, by decide, by decide, by decide, by decide⟩,
    C20_increment_is_update event_S1 1 16 28 (by decide) (by decide) (by decide) (by decide)
      (by decide)⟩

/-! ## Lemmas: the parallel search -/

theorem range_parallel_bounds_within (W s t i : Nat) (hst : s ≤ t) (ht : t < 2 ^ 64)
    (hi : i < W) :
    s ≤ (range_parallel_bounds W s t i).1 ∧
    (range_parallel_bounds W s t i).1 ≤ (range_parallel_bounds W s t i).2 ∧
    (range_parallel_bounds W s t i).2 ≤ t := by
  obtain ⟨q, r, _, _, hdm, hb⟩ := range_parallel_bounds_closed W s t hst ht
  rw [hb i hi]
  simp only
  have h1 : (i + 1) * q ≤ W * q := Nat.mul_le_mul_right _ (by omega)
  have h2 : (i + 1) * q = i * q + q := by rw [Nat.add_mul, Nat.one_mul]
  refine ⟨by omega, by omega, ?_⟩
  by_cases hl : i = W - 1
  · rw [if_pos hl]
    have : i + 1 = W := by omega
    rw [this] at h2
    omega
  · rw [if_neg hl]; omega

theorem set_worker_same (σ : ParState) (i : Nat) (w : WorkerState) :
    (set_worker σ i w).workers i = w := by
  simp [set_worker]

theorem set_worker_other (σ : ParState) (i j : Nat) (w : WorkerState) (h : j ≠ i) :
    (set_worker σ i w).workers j = σ.workers j := by
  simp [set_worker, h]

theorem WorkerInv.mono {e : List Nat} {D : Int} {b : Nat × Nat} {sf sf' : Nat}
    {w : WorkerState} (h : WorkerInv e D b sf w) (hsf : sf = 1 → sf' = 1) :
    WorkerInv e D b sf' w :=
  { h with exit := fun hp => (h.exit hp).imp id hsf }

/-- Replacing worker `i` by a state that satisfies its invariant, the latch unchanged,
preserves the invariant of the search. -/
theorem ParInv.set {e : List Nat} {D : Int} {W s t : Nat} {σ : ParState}
    (h : ParInv e D W s t σ) (i : Nat) (hi : i < W) (w : WorkerState)
    (hw : WorkerInv e D (range_parallel_bounds W s t i) σ.solution_found w) :
    ParInv e D W s t (set_worker σ i w) where
  flag := h.flag
  latch := h.latch
  worker := by
    intro j hj
    by_cases hji : j = i
    · subst hji; rw [set_worker_same]; exact hw
    · rw [set_worker_other _ _ _ _ hji]; exact h.worker j hj
  idle := by
    intro j hj
    rw [set_worker_other _ _ _ _ (by omega)]
    exact h.idle j hj
  crash := h.crash

/-- Every step of every worker preserves the invariant of the search. -/
theorem worker_step_inv {e : List Nat} {D : Int} {W s t : Nat} (hst : s ≤ t)
    (ht : t < 2 ^ 64) {σ : ParState} (h : ParInv e D W s t σ) (i : Nat) (stale : Bool) :
    ParInv e D W s t (worker_step e D σ i stale) := by
  unfold worker_step
  by_cases hcr : σ.crashed = true
  · rw [if_pos hcr]; exact h
  rw [if_neg hcr]
  by_cases hi : i < W
  swap
  · have := h.idle i (by omega)
    simp only [this]
    exact h
  have hw := h.worker i hi
  have hb := range_parallel_bounds_within W s t i hst ht hi
  cases hpc : (σ.workers i).pc with
  | returned => simp only [hpc]; exact h
  | loop_test =>
    simp only [hpc]
    have hatt : (σ.workers i).data.attempts =
        (σ.workers i).nonce - (range_parallel_bounds W s t i).1 := by
      rcases hw.att with h1 | ⟨_, h2, _⟩
      · exact h1
      · rw [hpc] at h2; cases h2
    by_cases hc : (σ.workers i).nonce < (σ.workers i).data.end_nonce ∧
        (if stale = true then 0 else σ.solution_found) = 0
    · rw [if_pos hc]
      apply h.set i hi
      exact { hw with
        body_lt := fun _ => by rw [← hw.end_eq]; exact hc.1
        att := Or.inl hatt
        exit := fun hp => by cases hp }
    · rw [if_neg hc]
      apply h.set i hi
      refine { hw with
        body_lt := fun hp => by cases hp
        att := Or.inl hatt
        exit := fun _ => ?_ }
      by_cases hlt : (σ.workers i).nonce < (σ.workers i).data.end_nonce
      · right
        have hseen : ¬ ((if stale = true then 0 else σ.solution_found) = 0) :=
          fun h0 => hc ⟨hlt, h0⟩
        cases stale with
        | true => simp at hseen
        | false =>
          simp only [Bool.false_eq_true, if_false] at hseen
          rcases h.flag with h0 | h1
          · exact absurd h0 hseen
          · exact h1
      · left
        show (σ.workers i).nonce = _
        have := hw.hi
        rw [hw.end_eq] at hlt
        omega
  | loop_body =>
    simp only [hpc]
    have hlt := hw.body_lt hpc
    have hatt : (σ.workers i).data.attempts =
        (σ.workers i).nonce - (range_parallel_bounds W s t i).1 := by
      rcases hw.att with h1 | ⟨_, h2, _⟩
      · exact h1
      · rw [hpc] at h2; cases h2
    have hlo := hw.lo
    have ha1 : ((σ.workers i).data.attempts + 1) % 2 ^ 64 =
        (σ.workers i).nonce - (range_parallel_bounds W s t i).1 + 1 := by
      rw [hatt]; apply Nat.mod_eq_of_lt; omega
    have hn1 : ((σ.workers i).nonce + 1) % 2 ^ 64 = (σ.workers i).nonce + 1 :=
      Nat.mod_eq_of_lt (by omega)
    cases hu : update_nonce_in_json e (σ.workers i).nonce with
    | none =>
      simp only [hu]
      exact { h with
        crash := fun _ => ⟨by omega, fun N => update_nonce_none_indep e _ N hu⟩ }
    | some out =>
      simp only [hu]
      by_cases hge : (count_leading_zeros (sha256_hash out) : Int) ≥ D
      · rw [if_pos hge]
        have hsol : Solves e D (σ.workers i).nonce := ⟨out, hu, hge⟩
        by_cases hsf : σ.solution_found = 0
        · rw [if_pos hsf]
          refine
            { flag := Or.inr rfl
              latch := fun _ =>
                ⟨show s ≤ (σ.workers i).nonce by omega,
                  show (σ.workers i).nonce < t by omega, hsol⟩
              worker := ?_
              idle := ?_
              crash := h.crash }
          · intro j hj
            show WorkerInv e D _ 1 ((set_worker σ i _).workers j)
            by_cases hji : j = i
            · subst hji
              rw [set_worker_same]
              exact
                { start_eq := hw.start_eq
                  end_eq := hw.end_eq
                  lo := hw.lo
                  hi := hw.hi
                  body_lt := fun hp => by cases hp
                  missed := hw.missed
                  att := Or.inr ⟨ha1, rfl, hsol, hlt⟩
                  exit := fun _ => Or.inr rfl }
            · rw [set_worker_other _ _ _ _ hji]
              exact (h.worker j hj).mono (fun _ => rfl)
          · intro j hj
            show ((set_worker σ i _).workers j).pc = _
            rw [set_worker_other _ _ _ _ (by omega)]
            exact h.idle j hj
        · rw [if_neg hsf]
          have hsf1 : σ.solution_found = 1 := h.flag.resolve_left hsf
          apply h.set i hi
          exact
            { start_eq := hw.start_eq
              end_eq := hw.end_eq
              lo := hw.lo
              hi := hw.hi
              body_lt := fun hp => by cases hp
              missed := hw.missed
              att := Or.inr ⟨ha1, rfl, hsol, hlt⟩
              exit := fun _ => Or.inr hsf1 }
      · rw [if_neg hge]
        apply h.set i hi
        have hmiss : Misses e D (σ.workers i).nonce := ⟨out, hu, by omega⟩
        exact
          { start_eq := hw.start_eq
            end_eq := hw.end_eq
            lo := by show _ ≤ ((σ.workers i).nonce + 1) % 2 ^ 64; rw [hn1]; omega
            hi := by show ((σ.workers i).nonce + 1) % 2 ^ 64 ≤ _; rw [hn1]; omega
            body_lt := fun hp => by cases hp
            missed := by
              intro M h1 h2
              have h2' : M < ((σ.workers i).nonce + 1) % 2 ^ 64 := h2
              rw [hn1] at h2'
              by_cases hM : M = (σ.workers i).nonce
              · rw [hM]; exact hmiss
              · exact hw.missed M h1 (by omega)
            att := by
              left
              show ((σ.workers i).data.attempts + 1) % 2 ^ 64 =
                ((σ.workers i).nonce + 1) % 2 ^ 64 - _
              rw [ha1, hn1]; omega
            exit := fun hp => by cases hp }

theorem par_init_inv (e : List Nat) (D : Int) (W s t g0 : Nat) (hst : s ≤ t)
    (ht : t < 2 ^ 64) : ParInv e D W s t (par_init W s t g0) where
  flag := Or.inl rfl
  latch := fun h => by cases h
  worker := by
    intro i hi
    have hb := range_parallel_bounds_within W s t i hst ht hi
    exact
      { start_eq := rfl
        end_eq := rfl
        lo := Nat.le_refl _
        hi := hb.2.1
        body_lt := fun hp => by simp [par_init, hi] at hp
        missed := fun M h1 h2 => by
          have h2' : M < (range_parallel_bounds W s t i).1 := h2
          omega
        att := Or.inl (by show 0 = (range_parallel_bounds W s t i).1 - _; omega)
        exit := fun hp => by simp [par_init, hi] at hp }
  idle := by
    intro i hi
    have : ¬ i < W := by omega
    simp [par_init, this]
  crash := fun h => by cases h

theorem par_run_inv {e : List Nat} {D : Int} {W s t : Nat} (hst : s ≤ t) (ht : t < 2 ^ 64)
    (sched : List (Nat × Bool)) {σ : ParState} (h : ParInv e D W s t σ) :
    ParInv e D W s t (par_run e D σ sched) := by
  unfold par_run
  induction sched generalizing σ with
  | nil => exact h
  | cons x rest ih => exact ih (worker_step_inv hst ht h x.1 x.2)

theorem worker_join_inv {e : List Nat} {D : Int} {W s t : Nat} (hst : s ≤ t)
    (ht : t < 2 ^ 64) (fuel i : Nat) {σ : ParState} (h : ParInv e D W s t σ) :
    ParInv e D W s t (worker_join e D fuel σ i) := by
  induction fuel generalizing σ with
  | zero => exact h
  | succ fuel ih =>
    rw [worker_join]
    split
    · exact h
    · exact ih (worker_step_inv hst ht h i false)

theorem worker_step_other (e : List Nat) (D : Int) (σ : ParState) (i j : Nat) (stale : Bool)
    (hj : j ≠ i) : (worker_step e D σ i stale).workers j = σ.workers j := by
  unfold worker_step
  by_cases hcr : σ.crashed = true
  · rw [if_pos hcr]
  rw [if_neg hcr]
  cases hpc : (σ.workers i).pc with
  | returned => simp only [hpc]
  | loop_test =>
    simp only [hpc]
    by_cases hc : (σ.workers i).nonce < (σ.workers i).data.end_nonce ∧
        (if stale = true then 0 else σ.solution_found) = 0
    · rw [if_pos hc]; exact set_worker_other _ _ _ _ hj
    · rw [if_neg hc]; exact set_worker_other _ _ _ _ hj
  | loop_body =>
    simp only [hpc]
    cases hu : update_nonce_in_json e (σ.workers i).nonce with
    | none => simp only [hu]
    | some out =>
      simp only [hu]
      by_cases hge : (count_leading_zeros (sha256_hash out) : Int) ≥ D
      · rw [if_pos hge]
        by_cases hsf : σ.solution_found = 0
        · rw [if_pos hsf]; exact set_worker_other _ _ _ _ hj
        · rw [if_neg hsf]; exact set_worker_other _ _ _ _ hj
      · rw [if_neg hge]; exact set_worker_other _ _ _ _ hj

theorem worker_step_crashed (e : List Nat) (D : Int) (σ : ParState) (i : Nat) (stale : Bool)
    (h : σ.crashed = true) : worker_step e D σ i stale = σ := by
  unfold worker_step
  rw [if_pos h]

theorem worker_join_other (e : List Nat) (D : Int) (fuel : Nat) (σ : ParState) (i j : Nat)
    (hj : j ≠ i) : (worker_join e D fuel σ i).workers j = σ.workers j := by
  induction fuel generalizing σ with
  | zero => rfl
  | succ fuel ih =>
    rw [worker_join]
    split
    · rfl
    · rw [ih, worker_step_other e D σ i j false hj]

/-- A step of a worker that has not returned either runs into undefined behaviour or
brings the worker closer to its return. -/
theorem worker_step_progress {e : List Nat} {D : Int} {W s t : Nat} (hst : s ≤ t)
    (ht : t < 2 ^ 64) {σ : ParState} (h : ParInv e D W s t σ) (i : Nat) (hi : i < W)
    (stale : Bool) (hcr : ¬ σ.crashed = true) (hpc : (σ.workers i).pc ≠ .returned) :
    (worker_step e D σ i stale).crashed = true ∨
      steps_left (range_parallel_bounds W s t i).2 ((worker_step e D σ i stale).workers i) <
        steps_left (range_parallel_bounds W s t i).2 (σ.workers i) := by
  have hw := h.worker i hi
  have hb := range_parallel_bounds_within W s t i hst ht hi
  unfold worker_step
  rw [if_neg hcr]
  cases hp : (σ.workers i).pc with
  | returned => exact absurd hp hpc
  | loop_test =>
    simp only [hp]
    right
    by_cases hc : (σ.workers i).nonce < (σ.workers i).data.end_nonce ∧
        (if stale = true then 0 else σ.solution_found) = 0
    · rw [if_pos hc, set_worker_same]
      simp [steps_left, hp]
    · rw [if_neg hc, set_worker_same]
      simp [steps_left, hp]
  | loop_body =>
    simp only [hp]
    have hlt := hw.body_lt hp
    cases hu : update_nonce_in_json e (σ.workers i).nonce with
    | none => left; simp only [hu]
    | some out =>
      simp only [hu]
      right
      have hn1 : ((σ.workers i).nonce + 1) % 2 ^ 64 = (σ.workers i).nonce + 1 :=
        Nat.mod_eq_of_lt (by omega)
      by_cases hge : (count_leading_zeros (sha256_hash out) : Int) ≥ D
      · rw [if_pos hge]
        by_cases hsf : σ.solution_found = 0
        · rw [if_pos hsf]
          show steps_left _ ((set_worker σ i _).workers i) < _
          rw [set_worker_same]
          simp only [steps_left, hp]
          omega
        · rw [if_neg hsf, set_worker_same]
          simp only [steps_left, hp]
          omega
      · rw [if_neg hge, set_worker_same]
        simp only [steps_left, hp, hn1]
        omega

theorem worker_join_crashed (e : List Nat) (D : Int) (fuel i : Nat) (σ : ParState)
    (h : σ.crashed = true) : (worker_join e D fuel σ i).crashed = true := by
  induction fuel generalizing σ with
  | zero => exact h
  | succ fuel ih =>
    rw [worker_join]
    split
    · exact h
    · rw [worker_step_crashed e D σ i false h]; exact ih σ h

theorem worker_join_returned (e : List Nat) (D : Int) (fuel i : Nat) (σ : ParState)
    (h : (σ.workers i).pc = .returned) : worker_join e D fuel σ i = σ := by
  cases fuel with
  | zero => rfl
  | succ fuel => rw [worker_join, if_pos h]

/-- With fuel for the steps it can still take, a joined worker has returned, unless the
search ran into undefined behaviour. -/
theorem worker_join_done {e : List Nat} {D : Int} {W s t : Nat} (hst : s ≤ t)
    (ht : t < 2 ^ 64) (i : Nat) (hi : i < W) (fuel : Nat) {σ : ParState}
    (h : ParInv e D W s t σ)
    (hf : steps_left (range_parallel_bounds W s t i).2 (σ.workers i) ≤ fuel) :
    (worker_join e D fuel σ i).crashed = true ∨
      ((worker_join e D fuel σ i).workers i).pc = .returned := by
  induction fuel generalizing σ with
  | zero =>
    right
    show (σ.workers i).pc = _
    have hw := h.worker i hi
    cases hp : (σ.workers i).pc with
    | returned => rfl
    | loop_test => simp [steps_left, hp] at hf
    | loop_body =>
      have := hw.body_lt hp
      simp only [steps_left, hp] at hf
      omega
  | succ fuel ih =>
    rw [worker_join]
    by_cases hp : (σ.workers i).pc = .returned
    · rw [if_pos hp]; exact Or.inr hp
    · rw [if_neg hp]
      by_cases hcr : σ.crashed = true
      · left
        exact worker_join_crashed e D fuel i _ (by rw [worker_step_crashed e D σ i false hcr]; exact hcr)
      · rcases worker_step_progress hst ht h i hi false hcr hp with hc | hlt
        · exact Or.inl (worker_join_crashed e D fuel i _ hc)
        · exact ih (worker_step_inv hst ht h i false) (by omega)

/-- After the joins the invariant holds and every worker has returned, unless the search
ran into undefined behaviour. -/
theorem join_all_spec {e : List Nat} {D : Int} {W s t : Nat} (hst : s ≤ t) (ht : t < 2 ^ 64)
    {σ : ParState} (h : ParInv e D W s t σ) :
    ParInv e D W s t (join_all e D W σ) ∧
      ((join_all e D W σ).crashed = true ∨
        ∀ i, i < W → ((join_all e D W σ).workers i).pc = .returned) := by
  unfold join_all
  have key : ∀ k, k ≤ W →
      ParInv e D W s t ((List.range k).foldl
        (fun σ i => worker_join e D
          (2 * ((σ.workers i).data.end_nonce - (σ.workers i).data.start_nonce) + 2) σ i) σ) ∧
      (((List.range k).foldl
        (fun σ i => worker_join e D
          (2 * ((σ.workers i).data.end_nonce - (σ.workers i).data.start_nonce) + 2) σ i)
            σ).crashed = true ∨
        ∀ i, i < k → (((List.range k).foldl
          (fun σ i => worker_join e D
            (2 * ((σ.workers i).data.end_nonce - (σ.workers i).data.start_nonce) + 2) σ i)
              σ).workers i).pc = .returned) := by
    intro k
    induction k with
    | zero =>
      intro _
      exact ⟨h, Or.inr fun i hi => absurd hi (Nat.not_lt_zero i)⟩
    | succ k ih =>
      intro hk
      obtain ⟨hinv, hdone⟩ := ih (by omega)
      rw [List.range_succ, List.foldl_append, List.foldl_cons, List.foldl_nil]
      generalize (List.range k).foldl
        (fun σ i => worker_join e D
          (2 * ((σ.workers i).data.end_nonce - (σ.workers i).data.start_nonce) + 2) σ i)
            σ = τ at hinv hdone ⊢
      refine ⟨worker_join_inv hst ht _ k hinv, ?_⟩
      rcases hdone with hc | hret
      · exact Or.inl (worker_join_crashed e D _ k τ hc)
      · have hw := hinv.worker k (by omega)
        have hfuel : steps_left (range_parallel_bounds W s t k).2 (τ.workers k) ≤
            2 * ((τ.workers k).data.end_nonce - (τ.workers k).data.start_nonce) + 2 := by
          rw [hw.start_eq, hw.end_eq]
          have := hw.lo
          unfold steps_left
          split <;> omega
        rcases worker_join_done hst ht k (by omega) _ hinv hfuel with hc | hk'
        · exact Or.inl hc
        · right
          intro i hi
          by_cases hik : i = k
          · rw [hik]; exact hk'
          · rw [worker_join_other e D _ τ k i hik]
            exact hret i (by omega)
  exact key W (Nat.le_refl W)

/-- When the schedule has already brought every worker to its return, the joins change
nothing: the result is that of the schedule alone. -/
theorem join_all_returned (e : List Nat) (D : Int) (W : Nat) (σ : ParState)
    (h : ∀ i, i < W → (σ.workers i).pc = .returned) : join_all e D W σ = σ := by
  unfold join_all
  have key : ∀ k, k ≤ W → (List.range k).foldl
      (fun σ i => worker_join e D
        (2 * ((σ.workers i).data.end_nonce - (σ.workers i).data.start_nonce) + 2) σ i) σ = σ := by
    intro k
    induction k with
    | zero => intro _; rfl
    | succ k ih =>
      intro hk
      rw [List.range_succ, List.foldl_append, ih (by omega), List.foldl_cons, List.foldl_nil]
      exact worker_join_returned e D _ k σ (h k (by omega))
  exact key W (Nat.le_refl W)

/-- At the end of a search that found nothing, every nonce of the range was tried and
missed, and each worker counted the nonces of its subrange. -/
theorem par_final_exhausted {e : List Nat} {D : Int} {W s t : Nat} (hW : 1 ≤ W) (hst : s ≤ t)
    (ht : t < 2 ^ 64) {σ : ParState} (h : ParInv e D W s t σ)
    (hret : ∀ i, i < W → (σ.workers i).pc = .returned) (hsf : σ.solution_found = 0) :
    (∀ N, s ≤ N → N < t → Misses e D N) ∧
    ∀ i, i < W → (σ.workers i).data.attempts =
      (range_parallel_bounds W s t i).2 - (range_parallel_bounds W s t i).1 := by
  have hend : ∀ i, i < W → (σ.workers i).nonce = (range_parallel_bounds W s t i).2 := by
    intro i hi
    rcases (h.worker i hi).exit (hret i hi) with h1 | h1
    · exact h1
    · rw [hsf] at h1; cases h1
  constructor
  · intro N h1 h2
    obtain ⟨i, hi, hlo, hhi⟩ := (partition_cover W s t hW hst ht N).mp ⟨h1, h2⟩
    exact (h.worker i hi).missed N hlo (by rw [hend i hi]; exact hhi)
  · intro i hi
    rcases (h.worker i hi).att with h1 | ⟨_, _, _, h4⟩
    · rw [h1, hend i hi]
    · rw [hend i hi] at h4; omega

/-- The subrange sizes add up to the size of the range, with no 64-bit wrap on the way. -/
theorem attempts_sum (W s t : Nat) (hW : 1 ≤ W) (hst : s ≤ t) (ht : t < 2 ^ 64)
    (f : Nat → Nat)
    (hf : ∀ i, i < W →
      f i = (range_parallel_bounds W s t i).2 - (range_parallel_bounds W s t i).1) :
    (List.range W).foldl (fun a i => (a + f i) % 2 ^ 64) 0 = t - s := by
  obtain ⟨h0, hch, hlast, _⟩ := partition_chain W s t hW hst ht
  have key : ∀ k, k < W →
      (List.range (k + 1)).foldl (fun a i => (a + f i) % 2 ^ 64) 0 =
        (range_parallel_bounds W s t k).2 - s := by
    intro k
    induction k with
    | zero =>
      intro hk
      have hb := range_parallel_bounds_within W s t 0 hst ht hk
      simp only [List.range_succ, List.range_zero, List.nil_append, List.foldl_cons,
        List.foldl_nil, Nat.zero_add]
      rw [hf 0 hk, h0]
      apply Nat.mod_eq_of_lt
      omega
    | succ k ih =>
      intro hk
      have hb := range_parallel_bounds_within W s t (k + 1) hst ht hk
      have hbk := range_parallel_bounds_within W s t k hst ht (by omega)
      rw [List.range_succ, List.foldl_append, ih (by omega), List.foldl_cons, List.foldl_nil,
        hf (k + 1) hk, ← hch k hk]
      have hc := hch k hk
      rw [Nat.mod_eq_of_lt (by omega)]
      omega
  have := key (W - 1) (by omega)
  rw [show W - 1 + 1 = W by omega, hlast] at this
  exact this

/-- The sequential search has no result exactly when the range is not empty and the
serializer writes nothing for the event. -/
theorem nip13_mine_range_none_iff (e : List Nat) (D : Int) (s t : Nat) (ht : t < 2 ^ 64) :
    nip13_mine_range e D s t = none ↔ (s < t ∧ ∀ N, update_nonce_in_json e N = none) := by
  constructor
  · intro h
    exact mine_loop_none e D t ht _ s 0 (by omega) h
  · rintro ⟨hlt, hnone⟩
    unfold nip13_mine_range
    rw [mine_loop, if_pos hlt, hnone s]

/-- What `nip13_mine_range_parallel` returns under any schedule: nothing exactly when the
range is not empty and the serializer writes nothing for the event; otherwise either 1
with a solution of the range, or 0 with every nonce of the range missed and `end - start`
attempts. -/
theorem nip13_mine_range_parallel_spec (W : Nat) (e : List Nat) (D : Int) (s t g0 : Nat)
    (sched : List (Nat × Bool)) (hW : 1 ≤ W) (hst : s ≤ t) (ht : t < 2 ^ 64) :
    (nip13_mine_range_parallel W e D s t g0 sched = none ∧ s < t ∧
        ∀ N, update_nonce_in_json e N = none) ∨
    (∃ r N, nip13_mine_range_parallel W e D s t g0 sched = some r ∧ r.ret = 1 ∧
        r.found_nonce = some N ∧ s ≤ N ∧ N < t ∧ Solves e D N) ∨
    (nip13_mine_range_parallel W e D s t g0 sched =
        some { ret := 0, found_nonce := none, attempts := t - s } ∧
      ∀ N, s ≤ N → N < t → Misses e D N) := by
  have hinv0 := par_init_inv e D W s t g0 hst ht
  have hinv1 := par_run_inv hst ht sched hinv0
  obtain ⟨hinv, hdone⟩ := join_all_spec hst ht hinv1
  unfold nip13_mine_range_parallel
  simp only
  generalize join_all e D W (par_run e D (par_init W s t g0) sched) = σ at hinv hdone ⊢
  by_cases hcr : σ.crashed = true
  · left
    rw [if_pos hcr]
    exact ⟨rfl, hinv.crash hcr⟩
  · rw [if_neg hcr]
    right
    have hret := hdone.resolve_left hcr
    rcases hinv.flag with h0 | h1
    · right
      have hne : ¬ σ.solution_found ≠ 0 := by simp [h0]
      rw [if_neg hne]
      obtain ⟨hmiss, hatt⟩ := par_final_exhausted hW hst ht hinv hret h0
      refine ⟨?_, hmiss⟩
      rw [attempts_sum W s t hW hst ht (fun i => (σ.workers i).data.attempts) hatt]
    · left
      have hne : σ.solution_found ≠ 0 := by rw [h1]; decide
      rw [if_pos hne]
      obtain ⟨hl1, hl2, hl3⟩ := hinv.latch h1
      exact ⟨_, σ.global_found_nonce, rfl, rfl, rfl, hl1, hl2, hl3⟩

/-- Why the two searches are compared for bounds `start <= end` only. Called with
`start = 10` and `end = 0` (bounds that no caller passes), `nip13_mine_range` returns 0 after
no attempt, while `nip13_mine_range_parallel` with two workers computes
`range_size = 2^64 - 10`, gives worker 0 the subrange `[10, 2^63 + 5)` and, at difficulty 0,
returns 1 with the nonce 10. -/
theorem nip13_mine_range_parallel_reversed_bounds :
    nip13_mine_range event_S1 0 10 0 = some { ret := 0, found_nonce := none, attempts := 0 } ∧
    range_parallel_bounds 2 10 0 0 = (10, 2 ^ 63 + 5) ∧
    nip13_mine_range_parallel 2 event_S1 0 10 0 7 [] =
      some { ret := 1, found_nonce := some 10, attempts := 1 } ∧
    ¬ (10 ≤ 10 ∧ 10 < 0) := by
  refine ⟨by decide!, by decide!, by decide!, by decide⟩

/-- C11: parallel equivalence. Under every schedule of `W >= 1` workers over a range with
`start <= end`, stale reads of the flag included, `nip13_mine_range_parallel` has a result
exactly when `nip13_mine_range` has one; it returns 1 exactly when `nip13_mine_range`
returns 1; and when it returns 1 the nonce it stores lies in the range and the digest of the
event serialized with it has at least `D` leading zero bits. -/
theorem C11_parallel_equivalence (W : Nat) (e : List Nat) (D : Int) (s t g0 : Nat)
    (sched : List (Nat × Bool)) (hW : 1 ≤ W) (hst : s ≤ t) (ht : t < 2 ^ 64) :
    (nip13_mine_range_parallel W e D s t g0 sched = none ↔ nip13_mine_range e D s t = none) ∧
    (∀ rp rs, nip13_mine_range_parallel W e D s t g0 sched = some rp →
      nip13_mine_range e D s t = some rs → (rp.ret = 1 ↔ rs.ret = 1)) ∧
    (∀ rp, nip13_mine_range_parallel W e D s t g0 sched = some rp → rp.ret = 1 →
      ∃ N, rp.found_nonce = some N ∧ s ≤ N ∧ N < t ∧
        ∃ out, update_nonce_in_json e N = some out ∧
          (count_leading_zeros (sha256_hash out) : Int) ≥ D) := by
  have hseq := nip13_mine_range_none_iff e D s t ht
  rcases nip13_mine_range_parallel_spec W e D s t g0 sched hW hst ht with
    ⟨hp, hlt, hnone⟩ | ⟨r, N, hp, hr1, hrN, hN1, hN2, hsol⟩ | ⟨hp, hmiss⟩
  · refine ⟨⟨fun _ => hseq.mpr ⟨hlt, hnone⟩, fun _ => hp⟩, ?_, ?_⟩
    · intro rp rs h; rw [hp] at h; cases h
    · intro rp h; rw [hp] at h; cases h
  · have hdef : nip13_mine_range e D s t ≠ none := by
      intro h
      obtain ⟨out, ho, _⟩ := hsol
      rw [(hseq.mp h).2 N] at ho
      cases ho
    refine ⟨⟨fun h => (by rw [hp] at h; cases h), fun h => absurd h hdef⟩, ?_, ?_⟩
    · intro rp rs h1 h2
      rw [hp] at h1
      cases h1
      rcases nip13_mine_range_some e D s t ht rs h2 with ⟨h1, _⟩ | ⟨_, _, hm, _⟩
      · exact ⟨fun _ => h1, fun _ => hr1⟩
      · exact absurd hsol (misses_not_solves (hm N hN1 hN2))
    · intro rp h1 _
      rw [hp] at h1
      cases h1
      exact ⟨N, hrN, hN1, hN2, hsol⟩
  · have hdef : nip13_mine_range e D s t ≠ none := by
      intro h
      obtain ⟨hlt, hnone⟩ := hseq.mp h
      obtain ⟨out, ho, _⟩ := hmiss s (Nat.le_refl _) hlt
      rw [hnone s] at ho
      cases ho
    refine ⟨⟨fun h => (by rw [hp] at h; cases h), fun h => absurd h hdef⟩, ?_, ?_⟩
    · intro rp rs h1 h2
      rw [hp] at h1
      cases h1
      rcases nip13_mine_range_some e D s t ht rs h2 with
        ⟨_, N, _, hN1, hN2, hsol, _⟩ | ⟨h0, _⟩
      · exact absurd hsol (misses_not_solves (hmiss N hN1 hN2))
      · constructor
        · intro h; cases h
        · intro h; omega
    · intro rp h1 h2
      rw [hp] at h1
      cases h1
      cases h2

theorem C11_parallel_equivalence_witness :
    (1 ≤ 4 ∧ 0 ≤ 40 ∧ 40 < 2 ^ 64) ∧
    ((nip13_mine_range_parallel 4 event_S1 2 0 40 99 [(3, true), (0, false), (3, false)] = none ↔
      nip13_mine_range event_S1 2 0 40 = none) ∧
    (∀ rp rs,
      nip13_mine_range_parallel 4 event_S1 2 0 40 99 [(3, true), (0, false), (3, false)] =
        some rp →
      nip13_mine_range event_S1 2 0 40 = some rs → (rp.ret = 1 ↔ rs.ret = 1)) ∧
    (∀ rp,
      nip13_mine_range_parallel 4 event_S1 2 0 40 99 [(3, true), (0, false), (3, false)] =
        some rp → rp.ret = 1 →
      ∃ N, rp.found_nonce = some N ∧ 0 ≤ N ∧ N < 40 ∧
        ∃ out, update_nonce_in_json event_S1 N = some out ∧
          (count_leading_zeros (sha256_hash out) : Int) ≥ 2)) :=
  ⟨⟨by decide, by decide, by decide⟩,
    C11_parallel_equivalence 4 event_S1 2 0 40 99 [(3, true), (0, false), (3, false)]
      (by decide) (by decide) (by decide)⟩

/-- C17: an exhausted parallel search counts every nonce once. For `W >= 1` workers and a
range `start <= end` in which every nonce misses the difficulty, under every schedule
`nip13_mine_range_parallel` returns 0, stores no nonce, and reports `end - start` attempts,
the sum of the workers' counters. -/
theorem C17_parallel_exhausted_attempts (W : Nat) (e : List Nat) (D : Int) (s t g0 : Nat)
    (sched : List (Nat × Bool)) (hW : 1 ≤ W) (hst : s ≤ t) (ht : t < 2 ^ 64)
    (hmiss : ∀ N, s ≤ N → N < t → Misses e D N) :
    nip13_mine_range_parallel W e D s t g0 sched =
      some { ret := 0, found_nonce := none, attempts := t - s } := by
  rcases nip13_mine_range_parallel_spec W e D s t g0 sched hW hst ht with
    ⟨_, hlt, hnone⟩ | ⟨r, N, _, _, _, hN1, hN2, hsol⟩ | ⟨hp, _⟩
  · obtain ⟨out, ho, _⟩ := hmiss s (Nat.le_refl _) hlt
    rw [hnone s] at ho
    cases ho
  · exact absurd hsol (misses_not_solves (hmiss N hN1 hN2))
  · exact hp

theorem C17_parallel_exhausted_attempts_witness :
    (1 ≤ 4 ∧ 0 ≤ 10 ∧ 10 < 2 ^ 64 ∧ ∀ N, 0 ≤ N → N < 10 → Misses event_S1 32 N) ∧
    nip13_mine_range_parallel 4 event_S1 32 0 10 7 [(2, false), (0, true), (2, false)] =
      some { ret := 0, found_nonce := none, attempts := 10 - 0 } :=
  have h : ∀ N, 0 ≤ N → N < 10 → Misses event_S1 32 N := by decide!
  ⟨⟨by decide, by decide, by decide, h⟩,
    C17_parallel_exhausted_attempts 4 event_S1 32 0 10 7 [(2, false), (0, true), (2, false)]
      (by decide) (by decide) (by decide) h⟩

/-! ## The latch `(solution_found, global_found_nonce)` -/

theorem worker_step_latch (e : List Nat) (D : Int) (σ : ParState) (i : Nat) (stale : Bool) :
    ((worker_step e D σ i stale).solution_found = σ.solution_found ∧
      (worker_step e D σ i stale).global_found_nonce = σ.global_found_nonce) ∨
    (σ.solution_found = 0 ∧ (worker_step e D σ i stale).solution_found = 1 ∧
      (worker_step e D σ i stale).global_found_nonce = (σ.workers i).nonce ∧
      Solves e D (σ.workers i).nonce ∧
      ((worker_step e D σ i stale).workers i).pc = .returned ∧
      ((worker_step e D σ i stale).workers i).data.found_solution = 1 ∧
      ((worker_step e D σ i stale).workers i).data.found_nonce = some (σ.workers i).nonce ∧
      ((worker_step e D σ i stale).workers i).nonce = (σ.workers i).nonce) := by
  unfold worker_step
  by_cases hcr : σ.crashed = true
  · rw [if_pos hcr]; exact Or.inl ⟨rfl, rfl⟩
  rw [if_neg hcr]
  cases hpc : (σ.workers i).pc with
  | returned => simp [hpc]
  | loop_test =>
    simp only [hpc]
    by_cases hc : (σ.workers i).nonce < (σ.workers i).data.end_nonce ∧
        (if stale = true then 0 else σ.solution_found) = 0
    · rw [if_pos hc]; exact Or.inl ⟨rfl, rfl⟩
    · rw [if_neg hc]; exact Or.inl ⟨rfl, rfl⟩
  | loop_body =>
    simp only [hpc]
    cases hu : update_nonce_in_json e (σ.workers i).nonce with
    | none => simp [hu]
    | some out =>
      simp only [hu]
      by_cases hge : (count_leading_zeros (sha256_hash out) : Int) ≥ D
      · rw [if_pos hge]
        by_cases hsf : σ.solution_found = 0
        · rw [if_pos hsf]
          refine Or.inr ⟨hsf, rfl, rfl, ⟨out, hu, hge⟩, ?_, ?_, ?_, ?_⟩
          · show (set_worker σ i _ |>.workers i).pc = _
            rw [set_worker_same]
          · show (set_worker σ i _ |>.workers i).data.found_solution = _
            rw [set_worker_same]
          · show (set_worker σ i _ |>.workers i).data.found_nonce = _
            rw [set_worker_same]
          · show (set_worker σ i _ |>.workers i).nonce = _
            rw [set_worker_same]
        · rw [if_neg hsf]; exact Or.inl ⟨rfl, rfl⟩
      · rw [if_neg hge]; exact Or.inl ⟨rfl, rfl⟩

theorem worker_step_returned_fixed (e : List Nat) (D : Int) (σ : ParState) (i j : Nat)
    (stale : Bool) (hj : (σ.workers j).pc = .returned) :
    (worker_step e D σ i stale).workers j = σ.workers j := by
  by_cases hji : j = i
  · subst hji
    unfold worker_step
    by_cases hcr : σ.crashed = true
    · rw [if_pos hcr]
    · rw [if_neg hcr]; simp only [hj]
  · exact worker_step_other e D σ i j stale hji

theorem worker_step_latch_stable (e : List Nat) (D : Int) (σ : ParState) (i : Nat)
    (stale : Bool) (h1 : σ.solution_found = 1) :
    (worker_step e D σ i stale).solution_found = 1 ∧
    (worker_step e D σ i stale).global_found_nonce = σ.global_found_nonce := by
  rcases worker_step_latch e D σ i stale with ⟨ha, hb⟩ | ⟨h0, _⟩
  · exact ⟨ha.trans h1, hb⟩
  · omega

theorem par_run_latch_stable (e : List Nat) (D : Int) (sched : List (Nat × Bool)) :
    ∀ σ : ParState, σ.solution_found = 1 →
      (par_run e D σ sched).solution_found = 1 ∧
      (par_run e D σ sched).global_found_nonce = σ.global_found_nonce := by
  induction sched with
  | nil => intro σ h1; exact ⟨h1, rfl⟩
  | cons x rest ih =>
    intro σ h1
    obtain ⟨ha, hb⟩ := worker_step_latch_stable e D σ x.1 x.2 h1
    obtain ⟨hc, hd⟩ := ih (worker_step e D σ x.1 x.2) ha
    exact ⟨hc, hd.trans hb⟩

theorem par_run_latch_unset (e : List Nat) (D : Int) (sched : List (Nat × Bool)) :
    ∀ σ : ParState, (par_run e D σ sched).solution_found = 0 →
      σ.solution_found = 0 ∧ (par_run e D σ sched).global_found_nonce = σ.global_found_nonce := by
  induction sched with
  | nil => intro σ h0; exact ⟨h0, rfl⟩
  | cons x rest ih =>
    intro σ h0
    obtain ⟨ha, hb⟩ := ih (worker_step e D σ x.1 x.2) h0
    rcases worker_step_latch e D σ x.1 x.2 with ⟨hc, hd⟩ | ⟨_, h1, _⟩
    · exact ⟨hc.symm.trans ha, hb.trans hd⟩
    · omega

theorem worker_step_latch_inv (e : List Nat) (D : Int) (σ : ParState) (i : Nat) (stale : Bool)
    (h : LatchInv e D σ) : LatchInv e D (worker_step e D σ i stale) := by
  rcases worker_step_latch e D σ i stale with ⟨ha, hb⟩ | ⟨_, h1, hg, hsol, hpc, hfs, hfn, hn⟩
  · refine ⟨by rw [ha]; exact h.flag, ?_⟩
    intro h1
    rw [ha] at h1
    obtain ⟨hsol, j, hpc, hfs, hfn, hn⟩ := h.writer h1
    rw [hb]
    refine ⟨hsol, j, ?_⟩
    rw [worker_step_returned_fixed e D σ i j stale hpc]
    exact ⟨hpc, hfs, hfn, hn⟩
  · refine ⟨Or.inr h1, fun _ => ?_⟩
    rw [hg]
    exact ⟨hsol, i, hpc, hfs, hfn, hn⟩

theorem par_run_latch_inv (e : List Nat) (D : Int) (sched : List (Nat × Bool)) :
    ∀ σ : ParState, LatchInv e D σ → LatchInv e D (par_run e D σ sched) := by
  induction sched with
  | nil => intro σ h; exact h
  | cons x rest ih => intro σ h; exact ih _ (worker_step_latch_inv e D σ x.1 x.2 h)

/-- C12: the latch is written at most once. From any state whose flag is clear, after any
steps `sched1` of any workers the flag is 0 or 1; while it is 0 the stored nonce is the
initial one; once it is 1 any further steps `sched2` leave the flag at 1 and the stored
nonce unchanged, that nonce meets the difficulty, and it is the nonce at which some worker
has returned with `found_solution = 1`. -/
theorem C12_latch_written_once (e : List Nat) (D : Int) (σ : ParState)
    (sched1 sched2 : List (Nat × Bool)) (h0 : σ.solution_found = 0) :
    ((par_run e D σ sched1).solution_found = 0 ∨ (par_run e D σ sched1).solution_found = 1) ∧
    ((par_run e D σ sched1).solution_found = 0 →
      (par_run e D σ sched1).global_found_nonce = σ.global_found_nonce) ∧
    ((par_run e D σ sched1).solution_found = 1 →
      (par_run e D (par_run e D σ sched1) sched2).solution_found = 1 ∧
      (par_run e D (par_run e D σ sched1) sched2).global_found_nonce =
        (par_run e D σ sched1).global_found_nonce ∧
      (∃ out, update_nonce_in_json e (par_run e D σ sched1).global_found_nonce = some out ∧
        (count_leading_zeros (sha256_hash out) : Int) ≥ D) ∧
      ∃ i, ((par_run e D σ sched1).workers i).pc = .returned ∧
        ((par_run e D σ sched1).workers i).data.found_solution = 1 ∧
        ((par_run e D σ sched1).workers i).data.found_nonce =
          some (par_run e D σ sched1).global_found_nonce) := by
  have hinv : LatchInv e D (par_run e D σ sched1) :=
    par_run_latch_inv e D sched1 σ ⟨Or.inl h0, fun h => by omega⟩
  refine ⟨hinv.flag, fun h => (par_run_latch_unset e D sched1 σ h).2, fun h1 => ?_⟩
  obtain ⟨hs, hg⟩ := par_run_latch_stable e D sched2 _ h1
  obtain ⟨hsol, i, hpc, hfs, hfn, _⟩ := hinv.writer h1
  exact ⟨hs, hg, hsol, i, hpc, hfs, hfn⟩

theorem C12_latch_written_once_witness :
    (par_init 2 0 10 99).solution_found = 0 ∧
    (((par_run event_S1 2 (par_init 2 0 10 99) sched_first_hit).solution_found = 0 ∨
      (par_run event_S1 2 (par_init 2 0 10 99) sched_first_hit).solution_found = 1) ∧
    ((par_run event_S1 2 (par_init 2 0 10 99) sched_first_hit).solution_found = 0 →
      (par_run event_S1 2 (par_init 2 0 10 99) sched_first_hit).global_found_nonce =
        (par_init 2 0 10 99).global_found_nonce) ∧
    ((par_run event_S1 2 (par_init 2 0 10 99) sched_first_hit).solution_found = 1 →
      (par_run event_S1 2 (par_run event_S1 2 (par_init 2 0 10 99) sched_first_hit)
        [(1, false)]).solution_found = 1 ∧
      (par_run event_S1 2 (par_run event_S1 2 (par_init 2 0 10 99) sched_first_hit)
        [(1, false)]).global_found_nonce =
        (par_run event_S1 2 (par_init 2 0 10 99) sched_first_hit).global_found_nonce ∧
      (∃ out,
        update_nonce_in_json event_S1
          (par_run event_S1 2 (par_init 2 0 10 99) sched_first_hit).global_found_nonce =
            some out ∧
        (count_leading_zeros (sha256_hash out) : Int) ≥ 2) ∧
      ∃ i,
        ((par_run event_S1 2 (par_init 2 0 10 99) sched_first_hit).workers i).pc =
          .returned ∧
        ((par_run event_S1 2 (par_init 2 0 10 99)
          sched_first_hit).workers i).data.found_solution = 1 ∧
        ((par_run event_S1 2 (par_init 2 0 10 99)
          sched_first_hit).workers i).data.found_nonce =
          some (par_run event_S1 2 (par_init 2 0 10 99)
            sched_first_hit).global_found_nonce)) :=
  ⟨rfl, C12_latch_written_once event_S1 2 (par_init 2 0 10 99) sched_first_hit
    [(1, false)] rfl⟩

/-- C30: subrange sizes. For `W >= 1` workers and a range `start <= end`, with
`q = (end - start) / W` and `r = (end - start) % W`, worker `i < W - 1` of
`nip13_mine_range_parallel` gets `[start + i*q, start + (i+1)*q)`, of size `q`, and the last
worker gets `[start + (W-1)*q, end)`, of size `q + r`; when `end - start < W` every worker
but the last gets an empty subrange, and the last gets the whole range. -/
theorem C30_subrange_sizes (W s t : Nat) (hW : 1 ≤ W) (hst : s ≤ t) (ht : t < 2 ^ 64) :
    (∀ i, i + 1 < W →
      range_parallel_bounds W s t i = (s + i * ((t - s) / W), s + (i + 1) * ((t - s) / W)) ∧
      (range_parallel_bounds W s t i).2 - (range_parallel_bounds W s t i).1 = (t - s) / W) ∧
    range_parallel_bounds W s t (W - 1) = (s + (W - 1) * ((t - s) / W), t) ∧
    (range_parallel_bounds W s t (W - 1)).2 - (range_parallel_bounds W s t (W - 1)).1 =
      (t - s) / W + (t - s) % W ∧
    (t - s < W →
      (∀ i, i + 1 < W → range_parallel_bounds W s t i = (s, s)) ∧
      range_parallel_bounds W s t (W - 1) = (s, t)) := by
  obtain ⟨q, r, hq, hr, hsum, hb⟩ := range_parallel_bounds_closed W s t hst ht
  rw [← hq, ← hr]
  have hlast : range_parallel_bounds W s t (W - 1) = (s + (W - 1) * q, t) := by
    rw [hb (W - 1) (by omega), if_pos rfl]
    have h1 : (W - 1 + 1) * q = W * q := by rw [Nat.sub_add_cancel hW]
    have h2 : W * q = (W - 1) * q + q := by
      conv_lhs => rw [← Nat.sub_add_cancel hW, Nat.add_mul, Nat.one_mul]
    rw [h1]
    congr 1
    omega
  have hmid : ∀ i, i + 1 < W → range_parallel_bounds W s t i = (s + i * q, s + (i + 1) * q) := by
    intro i hi
    rw [hb i (by omega), if_neg (by omega)]
    rfl
  refine ⟨fun i hi => ⟨hmid i hi, ?_⟩, hlast, ?_, fun hlt => ?_⟩
  · rw [hmid i hi]
    show s + (i + 1) * q - (s + i * q) = q
    rw [Nat.add_mul, Nat.one_mul]
    omega
  · rw [hlast]
    show t - (s + (W - 1) * q) = q + r
    have h2 : W * q = (W - 1) * q + q := by
      conv_lhs => rw [← Nat.sub_add_cancel hW, Nat.add_mul, Nat.one_mul]
    omega
  · have hq0 : q = 0 := by rw [hq]; exact Nat.div_eq_of_lt hlt
    refine ⟨fun i hi => ?_, ?_⟩
    · rw [hmid i hi, hq0]; simp
    · rw [hlast, hq0]; simp

theorem C30_subrange_sizes_witness :
    (1 ≤ 4 ∧ 3 ≤ 13 ∧ 13 < 2 ^ 64) ∧
    ((∀ i, i + 1 < 4 →
      range_parallel_bounds 4 3 13 i = (3 + i * ((13 - 3) / 4), 3 + (i + 1) * ((13 - 3) / 4)) ∧
      (range_parallel_bounds 4 3 13 i).2 - (range_parallel_bounds 4 3 13 i).1 = (13 - 3) / 4) ∧
    range_parallel_bounds 4 3 13 (4 - 1) = (3 + (4 - 1) * ((13 - 3) / 4), 13) ∧
    (range_parallel_bounds 4 3 13 (4 - 1)).2 - (range_parallel_bounds 4 3 13 (4 - 1)).1 =
      (13 - 3) / 4 + (13 - 3) % 4 ∧
    (13 - 3 < 4 →
      (∀ i, i + 1 < 4 → range_parallel_bounds 4 3 13 i = (3, 3)) ∧
      range_parallel_bounds 4 3 13 (4 - 1) = (3, 13))) :=
  ⟨⟨by decide, by decide, by decide⟩,
    C30_subrange_sizes 4 3 13 (by decide) (by decide) (by decide)⟩

/-- C29, as stated, fails: `sha256_init` assigns `state` and `count` only. Called on a context
whose buffer holds 64 bytes `0xff`, it leaves all of them `0xff`. -/
theorem C29_sha256_init_counterexample :
    (sha256_init ctx_dirty).buffer = List.replicate 64 0xff ∧
    (sha256_init ctx_dirty).buffer ≠ List.replicate 64 0 ∧
    ∀ i, i < 64 → rd (sha256_init ctx_dirty).buffer i = 0xff := by
  decide

/-- C29, amended: for every prior context value, after `sha256_init` the eight state words
are the IV constants and the byte counter is 0; the block buffer is left as it was. With
the counter at 0 its old content is dead: two contexts initialised from different prior
values give the same digest for the same input. -/
theorem C29_sha256_init_resets (ctx ctx' : sha256_ctx_t) :
    (sha256_init ctx).state =
      [0x6a09e667, 0xbb67ae85, 0x3c6ef372, 0xa54ff53a,
       0x510e527f, 0x9b05688c, 0x1f83d9ab, 0x5be0cd19] ∧
    (sha256_init ctx).count = 0 ∧
    (sha256_init ctx).buffer = ctx.buffer ∧
    (ctx.buffer.length = 64 → ctx'.buffer.length = 64 → ∀ data, IsBytes data →
      sha256_final (sha256_update (sha256_init ctx) data) =
        sha256_final (sha256_update (sha256_init ctx') data)) := by
  refine ⟨rfl, rfl, rfl, fun hlen hlen' data hd => ?_⟩
  have hnil : IsBytes ([] : List Nat) := fun _ h => absurd h (List.not_mem_nil _)
  have h1 := sha256_update_absorbed data (sha256_init_absorbed ctx hlen) hnil hd
  have h2 := sha256_update_absorbed data (sha256_init_absorbed ctx' hlen') hnil hd
  exact sha256_final_congr h1 h2 (isBytes_drop (isBytes_append hnil hd) _)

/-! ## Lemmas: searches that find -/

/-- The loop of `nip13_mine` is the loop of `nip13_mine_range` without the attempt counter. -/
theorem nip13_mine_loop_eq (e : List Nat) (D : Int) (t : Nat) (fuel n a : Nat) :
    nip13_mine_loop e D t fuel n = (mine_loop e D t fuel n a).map fun r => (r.ret, r.found_nonce) := by
  induction fuel generalizing n a with
  | zero => rfl
  | succ fuel ih =>
    unfold nip13_mine_loop mine_loop
    by_cases hlt : n < t
    · rw [if_pos hlt, if_pos hlt]
      cases hu : update_nonce_in_json e n with
      | none => rfl
      | some out =>
        simp only []
        by_cases hge : (count_leading_zeros (sha256_hash out) : Int) ≥ D
        · rw [if_pos hge, if_pos hge]; rfl
        · rw [if_neg hge, if_neg hge]; exact ih _ _
    · rw [if_neg hlt, if_neg hlt]; rfl

theorem nip13_mine_eq (e : List Nat) (D : Int) (t : Nat) :
    nip13_mine e D t = (nip13_mine_range e D 0 t).map fun r => (r.ret, r.found_nonce) :=
  nip13_mine_loop_eq e D t (t + 1) 0 0

/-- A range that holds a solution: the search returns 1 with the first solution. -/
theorem nip13_mine_range_finds (e : List Nat) (D : Int) (s t N : Nat) (ht : t < 2 ^ 64)
    (h1 : s ≤ N) (h2 : N < t) (hs : Solves e D N) :
    ∃ M, nip13_mine_range e D s t =
        some { ret := 1, found_nonce := some M, attempts := M - s + 1 } ∧
      s ≤ M ∧ M ≤ N ∧ Solves e D M ∧ ∀ L, s ≤ L → L < M → Misses e D L := by
  cases hr : nip13_mine_range e D s t with
  | none =>
    obtain ⟨out, ho, _⟩ := hs
    rw [((nip13_mine_range_none_iff e D s t ht).mp hr).2 N] at ho
    cases ho
  | some r =>
    rcases nip13_mine_range_some e D s t ht r hr with
      ⟨hret, M, hM, hsM, hMt, hsol, hmiss, hatt⟩ | ⟨_, _, hmiss, _⟩
    · refine ⟨M, ?_, hsM, ?_, hsol, hmiss⟩
      · obtain ⟨ret, fn, att⟩ := r
        simp only at hret hM hatt
        rw [hret, hM, hatt]
      · by_contra hlt
        exact misses_not_solves (hmiss N h1 (by omega)) hs
    · exact absurd hs (misses_not_solves (hmiss N h1 h2))

/-- C25: scenario S1. For the event `{"content":"hi","created_at":1700000000,"tags":[]}` and
`D = 8`, the nonce 167 lies in `[0, 10^6)` and the digest of the event serialized with it
has at least 8 leading zero bits; so `nip13_mine_range(event, 8, 0, 10^6)` and
`nip13_mine(event, 8, 10^6)` return 1 with a nonce `N < 10^6` whose digest has at least 8
leading zero bits. -/
theorem C25_scenario_S1 :
    (∃ out, update_nonce_in_json event_S1 167 = some out ∧
      (count_leading_zeros (sha256_hash out) : Int) ≥ 8) ∧
    (∃ N, nip13_mine_range event_S1 8 0 1000000 =
        some { ret := 1, found_nonce := some N, attempts := N + 1 } ∧
      nip13_mine event_S1 8 1000000 = some (1, some N) ∧
      N < 1000000 ∧
      ∃ out, update_nonce_in_json event_S1 N = some out ∧
        (count_leading_zeros (sha256_hash out) : Int) ≥ 8) := by
  have hs : Solves event_S1 8 167 := by decide!
  obtain ⟨M, hM, _, hle, hsol, _⟩ :=
    nip13_mine_range_finds event_S1 8 0 1000000 167 (by decide) (by decide) (by decide) hs
  refine ⟨hs, M, hM, ?_, by omega, hsol⟩
  rw [nip13_mine_eq, hM]
  rfl

theorem digest_bytes_length (state : List Nat) : (digest_bytes state).length = 32 := rfl

theorem isBytes_digest_bytes (state : List Nat) : IsBytes (digest_bytes state) := by
  intro b hb
  simp only [digest_bytes, List.mem_flatMap, List.mem_cons, List.mem_singleton,
    List.not_mem_nil, or_false] at hb
  obtain ⟨i, _, h | h | h | h⟩ := hb <;>
    · rw [h]
      exact Nat.lt_succ_of_le Nat.and_le_right

theorem sha256_hash_length (m : List Nat) : (sha256_hash m).length = 32 :=
  digest_bytes_length _

theorem isBytes_sha256_hash (m : List Nat) : IsBytes (sha256_hash m) :=
  isBytes_digest_bytes _

/-- At least one leading zero bit: the first byte of the digest is at most `0x7f`. -/
theorem count_leading_zeros_pos_iff (h : List Nat) (hlen : h.length = 32) (hb : IsBytes h) :
    1 ≤ count_leading_zeros h ↔ rd h 0 ≤ 0x7f := by
  rw [count_leading_zeros_eq h hlen]
  match h, hlen with
  | b :: t, _ =>
    have hb' : b < 256 := hb b (List.mem_cons_self _ _)
    show 1 ≤ (if b = 0 then 8 + clz_list t else clz_byte_loop 8 b 0) ↔ b ≤ 0x7f
    by_cases h0 : b = 0
    · rw [if_pos h0, h0]; omega
    · rw [if_neg h0]
      have := clz_byte_spec b hb' h0 1 (by decide)
      rw [this]
      norm_num
      omega

theorem solves_one_iff (e : List Nat) (N : Nat) :
    Solves e 1 N ↔
      ∃ out, update_nonce_in_json e N = some out ∧ rd (sha256_hash out) 0 ≤ 0x7f := by
  constructor
  · rintro ⟨out, ho, hge⟩
    refine ⟨out, ho, ?_⟩
    rw [← count_leading_zeros_pos_iff _ (sha256_hash_length out) (isBytes_sha256_hash out)]
    omega
  · rintro ⟨out, ho, hb⟩
    refine ⟨out, ho, ?_⟩
    rw [← count_leading_zeros_pos_iff _ (sha256_hash_length out) (isBytes_sha256_hash out)] at hb
    omega

/-- C26, as stated, fails: the range `[0, 2)` has length 2, and for the scenario event with
`D = 1` neither nonce gives a digest whose first byte is at most `0x7f`: the search returns 0
after 2 attempts. -/
theorem C26_scenario_S5_counterexample :
    nip13_mine_range event_S1 1 0 2 = some { ret := 0, found_nonce := none, attempts := 2 } ∧
    2 - 0 ≥ 2 := by
  refine ⟨by decide!, by decide⟩

/-- C26, amended: scenario S5. With `D = 1`, for the scenario event and every range
`[start, end)`, `nip13_mine_range` returns 0 or 1; it returns 1 exactly when the range holds
a nonce whose digest's first byte is in `[0x00, 0x7f]`, and then the nonce it stores is
such a nonce of the range. The nonce 2 is one, so every range with `start <= 2 < end`
returns 1. -/
theorem C26_scenario_S5 (s t : Nat) (ht : t < 2 ^ 64) :
    (∃ r, nip13_mine_range event_S1 1 s t = some r ∧ (r.ret = 0 ∨ r.ret = 1) ∧
      (r.ret = 1 ↔ ∃ N out, s ≤ N ∧ N < t ∧ update_nonce_in_json event_S1 N = some out ∧
        rd (sha256_hash out) 0 ≤ 0x7f) ∧
      (r.ret = 1 → ∃ N out, r.found_nonce = some N ∧ s ≤ N ∧ N < t ∧
        update_nonce_in_json event_S1 N = some out ∧ rd (sha256_hash out) 0 ≤ 0x7f)) ∧
    (s ≤ 2 → 2 < t → ∃ r, nip13_mine_range event_S1 1 s t = some r ∧ r.ret = 1) := by
  have h2 : Solves event_S1 1 2 := by decide!
  constructor
  · cases hr : nip13_mine_range event_S1 1 s t with
    | none =>
      obtain ⟨out, ho, _⟩ := h2
      rw [((nip13_mine_range_none_iff event_S1 1 s t ht).mp hr).2 2] at ho
      cases ho
    | some r =>
      refine ⟨r, rfl, ?_⟩
      rcases nip13_mine_range_some event_S1 1 s t ht r hr with
        ⟨hret, N, hN, hsN, hNt, hsol, _, _⟩ | ⟨hret, _, hmiss, _⟩
      · obtain ⟨out, ho, hb⟩ := (solves_one_iff event_S1 N).mp hsol
        exact ⟨Or.inr hret, ⟨fun _ => ⟨N, out, hsN, hNt, ho, hb⟩, fun _ => hret⟩,
          fun _ => ⟨N, out, hN, hsN, hNt, ho, hb⟩⟩
      · refine ⟨Or.inl hret, ⟨fun h => by omega, ?_⟩, fun h => by omega⟩
        rintro ⟨N, out, hsN, hNt, ho, hb⟩
        exact absurd ((solves_one_iff event_S1 N).mpr ⟨out, ho, hb⟩)
          (misses_not_solves (hmiss N hsN hNt))
  · intro hs2 h2t
    obtain ⟨M, hM, _⟩ := nip13_mine_range_finds event_S1 1 s t 2 ht hs2 h2t h2
    exact ⟨_, hM, rfl⟩

theorem C26_scenario_S5_witness :
    3 < 2 ^ 64 ∧
    ((∃ r, nip13_mine_range event_S1 1 0 3 = some r ∧ (r.ret = 0 ∨ r.ret = 1) ∧
      (r.ret = 1 ↔ ∃ N out, 0 ≤ N ∧ N < 3 ∧ update_nonce_in_json event_S1 N = some out ∧
        rd (sha256_hash out) 0 ≤ 0x7f) ∧
      (r.ret = 1 → ∃ N out, r.found_nonce = some N ∧ 0 ≤ N ∧ N < 3 ∧
        update_nonce_in_json event_S1 N = some out ∧ rd (sha256_hash out) 0 ≤ 0x7f)) ∧
    (0 ≤ 2 → 2 < 3 → ∃ r, nip13_mine_range event_S1 1 0 3 = some r ∧ r.ret = 1)) :=
  ⟨by decide, C26_scenario_S5 0 3 (by decide)⟩

/-! ## Lemmas: buffering in sha256_update -/

theorem rd_take (data : List Nat) (n j : Nat) (h : j < n) : rd (data.take n) j = rd data j := by
  unfold rd
  rw [List.getD_eq_getElem?_getD, List.getD_eq_getElem?_getD, List.getElem?_take_of_lt h]

theorem load_word_take (data : List Nat) (i : Nat) (h : i < 16) :
    load_word (data.take 64) i = load_word data i := by
  unfold load_word
  rw [rd_take _ _ _ (by omega), rd_take _ _ _ (by omega), rd_take _ _ _ (by omega),
    rd_take _ _ _ (by omega)]

/-- Only the 64 bytes at the pointer are read by `sha256_transform`. -/
theorem sha256_transform_take (state data : List Nat) :
    sha256_transform state (data.take 64) = sha256_transform state data := by
  have hl : (List.range 16).map (load_word (data.take 64)) =
      (List.range 16).map (load_word data) :=
    List.map_congr_left fun i hi => load_word_take data i (List.mem_range.mp hi)
  have hm : message_schedule (data.take 64) = message_schedule data := by
    simp only [message_schedule, hl]
  simp only [sha256_transform, hm]

theorem update_blocks_calls_spec (fuel : Nat) (state data : List Nat)
    (hf : data.length / 64 ≤ fuel) :
    update_blocks fuel state data =
      ((update_blocks_calls fuel data).foldl sha256_transform state,
        data.drop (data.length / 64 * 64)) ∧
    update_blocks_calls fuel data =
      (List.range (data.length / 64)).map fun k => (data.drop (64 * k)).take 64 := by
  induction fuel generalizing state data with
  | zero =>
    have h0 : data.length / 64 = 0 := by omega
    simp [update_blocks, update_blocks_calls, h0]
  | succ fuel ih =>
    unfold update_blocks update_blocks_calls
    by_cases h64 : 64 ≤ data.length
    · rw [if_pos h64, if_pos h64]
      have hq : data.length / 64 = (data.drop 64).length / 64 + 1 := by
        rw [List.length_drop]; omega
      obtain ⟨h1, h2⟩ := ih (sha256_transform state data) (data.drop 64) (by omega)
      constructor
      · rw [h1, List.foldl_cons, sha256_transform_take, hq, List.drop_drop]
        congr 2
        omega
      · rw [h2, hq, List.range_succ_eq_map, List.map_cons, List.map_map]
        congr 1
        apply List.map_congr_left
        intro k _
        show ((data.drop 64).drop (64 * k)).take 64 = (data.drop (64 * (k + 1))).take 64
        rw [List.drop_drop]
        congr 2
        omega
    · rw [if_neg h64, if_neg h64]
      have h0 : data.length / 64 = 0 := by omega
      simp [h0]
theorem sha256_update_small (ctx : sha256_ctx_t) (data : List Nat)
    (h : data.length < 64 - ctx.count % 64) :
    sha256_update ctx data =
      { state := ctx.state, count := (ctx.count + data.length) % 2 ^ 64,
        buffer := if 0 < data.length then memcpy ctx.buffer (ctx.count % 64) data
          else ctx.buffer } ∧
    sha256_update_calls ctx data = [] ∧
    sha256_update_writes ctx data =
      if 0 < data.length then [(((ctx.count % 64 : Nat) : Int), data)] else [] := by
  have hoff : (ctx.count + data.length) % 2 ^ 64 % 64 - data.length = ctx.count % 64 := by
    omega
  have hoff' : (((ctx.count + data.length) % 2 ^ 64 % 64 : Nat) : Int) - data.length =
      ((ctx.count % 64 : Nat) : Int) := by
    omega
  refine ⟨?_, ?_, ?_⟩
  · unfold sha256_update
    simp only []
    rw [if_neg (by omega)]
    by_cases hn : 0 < data.length
    · rw [if_pos hn, if_pos hn, hoff]
    · rw [if_neg hn, if_neg hn]
  · unfold sha256_update_calls
    simp only []
    rw [if_neg (by omega)]
  · unfold sha256_update_writes
    simp only []
    rw [if_neg (by omega)]
    by_cases hn : 0 < data.length
    · rw [if_pos hn, if_pos hn, hoff']
    · rw [if_neg hn, if_neg hn]

theorem sha256_update_large (ctx : sha256_ctx_t) (data : List Nat)
    (hbuf : ctx.buffer.length = 64) (h : 64 - ctx.count % 64 ≤ data.length) :
    sha256_update_calls ctx data =
      (ctx.buffer.take (ctx.count % 64) ++ data.take (64 - ctx.count % 64)) ::
        (List.range ((data.length - (64 - ctx.count % 64)) / 64)).map
          (fun k => ((data.drop (64 - ctx.count % 64)).drop (64 * k)).take 64) ∧
    sha256_update ctx data =
      { state := (sha256_update_calls ctx data).foldl sha256_transform ctx.state,
        count := (ctx.count + data.length) % 2 ^ 64,
        buffer :=
          if 0 < (ctx.count % 64 + data.length) % 64 then
            memcpy (ctx.buffer.take (ctx.count % 64) ++ data.take (64 - ctx.count % 64)) 0
              (data.drop (64 - ctx.count % 64 +
                (data.length - (64 - ctx.count % 64)) / 64 * 64))
          else ctx.buffer.take (ctx.count % 64) ++ data.take (64 - ctx.count % 64) } ∧
    sha256_update_writes ctx data =
      (((ctx.count % 64 : Nat) : Int), data.take (64 - ctx.count % 64)) ::
        (if 0 < (ctx.count % 64 + data.length) % 64 then
          [(0, data.drop (64 - ctx.count % 64 +
              (data.length - (64 - ctx.count % 64)) / 64 * 64))]
        else []) := by
  have hd : ctx.count % 64 < 64 := Nat.mod_lt _ (by decide)
  have hB1 : memcpy ctx.buffer (64 - (64 - ctx.count % 64)) (data.take (64 - ctx.count % 64)) =
      ctx.buffer.take (ctx.count % 64) ++ data.take (64 - ctx.count % 64) := by
    unfold memcpy
    have h1 : 64 - (64 - ctx.count % 64) = ctx.count % 64 := by omega
    rw [h1, List.length_take, Nat.min_eq_left h,
      List.drop_eq_nil_of_le (by rw [hbuf]; omega), List.append_nil]
  have hrl : (data.drop (64 - ctx.count % 64)).length = data.length - (64 - ctx.count % 64) :=
    List.length_drop _ _
  have hfuel : (data.drop (64 - ctx.count % 64)).length / 64 ≤ data.length / 64 := by
    rw [hrl]; exact Nat.div_le_div_right (Nat.sub_le _ _)
  have hcalls := fun st => update_blocks_calls_spec (data.length / 64) st
    (data.drop (64 - ctx.count % 64)) hfuel
  have hLlen : (data.drop (64 - ctx.count % 64 +
      (data.length - (64 - ctx.count % 64)) / 64 * 64)).length =
      (ctx.count % 64 + data.length) % 64 := by
    rw [List.length_drop]; omega
  have hoff : (ctx.count + data.length) % 2 ^ 64 % 64 - (ctx.count % 64 + data.length) % 64
      = 0 := by omega
  have hoff' : (((ctx.count + data.length) % 2 ^ 64 % 64 : Nat) : Int) -
      ((ctx.count % 64 + data.length) % 64 : Nat) = 0 := by omega
  have hc : sha256_update_calls ctx data =
      (ctx.buffer.take (ctx.count % 64) ++ data.take (64 - ctx.count % 64)) ::
        (List.range ((data.length - (64 - ctx.count % 64)) / 64)).map
          (fun k => ((data.drop (64 - ctx.count % 64)).drop (64 * k)).take 64) := by
    unfold sha256_update_calls
    simp only []
    rw [if_pos h, hB1, (hcalls ctx.state).2, hrl]
  refine ⟨hc, ?_, ?_⟩
  · rw [hc, List.foldl_cons, ← hrl, ← (hcalls ctx.state).2]
    unfold sha256_update
    simp only []
    rw [if_pos h, hB1, (hcalls _).1]
    simp only [List.drop_drop, hrl]
    rw [hLlen]
    by_cases hp : 0 < (ctx.count % 64 + data.length) % 64
    · rw [if_pos hp, if_pos hp, hoff]
    · rw [if_neg hp, if_neg hp]
  · unfold sha256_update_writes
    simp only []
    rw [if_pos h, (hcalls ctx.state).1]
    simp only [List.drop_drop, hrl]
    rw [hLlen, hoff']
    congr 2
    omega

theorem sha256_pending_length (ctx : sha256_ctx_t) (hbuf : ctx.buffer.length = 64) :
    (sha256_pending ctx).length = ctx.count % 64 := by
  unfold sha256_pending
  rw [List.length_take, hbuf]
  omega

/-- C27: buffering in `sha256_update`. For a context with counter `c` and a 64-byte buffer
whose positions `0 .. c % 64 - 1` hold the pending bytes, and an input of `n` bytes,
`sha256_update` sets the counter to `c + n` (in 64-bit arithmetic); it calls
`sha256_transform` exactly `(c % 64 + n) / 64` times, on the consecutive 64-byte blocks of
the stream `pending ++ input`, and the new state is the old one folded over those blocks;
it leaves the trailing `(c + n) % 64` bytes of the stream at the start of the buffer; its
`memcpy` calls into the buffer stay within `0..63`, the first of them placing incoming
bytes at offset `c % 64`; and the buffer keeps its 64 bytes. -/
theorem C27_sha256_update_buffering (ctx : sha256_ctx_t) (data : List Nat)
    (hbuf : ctx.buffer.length = 64) :
    (sha256_update ctx data).count = (ctx.count + data.length) % 2 ^ 64 ∧
    (ctx.count + data.length < 2 ^ 64 →
      (sha256_update ctx data).count = ctx.count + data.length) ∧
    (sha256_update ctx data).buffer.length = 64 ∧
    sha256_update_calls ctx data =
      (List.range ((ctx.count % 64 + data.length) / 64)).map
        (fun k => ((sha256_pending ctx ++ data).drop (64 * k)).take 64) ∧
    (sha256_update_calls ctx data).length = (ctx.count % 64 + data.length) / 64 ∧
    (∀ b ∈ sha256_update_calls ctx data, b.length = 64) ∧
    (sha256_update ctx data).state =
      (sha256_update_calls ctx data).foldl sha256_transform ctx.state ∧
    (sha256_update ctx data).buffer.take ((ctx.count + data.length) % 64) =
      (sha256_pending ctx ++ data).drop ((ctx.count % 64 + data.length) / 64 * 64) ∧
    (sha256_update ctx data).buffer =
      (sha256_update_writes ctx data).foldl (fun b w => memcpy b w.1.toNat w.2) ctx.buffer ∧
    (∀ w ∈ sha256_update_writes ctx data, 0 ≤ w.1 ∧ w.1 + w.2.length ≤ 64) ∧
    (sha256_update_writes ctx data).head? =
      if data.length = 0 then none
      else some (((ctx.count % 64 : Nat) : Int), data.take (64 - ctx.count % 64)) := by
  have hd : ctx.count % 64 < 64 := Nat.mod_lt _ (by decide)
  have hP := sha256_pending_length ctx hbuf
  have hmap_len : ∀ m, (∀ b ∈ (List.range m).map
      (fun k => ((sha256_pending ctx ++ data).drop (64 * k)).take 64), m ≤
        (ctx.count % 64 + data.length) / 64 → b.length = 64) := by
    intro m b hb hm
    obtain ⟨k, hk, rfl⟩ := List.mem_map.mp hb
    have hk' := List.mem_range.mp hk
    rw [List.length_take, List.length_drop, List.length_append, hP]
    have : 64 * k + 64 ≤ ctx.count % 64 + data.length := by
      have := Nat.div_mul_le_self (ctx.count % 64 + data.length) 64
      have : (k + 1) * 64 ≤ (ctx.count % 64 + data.length) / 64 * 64 :=
        Nat.mul_le_mul_right 64 (by omega)
      omega
    omega
  by_cases h : data.length < 64 - ctx.count % 64
  · obtain ⟨hu, hc, hw⟩ := sha256_update_small ctx data h
    have hq : (ctx.count % 64 + data.length) / 64 = 0 := by omega
    have hmemlen : (memcpy ctx.buffer (ctx.count % 64) data).length = 64 := by
      rw [memcpy_length _ _ _ (by omega), hbuf]
    rw [hu, hc, hw, hq]
    refine ⟨rfl, fun hlt => Nat.mod_eq_of_lt hlt, ?_, rfl, rfl, ?_, rfl, ?_, ?_, ?_, ?_⟩
    · show (if 0 < data.length then memcpy ctx.buffer (ctx.count % 64) data
        else ctx.buffer).length = 64
      split
      · exact hmemlen
      · exact hbuf
    · intro b hb; cases hb
    · show (if 0 < data.length then memcpy ctx.buffer (ctx.count % 64) data
        else ctx.buffer).take ((ctx.count + data.length) % 64) = _
      have hm : (ctx.count + data.length) % 64 = ctx.count % 64 + data.length := by omega
      rw [hm, Nat.zero_mul, List.drop_zero]
      by_cases hn : 0 < data.length
      · rw [if_pos hn]
        unfold memcpy sha256_pending
        rw [List.append_assoc, List.take_append_eq_append_take, List.length_take, hbuf,
          Nat.min_eq_left (by omega), List.take_of_length_le (by rw [List.length_take]; omega)]
        congr 1
        rw [List.take_append_eq_append_take, List.take_of_length_le (by omega)]
        have : ctx.count % 64 + data.length - ctx.count % 64 - data.length = 0 := by omega
        rw [this, List.take_zero, List.append_nil]
      · rw [if_neg hn]
        have hn0 : data = [] := List.length_eq_zero.mp (by omega)
        rw [hn0]
        simp [sha256_pending]
    · show (if 0 < data.length then memcpy ctx.buffer (ctx.count % 64) data else ctx.buffer) = _
      by_cases hn : 0 < data.length
      · rw [if_pos hn, if_pos hn]; rfl
      · rw [if_neg hn, if_neg hn]; rfl
    · intro w hw'
      by_cases hn : 0 < data.length
      · rw [if_pos hn, List.mem_singleton] at hw'
        rw [hw']
        show (0 : Int) ≤ ((ctx.count % 64 : Nat) : Int) ∧
          ((ctx.count % 64 : Nat) : Int) + (data.length : Int) ≤ 64
        omega
      · rw [if_neg hn] at hw'; cases hw'
    · by_cases hn : 0 < data.length
      · rw [if_pos hn, if_neg (by omega), List.take_of_length_le (by omega)]; rfl
      · rw [if_neg hn, if_pos (by omega)]; rfl
  · have h' : 64 - ctx.count % 64 ≤ data.length := by omega
    obtain ⟨hc, hu, hw⟩ := sha256_update_large ctx data hbuf h'
    have hq : (ctx.count % 64 + data.length) / 64 =
        (data.length - (64 - ctx.count % 64)) / 64 + 1 := by omega
    have hS64 : (sha256_pending ctx ++ data).take 64 =
        ctx.buffer.take (ctx.count % 64) ++ data.take (64 - ctx.count % 64) := by
      rw [List.take_append_eq_append_take, hP, List.take_of_length_le (by omega)]
      rfl
    have hSd : ∀ m, (sha256_pending ctx ++ data).drop (64 + m) =
        (data.drop (64 - ctx.count % 64)).drop m := by
      intro m
      rw [List.drop_append_eq_append_drop, hP, List.drop_eq_nil_of_le (by omega),
        List.nil_append, List.drop_drop]
      congr 1
      omega
    have hcalls : sha256_update_calls ctx data =
        (List.range ((ctx.count % 64 + data.length) / 64)).map
          (fun k => ((sha256_pending ctx ++ data).drop (64 * k)).take 64) := by
      rw [hc, hq, List.range_succ_eq_map, List.map_cons, List.map_map, Nat.mul_zero,
        List.drop_zero, hS64]
      congr 1
      apply List.map_congr_left
      intro k _
      show _ = ((sha256_pending ctx ++ data).drop (64 * (k + 1))).take 64
      rw [Nat.mul_add, Nat.mul_one, Nat.add_comm, hSd]
    have hB1len : (ctx.buffer.take (ctx.count % 64) ++
        data.take (64 - ctx.count % 64)).length = 64 := by
      rw [List.length_append, List.length_take, List.length_take, hbuf]
      omega
    have hLlen : (data.drop (64 - ctx.count % 64 +
        (data.length - (64 - ctx.count % 64)) / 64 * 64)).length =
        (ctx.count % 64 + data.length) % 64 := by
      rw [List.length_drop]; omega
    refine ⟨by rw [hu], fun hlt => by rw [hu]; exact Nat.mod_eq_of_lt hlt, ?_, hcalls, ?_, ?_,
      by rw [hu], ?_, ?_, ?_, ?_⟩
    · rw [hu]
      show (if _ then _ else _ : List Nat).length = 64
      split
      · rw [memcpy_length _ _ _ (by rw [hLlen, hB1len]; omega), hB1len]
      · exact hB1len
    · rw [hcalls, List.length_map, List.length_range]
    · intro b hb
      rw [hcalls] at hb
      exact hmap_len _ b hb (Nat.le_refl _)
    · rw [hu]
      show (if _ then _ else _ : List Nat).take _ = _
      have hm : (ctx.count + data.length) % 64 = (ctx.count % 64 + data.length) % 64 := by
        omega
      have hdrop : (sha256_pending ctx ++ data).drop
          ((ctx.count % 64 + data.length) / 64 * 64) =
          data.drop (64 - ctx.count % 64 +
            (data.length - (64 - ctx.count % 64)) / 64 * 64) := by
        rw [hq, Nat.add_mul, Nat.one_mul, Nat.add_comm _ 64, hSd, List.drop_drop]
      rw [hm, hdrop]
      by_cases hp : 0 < (ctx.count % 64 + data.length) % 64
      · rw [if_pos hp]
        unfold memcpy
        rw [List.take_zero, List.nil_append, List.take_append_eq_append_take, hLlen,
          List.take_of_length_le (by omega), Nat.sub_self, List.take_zero, List.append_nil]
      · rw [if_neg hp]
        have h0 : (ctx.count % 64 + data.length) % 64 = 0 := by omega
        rw [h0, List.take_zero]
        exact (List.length_eq_zero.mp (by rw [hLlen, h0])).symm
    · rw [hu, hw]
      show (if _ then _ else _ : List Nat) = _
      have hB1 : memcpy ctx.buffer (ctx.count % 64) (data.take (64 - ctx.count % 64)) =
          ctx.buffer.take (ctx.count % 64) ++ data.take (64 - ctx.count % 64) := by
        unfold memcpy
        rw [List.length_take, Nat.min_eq_left h',
          List.drop_eq_nil_of_le (by rw [hbuf]; omega), List.append_nil]
      by_cases hp : 0 < (ctx.count % 64 + data.length) % 64
      · rw [if_pos hp, if_pos hp]
        simp only [List.foldl_cons, List.foldl_nil, Int.toNat_ofNat, hB1]
        rfl
      · rw [if_neg hp, if_neg hp]
        simp only [List.foldl_cons, List.foldl_nil, Int.toNat_ofNat, hB1]
    · intro w hw'
      rw [hw, List.mem_cons] at hw'
      rcases hw' with rfl | hw'
      · show (0 : Int) ≤ ((ctx.count % 64 : Nat) : Int) ∧
          ((ctx.count % 64 : Nat) : Int) + ((data.take (64 - ctx.count % 64)).length : Int) ≤ 64
        rw [List.length_take, Nat.min_eq_left h']
        omega
      · by_cases hp : 0 < (ctx.count % 64 + data.length) % 64
        · rw [if_pos hp, List.mem_singleton] at hw'
          rw [hw']
          show (0 : Int) ≤ 0 ∧ (0 : Int) + ((data.drop _).length : Int) ≤ 64
          rw [hLlen]
          omega
        · rw [if_neg hp] at hw'; cases hw'
    · rw [hw, List.head?_cons, if_neg (by omega)]

theorem C27_sha256_update_buffering_witness :
    ctx_midstream.buffer.length = 64 ∧
    ((sha256_update ctx_midstream data_seventy).count =
      (ctx_midstream.count + data_seventy.length) % 2 ^ 64 ∧
    (ctx_midstream.count + data_seventy.length < 2 ^ 64 →
      (sha256_update ctx_midstream data_seventy).count =
        ctx_midstream.count + data_seventy.length) ∧
    (sha256_update ctx_midstream data_seventy).buffer.length = 64 ∧
    sha256_update_calls ctx_midstream data_seventy =
      (List.range ((ctx_midstream.count % 64 + data_seventy.length) / 64)).map
        (fun k => ((sha256_pending ctx_midstream ++ data_seventy).drop (64 * k)).take 64) ∧
    (sha256_update_calls ctx_midstream data_seventy).length =
      (ctx_midstream.count % 64 + data_seventy.length) / 64 ∧
    (∀ b ∈ sha256_update_calls ctx_midstream data_seventy, b.length = 64) ∧
    (sha256_update ctx_midstream data_seventy).state =
      (sha256_update_calls ctx_midstream data_seventy).foldl sha256_transform
        ctx_midstream.state ∧
    (sha256_update ctx_midstream data_seventy).buffer.take
        ((ctx_midstream.count + data_seventy.length) % 64) =
      (sha256_pending ctx_midstream ++ data_seventy).drop
        ((ctx_midstream.count % 64 + data_seventy.length) / 64 * 64) ∧
    (sha256_update ctx_midstream data_seventy).buffer =
      (sha256_update_writes ctx_midstream data_seventy).foldl
        (fun b w => memcpy b w.1.toNat w.2) ctx_midstream.buffer ∧
    (∀ w ∈ sha256_update_writes ctx_midstream data_seventy, 0 ≤ w.1 ∧ w.1 + w.2.length ≤ 64) ∧
    (sha256_update_writes ctx_midstream data_seventy).head? =
      if data_seventy.length = 0 then none
      else some (((ctx_midstream.count % 64 : Nat) : Int),
        data_seventy.take (64 - ctx_midstream.count % 64))) :=
  ⟨rfl, C27_sha256_update_buffering ctx_midstream data_seventy rfl⟩

/-! ## Lemmas: the padding of sha256_final -/

theorem sha256_update_buffer_length (ctx : sha256_ctx_t) (data : List Nat)
    (hbuf : ctx.buffer.length = 64) : (sha256_update ctx data).buffer.length = 64 := by
  by_cases h : data.length < 64 - ctx.count % 64
  · rw [(sha256_update_small ctx data h).1]
    show (if _ then _ else _ : List Nat).length = 64
    split
    · rw [memcpy_length _ _ _ (by omega), hbuf]
    · exact hbuf
  · have h' : 64 - ctx.count % 64 ≤ data.length := by omega
    have hB1len : (ctx.buffer.take (ctx.count % 64) ++
        data.take (64 - ctx.count % 64)).length = 64 := by
      rw [List.length_append, List.length_take, List.length_take, hbuf]
      omega
    rw [(sha256_update_large ctx data hbuf h').2.1]
    show (if _ then _ else _ : List Nat).length = 64
    split
    · rw [memcpy_length _ _ _ (by rw [List.length_drop, hB1len]; omega), hB1len]
    · exact hB1len

theorem sha256_update_count (ctx : sha256_ctx_t) (data : List Nat) :
    (sha256_update ctx data).count = (ctx.count + data.length) % 2 ^ 64 := by
  unfold sha256_update
  simp only []
  split
  · split <;> rfl
  · split <;> rfl

theorem sha256_update_calls_length (ctx : sha256_ctx_t) (data : List Nat)
    (hbuf : ctx.buffer.length = 64) :
    (sha256_update_calls ctx data).length = (ctx.count % 64 + data.length) / 64 := by
  by_cases h : data.length < 64 - ctx.count % 64
  · rw [(sha256_update_small ctx data h).2.1]
    show 0 = _
    omega
  · have h' : 64 - ctx.count % 64 ≤ data.length := by omega
    rw [(sha256_update_large ctx data hbuf h').1, List.length_cons, List.length_map,
      List.length_range]
    omega

theorem sha256_final_padding_length (count : Nat) :
    (sha256_final_padding count).length = sha256_final_pad_len count := by
  unfold sha256_final_padding sha256_final_pad_len
  rw [List.length_take]
  show min _ 64 = _
  split <;> omega

theorem be_value_be_encode_8 (n : Nat) (h : n < 2 ^ 64) : be_value (be_encode 8 n) = n := by
  have h8 : be_encode 8 n = [n / 256 ^ 7 % 256, n / 256 ^ 6 % 256, n / 256 ^ 5 % 256,
      n / 256 ^ 4 % 256, n / 256 ^ 3 % 256, n / 256 ^ 2 % 256, n / 256 ^ 1 % 256,
      n / 256 ^ 0 % 256] := rfl
  rw [h8]
  simp only [be_value, List.foldl_cons, List.foldl_nil]
  norm_num
  omega

/-- C28: padding in `sha256_final`. For a context with byte counter `c`, the pad length `p`
is between 1 and 64, `(c + p) % 64 = 56`, and `p` is the least positive such value; the
padding is `0x80` followed by `p - 1` zero bytes; the 8 bytes appended after it are
`(8 * c) mod 2^64` in big-endian order; `c + p + 8` is a multiple of 64; the two updates
call `sha256_transform` once (when `c % 64 < 56`) or twice in all, and afterwards no byte
waits in the buffer; the digest is read from the state they leave. -/
theorem C28_sha256_final_padding (ctx : sha256_ctx_t) (hbuf : ctx.buffer.length = 64) :
    (1 ≤ sha256_final_pad_len ctx.count ∧ sha256_final_pad_len ctx.count ≤ 64 ∧
      (ctx.count + sha256_final_pad_len ctx.count) % 64 = 56 ∧
      ∀ p, 1 ≤ p → (ctx.count + p) % 64 = 56 → sha256_final_pad_len ctx.count ≤ p) ∧
    sha256_final_padding ctx.count =
      0x80 :: List.replicate (sha256_final_pad_len ctx.count - 1) 0 ∧
    (len_bytes ((ctx.count * 8) % 2 ^ 64) = be_encode 8 ((8 * ctx.count) % 2 ^ 64) ∧
      be_value (len_bytes ((ctx.count * 8) % 2 ^ 64)) = (8 * ctx.count) % 2 ^ 64) ∧
    (ctx.count + sha256_final_pad_len ctx.count + 8) % 64 = 0 ∧
    sha256_final ctx = digest_bytes (sha256_final_ctx ctx).state ∧
    ((sha256_update_calls ctx (sha256_final_padding ctx.count)).length +
      (sha256_update_calls (sha256_update ctx (sha256_final_padding ctx.count))
        (len_bytes ((ctx.count * 8) % 2 ^ 64))).length =
        if ctx.count % 64 < 56 then 1 else 2) ∧
    (sha256_final_ctx ctx).count =
      (ctx.count + sha256_final_pad_len ctx.count + 8) % 2 ^ 64 ∧
    (sha256_final_ctx ctx).count % 64 = 0 ∧
    sha256_pending (sha256_final_ctx ctx) = [] := by
  have hd : ctx.count % 64 < 64 := Nat.mod_lt _ (by decide)
  have hp : sha256_final_pad_len ctx.count =
      if ctx.count % 64 < 56 then 56 - ctx.count % 64 else 120 - ctx.count % 64 := rfl
  have hp1 : 1 ≤ sha256_final_pad_len ctx.count := by rw [hp]; split <;> omega
  have hp64 : sha256_final_pad_len ctx.count ≤ 64 := by rw [hp]; split <;> omega
  have hp56 : (ctx.count + sha256_final_pad_len ctx.count) % 64 = 56 := by
    rw [hp]; split <;> omega
  have hplen := sha256_final_padding_length ctx.count
  have hbuf1 := sha256_update_buffer_length ctx (sha256_final_padding ctx.count) hbuf
  have hc1 := sha256_update_count ctx (sha256_final_padding ctx.count)
  have hl8 : (len_bytes ((ctx.count * 8) % 2 ^ 64)).length = 8 := rfl
  have hcnt : (sha256_final_ctx ctx).count =
      (ctx.count + sha256_final_pad_len ctx.count + 8) % 2 ^ 64 := by
    unfold sha256_final_ctx
    rw [sha256_update_count, hc1, hplen, hl8]
    omega
  refine ⟨⟨hp1, hp64, hp56, ?_⟩, ?_, ⟨?_, ?_⟩, by omega, rfl, ?_, hcnt, by rw [hcnt]; omega, ?_⟩
  · intro p hp1' hp'
    rw [hp]
    split <;> omega
  · unfold sha256_final_padding
    obtain ⟨k, hk⟩ : ∃ k, sha256_final_pad_len ctx.count = k + 1 := ⟨_, (Nat.sub_add_cancel hp1).symm⟩
    rw [hk, List.take_succ_cons, List.take_replicate, Nat.add_sub_cancel,
      Nat.min_eq_left (by omega)]
  · rw [len_bytes_eq, Nat.mul_comm]
    rfl
  · rw [len_bytes_eq, Nat.mul_comm]
    exact be_value_be_encode_8 _ (Nat.mod_lt _ (by decide))
  · rw [sha256_update_calls_length _ _ hbuf, sha256_update_calls_length _ _ hbuf1, hc1, hplen, hl8]
    rw [hp]
    split <;> omega
  · unfold sha256_pending
    rw [hcnt]
    have : (ctx.count + sha256_final_pad_len ctx.count + 8) % 2 ^ 64 % 64 = 0 := by omega
    rw [this, List.take_zero]

theorem C28_sha256_final_padding_witness :
    ctx_midstream.buffer.length = 64 ∧
    ((1 ≤ sha256_final_pad_len ctx_midstream.count ∧
      sha256_final_pad_len ctx_midstream.count ≤ 64 ∧
      (ctx_midstream.count + sha256_final_pad_len ctx_midstream.count) % 64 = 56 ∧
      ∀ p, 1 ≤ p → (ctx_midstream.count + p) % 64 = 56 →
        sha256_final_pad_len ctx_midstream.count ≤ p) ∧
    sha256_final_padding ctx_midstream.count =
      0x80 :: List.replicate (sha256_final_pad_len ctx_midstream.count - 1) 0 ∧
    (len_bytes ((ctx_midstream.count * 8) % 2 ^ 64) =
        be_encode 8 ((8 * ctx_midstream.count) % 2 ^ 64) ∧
      be_value (len_bytes ((ctx_midstream.count * 8) % 2 ^ 64)) =
        (8 * ctx_midstream.count) % 2 ^ 64) ∧
    (ctx_midstream.count + sha256_final_pad_len ctx_midstream.count + 8) % 64 = 0 ∧
    sha256_final ctx_midstream = digest_bytes (sha256_final_ctx ctx_midstream).state ∧
    ((sha256_update_calls ctx_midstream (sha256_final_padding ctx_midstream.count)).length +
      (sha256_update_calls
        (sha256_update ctx_midstream (sha256_final_padding ctx_midstream.count))
        (len_bytes ((ctx_midstream.count * 8) % 2 ^ 64))).length =
        if ctx_midstream.count % 64 < 56 then 1 else 2) ∧
    (sha256_final_ctx ctx_midstream).count =
      (ctx_midstream.count + sha256_final_pad_len ctx_midstream.count + 8) % 2 ^ 64 ∧
    (sha256_final_ctx ctx_midstream).count % 64 = 0 ∧
    sha256_pending (sha256_final_ctx ctx_midstream) = []) :=
  ⟨rfl, C28_sha256_final_padding ctx_midstream rfl⟩

/-! ## Lemmas: the parallel benchmark driver -/

theorem attempts_of_successes_cons (c : SearchCall) (l : List SearchCall) :
    attempts_of_successes (c :: l) =
      (match c.result with
        | some r => if r.ret ≠ 0 then r.attempts else 0
        | none => 0) + attempts_of_successes l := by
  unfold attempts_of_successes
  cases hr : c.result with
  | none => simp [List.filterMap_cons, hr]
  | some r =>
    by_cases h : r.ret ≠ 0
    · simp [List.filterMap_cons, hr, h]
    · simp [List.filterMap_cons, hr, h]

theorem getLast?_cons_of_ne_nil {α : Type} (a : α) (l : List α) (h : l ≠ []) :
    (a :: l).getLast? = l.getLast? := by
  cases l with
  | nil => exact absurd rfl h
  | cons b t => rfl

theorem benchmark_parallel_loop_spec (search : SearchFn) (D : Int) (K : Nat) :
    ∀ fuel n σ, σ.starting_nonce ≤ 1000000000000 → σ.starting_nonce % 100000000 = 1 →
      σ.solutions_found ≤ K → σ.total_attempts < 2 ^ 64 → parallel_bench_left K σ < fuel →
      ParallelBenchSpec K σ (benchmark_parallel_loop search D K fuel n σ) := by
  intro fuel
  induction fuel with
  | zero => intro n σ _ _ _ _ hf; omega
  | succ fuel ih =>
    intro n σ hs hm hK hta hf
    unfold benchmark_parallel_loop
    by_cases hlt : σ.solutions_found < K
    · rw [if_pos hlt]
      have hend : (σ.starting_nonce + 100000000) % 2 ^ 64 = σ.starting_nonce + 100000000 := by
        omega
      have hleft : parallel_bench_left K σ = (K - σ.solutions_found - 1) * 10000 +
          (10000 - (σ.starting_nonce - 1) / 100000000) := by
        unfold parallel_bench_left; rw [if_pos hlt]
      have hpos : 1 ≤ 10000 - (σ.starting_nonce - 1) / 100000000 := by omega
      simp only [hend]
      cases hres : search n σ.working_json D σ.starting_nonce (σ.starting_nonce + 100000000) with
      | none =>
        simp only []
        exact {
          fuel_ok := by simp
          count := by simp only [List.length_singleton]; omega
          calls := by
            intro c hc
            rw [List.mem_singleton] at hc
            subst hc
            exact ⟨hs, hm, rfl, Nat.le_refl _, hlt⟩
          first := by
            intro c hc
            simp only [List.head?_cons, Option.mem_def, Option.some.injEq] at hc
            subst hc
            exact ⟨rfl, rfl, rfl⟩
          chain := List.chain'_singleton _
          final_start := by show σ.starting_nonce ≤ _; omega
          abort_iff := by
            constructor
            · intro h; cases h
            · intro h
              have : σ.starting_nonce > 1000000000000 := h
              omega
          abort_last := by intro h; cases h
          success := by intro h; cases h
          codes := by intro code h; cases h
          undefined := fun _ => ⟨_, rfl, Or.inl rfl⟩ }
      | some r =>
        simp only []
        by_cases hret : r.ret ≠ 0
        · rw [if_pos hret]
          cases hinc : increment_timestamp_in_json σ.working_json 1 with
          | none =>
            simp only []
            exact {
              fuel_ok := by simp
              count := by simp only [List.length_singleton]; omega
              calls := by
                intro c hc
                rw [List.mem_singleton] at hc
                subst hc
                exact ⟨hs, hm, rfl, Nat.le_refl _, hlt⟩
              first := by
                intro c hc
                simp only [List.head?_cons, Option.mem_def, Option.some.injEq] at hc
                subst hc
                exact ⟨rfl, rfl, rfl⟩
              chain := List.chain'_singleton _
              final_start := by show σ.starting_nonce ≤ _; omega
              abort_iff := by
                constructor
                · intro h; cases h
                · intro h
                  have : σ.starting_nonce > 1000000000000 := h
                  omega
              abort_last := by intro h; cases h
              success := by intro h; cases h
              codes := by intro code h; cases h
              undefined := fun _ => ⟨_, rfl, Or.inr ⟨by simp [SearchCall.succeeded, hret], hinc⟩⟩ }
          | some new_json =>
            simp only []
            have hleft' : parallel_bench_left K
                { solutions_found := σ.solutions_found + 1,
                  total_attempts := (σ.total_attempts + r.attempts) % 2 ^ 64,
                  starting_nonce := 1, working_json := new_json } ≤
                (K - σ.solutions_found - 1) * 10000 := by
              unfold parallel_bench_left
              simp only []
              split
              · have : K - (σ.solutions_found + 1) - 1 + 1 = K - σ.solutions_found - 1 := by
                  omega
                rw [← this, Nat.add_mul]
              · omega
            have h := ih (n + 1)
              { solutions_found := σ.solutions_found + 1,
                total_attempts := (σ.total_attempts + r.attempts) % 2 ^ 64,
                starting_nonce := 1, working_json := new_json }
              (by show 1 ≤ 1000000000000; decide) (by show 1 % 100000000 = 1; decide)
              (by show σ.solutions_found + 1 ≤ K; omega)
              (Nat.mod_lt _ (by decide)) (by omega)
            exact {
              fuel_ok := h.fuel_ok
              count := by
                show (_ :: _).length ≤ _
                rw [List.length_cons]
                have := h.count
                omega
              calls := by
                intro c hc
                rcases List.mem_cons.mp hc with rfl | hc
                · exact ⟨hs, hm, rfl, Nat.le_refl _, hlt⟩
                · obtain ⟨a, b, c', d, e⟩ := h.calls c hc
                  exact ⟨a, b, c', by have : σ.solutions_found + 1 ≤ c.round := d; omega, e⟩
              first := by
                intro c hc
                simp only [List.head?_cons, Option.mem_def, Option.some.injEq] at hc
                subst hc
                exact ⟨rfl, rfl, rfl⟩
              chain := by
                show List.Chain' _ (_ :: _)
                rw [List.chain'_cons']
                refine ⟨?_, h.chain⟩
                intro c2 hc2
                obtain ⟨h1, h2, h3⟩ := h.first c2 hc2
                refine ⟨fun hfail => ?_, fun _ => ⟨h1, h3, ?_⟩⟩
                · simp [SearchCall.failed, hret] at hfail
                · show increment_timestamp_in_json σ.working_json 1 = some c2.event
                  rw [hinc, h2]
              final_start := h.final_start
              abort_iff := h.abort_iff
              abort_last := by
                intro ho
                obtain ⟨c, hc, hrest⟩ := h.abort_last ho
                refine ⟨c, ?_, hrest⟩
                show (_ :: _).getLast? = _
                rw [getLast?_cons_of_ne_nil _ _ (by intro hn; rw [hn] at hc; cases hc)]
                exact hc
              success := by
                intro ho
                obtain ⟨h1, h2, h3⟩ := h.success ho
                refine ⟨h1, ?_, ?_⟩
                · show _ + (List.filter _ (_ :: _)).length = K
                  rw [List.filter_cons_of_pos (by simp [SearchCall.succeeded, hret]),
                    List.length_cons]
                  have : σ.solutions_found + 1 +
                    (List.filter SearchCall.succeeded _).length = K := h2
                  omega
                · show _ = (_ + attempts_of_successes (_ :: _)) % 2 ^ 64
                  rw [attempts_of_successes_cons, h3]
                  simp only [if_pos hret]
                  show ((σ.total_attempts + r.attempts) % 2 ^ 64 + _) % 2 ^ 64 = _
                  omega
              codes := h.codes
              undefined := by
                intro ho
                obtain ⟨c, hc, hrest⟩ := h.undefined ho
                refine ⟨c, ?_, hrest⟩
                show (_ :: _).getLast? = _
                rw [getLast?_cons_of_ne_nil _ _ (by intro hn; rw [hn] at hc; cases hc)]
                exact hc }
        · rw [if_neg hret]
          have hret0 : r.ret = 0 := by omega
          by_cases hcap : σ.starting_nonce + 100000000 > 1000000000000
          · rw [if_pos hcap]
            exact {
              fuel_ok := by simp
              count := by simp only [List.length_singleton]; omega
              calls := by
                intro c hc
                rw [List.mem_singleton] at hc
                subst hc
                exact ⟨hs, hm, rfl, Nat.le_refl _, hlt⟩
              first := by
                intro c hc
                simp only [List.head?_cons, Option.mem_def, Option.some.injEq] at hc
                subst hc
                exact ⟨rfl, rfl, rfl⟩
              chain := List.chain'_singleton _
              final_start := by show σ.starting_nonce + 100000000 ≤ _; omega
              abort_iff := ⟨fun _ => hcap, fun _ => rfl⟩
              abort_last := fun _ => ⟨_, rfl, by simp [SearchCall.failed, hret0], rfl⟩
              success := by intro h; cases h
              codes := by intro code h; cases h; exact Or.inl rfl
              undefined := by intro h; cases h }
          · rw [if_neg hcap]
            have hleft' : parallel_bench_left K
                { σ with starting_nonce := σ.starting_nonce + 100000000 } + 1 ≤
                parallel_bench_left K σ := by
              rw [hleft]
              unfold parallel_bench_left
              simp only []
              rw [if_pos hlt]
              omega
            have h := ih (n + 1) { σ with starting_nonce := σ.starting_nonce + 100000000 }
              (by show σ.starting_nonce + 100000000 ≤ _; omega)
              (by show (σ.starting_nonce + 100000000) % 100000000 = 1; omega) hK hta (by omega)
            exact {
              fuel_ok := h.fuel_ok
              count := by
                show (_ :: _).length ≤ _
                rw [List.length_cons]
                have := h.count
                omega
              calls := by
                intro c hc
                rcases List.mem_cons.mp hc with rfl | hc
                · exact ⟨hs, hm, rfl, Nat.le_refl _, hlt⟩
                · exact h.calls c hc
              first := by
                intro c hc
                simp only [List.head?_cons, Option.mem_def, Option.some.injEq] at hc
                subst hc
                exact ⟨rfl, rfl, rfl⟩
              chain := by
                show List.Chain' _ (_ :: _)
                rw [List.chain'_cons']
                refine ⟨?_, h.chain⟩
                intro c2 hc2
                obtain ⟨h1, h2, h3⟩ := h.first c2 hc2
                refine ⟨fun _ => ⟨h1, h2, h3⟩, fun hsucc => ?_⟩
                simp [SearchCall.succeeded, hret0] at hsucc
              final_start := h.final_start
              abort_iff := h.abort_iff
              abort_last := by
                intro ho
                obtain ⟨c, hc, hrest⟩ := h.abort_last ho
                refine ⟨c, ?_, hrest⟩
                show (_ :: _).getLast? = _
                rw [getLast?_cons_of_ne_nil _ _ (by intro hn; rw [hn] at hc; cases hc)]
                exact hc
              success := by
                intro ho
                obtain ⟨h1, h2, h3⟩ := h.success ho
                refine ⟨h1, ?_, ?_⟩
                · show _ + (List.filter _ (_ :: _)).length = K
                  rw [List.filter_cons_of_neg (by simp [SearchCall.succeeded, hret0])]
                  exact h2
                · show _ = (_ + attempts_of_successes (_ :: _)) % 2 ^ 64
                  rw [attempts_of_successes_cons, h3]
                  simp only [if_neg hret]
                  show _ = (σ.total_attempts + (0 + _)) % 2 ^ 64
                  rw [Nat.zero_add]
              codes := h.codes
              undefined := by
                intro ho
                obtain ⟨c, hc, hrest⟩ := h.undefined ho
                refine ⟨c, ?_, hrest⟩
                show (_ :: _).getLast? = _
                rw [getLast?_cons_of_ne_nil _ _ (by intro hn; rw [hn] at hc; cases hc)]
                exact hc }
    · rw [if_neg hlt]
      exact {
        fuel_ok := by simp
        count := Nat.zero_le _
        calls := by intro c hc; cases hc
        first := by intro c hc; cases hc
        chain := List.chain'_nil
        final_start := by show σ.starting_nonce ≤ _; omega
        abort_iff := by
          constructor
          · intro h; cases h
          · intro h
            have : σ.starting_nonce > 1000000000000 := h
            omega
        abort_last := by intro h; cases h
        success := fun _ => ⟨by show σ.solutions_found = K; omega, by
          show σ.solutions_found + 0 = K; omega, by
          show σ.total_attempts = (σ.total_attempts + 0) % 2 ^ 64
          omega⟩
        codes := by intro code h; cases h; exact Or.inr rfl
        undefined := by intro h; cases h }

/-! ## Lemmas: the benchmark driver of the standalone tool -/

theorem bench_round_left_pos (s : Nat) : 1 ≤ bench_round_left s := by
  unfold bench_round_left
  split
  · omega
  · split <;> omega

theorem bench_round_left_le (s : Nat) (hs : s < 2 ^ 64) : bench_round_left s ≤ 10002 := by
  unfold bench_round_left
  split
  · omega
  · split <;> omega

theorem bench_round_left_step (s : Nat) (hs : s < 2 ^ 64)
    (h : (s + 100000000) % 2 ^ 64 ≤ 1000000000000) :
    bench_round_left ((s + 100000000) % 2 ^ 64) + 1 ≤ bench_round_left s := by
  unfold bench_round_left
  rw [if_pos h]
  by_cases h1 : s ≤ 1000000000000
  · rw [if_pos h1]
    omega
  · rw [if_neg h1]
    by_cases h2 : s + 100000000 < 2 ^ 64
    · omega
    · rw [if_neg h2]
      omega

theorem benchmark_loop_spec (search : SearchFn) (D : Int) (K : Nat) :
    ∀ fuel n σ, σ.starting_nonce < 2 ^ 64 → σ.solutions_found ≤ K →
      σ.total_attempts < 2 ^ 64 → bench_left K σ < fuel →
      BenchSpec K σ (benchmark_loop search D K fuel n σ) := by
  intro fuel
  induction fuel with
  | zero => intro n σ _ _ _ hf; omega
  | succ fuel ih =>
    intro n σ hs hK hta hf
    unfold benchmark_loop
    by_cases hlt : σ.solutions_found < K
    · rw [if_pos hlt]
      have hleft : bench_left K σ = (K - σ.solutions_found - 1) * 10002 +
          bench_round_left σ.starting_nonce := by
        unfold bench_left; rw [if_pos hlt]
      have hpos := bench_round_left_pos σ.starting_nonce
      simp only []
      cases hres : search n σ.working_json D σ.starting_nonce
          ((σ.starting_nonce + 100000000) % 2 ^ 64) with
      | none =>
        simp only []
        exact {
          fuel_ok := by simp
          count := by simp only [List.length_singleton]; omega
          calls := by
            intro c hc
            rw [List.mem_singleton] at hc
            subst hc
            exact ⟨hs, rfl, Nat.le_refl _, hlt, rfl⟩
          first := by
            intro c hc
            simp only [List.head?_cons, Option.mem_def, Option.some.injEq] at hc
            subst hc
            exact ⟨rfl, rfl⟩
          chain := List.chain'_singleton _
          abort := by intro h; cases h
          success := by intro h; cases h
          codes := by intro code h; cases h
          undefined := fun _ => ⟨_, rfl, Or.inl rfl⟩ }
      | some r =>
        simp only []
        by_cases hret : r.ret ≠ 0
        · rw [if_pos hret]
          cases hfn : r.found_nonce with
          | none =>
            simp only []
            exact {
              fuel_ok := by simp
              count := by simp only [List.length_singleton]; omega
              calls := by
                intro c hc
                rw [List.mem_singleton] at hc
                subst hc
                exact ⟨hs, rfl, Nat.le_refl _, hlt, rfl⟩
              first := by
                intro c hc
                simp only [List.head?_cons, Option.mem_def, Option.some.injEq] at hc
                subst hc
                exact ⟨rfl, rfl⟩
              chain := List.chain'_singleton _
              abort := by intro h; cases h
              success := by intro h; cases h
              codes := by intro code h; cases h
              undefined := fun _ => ⟨_, rfl, Or.inr ⟨by simp [SearchCall.succeeded, hret], by
                intro r' hr'
                have : r' = r := (Option.some.inj hr').symm
                rw [this, hfn]⟩⟩ }
          | some found_nonce =>
            simp only []
            have hleft' : bench_left K
                { σ with
                  solutions_found := σ.solutions_found + 1,
                  total_attempts := (σ.total_attempts + r.attempts) % 2 ^ 64,
                  starting_nonce := (found_nonce + 1000) % 2 ^ 64 } ≤
                (K - σ.solutions_found - 1) * 10002 := by
              unfold bench_left
              simp only []
              split
              · have : K - (σ.solutions_found + 1) - 1 + 1 = K - σ.solutions_found - 1 := by
                  omega
                rw [← this, Nat.add_mul]
                have := bench_round_left_le ((found_nonce + 1000) % 2 ^ 64)
                  (Nat.mod_lt _ (by decide))
                omega
              · omega
            have h := ih (n + 1)
              { σ with
                solutions_found := σ.solutions_found + 1,
                total_attempts := (σ.total_attempts + r.attempts) % 2 ^ 64,
                starting_nonce := (found_nonce + 1000) % 2 ^ 64 }
              (Nat.mod_lt _ (by decide)) (by show σ.solutions_found + 1 ≤ K; omega)
              (Nat.mod_lt _ (by decide)) (by omega)
            exact {
              fuel_ok := h.fuel_ok
              count := by
                show (_ :: _).length ≤ _
                rw [List.length_cons]
                have := h.count
                omega
              calls := by
                intro c hc
                rcases List.mem_cons.mp hc with rfl | hc
                · exact ⟨hs, rfl, Nat.le_refl _, hlt, rfl⟩
                · obtain ⟨a, b, d, e, f⟩ := h.calls c hc
                  exact ⟨a, b, by have : σ.solutions_found + 1 ≤ c.round := d; omega, e, f⟩
              first := by
                intro c hc
                simp only [List.head?_cons, Option.mem_def, Option.some.injEq] at hc
                subst hc
                exact ⟨rfl, rfl⟩
              chain := by
                show List.Chain' _ (_ :: _)
                rw [List.chain'_cons']
                refine ⟨?_, h.chain⟩
                intro c2 hc2
                obtain ⟨h1, h3⟩ := h.first c2 hc2
                have hev := (h.calls c2 (List.mem_of_mem_head? hc2)).2.2.2.2
                refine ⟨hev, fun hfail => ?_, fun _ => ⟨h1, r, found_nonce, rfl, hfn, h3⟩⟩
                simp [SearchCall.failed, hret] at hfail
              abort := by
                intro ho
                obtain ⟨hgt, c, hc, hrest⟩ := h.abort ho
                refine ⟨hgt, c, ?_, hrest⟩
                show (_ :: _).getLast? = _
                rw [getLast?_cons_of_ne_nil _ _ (by intro hn; rw [hn] at hc; cases hc)]
                exact hc
              success := by
                intro ho
                obtain ⟨h1, h2, h3⟩ := h.success ho
                refine ⟨h1, ?_, ?_⟩
                · show _ + (List.filter _ (_ :: _)).length = K
                  rw [List.filter_cons_of_pos (by simp [SearchCall.succeeded, hret]),
                    List.length_cons]
                  have : σ.solutions_found + 1 +
                    (List.filter SearchCall.succeeded _).length = K := h2
                  omega
                · show _ = (_ + attempts_of_successes (_ :: _)) % 2 ^ 64
                  rw [attempts_of_successes_cons, h3]
                  simp only [if_pos hret]
                  show ((σ.total_attempts + r.attempts) % 2 ^ 64 + _) % 2 ^ 64 = _
                  omega
              codes := h.codes
              undefined := by
                intro ho
                obtain ⟨c, hc, hrest⟩ := h.undefined ho
                refine ⟨c, ?_, hrest⟩
                show (_ :: _).getLast? = _
                rw [getLast?_cons_of_ne_nil _ _ (by intro hn; rw [hn] at hc; cases hc)]
                exact hc }
        · rw [if_neg hret]
          have hret0 : r.ret = 0 := by omega
          by_cases hcap : (σ.starting_nonce + 100000000) % 2 ^ 64 > 1000000000000
          · rw [if_pos hcap]
            exact {
              fuel_ok := by simp
              count := by simp only [List.length_singleton]; omega
              calls := by
                intro c hc
                rw [List.mem_singleton] at hc
                subst hc
                exact ⟨hs, rfl, Nat.le_refl _, hlt, rfl⟩
              first := by
                intro c hc
                simp only [List.head?_cons, Option.mem_def, Option.some.injEq] at hc
                subst hc
                exact ⟨rfl, rfl⟩
              chain := List.chain'_singleton _
              abort := fun _ => ⟨hcap, _, rfl, by simp [SearchCall.failed, hret0], rfl⟩
              success := by intro h; cases h
              codes := by intro code h; cases h; exact Or.inl rfl
              undefined := by intro h; cases h }
          · rw [if_neg hcap]
            have hstep := bench_round_left_step σ.starting_nonce hs (by omega)
            have hleft' : bench_left K
                { σ with starting_nonce := (σ.starting_nonce + 100000000) % 2 ^ 64 } + 1 ≤
                bench_left K σ := by
              rw [hleft]
              unfold bench_left
              simp only []
              rw [if_pos hlt]
              omega
            have h := ih (n + 1)
              { σ with starting_nonce := (σ.starting_nonce + 100000000) % 2 ^ 64 }
              (Nat.mod_lt _ (by decide)) hK hta (by omega)
            exact {
              fuel_ok := h.fuel_ok
              count := by
                show (_ :: _).length ≤ _
                rw [List.length_cons]
                have := h.count
                omega
              calls := by
                intro c hc
                rcases List.mem_cons.mp hc with rfl | hc
                · exact ⟨hs, rfl, Nat.le_refl _, hlt, rfl⟩
                · exact h.calls c hc
              first := by
                intro c hc
                simp only [List.head?_cons, Option.mem_def, Option.some.injEq] at hc
                subst hc
                exact ⟨rfl, rfl⟩
              chain := by
                show List.Chain' _ (_ :: _)
                rw [List.chain'_cons']
                refine ⟨?_, h.chain⟩
                intro c2 hc2
                obtain ⟨h1, h3⟩ := h.first c2 hc2
                have hev := (h.calls c2 (List.mem_of_mem_head? hc2)).2.2.2.2
                refine ⟨hev, fun _ => ⟨h1, h3⟩, fun hsucc => ?_⟩
                simp [SearchCall.succeeded, hret0] at hsucc
              abort := by
                intro ho
                obtain ⟨hgt, c, hc, hrest⟩ := h.abort ho
                refine ⟨hgt, c, ?_, hrest⟩
                show (_ :: _).getLast? = _
                rw [getLast?_cons_of_ne_nil _ _ (by intro hn; rw [hn] at hc; cases hc)]
                exact hc
              success := by
                intro ho
                obtain ⟨h1, h2, h3⟩ := h.success ho
                refine ⟨h1, ?_, ?_⟩
                · show _ + (List.filter _ (_ :: _)).length = K
                  rw [List.filter_cons_of_neg (by simp [SearchCall.succeeded, hret0])]
                  exact h2
                · show _ = (_ + attempts_of_successes (_ :: _)) % 2 ^ 64
                  rw [attempts_of_successes_cons, h3]
                  simp only [if_neg hret]
                  show _ = (σ.total_attempts + (0 + _)) % 2 ^ 64
                  rw [Nat.zero_add]
              codes := h.codes
              undefined := by
                intro ho
                obtain ⟨c, hc, hrest⟩ := h.undefined ho
                refine ⟨c, ?_, hrest⟩
                show (_ :: _).getLast? = _
                rw [getLast?_cons_of_ne_nil _ _ (by intro hn; rw [hn] at hc; cases hc)]
                exact hc }
    · rw [if_neg hlt]
      exact {
        fuel_ok := by simp
        count := Nat.zero_le _
        calls := by intro c hc; cases hc
        first := by intro c hc; cases hc
        chain := List.chain'_nil
        abort := by intro h; cases h
        success := fun _ => ⟨by show σ.solutions_found = K; omega, by
          show σ.solutions_found + 0 = K; omega, by
          show σ.total_attempts = (σ.total_attempts + 0) % 2 ^ 64
          omega⟩
        codes := by intro code h; cases h; exact Or.inr rfl
        undefined := by intro h; cases h }

/-! ## Lemmas: the timestamp read back after increment_timestamp_in_json -/

theorem takeWhile_append_stop (p : Nat → Bool) (A B : List Nat) (hA : ∀ a ∈ A, p a = true)
    (hB : ∀ b ∈ B.head?, p b = false) : (A ++ B).takeWhile p = A := by
  induction A with
  | nil =>
    cases B with
    | nil => rfl
    | cons b t =>
      have := hB b (by simp)
      simp [List.takeWhile_cons, this]
  | cons a t ih =>
    rw [List.cons_append, List.takeWhile_cons, if_pos (hA a (List.mem_cons_self _ _)),
      ih fun c hc => hA c (List.mem_cons_of_mem _ hc)]

theorem decimal_ne_nil (n : Nat) : decimal n ≠ [] := by
  by_cases h : n < 10
  · rw [decimal_of_lt_ten n h]; simp
  · rw [decimal_of_ge_ten n h]; simp

theorem decimal_isdigit (n : Nat) : ∀ c ∈ decimal n, isdigit c = true := by
  induction n using Nat.strong_induction_on with
  | _ n ih =>
    by_cases h : n < 10
    · rw [decimal_of_lt_ten n h]
      intro c hc
      rw [List.mem_singleton] at hc
      subst hc
      simp only [isdigit, Bool.and_eq_true, decide_eq_true_eq]
      omega
    · rw [decimal_of_ge_ten n h]
      intro c hc
      rcases List.mem_append.mp hc with hc | hc
      · exact ih (n / 10) (by omega) c hc
      · rw [List.mem_singleton] at hc
        subst hc
        simp only [isdigit, Bool.and_eq_true, decide_eq_true_eq]
        omega

theorem decimal_foldl (n : Nat) :
    (decimal n).foldl (fun (a c : Nat) => 10 * a + (c - 48)) 0 = n := by
  induction n using Nat.strong_induction_on with
  | _ n ih =>
    by_cases h : n < 10
    · rw [decimal_of_lt_ten n h]
      simp
    · rw [decimal_of_ge_ten n h, List.foldl_append, ih (n / 10) (by omega)]
      simp only [List.foldl_cons, List.foldl_nil]
      omega

/-- The value `strtol` reads depends on the text from the offset on only. -/
theorem strtol_eq (s : List Nat) (p : Nat) :
    strtol s p =
      (let L := s.drop p
       let k := (L.takeWhile isspace).length
       let hd := (L.drop k).headD 0
       let v : Nat := (((L.drop (if hd = 45 ∨ hd = 43 then k + 1 else k)).takeWhile
          isdigit).foldl (fun (a c : Nat) => 10 * a + (c - 48)) 0)
       if hd = 45 then (if 2 ^ 63 < v then -(2 ^ 63 : Int) else -(v : Int))
       else (if 2 ^ 63 - 1 < v then (2 ^ 63 - 1 : Int) else (v : Int))) := by
  unfold strtol
  simp only []
  rw [skip_while_eq s isspace (by decide) _ p (by omega), rd_eq_head_drop]
  by_cases h : (s.drop (p + ((s.drop p).takeWhile isspace).length)).headD 0 = 45 ∨
      (s.drop (p + ((s.drop p).takeWhile isspace).length)).headD 0 = 43
  · simp only [if_pos h, List.drop_drop, Nat.add_assoc]
  · simp only [if_neg h, List.drop_drop, Nat.add_assoc]

/-- Reading back a number printed with `%ld`: `strtol` on the numeral followed by a text
that does not start with a digit gives the number. -/
theorem strtol_fmt_ld (x : Int) (R : List Nat) (hlo : -(2 ^ 63 : Int) ≤ x)
    (hhi : x < (2 ^ 63 : Int)) (hR : ∀ b ∈ R.head?, isdigit b = false) :
    strtol (fmt_ld x ++ R) 0 = x := by
  rw [strtol_eq, List.drop_zero]
  unfold fmt_ld
  by_cases hneg : x < 0
  · rw [if_pos hneg]
    have hn : (-x).toNat < 2 ^ 64 := by omega
    rw [fmt_llu_eq _ hn]
    have hk : ((45 :: (decimal (-x).toNat ++ R)).takeWhile isspace).length = 0 := by
      rw [List.takeWhile_cons, if_neg (by decide)]
      rfl
    simp only [hk, List.drop_zero, List.cons_append, List.headD_cons, true_or, if_true,
      List.drop_succ_cons]
    rw [takeWhile_append_stop isdigit _ R (decimal_isdigit _) hR, decimal_foldl]
    rw [if_neg (by omega)]
    omega
  · rw [if_neg hneg]
    have hn : x.toNat < 2 ^ 64 := by omega
    rw [fmt_llu_eq _ hn]
    obtain ⟨d, t, hdt⟩ := List.exists_cons_of_ne_nil (decimal_ne_nil x.toNat)
    have hd : isdigit d = true := decimal_isdigit x.toNat d (by rw [hdt]; simp)
    have hd' : 48 ≤ d ∧ d ≤ 57 := by
      simpa only [isdigit, Bool.and_eq_true, decide_eq_true_eq] using hd
    have hk : ((decimal x.toNat ++ R).takeWhile isspace).length = 0 := by
      rw [hdt, List.cons_append, List.takeWhile_cons, if_neg]
      · rfl
      · simp only [isspace, Bool.or_eq_true, beq_iff_eq, Bool.and_eq_true, decide_eq_true_eq]
        omega
    have hhd : (decimal x.toNat ++ R).headD 0 = d := by rw [hdt]; rfl
    have hns : ¬ (d = 45 ∨ d = 43) := by omega
    have hn45 : ¬ d = 45 := by omega
    simp only [hk, List.drop_zero, hhd, if_neg hns, if_neg hn45]
    rw [takeWhile_append_stop isdigit _ R (decimal_isdigit _) hR, decimal_foldl]
    rw [if_neg (by omega)]
    omega

theorem isPrefixOf_append_stable (nd A X Y : List Nat) (h : nd.length ≤ A.length) :
    nd.isPrefixOf (A ++ X) = nd.isPrefixOf (A ++ Y) := by
  have key : ∀ Z, nd <+: A ++ Z ↔ nd <+: A := fun Z =>
    ⟨fun hp => List.prefix_of_prefix_length_le hp (List.prefix_append A Z) h,
      fun hp => hp.trans (List.prefix_append A Z)⟩
  rw [Bool.eq_iff_iff, List.isPrefixOf_iff_prefix, List.isPrefixOf_iff_prefix, key, key]

/-- An occurrence found by `strstr` within a prefix of the text is found whatever follows
the prefix. -/
theorem strstr_append_stable (nd A X Y : List Nat) (i : Nat)
    (h : strstr (A ++ X) nd = some i) (hi : i + nd.length ≤ A.length) :
    strstr (A ++ Y) nd = some i := by
  induction A generalizing i with
  | nil =>
    have hi' : i + nd.length ≤ 0 := hi
    have hnd : nd = [] := List.length_eq_zero.mp (by omega)
    have hi0 : i = 0 := by omega
    subst hnd hi0
    cases Y <;> simp [strstr]
  | cons a t ih =>
    rw [List.cons_append, strstr] at h
    rw [List.cons_append, strstr]
    have hlen : nd.length ≤ (a :: t).length := by omega
    have hst := isPrefixOf_append_stable nd (a :: t) X Y hlen
    rw [List.cons_append, List.cons_append] at hst
    rw [← hst]
    by_cases hp : nd.isPrefixOf (a :: (t ++ X)) = true
    · rw [if_pos hp] at h
      rw [if_pos hp]
      exact h
    · rw [if_neg hp] at h
      rw [if_neg hp]
      cases hs : strstr (t ++ X) nd with
      | none => rw [hs] at h; simp at h
      | some k =>
        rw [hs] at h
        simp only [Option.map_some', Option.some.injEq] at h
        subst h
        rw [ih k hs (by simp at hi; omega)]
        rfl

theorem find_byte_append_stable (c : Nat) (A X Y : List Nat) (k : Nat)
    (h : find_byte c (A ++ X) = some k) (hk : k < A.length) :
    find_byte c (A ++ Y) = some k := by
  induction A generalizing k with
  | nil => simp at hk
  | cons a t ih =>
    rw [List.cons_append, find_byte] at h
    rw [List.cons_append, find_byte]
    by_cases ha : a = c
    · rw [if_pos ha] at h
      rw [if_pos ha]
      exact h
    · rw [if_neg ha] at h
      rw [if_neg ha]
      cases hf : find_byte c (t ++ X) with
      | none => rw [hf] at h; simp at h
      | some j =>
        rw [hf] at h
        simp only [Option.map_some', Option.some.injEq] at h
        subst h
        rw [ih j hf (by simp at hk; omega)]
        rfl

theorem strchr_append_stable (A X Y : List Nat) (p c k : Nat)
    (h : strchr (A ++ X) p c = some k) (hk : k < A.length) :
    strchr (A ++ Y) p c = some k := by
  have hp := (strchr_some _ _ _ _ h).1
  unfold strchr at h ⊢
  rw [List.drop_append_of_le_length (by omega)] at h ⊢
  cases hf : find_byte c (A.drop p ++ X) with
  | none => rw [hf] at h; simp at h
  | some j =>
    rw [hf] at h
    simp only [Option.map_some', Option.some.injEq] at h
    rw [find_byte_append_stable c _ X Y j hf (by rw [List.length_drop]; omega)]
    simp [h]

/-- The `:` found after a token that holds no `:` lies after the token. -/
theorem strchr_after_token (e tok : List Nat) (cp c : Nat) (htok : ∀ b ∈ tok, b ≠ 58)
    (hcp : strstr e tok = some cp) (hc : strchr e cp 58 = some c) :
    cp + tok.length ≤ c ∧ c < e.length := by
  obtain ⟨hle, htake⟩ := strchr_some _ _ _ _ hc
  have hclt : c < e.length := by
    by_contra hge
    have h1 : e.take (c + 1) = e := List.take_of_length_le (by omega)
    have h2 : e.take c = e := List.take_of_length_le (by omega)
    rw [h1, h2] at htake
    have := congrArg List.length htake
    simp at this
  refine ⟨?_, hclt⟩
  by_contra hlt
  have hpre := (strstr_some _ _ _ hcp).1
  obtain ⟨r, hr⟩ := hpre
  have hget : e.getD c 0 = 58 := by
    have : (e.take (c + 1)).getD c 0 = 58 := by
      rw [htake, List.getD_eq_getElem?_getD, List.getElem?_append_right (by simp)]
      simp [Nat.min_eq_left (Nat.le_of_lt hclt)]
    rw [List.getD_eq_getElem?_getD, List.getElem?_take_of_lt (by omega)] at this
    rw [List.getD_eq_getElem?_getD]
    exact this
  have hin : e.getD c 0 ∈ tok := by
    have h1 : (e.drop cp).getD (c - cp) 0 = e.getD c 0 := by
      rw [List.getD_eq_getElem?_getD, List.getD_eq_getElem?_getD, List.getElem?_drop]
      congr 2
      omega
    rw [← h1, ← hr, List.getD_eq_getElem?_getD, List.getElem?_append_left (by omega),
      List.getElem?_eq_getElem (by omega)]
    exact List.getElem_mem _
  exact htok _ hin hget

theorem strtol_range (s : List Nat) (p : Nat) :
    -(2 ^ 63 : Int) ≤ strtol s p ∧ strtol s p < (2 ^ 63 : Int) := by
  unfold strtol
  simp only []
  split
  · split <;> omega
  · split <;> omega

theorem strtol_drop (s : List Nat) (p : Nat) : strtol s p = strtol (s.drop p) 0 := by
  rw [strtol_eq s p, strtol_eq (s.drop p) 0, List.drop_zero]

theorem fmt_ld_head (x : Int) (hlo : -(2 ^ 63 : Int) ≤ x) (hhi : x < (2 ^ 63 : Int)) :
    ∃ d t, fmt_ld x = d :: t ∧ is_space_tab d = false := by
  unfold fmt_ld
  by_cases hneg : x < 0
  · rw [if_pos hneg]
    exact ⟨45, _, rfl, by decide⟩
  · rw [if_neg hneg, fmt_llu_eq _ (by omega)]
    obtain ⟨d, t, hdt⟩ := List.exists_cons_of_ne_nil (decimal_ne_nil x.toNat)
    have hd : isdigit d = true := decimal_isdigit x.toNat d (by rw [hdt]; simp)
    have hd' : 48 ≤ d ∧ d ≤ 57 := by
      simpa only [isdigit, Bool.and_eq_true, decide_eq_true_eq] using hd
    refine ⟨d, t, hdt, ?_⟩
    simp only [is_space_tab, Bool.or_eq_false_iff, beq_eq_false_iff_ne, ne_eq]
    omega

/-- The timestamp after `increment_timestamp_in_json(e, 1)`: where the event has a
`"created_at"` token followed by a `:` and the number read there is `v < 2^63 - 1`, the
result is defined and the number read there in the result is `v + 1`. -/
theorem increment_created_at (e : List Nat) (v : Int) (h : created_at_value e = some v)
    (hv : v + 1 < (2 ^ 63 : Int)) :
    ∃ e', increment_timestamp_in_json e 1 = some e' ∧ created_at_value e' = some (v + 1) ∧
      e' ≠ e := by
  unfold created_at_value at h
  cases hcp : strstr e (ascii "\"created_at\"") with
  | none => simp only [hcp] at h; cases h
  | some cp =>
    simp only [hcp] at h
    cases hc : strchr e cp 58 with
    | none => simp only [hc] at h; cases h
    | some c =>
      simp only [hc, Option.some.injEq] at h
      have hsk := skip_while_eq e is_space_tab rfl (e.length + 1) (c + 1) (by omega)
      have hsk' : skip_while e (fun c => c == 32 || c == 9) (e.length + 1) (c + 1) =
          c + 1 + ((e.drop (c + 1)).takeWhile is_space_tab).length := hsk
      rw [hsk'] at h
      have hr := strtol_range e (c + 1 + ((e.drop (c + 1)).takeWhile is_space_tab).length)
      rw [h] at hr
      have hinc := increment_timestamp_eq e 1 cp c hcp hc (by rw [h]; omega) (by rw [h]; exact hv)
      rw [h] at hinc
      obtain ⟨hord, hclt⟩ := strchr_after_token e _ cp c (by decide) hcp hc
      have hAlen : (e.take (c + 1)).length = c + 1 := by
        rw [List.length_take]; omega
      have hsplit : e = e.take (c + 1) ++ e.drop (c + 1) := (List.take_append_drop _ _).symm
      obtain ⟨d, t, hdt, hdsp⟩ := fmt_ld_head (v + 1) (by omega) hv
      have hval : created_at_value (e.take (c + 1) ++
          ((e.drop (c + 1)).takeWhile is_space_tab ++ (fmt_ld (v + 1) ++
            ((e.drop (c + 1)).dropWhile is_space_tab).dropWhile is_incr_value_byte))) =
          some (v + 1) := by
        unfold created_at_value
        have h1 : strstr (e.take (c + 1) ++ e.drop (c + 1)) (ascii "\"created_at\"") = some cp := by
          rw [← hsplit]; exact hcp
        have h2 : strchr (e.take (c + 1) ++ e.drop (c + 1)) cp 58 = some c := by
          rw [← hsplit]; exact hc
        have h1' := strstr_append_stable _ _ _
          ((e.drop (c + 1)).takeWhile is_space_tab ++ (fmt_ld (v + 1) ++
            ((e.drop (c + 1)).dropWhile is_space_tab).dropWhile is_incr_value_byte))
          cp h1 (by rw [hAlen]; omega)
        have h2' := strchr_append_stable _ _
          ((e.drop (c + 1)).takeWhile is_space_tab ++ (fmt_ld (v + 1) ++
            ((e.drop (c + 1)).dropWhile is_space_tab).dropWhile is_incr_value_byte))
          cp 58 c h2 (by rw [hAlen]; omega)
        simp only [h1', h2']
        have hsk2 := skip_while_eq (e.take (c + 1) ++
          ((e.drop (c + 1)).takeWhile is_space_tab ++ (fmt_ld (v + 1) ++
            ((e.drop (c + 1)).dropWhile is_space_tab).dropWhile is_incr_value_byte)))
          is_space_tab rfl _ (c + 1) (Nat.lt_succ_of_le (Nat.sub_le _ _))
        have hdrop : ∀ Z : List Nat, (e.take (c + 1) ++ Z).drop (c + 1) = Z := by
          intro Z
          rw [List.drop_append_of_le_length (by omega), List.drop_eq_nil_of_le (by omega),
            List.nil_append]
        rw [hdrop] at hsk2
        rw [takeWhile_append_stop is_space_tab _ _
          (fun a ha => List.mem_takeWhile_imp ha)
          (by
            intro b hb
            rw [hdt] at hb
            simp only [List.cons_append, List.head?_cons, Option.mem_def,
              Option.some.injEq] at hb
            rw [← hb]; exact hdsp)] at hsk2
        have hsk2' : skip_while (e.take (c + 1) ++
          ((e.drop (c + 1)).takeWhile is_space_tab ++ (fmt_ld (v + 1) ++
            ((e.drop (c + 1)).dropWhile is_space_tab).dropWhile is_incr_value_byte)))
          (fun c => c == 32 || c == 9) _ (c + 1) = _ := hsk2
        rw [hsk2', strtol_drop]
        have hdrop2 : (e.take (c + 1) ++
          ((e.drop (c + 1)).takeWhile is_space_tab ++ (fmt_ld (v + 1) ++
            ((e.drop (c + 1)).dropWhile is_space_tab).dropWhile is_incr_value_byte))).drop
            (c + 1 + ((e.drop (c + 1)).takeWhile is_space_tab).length) =
            fmt_ld (v + 1) ++
              ((e.drop (c + 1)).dropWhile is_space_tab).dropWhile is_incr_value_byte := by
          rw [← List.drop_drop, hdrop, List.drop_append_of_le_length (Nat.le_refl _),
            List.drop_length, List.nil_append]
        rw [hdrop2, strtol_fmt_ld (v + 1) _ (by omega) hv]
        intro b hb
        have hnb : is_incr_value_byte b = false := by
          have := List.head?_dropWhile_not is_incr_value_byte
            ((e.drop (c + 1)).dropWhile is_space_tab)
          rw [Option.mem_def.mp hb] at this
          simpa using this
        simp only [is_incr_value_byte, Bool.and_eq_false_iff, bne_eq_false_iff_eq] at hnb
        simp only [isdigit, Bool.and_eq_false_iff, decide_eq_false_iff_not]
        omega
      refine ⟨_, hinc, ?_, ?_⟩
      · rw [List.append_assoc, List.append_assoc]
        exact hval
      · intro heq
        have h3 : created_at_value e = some v := by
          unfold created_at_value
          simp only [hcp, hc]
          rw [hsk', h]
        rw [← heq, List.append_assoc, List.append_assoc, hval] at h3
        simp only [Option.some.injEq] at h3
        omega

theorem benchmark_parallel_loop_ordered (search : SearchFn) (D : Int) (K : Nat) :
    ∀ fuel n σ,
      (∀ c ∈ (benchmark_parallel_loop search D K fuel n σ).searches,
        σ.solutions_found ≤ c.round) ∧
      List.Pairwise RoundsOrdered (benchmark_parallel_loop search D K fuel n σ).searches := by
  intro fuel
  induction fuel with
  | zero => intro n σ; exact ⟨fun c hc => (by cases hc), List.Pairwise.nil⟩
  | succ fuel ih =>
    intro n σ
    have hone : ∀ c0 : SearchCall, c0.round = σ.solutions_found →
        (∀ c ∈ [c0], σ.solutions_found ≤ c.round) ∧ List.Pairwise RoundsOrdered [c0] := by
      intro c0 h0
      refine ⟨fun c hc => ?_, List.pairwise_singleton _ _⟩
      rw [List.mem_singleton] at hc
      rw [hc, h0]
    unfold benchmark_parallel_loop
    by_cases hlt : σ.solutions_found < K
    · rw [if_pos hlt]
      simp only []
      cases hres : search n σ.working_json D σ.starting_nonce
          ((σ.starting_nonce + 100000000) % 2 ^ 64) with
      | none => simp only []; exact hone _ rfl
      | some r =>
        simp only []
        by_cases hret : r.ret ≠ 0
        · rw [if_pos hret]
          cases hinc : increment_timestamp_in_json σ.working_json 1 with
          | none => simp only []; exact hone _ rfl
          | some new_json =>
            simp only []
            obtain ⟨h1, h2⟩ := ih (n + 1)
              { solutions_found := σ.solutions_found + 1,
                total_attempts := (σ.total_attempts + r.attempts) % 2 ^ 64,
                starting_nonce := 1, working_json := new_json }
            constructor
            · intro c hc
              rcases List.mem_cons.mp hc with rfl | hc
              · exact Nat.le_refl _
              · have : σ.solutions_found + 1 ≤ c.round := h1 c hc
                omega
            · rw [List.pairwise_cons]
              refine ⟨fun c hc => ?_, h2⟩
              have : σ.solutions_found + 1 ≤ c.round := h1 c hc
              exact ⟨(by show σ.solutions_found ≤ c.round; omega),
                fun _ => (by show σ.solutions_found < c.round; omega)⟩
        · rw [if_neg hret]
          have hret0 : r.ret = 0 := by omega
          by_cases hcap : (σ.starting_nonce + 100000000) % 2 ^ 64 > 1000000000000
          · rw [if_pos hcap]; exact hone _ rfl
          · rw [if_neg hcap]
            obtain ⟨h1, h2⟩ := ih (n + 1)
              { σ with starting_nonce := (σ.starting_nonce + 100000000) % 2 ^ 64 }
            constructor
            · intro c hc
              rcases List.mem_cons.mp hc with rfl | hc
              · exact Nat.le_refl _
              · exact h1 c hc
            · rw [List.pairwise_cons]
              refine ⟨fun c hc => ⟨h1 c hc, fun hs => ?_⟩, h2⟩
              simp [SearchCall.succeeded, hret0] at hs
    · rw [if_neg hlt]
      exact ⟨fun c hc => (by cases hc), List.Pairwise.nil⟩

/-- The events searched by `benchmark_mode_parallel`: in round `k` the timestamp read from
the event is the one of the starting state plus `k`. -/
theorem benchmark_parallel_loop_events (search : SearchFn) (D : Int) (K : Nat) :
    ∀ fuel n σ (v : Int), created_at_value σ.working_json = some v →
      v + ((K - σ.solutions_found : Nat) : Int) < (2 ^ 63 : Int) →
      ∀ c ∈ (benchmark_parallel_loop search D K fuel n σ).searches,
        σ.solutions_found ≤ c.round ∧ c.round < K ∧
        created_at_value c.event = some (v + ((c.round - σ.solutions_found : Nat) : Int)) := by
  intro fuel
  induction fuel with
  | zero => intro n σ v _ _ c hc; cases hc
  | succ fuel ih =>
    intro n σ v hv hK
    unfold benchmark_parallel_loop
    by_cases hlt : σ.solutions_found < K
    · rw [if_pos hlt]
      have hone : ∀ c0 : SearchCall, c0.round = σ.solutions_found →
          c0.event = σ.working_json → ∀ c ∈ [c0],
          σ.solutions_found ≤ c.round ∧ c.round < K ∧
          created_at_value c.event =
            some (v + ((c.round - σ.solutions_found : Nat) : Int)) := by
        intro c0 h0 he c hc
        rw [List.mem_singleton] at hc
        rw [hc, h0, he, hv]
        refine ⟨Nat.le_refl _, hlt, ?_⟩
        simp
      simp only []
      cases hres : search n σ.working_json D σ.starting_nonce
          ((σ.starting_nonce + 100000000) % 2 ^ 64) with
      | none => simp only []; exact hone _ rfl rfl
      | some r =>
        simp only []
        by_cases hret : r.ret ≠ 0
        · rw [if_pos hret]
          cases hinc : increment_timestamp_in_json σ.working_json 1 with
          | none => simp only []; exact hone _ rfl rfl
          | some new_json =>
            simp only []
            obtain ⟨e', he', hv', _⟩ := increment_created_at σ.working_json v hv (by omega)
            rw [hinc] at he'
            cases he'
            have h1 := ih (n + 1)
              { solutions_found := σ.solutions_found + 1,
                total_attempts := (σ.total_attempts + r.attempts) % 2 ^ 64,
                starting_nonce := 1, working_json := new_json } (v + 1) hv'
              (by show v + 1 + ((K - (σ.solutions_found + 1) : Nat) : Int) < _; omega)
            intro c hc
            rcases List.mem_cons.mp hc with rfl | hc
            · exact hone _ rfl rfl _ (List.mem_singleton_self _)
            · obtain ⟨a, b, d⟩ := h1 c hc
              have ha : σ.solutions_found + 1 ≤ c.round := a
              refine ⟨by omega, b, ?_⟩
              rw [d]
              congr 1
              show v + 1 + ((c.round - (σ.solutions_found + 1) : Nat) : Int) = _
              omega
        · rw [if_neg hret]
          by_cases hcap : (σ.starting_nonce + 100000000) % 2 ^ 64 > 1000000000000
          · rw [if_pos hcap]; exact hone _ rfl rfl
          · rw [if_neg hcap]
            have h1 := ih (n + 1)
              { σ with starting_nonce := (σ.starting_nonce + 100000000) % 2 ^ 64 } v hv hK
            intro c hc
            rcases List.mem_cons.mp hc with rfl | hc
            · exact hone _ rfl rfl _ (List.mem_singleton_self _)
            · exact h1 c hc
    · rw [if_neg hlt]
      intro c hc
      cases hc

theorem benchmark_mode_parallel_spec (search : SearchFn) (e : List Nat) (D : Int) (K : Nat) :
    ParallelBenchSpec K
      { solutions_found := 0, total_attempts := 0, starting_nonce := 1, working_json := e }
      (benchmark_mode_parallel search e D K) := by
  apply benchmark_parallel_loop_spec search D K _ 0 _
    (by show 1 ≤ 1000000000000; decide) (by show 1 % 100000000 = 1; decide)
    (Nat.zero_le _) (by show 0 < 2 ^ 64; decide)
  unfold parallel_bench_left
  simp only []
  split <;> omega

theorem benchmark_mode_spec (search : SearchFn) (e : List Nat) (D : Int) (K : Nat) :
    BenchSpec K
      { solutions_found := 0, total_attempts := 0, starting_nonce := 1, working_json := e }
      (benchmark_mode search e D K) := by
  apply benchmark_loop_spec search D K _ 0 _ (by show 1 < 2 ^ 64; decide) (Nat.zero_le _)
    (by show 0 < 2 ^ 64; decide)
  unfold bench_left
  simp only []
  have : bench_round_left 1 = 10000 := by decide
  rw [this]
  split <;> omega

/-- C21, amended: distinct pre-image per benchmark round. For an event text in which the
number read after the first `"created_at":` is `v`, with `v + K < 2^63`, every search that
`benchmark_mode_parallel` makes in round `k` (after `k` solutions) is on an event whose
timestamp reads `v + k`; after a search that returned non-zero the next one starts at
nonce 1 on the event re-stamped by `increment_timestamp_in_json(working_json, 1)`, one
round later; so a search that follows a successful one is on a different byte string
with a larger timestamp. -/
theorem C21_benchmark_restamp (search : SearchFn) (e : List Nat) (D : Int) (K : Nat) (v : Int)
    (hv : created_at_value e = some v) (hK : v + (K : Int) < (2 ^ 63 : Int)) :
    (∀ c ∈ (benchmark_mode_parallel search e D K).searches,
      c.round < K ∧ created_at_value c.event = some (v + (c.round : Int))) ∧
    List.Chain' ParallelBenchNext (benchmark_mode_parallel search e D K).searches ∧
    List.Pairwise
      (fun c1 c2 => c1.succeeded = true →
        c1.round < c2.round ∧ c1.event ≠ c2.event ∧
        ∃ v1 v2, created_at_value c1.event = some v1 ∧ created_at_value c2.event = some v2 ∧
          v1 < v2)
      (benchmark_mode_parallel search e D K).searches ∧
    (∀ c ∈ (benchmark_mode_parallel search e D K).searches, c.succeeded = true →
      ∃ e', increment_timestamp_in_json c.event 1 = some e' ∧
        created_at_value e' = some (v + (c.round : Int) + 1) ∧ e' ≠ c.event) := by
  have hev : ∀ c ∈ (benchmark_mode_parallel search e D K).searches,
      c.round < K ∧ created_at_value c.event = some (v + (c.round : Int)) := by
    intro c hc
    obtain ⟨_, h2, h3⟩ := benchmark_parallel_loop_events search D K _ 0
      { solutions_found := 0, total_attempts := 0, starting_nonce := 1, working_json := e }
      v hv (by show v + ((K - 0 : Nat) : Int) < _; simpa using hK) c hc
    exact ⟨h2, by simpa using h3⟩
  refine ⟨hev, (benchmark_mode_parallel_spec search e D K).chain, ?_, ?_⟩
  · refine List.Pairwise.imp_of_mem ?_
      (benchmark_parallel_loop_ordered search D K _ 0 _).2
    intro c1 c2 h1 h2 hord hs
    have hlt := hord.2 hs
    obtain ⟨_, hv1⟩ := hev c1 h1
    obtain ⟨_, hv2⟩ := hev c2 h2
    refine ⟨hlt, ?_, _, _, hv1, hv2, by omega⟩
    intro heq
    rw [heq, hv2] at hv1
    simp only [Option.some.injEq] at hv1
    omega
  · intro c hc _
    obtain ⟨hlt, hvc⟩ := hev c hc
    exact increment_created_at c.event _ hvc (by omega)

/-- C21, amended, at the scenario event (timestamp 1700000000) for two solutions, the search
being `nip13_mine_range_parallel` with four workers. -/
theorem C21_benchmark_restamp_witness :
    (created_at_value event_S1 = some 1700000000 ∧
      (1700000000 : Int) + ((2 : Nat) : Int) < (2 ^ 63 : Int)) ∧
    ((∀ c ∈
        (benchmark_mode_parallel (search_range_parallel 4 sched_joins) event_S1 8 2).searches,
      c.round < 2 ∧ created_at_value c.event = some (1700000000 + (c.round : Int))) ∧
    List.Chain' ParallelBenchNext
      (benchmark_mode_parallel (search_range_parallel 4 sched_joins) event_S1 8 2).searches ∧
    List.Pairwise
      (fun c1 c2 => c1.succeeded = true →
        c1.round < c2.round ∧ c1.event ≠ c2.event ∧
        ∃ v1 v2, created_at_value c1.event = some v1 ∧ created_at_value c2.event = some v2 ∧
          v1 < v2)
      (benchmark_mode_parallel (search_range_parallel 4 sched_joins) event_S1 8 2).searches ∧
    (∀ c ∈
        (benchmark_mode_parallel (search_range_parallel 4 sched_joins) event_S1 8 2).searches,
      c.succeeded = true →
      ∃ e', increment_timestamp_in_json c.event 1 = some e' ∧
        created_at_value e' = some (1700000000 + (c.round : Int) + 1) ∧ e' ≠ c.event)) :=
  ⟨⟨by decide, by decide⟩,
    C21_benchmark_restamp (search_range_parallel 4 sched_joins) event_S1 8 2 1700000000
      (by decide) (by decide)⟩

theorem benchmark_loop_done (search : SearchFn) (D : Int) (K fuel n : Nat) (σ : BenchState)
    (h : ¬ σ.solutions_found < K) :
    benchmark_loop search D K (fuel + 1) n σ =
      { outcome := .returned 1, final := σ, searches := [] } := by
  rw [benchmark_loop, if_neg h]

theorem benchmark_loop_success (search : SearchFn) (D : Int) (K fuel n : Nat) (σ : BenchState)
    (r : MineResult) (N : Nat) (hlt : σ.solutions_found < K)
    (hres : search n σ.working_json D σ.starting_nonce
      ((σ.starting_nonce + 100000000) % 2 ^ 64) = some r)
    (hret : r.ret ≠ 0) (hN : r.found_nonce = some N) :
    (benchmark_loop search D K (fuel + 1) n σ).outcome =
      (benchmark_loop search D K fuel (n + 1)
        { σ with
          solutions_found := σ.solutions_found + 1,
          total_attempts := (σ.total_attempts + r.attempts) % 2 ^ 64,
          starting_nonce := (N + 1000) % 2 ^ 64 }).outcome ∧
    (benchmark_loop search D K (fuel + 1) n σ).final =
      (benchmark_loop search D K fuel (n + 1)
        { σ with
          solutions_found := σ.solutions_found + 1,
          total_attempts := (σ.total_attempts + r.attempts) % 2 ^ 64,
          starting_nonce := (N + 1000) % 2 ^ 64 }).final := by
  rw [benchmark_loop, if_pos hlt]
  simp only [hres, if_pos hret, hN, and_self]

theorem benchmark_parallel_loop_done (search : SearchFn) (D : Int) (K fuel n : Nat)
    (σ : BenchState) (h : ¬ σ.solutions_found < K) :
    benchmark_parallel_loop search D K (fuel + 1) n σ =
      { outcome := .returned 1, final := σ, searches := [] } := by
  rw [benchmark_parallel_loop, if_neg h]

theorem benchmark_parallel_loop_success (search : SearchFn) (D : Int) (K fuel n : Nat)
    (σ : BenchState) (r : MineResult) (new_json : List Nat) (hlt : σ.solutions_found < K)
    (hres : search n σ.working_json D σ.starting_nonce
      ((σ.starting_nonce + 100000000) % 2 ^ 64) = some r)
    (hret : r.ret ≠ 0) (hinc : increment_timestamp_in_json σ.working_json 1 = some new_json) :
    (benchmark_parallel_loop search D K (fuel + 1) n σ).outcome =
      (benchmark_parallel_loop search D K fuel (n + 1)
        { solutions_found := σ.solutions_found + 1,
          total_attempts := (σ.total_attempts + r.attempts) % 2 ^ 64,
          starting_nonce := 1,
          working_json := new_json }).outcome ∧
    (benchmark_parallel_loop search D K (fuel + 1) n σ).final =
      (benchmark_parallel_loop search D K fuel (n + 1)
        { solutions_found := σ.solutions_found + 1,
          total_attempts := (σ.total_attempts + r.attempts) % 2 ^ 64,
          starting_nonce := 1,
          working_json := new_json }).final := by
  rw [benchmark_parallel_loop, if_pos hlt]
  simp only [hres, if_pos hret, hinc, and_self]

theorem benchmark_loop_success_eq (search : SearchFn) (D : Int) (K fuel n : Nat)
    (σ : BenchState) (r : MineResult) (N : Nat) (hlt : σ.solutions_found < K)
    (hres : search n σ.working_json D σ.starting_nonce
      ((σ.starting_nonce + 100000000) % 2 ^ 64) = some r)
    (hret : r.ret ≠ 0) (hN : r.found_nonce = some N) :
    benchmark_loop search D K (fuel + 1) n σ =
      { benchmark_loop search D K fuel (n + 1)
          { σ with
            solutions_found := σ.solutions_found + 1,
            total_attempts := (σ.total_attempts + r.attempts) % 2 ^ 64,
            starting_nonce := (N + 1000) % 2 ^ 64 } with
        searches :=
          { round := σ.solutions_found, event := σ.working_json,
            start_nonce := σ.starting_nonce,
            end_nonce := (σ.starting_nonce + 100000000) % 2 ^ 64, result := some r } ::
          (benchmark_loop search D K fuel (n + 1)
            { σ with
              solutions_found := σ.solutions_found + 1,
              total_attempts := (σ.total_attempts + r.attempts) % 2 ^ 64,
              starting_nonce := (N + 1000) % 2 ^ 64 }).searches } := by
  rw [benchmark_loop, if_pos hlt]
  simp only [hres, if_pos hret, hN]

theorem benchmark_loop_failure_eq (search : SearchFn) (D : Int) (K fuel n : Nat)
    (σ : BenchState) (r : MineResult) (hlt : σ.solutions_found < K)
    (hres : search n σ.working_json D σ.starting_nonce
      ((σ.starting_nonce + 100000000) % 2 ^ 64) = some r)
    (hret : r.ret = 0) (hcap : ¬ (σ.starting_nonce + 100000000) % 2 ^ 64 > 1000000000000) :
    benchmark_loop search D K (fuel + 1) n σ =
      { benchmark_loop search D K fuel (n + 1)
          { σ with starting_nonce := (σ.starting_nonce + 100000000) % 2 ^ 64 } with
        searches :=
          { round := σ.solutions_found, event := σ.working_json,
            start_nonce := σ.starting_nonce,
            end_nonce := (σ.starting_nonce + 100000000) % 2 ^ 64, result := some r } ::
          (benchmark_loop search D K fuel (n + 1)
            { σ with
              starting_nonce := (σ.starting_nonce + 100000000) % 2 ^ 64 }).searches } := by
  rw [benchmark_loop, if_pos hlt]
  simp only [hres, hret, ne_eq, not_true_eq_false, if_false, if_neg hcap]

theorem search_late_hit_hit (n : Nat) (e : List Nat) (D : Int) (s : Nat) (hn : ¬ n < 9999)
    (hs : s + 100000000 < 2 ^ 64) :
    search_late_hit n e D s ((s + 100000000) % 2 ^ 64) =
      some { ret := 1, found_nonce := some (s + 99999999), attempts := 100000000 } := by
  unfold search_late_hit
  have h0 : (s + 100000000) % 2 ^ 64 = s + 100000000 := Nat.mod_eq_of_lt hs
  have h1 : s + 100000000 - 1 = s + 99999999 := by omega
  have h2 : s + 100000000 - s = 100000000 := by omega
  rw [if_neg hn, h0, h1, h2]

/-- The run of `benchmark_mode` with `search_late_hit` for two solutions, entered after
`9999 - m` failed searches. -/
theorem benchmark_loop_late_hit (e : List Nat) (D : Int) :
    ∀ m, m ≤ 9999 → ∀ fuel, m + 3 ≤ fuel →
      (benchmark_loop search_late_hit D 2 fuel (9999 - m)
        { solutions_found := 0, total_attempts := 0,
          starting_nonce := 1 + (9999 - m) * 100000000, working_json := e }).outcome =
        .returned 1 ∧
      (benchmark_loop search_late_hit D 2 fuel (9999 - m)
        { solutions_found := 0, total_attempts := 0,
          starting_nonce := 1 + (9999 - m) * 100000000, working_json := e }).searches.length =
        m + 2 ∧
      ((benchmark_loop search_late_hit D 2 fuel (9999 - m)
        { solutions_found := 0, total_attempts := 0,
          starting_nonce := 1 + (9999 - m) * 100000000,
          working_json := e }).searches.getLast?.map
        fun c => (c.round, c.start_nonce, c.succeeded)) = some (1, 1000000001000, true) ∧
      (benchmark_loop search_late_hit D 2 fuel (9999 - m)
        { solutions_found := 0, total_attempts := 0,
          starting_nonce := 1 + (9999 - m) * 100000000,
          working_json := e }).final.starting_nonce = 1000100001999 := by
  intro m
  induction m with
  | zero =>
    intro _ fuel hf
    obtain ⟨f, rfl⟩ : ∃ f, fuel = f + 1 + 1 + 1 := ⟨fuel - 3, by omega⟩
    have s1 := benchmark_loop_success_eq search_late_hit D 2 (f + 1 + 1) 9999
      { solutions_found := 0, total_attempts := 0, starting_nonce := 999900000001,
        working_json := e } _ (999900000001 + 99999999)
      (by show 0 < 2; decide)
      (search_late_hit_hit 9999 e D 999900000001 (by decide) (by decide))
      (by show 1 ≠ 0; decide) rfl
    have s2 := benchmark_loop_success_eq search_late_hit D 2 (f + 1) 10000
      { solutions_found := 1, total_attempts := 100000000, starting_nonce := 1000000001000,
        working_json := e } _ (1000000001000 + 99999999)
      (by show 1 < 2; decide)
      (search_late_hit_hit 10000 e D 1000000001000 (by decide) (by decide))
      (by show 1 ≠ 0; decide) rfl
    have s3 := benchmark_loop_done search_late_hit D 2 f 10001
      { solutions_found := 2, total_attempts := 200000000, starting_nonce := 1000100001999,
        working_json := e } (by show ¬ 2 < 2; decide)
    have h1 : (9999 - 0 : Nat) = 9999 := rfl
    have h2 : (1 + 9999 * 100000000 : Nat) = 999900000001 := by decide
    rw [h1, h2, s1]
    have n1 : (999900000001 + 99999999 + 1000) % 2 ^ 64 = 1000000001000 := by decide
    have n2 : (0 + 100000000) % 2 ^ 64 = 100000000 := by decide
    have n3 : (9999 + 1 : Nat) = 10000 := rfl
    have n0 : (0 + 1 : Nat) = 1 := rfl
    simp only [n0, n1, n2, n3]
    rw [s2]
    have n4 : (1000000001000 + 99999999 + 1000) % 2 ^ 64 = 1000100001999 := by decide
    have n5 : (100000000 + 100000000) % 2 ^ 64 = 200000000 := by decide
    have n6 : (10000 + 1 : Nat) = 10001 := rfl
    have n7 : (1 + 1 : Nat) = 2 := rfl
    simp only [n4, n5, n6, n7]
    rw [s3]
    exact ⟨rfl, rfl, rfl, rfl⟩
  | succ m ih =>
    intro hm fuel hf
    obtain ⟨f, rfl⟩ : ∃ f, fuel = f + 1 := ⟨fuel - 1, by omega⟩
    obtain ⟨i1, i2, i3, i4⟩ := ih (by omega) f (by omega)
    have hk : 9999 - (m + 1) + 1 = 9999 - m := by omega
    have hstart : (1 + (9999 - (m + 1)) * 100000000 + 100000000) % 2 ^ 64 =
        1 + (9999 - m) * 100000000 := by omega
    have hcall : search_late_hit (9999 - (m + 1)) e D (1 + (9999 - (m + 1)) * 100000000)
        ((1 + (9999 - (m + 1)) * 100000000 + 100000000) % 2 ^ 64) =
        some { ret := 0, found_nonce := none,
               attempts := (1 + (9999 - (m + 1)) * 100000000 + 100000000) % 2 ^ 64 -
                 (1 + (9999 - (m + 1)) * 100000000) } := by
      unfold search_late_hit
      rw [if_pos (by omega)]
    have s := benchmark_loop_failure_eq search_late_hit D 2 f (9999 - (m + 1))
      { solutions_found := 0, total_attempts := 0,
        starting_nonce := 1 + (9999 - (m + 1)) * 100000000, working_json := e } _
      (by show 0 < 2; decide) hcall rfl
      (by
        show ¬ (1 + (9999 - (m + 1)) * 100000000 + 100000000) % 2 ^ 64 > 1000000000000
        omega)
    rw [s]
    simp only [hk, hstart]
    refine ⟨i1, ?_, ?_, i4⟩
    · rw [List.length_cons, i2]
    · rw [getLast?_cons_of_ne_nil _ _ (by
        intro hn
        rw [hn] at i2
        simp at i2)]
      exact i3

/-- C22, as stated, fails for `benchmark_mode`, which after a solution continues at
`found_nonce + 1000` instead of nonce 1. With a search whose first 9999 windows hold
nothing and which then finds the last nonce of its window, `10^12`, the second solution is
searched from `10^12 + 1000`: a search starts above `10^12`, and the window start is above
`10^12` without the loop aborting (it returns 1 after 10001 searches). -/
theorem C22_benchmark_cap_counterexample :
    (benchmark_mode search_late_hit event_S1 8 2).outcome = .returned 1 ∧
    (benchmark_mode search_late_hit event_S1 8 2).searches.length = 10001 ∧
    ((benchmark_mode search_late_hit event_S1 8 2).searches.getLast?.map
      fun c => (c.round, c.start_nonce, c.succeeded)) = some (1, 1000000001000, true) ∧
    (benchmark_mode search_late_hit event_S1 8 2).final.starting_nonce > 1000000000000 := by
  have h := benchmark_loop_late_hit event_S1 8 9999 (Nat.le_refl _) (2 * 10002 + 1) (by decide)
  have h0 : (9999 - 9999 : Nat) = 0 := rfl
  have h1 : (1 + 0 * 100000000 : Nat) = 1 := rfl
  have h2 : (9999 + 2 : Nat) = 10001 := rfl
  rw [h0, h1, h2] at h
  obtain ⟨a, b, c, d⟩ := h
  unfold benchmark_mode
  refine ⟨a, b, c, ?_⟩
  rw [d]
  decide

/-- C22, amended: benchmark range cap and termination, for every search function and every
`K >= 1`. `benchmark_mode_parallel` ends after at most `K * 10^4` searches; every search
starts at a nonce of at most `10^12` and covers `10^8` nonces; a failed search is followed
by one starting `10^8` higher, a successful one by one starting at nonce 1; it returns 0
exactly when the window start has gone above `10^12`, which a failed search did; it
returns 1 only with `K` successful searches; and it ends otherwise only where a search or
the re-stamping has no defined result. `benchmark_mode` ends after at most `K * 10002`
searches; a failed search is followed by one starting `10^8` higher, a successful one by
one starting at the found nonce plus 1000; it returns 0 only when a failed search has
moved the window start above `10^12`, and 1 only with `K` successful searches. -/
theorem C22_benchmark_cap_and_termination (search : SearchFn) (e : List Nat) (D : Int)
    (K : Nat) (hK : 1 ≤ K) :
    ((benchmark_mode_parallel search e D K).outcome ≠ .out_of_fuel ∧
      (benchmark_mode_parallel search e D K).searches.length ≤ K * 10000 ∧
      (∀ c ∈ (benchmark_mode_parallel search e D K).searches,
        c.start_nonce ≤ 1000000000000 ∧ c.end_nonce = c.start_nonce + 100000000) ∧
      List.Chain' ParallelBenchNext (benchmark_mode_parallel search e D K).searches ∧
      ((benchmark_mode_parallel search e D K).outcome = .returned 0 ↔
        (benchmark_mode_parallel search e D K).final.starting_nonce > 1000000000000) ∧
      ((benchmark_mode_parallel search e D K).outcome = .returned 0 →
        ∃ c, (benchmark_mode_parallel search e D K).searches.getLast? = some c ∧
          c.failed = true ∧
          (benchmark_mode_parallel search e D K).final.starting_nonce =
            c.start_nonce + 100000000) ∧
      ((benchmark_mode_parallel search e D K).outcome = .returned 1 →
        (benchmark_mode_parallel search e D K).final.solutions_found = K ∧
        ((benchmark_mode_parallel search e D K).searches.filter
          SearchCall.succeeded).length = K) ∧
      (∀ code, (benchmark_mode_parallel search e D K).outcome = .returned code →
        code = 0 ∨ code = 1) ∧
      ((benchmark_mode_parallel search e D K).outcome = .undefined →
        ∃ c, (benchmark_mode_parallel search e D K).searches.getLast? = some c ∧
          (c.result = none ∨
            (c.succeeded = true ∧ increment_timestamp_in_json c.event 1 = none)))) ∧
    ((benchmark_mode search e D K).outcome ≠ .out_of_fuel ∧
      (benchmark_mode search e D K).searches.length ≤ K * 10002 ∧
      List.Chain' BenchNext (benchmark_mode search e D K).searches ∧
      ((benchmark_mode search e D K).outcome = .returned 0 →
        (benchmark_mode search e D K).final.starting_nonce > 1000000000000 ∧
        ∃ c, (benchmark_mode search e D K).searches.getLast? = some c ∧ c.failed = true ∧
          (benchmark_mode search e D K).final.starting_nonce =
            (c.start_nonce + 100000000) % 2 ^ 64) ∧
      ((benchmark_mode search e D K).outcome = .returned 1 →
        (benchmark_mode search e D K).final.solutions_found = K ∧
        ((benchmark_mode search e D K).searches.filter SearchCall.succeeded).length = K) ∧
      (∀ code, (benchmark_mode search e D K).outcome = .returned code →
        code = 0 ∨ code = 1) ∧
      ((benchmark_mode search e D K).outcome = .undefined →
        ∃ c, (benchmark_mode search e D K).searches.getLast? = some c ∧
          (c.result = none ∨
            (c.succeeded = true ∧ ∀ r, c.result = some r → r.found_nonce = none)))) := by
  have hp := benchmark_mode_parallel_spec search e D K
  have hs := benchmark_mode_spec search e D K
  have hpl : parallel_bench_left K
      { solutions_found := 0, total_attempts := 0, starting_nonce := 1, working_json := e } =
      K * 10000 := by
    unfold parallel_bench_left
    simp only []
    rw [if_pos (by omega)]
    have : K - 0 - 1 + 1 = K := by omega
    conv_rhs => rw [← this, Nat.add_mul]
  have hsl : bench_left K
      { solutions_found := 0, total_attempts := 0, starting_nonce := 1, working_json := e } ≤
      K * 10002 := by
    unfold bench_left
    simp only []
    rw [if_pos (by omega)]
    have h1 : bench_round_left 1 = 10000 := by decide
    have : K - 0 - 1 + 1 = K := by omega
    rw [h1]
    conv_rhs => rw [← this, Nat.add_mul]
    omega
  refine ⟨⟨hp.fuel_ok, by rw [← hpl]; exact hp.count, ?_, hp.chain, hp.abort_iff,
    hp.abort_last, ?_, hp.codes, hp.undefined⟩,
    ⟨hs.fuel_ok, Nat.le_trans hs.count hsl, hs.chain, hs.abort, ?_, hs.codes, hs.undefined⟩⟩
  · intro c hc
    obtain ⟨h1, _, h3, _⟩ := hp.calls c hc
    exact ⟨h1, h3⟩
  · intro ho
    obtain ⟨h1, h2, _⟩ := hp.success ho
    exact ⟨h1, by simpa using h2⟩
  · intro ho
    obtain ⟨h1, h2, _⟩ := hs.success ho
    exact ⟨h1, by simpa using h2⟩

theorem C22_benchmark_cap_and_termination_witness :
    1 ≤ 2 ∧
    (((benchmark_mode_parallel search_second_window event_S1 8 2).outcome ≠ .out_of_fuel ∧
      (benchmark_mode_parallel search_second_window event_S1 8 2).searches.length ≤ 2 * 10000 ∧
      (∀ c ∈ (benchmark_mode_parallel search_second_window event_S1 8 2).searches,
        c.start_nonce ≤ 1000000000000 ∧ c.end_nonce = c.start_nonce + 100000000) ∧
      List.Chain' ParallelBenchNext
        (benchmark_mode_parallel search_second_window event_S1 8 2).searches ∧
      ((benchmark_mode_parallel search_second_window event_S1 8 2).outcome = .returned 0 ↔
        (benchmark_mode_parallel search_second_window event_S1 8 2).final.starting_nonce >
            1000000000000) ∧
      ((benchmark_mode_parallel search_second_window event_S1 8 2).outcome = .returned 0 →
        ∃ c,
          (benchmark_mode_parallel search_second_window event_S1 8 2).searches.getLast? = some c ∧
          c.failed = true ∧
          (benchmark_mode_parallel search_second_window event_S1 8 2).final.starting_nonce =
            c.start_nonce + 100000000) ∧
      ((benchmark_mode_parallel search_second_window event_S1 8 2).outcome = .returned 1 →
        (benchmark_mode_parallel search_second_window event_S1 8 2).final.solutions_found = 2 ∧
        ((benchmark_mode_parallel search_second_window event_S1 8 2).searches.filter
          SearchCall.succeeded).length = 2) ∧
      (∀ code,
        (benchmark_mode_parallel search_second_window event_S1 8 2).outcome = .returned code →
        code = 0 ∨ code = 1) ∧
      ((benchmark_mode_parallel search_second_window event_S1 8 2).outcome = .undefined →
        ∃ c,
          (benchmark_mode_parallel search_second_window event_S1 8 2).searches.getLast? = some c ∧
          (c.result = none ∨
            (c.succeeded = true ∧ increment_timestamp_in_json c.event 1 = none)))) ∧
    ((benchmark_mode search_second_window event_S1 8 2).outcome ≠ .out_of_fuel ∧
      (benchmark_mode search_second_window event_S1 8 2).searches.length ≤ 2 * 10002 ∧
      List.Chain' BenchNext (benchmark_mode search_second_window event_S1 8 2).searches ∧
      ((benchmark_mode search_second_window event_S1 8 2).outcome = .returned 0 →
        (benchmark_mode search_second_window event_S1 8 2).final.starting_nonce > 1000000000000 ∧
        ∃ c, (benchmark_mode search_second_window event_S1 8 2).searches.getLast? = some c ∧
            c.failed = true ∧
          (benchmark_mode search_second_window event_S1 8 2).final.starting_nonce =
            (c.start_nonce + 100000000) % 2 ^ 64) ∧
      ((benchmark_mode search_second_window event_S1 8 2).outcome = .returned 1 →
        (benchmark_mode search_second_window event_S1 8 2).final.solutions_found = 2 ∧
        ((benchmark_mode search_second_window event_S1 8 2).searches.filter
            SearchCall.succeeded).length = 2) ∧
      (∀ code, (benchmark_mode search_second_window event_S1 8 2).outcome = .returned code →
        code = 0 ∨ code = 1) ∧
      ((benchmark_mode search_second_window event_S1 8 2).outcome = .undefined →
        ∃ c, (benchmark_mode search_second_window event_S1 8 2).searches.getLast? = some c ∧
          (c.result = none ∨
            (c.succeeded = true ∧ ∀ r, c.result = some r → r.found_nonce = none))))) :=
  ⟨by decide, C22_benchmark_cap_and_termination search_second_window event_S1 8 2 (by decide)⟩

/-- C23 at a failing input: a first search that finds nothing in `10^8` attempts and a second
one that finds a solution in 5. Both drivers return 1 with `total_attempts = 5`; the
attempts returned by the two calls add up to `100000005`. The branch taken when a search
returns 0 does not add `attempts_this_round`. -/
theorem C23_benchmark_attempts_at_failing_input :
    ((benchmark_mode_parallel search_second_window event_S1 8 1).outcome = .returned 1 ∧
      (benchmark_mode_parallel search_second_window event_S1 8 1).searches.map
        (fun c => c.result.map fun r => (r.ret, r.attempts)) =
        [some (0, 100000000), some (1, 5)] ∧
      (benchmark_mode_parallel search_second_window event_S1 8 1).final.total_attempts = 5 ∧
      attempts_of_all (benchmark_mode_parallel search_second_window event_S1 8 1).searches =
        100000005) ∧
    ((benchmark_mode search_second_window event_S1 8 1).outcome = .returned 1 ∧
      (benchmark_mode search_second_window event_S1 8 1).searches.map
        (fun c => c.result.map fun r => (r.ret, r.attempts)) =
        [some (0, 100000000), some (1, 5)] ∧
      (benchmark_mode search_second_window event_S1 8 1).final.total_attempts = 5 ∧
      attempts_of_all (benchmark_mode search_second_window event_S1 8 1).searches =
        100000005) := by
  decide

/-! ## Lemmas: the exit code of main -/

/-- The exit code of the standalone tool in benchmark mode, for valid parameters and a
readable file: 0 exactly when the value `benchmark_mode` returns equals `target_solutions`. -/
theorem main_standalone_benchmark_exit (argv : List (List Nat))
    (fopen : List Nat → Option (List Nat)) (file : List Nat) (h4 : 4 < argv.length)
    (hb : argv.getD 3 [] = ascii "benchmark") (hD1 : 1 ≤ atoi (argv.getD 2 []))
    (hD2 : atoi (argv.getD 2 []) ≤ 32) (hK : 1 ≤ atoi (argv.getD 4 []))
    (hf : fopen (argv.getD 1 []) = some file) :
    main_standalone argv fopen =
      match (benchmark_mode search_range (read_event file) (atoi (argv.getD 2 []))
          (atoi (argv.getD 4 [])).toNat).outcome with
      | .returned code => some (if (code : Int) = atoi (argv.getD 4 []) then 0 else 1)
      | _ => none := by
  have hbm : (decide (argv.length > 3) && (argv.getD 3 [] == ascii "benchmark")) = true := by
    rw [hb]
    simp only [Bool.and_eq_true, decide_eq_true_eq, beq_self_eq_true, and_true]
    omega
  have h1 : ¬ argv.length < 2 := by omega
  have h2 : (if argv.length > 2 then atoi (argv.getD 2 []) else 16) = atoi (argv.getD 2 []) :=
    if_pos (by omega)
  have h4' : (if argv.length > 4 then atoi (argv.getD 4 []) else 5) = atoi (argv.getD 4 []) :=
    if_pos (by omega)
  have hnd : ¬ (atoi (argv.getD 2 []) < 1 ∨ atoi (argv.getD 2 []) > 32) := by omega
  have hnk : ¬ (True ∧ atoi (argv.getD 4 []) < 1) := by omega
  unfold main_standalone
  simp only [hbm, if_true, hf, if_neg h1, h2, h4', if_neg hnd, if_neg hnk]

/-- The exit code of the parallel tool in benchmark mode, for valid parameters and a
readable file: 0 exactly when `benchmark_mode_parallel` returns non-zero. -/
theorem main_parallel_benchmark_exit (cores : Int) (argv : List (List Nat))
    (fopen : List Nat → Option (List Nat)) (sched : Nat → List (Nat × Bool)) (file : List Nat)
    (h5 : 5 < argv.length)
    (hb : argv.getD 3 [] = ascii "benchmark") (hD1 : 1 ≤ atoi (argv.getD 2 []))
    (hD2 : atoi (argv.getD 2 []) ≤ 32) (hK : 1 ≤ atoi (argv.getD 4 []))
    (hW1 : 1 ≤ atoi (argv.getD 5 [])) (hW2 : atoi (argv.getD 5 []) ≤ 128)
    (hf : fopen (argv.getD 1 []) = some file) :
    main_parallel cores argv fopen sched =
      match (benchmark_mode_parallel (search_range_parallel (atoi (argv.getD 5 [])).toNat sched)
          (read_event file) (atoi (argv.getD 2 [])) (atoi (argv.getD 4 [])).toNat).outcome with
      | .returned result => some (if result ≠ 0 then 0 else 1)
      | _ => none := by
  have hbm : (decide (argv.length > 3) && (argv.getD 3 [] == ascii "benchmark")) = true := by
    rw [hb]
    simp only [Bool.and_eq_true, decide_eq_true_eq, beq_self_eq_true, and_true]
    omega
  have h1 : ¬ argv.length < 2 := by omega
  have h2 : (if argv.length > 2 then atoi (argv.getD 2 []) else 16) = atoi (argv.getD 2 []) :=
    if_pos (by omega)
  have h4' : (if argv.length > 4 then atoi (argv.getD 4 []) else 5) = atoi (argv.getD 4 []) :=
    if_pos (by omega)
  have h5' : (if argv.length > 5 then atoi (argv.getD 5 []) else cores) =
      atoi (argv.getD 5 []) := if_pos (by omega)
  have hnw : ¬ (atoi (argv.getD 5 []) < 1 ∨ atoi (argv.getD 5 []) > 128) := by omega
  have hnd : ¬ (atoi (argv.getD 2 []) < 1 ∨ atoi (argv.getD 2 []) > 32) := by omega
  have hnk : ¬ (True ∧ atoi (argv.getD 4 []) < 1) := by omega
  unfold main_parallel
  simp only [hbm, if_true, hf, if_neg h1, h2, h4', h5', if_neg hnw, if_neg hnd, if_neg hnk]

/-- A range that holds a solution: the parallel search returns 1 under every schedule. -/
theorem nip13_mine_range_parallel_finds (W : Nat) (e : List Nat) (D : Int) (s t g0 N : Nat)
    (sched : List (Nat × Bool)) (hW : 1 ≤ W) (ht : t < 2 ^ 64) (h1 : s ≤ N) (h2 : N < t)
    (hs : Solves e D N) :
    ∃ r, nip13_mine_range_parallel W e D s t g0 sched = some r ∧ r.ret = 1 := by
  rcases nip13_mine_range_parallel_spec W e D s t g0 sched hW (by omega) ht with
    ⟨_, _, hnone⟩ | ⟨r, _, hr, hret, _⟩ | ⟨_, hmiss⟩
  · obtain ⟨out, ho, _⟩ := hs
    rw [hnone N] at ho
    cases ho
  · exact ⟨r, hr, hret⟩
  · exact absurd hs (misses_not_solves (hmiss N h1 h2))

/-- The standalone benchmark on the scenario event at difficulty 8 reaches its two
solutions: the nonce 167 lies in the first window, and 1360 in every window that starts
between 1001 and 1167. -/
theorem benchmark_mode_S1_two :
    (benchmark_mode search_range event_S1 8 2).outcome = .returned 1 ∧
    (benchmark_mode search_range event_S1 8 2).final.solutions_found = 2 := by
  have h167 : Solves event_S1 8 167 := by decide!
  have h1360 : Solves event_S1 8 1360 := by decide!
  obtain ⟨M, hM, hM1, hMle, _, _⟩ :=
    nip13_mine_range_finds event_S1 8 1 100000001 167 (by decide) (by decide) (by decide) h167
  obtain ⟨M2, hM2, _, _, _, _⟩ :=
    nip13_mine_range_finds event_S1 8 (M + 1000) (M + 1000 + 100000000) 1360 (by omega)
      (by omega) (by omega) h1360
  have hs : (M + 1000) % 2 ^ 64 = M + 1000 := by omega
  have he : (M + 1000 + 100000000) % 2 ^ 64 = M + 1000 + 100000000 := by omega
  have step1 := benchmark_loop_success search_range 8 2 20004 0
    { solutions_found := 0, total_attempts := 0, starting_nonce := 1,
      working_json := event_S1 } _ M (by show 0 < 2; decide) hM (by show 1 ≠ 0; decide) rfl
  have step2 := benchmark_loop_success search_range 8 2 20003 1
    { solutions_found := 1, total_attempts := (0 + (M - 1 + 1)) % 2 ^ 64,
      starting_nonce := (M + 1000) % 2 ^ 64, working_json := event_S1 } _ M2
    (by show 1 < 2; decide)
    (by
      show nip13_mine_range event_S1 8 ((M + 1000) % 2 ^ 64)
        (((M + 1000) % 2 ^ 64 + 100000000) % 2 ^ 64) = _
      rw [hs, he]
      exact hM2) (by show 1 ≠ 0; decide) rfl
  have step3 := benchmark_loop_done search_range 8 2 20002 2
    { solutions_found := 2,
      total_attempts := ((0 + (M - 1 + 1)) % 2 ^ 64 + (M2 - (M + 1000) + 1)) % 2 ^ 64,
      starting_nonce := (M2 + 1000) % 2 ^ 64, working_json := event_S1 }
    (by show ¬ 2 < 2; decide)
  have hfuel : (2 * 10002 + 1 : Nat) = 20004 + 1 := by norm_num
  unfold benchmark_mode
  rw [hfuel, step1.1, step1.2, step2.1, step2.2, step3]
  exact ⟨rfl, rfl⟩

/-- The parallel benchmark on the scenario event at difficulty 8 reaches its two solutions
under every schedule: the nonce 167 lies in the first window of the event, the nonce 442
in the first window of the re-stamped event. -/
theorem benchmark_mode_parallel_S1_two (W : Nat) (hW : 1 ≤ W)
    (sched : Nat → List (Nat × Bool)) :
    (benchmark_mode_parallel (search_range_parallel W sched) event_S1 8 2).outcome =
      .returned 1 := by
  have h167 : Solves event_S1 8 167 := by decide!
  have h442 : Solves event_S1_next 8 442 := by decide!
  have hinc : increment_timestamp_in_json event_S1 1 = some event_S1_next := by decide
  obtain ⟨r1, hr1, hret1⟩ := nip13_mine_range_parallel_finds W event_S1 8 1 100000001 0 167
    (sched 0) hW (by decide) (by decide) (by decide) h167
  obtain ⟨r2, hr2, hret2⟩ := nip13_mine_range_parallel_finds W event_S1_next 8 1 100000001 0
    442 (sched 1) hW (by decide) (by decide) (by decide) h442
  obtain ⟨e3, he3⟩ : ∃ e3, increment_timestamp_in_json event_S1_next 1 = some e3 :=
    ⟨_, (by decide : increment_timestamp_in_json event_S1_next 1 = some (ascii
      "\x7b\"content\":\"hi\",\"created_at\":1700000002,\"tags\":[]\x7d"))⟩
  have step1 := benchmark_parallel_loop_success (search_range_parallel W sched) 8 2 20000 0
    { solutions_found := 0, total_attempts := 0, starting_nonce := 1,
      working_json := event_S1 } r1 event_S1_next (by show 0 < 2; decide)
    (by
      show nip13_mine_range_parallel W event_S1 8 1 ((1 + 100000000) % 2 ^ 64) 0
        (sched 0) = some r1
      exact hr1)
    (by rw [hret1]; decide) hinc
  have step2 := benchmark_parallel_loop_success (search_range_parallel W sched) 8 2 19999 1
    { solutions_found := 1, total_attempts := (0 + r1.attempts) % 2 ^ 64, starting_nonce := 1,
      working_json := event_S1_next } r2 e3 (by show 1 < 2; decide)
    (by
      show nip13_mine_range_parallel W event_S1_next 8 1 ((1 + 100000000) % 2 ^ 64) 0
        (sched 1) = some r2
      exact hr2)
    (by rw [hret2]; decide) he3
  have step3 := benchmark_parallel_loop_done (search_range_parallel W sched) 8 2 19998 2
    { solutions_found := 2,
      total_attempts := ((0 + r1.attempts) % 2 ^ 64 + r2.attempts) % 2 ^ 64,
      starting_nonce := 1, working_json := e3 } (by show ¬ 2 < 2; decide)
  have hfuel : (2 * 10000 + 1 : Nat) = 20000 + 1 := by norm_num
  unfold benchmark_mode_parallel
  rw [hfuel, step1.1, step2.1, step3]

/-- A successful round of `benchmark_mode_parallel`: the call is recorded, and the loop goes
on with the re-stamped event from nonce 1. -/
theorem benchmark_parallel_loop_success_eq (search : SearchFn) (D : Int) (K fuel n : Nat)
    (σ : BenchState) (r : MineResult) (new_json : List Nat) (hlt : σ.solutions_found < K)
    (hres : search n σ.working_json D σ.starting_nonce
      ((σ.starting_nonce + 100000000) % 2 ^ 64) = some r)
    (hret : r.ret ≠ 0) (hinc : increment_timestamp_in_json σ.working_json 1 = some new_json) :
    benchmark_parallel_loop search D K (fuel + 1) n σ =
      { benchmark_parallel_loop search D K fuel (n + 1)
          { solutions_found := σ.solutions_found + 1,
            total_attempts := (σ.total_attempts + r.attempts) % 2 ^ 64,
            starting_nonce := 1,
            working_json := new_json } with
        searches :=
          { round := σ.solutions_found, event := σ.working_json,
            start_nonce := σ.starting_nonce,
            end_nonce := (σ.starting_nonce + 100000000) % 2 ^ 64, result := some r } ::
          (benchmark_parallel_loop search D K fuel (n + 1)
            { solutions_found := σ.solutions_found + 1,
              total_attempts := (σ.total_attempts + r.attempts) % 2 ^ 64,
              starting_nonce := 1,
              working_json := new_json }).searches } := by
  rw [benchmark_parallel_loop, if_pos hlt]
  simp only [hres, if_pos hret, hinc]

/-- The parallel benchmark on the event `{"content":"hi","tags":[]}`, which has a tags array
and no `"created_at"` field, at difficulty 8 for two solutions. The nonce 63 solves the
event, so under every number `W + 1` of workers and every schedule the search succeeds in
the first window; `increment_timestamp_in_json` returns the event as it is, and the second
round searches the same byte string from nonce 1. -/
theorem benchmark_mode_parallel_tags_only (W : Nat) (sched : Nat → List (Nat × Bool)) :
    (benchmark_mode_parallel (search_range_parallel (W + 1) sched) event_tags_only 8
        2).outcome = .returned 1 ∧
    (benchmark_mode_parallel (search_range_parallel (W + 1) sched) event_tags_only 8
        2).searches.map (fun c => (c.round, c.succeeded, c.start_nonce, c.event)) =
      [(0, true, 1, event_tags_only), (1, true, 1, event_tags_only)] := by
  have hinc : increment_timestamp_in_json event_tags_only 1 = some event_tags_only := by decide
  have h63 : Solves event_tags_only 8 63 := by decide!
  obtain ⟨r1, hr1, hret1⟩ := nip13_mine_range_parallel_finds (W + 1) event_tags_only 8 1
    100000001 0 63 (sched 0) (by omega) (by decide) (by decide) (by decide) h63
  obtain ⟨r2, hr2, hret2⟩ := nip13_mine_range_parallel_finds (W + 1) event_tags_only 8 1
    100000001 0 63 (sched 1) (by omega) (by decide) (by decide) (by decide) h63
  have step1 := benchmark_parallel_loop_success_eq (search_range_parallel (W + 1) sched) 8 2
    20000 0
    { solutions_found := 0, total_attempts := 0, starting_nonce := 1,
      working_json := event_tags_only } r1 event_tags_only (by show 0 < 2; decide)
    (by
      show nip13_mine_range_parallel (W + 1) event_tags_only 8 1 ((1 + 100000000) % 2 ^ 64) 0
        (sched 0) = some r1
      exact hr1)
    (by rw [hret1]; decide) hinc
  have step2 := benchmark_parallel_loop_success_eq (search_range_parallel (W + 1) sched) 8 2
    19999 1
    { solutions_found := 1, total_attempts := (0 + r1.attempts) % 2 ^ 64, starting_nonce := 1,
      working_json := event_tags_only } r2 event_tags_only (by show 1 < 2; decide)
    (by
      show nip13_mine_range_parallel (W + 1) event_tags_only 8 1 ((1 + 100000000) % 2 ^ 64) 0
        (sched 1) = some r2
      exact hr2)
    (by rw [hret2]; decide) hinc
  have step3 := benchmark_parallel_loop_done (search_range_parallel (W + 1) sched) 8 2 19998 2
    { solutions_found := 2,
      total_attempts := ((0 + r1.attempts) % 2 ^ 64 + r2.attempts) % 2 ^ 64,
      starting_nonce := 1, working_json := event_tags_only } (by show ¬ 2 < 2; decide)
  have hfuel : (2 * 10000 + 1 : Nat) = 20000 + 1 := by norm_num
  unfold benchmark_mode_parallel
  rw [hfuel, step1, step2, step3]
  refine ⟨rfl, ?_⟩
  simp [SearchCall.succeeded, hret1, hret2]

/-- C21, as stated, fails: the event `{"content":"hi","tags":[]}` has a tags array and no
`"created_at"` field, so `increment_timestamp_in_json` returns it as it is. With four
workers, at difficulty 8, `nip13_mine_range_parallel` succeeds in both rounds, and
`benchmark_mode_parallel` searches the same byte string from nonce 1 in both. -/
theorem C21_benchmark_restamp_counterexample :
    created_at_value event_tags_only = none ∧
    increment_timestamp_in_json event_tags_only 1 = some event_tags_only ∧
    (benchmark_mode_parallel (search_range_parallel 4 sched_joins) event_tags_only 8
        2).outcome = .returned 1 ∧
    (benchmark_mode_parallel (search_range_parallel 4 sched_joins) event_tags_only 8
        2).searches.map (fun c => (c.round, c.succeeded, c.start_nonce, c.event)) =
      [(0, true, 1, event_tags_only), (1, true, 1, event_tags_only)] :=
  ⟨by decide, by decide, (benchmark_mode_parallel_tags_only 3 sched_joins).1,
    (benchmark_mode_parallel_tags_only 3 sched_joins).2⟩

/-- C24 at a failing input: the command line `prog event.json 8 benchmark 2` on a file that
holds the scenario event. The parameters are valid and the file is readable;
`benchmark_mode` finds its two solutions and returns 1; `main` of the standalone tool
compares that return value with `target_solutions = 2` and exits with 1. With `benchmark 1`
the same comparison gives exit code 0, and `main` of the parallel tool, which tests the
return value for non-zero, exits with 0 on the same input under every schedule. -/
theorem C24_exit_code_at_failing_input :
    ((benchmark_mode search_range event_S1 8 2).outcome = .returned 1 ∧
      (benchmark_mode search_range event_S1 8 2).final.solutions_found = 2) ∧
    main_standalone argv_benchmark_two fopen_S1 = some 1 ∧
    (∀ cores sched, main_parallel cores argv_benchmark_two_threads fopen_S1 sched = some 0) := by
  have hb := benchmark_mode_S1_two
  refine ⟨hb, ?_, fun cores sched => ?_⟩
  · rw [main_standalone_benchmark_exit argv_benchmark_two fopen_S1 (event_S1 ++ [10])
      (by decide) (by decide) (by decide) (by decide) (by decide) (by decide)]
    have h8 : atoi (argv_benchmark_two.getD 2 []) = 8 := by decide
    have h2 : atoi (argv_benchmark_two.getD 4 []) = 2 := by decide
    have hev : read_event (event_S1 ++ [10]) = event_S1 := by decide
    have hto : (2 : Int).toNat = 2 := rfl
    rw [h8, h2, hev, hto, hb.1]
    rfl
  · rw [main_parallel_benchmark_exit cores argv_benchmark_two_threads fopen_S1 sched
      (event_S1 ++ [10]) (by decide) (by decide) (by decide) (by decide) (by decide)
      (by decide) (by decide) (by decide)]
    have h8 : atoi (argv_benchmark_two_threads.getD 2 []) = 8 := by decide
    have h2 : atoi (argv_benchmark_two_threads.getD 4 []) = 2 := by decide
    have h4 : atoi (argv_benchmark_two_threads.getD 5 []) = 4 := by decide
    have hev : read_event (event_S1 ++ [10]) = event_S1 := by decide
    have hto : (2 : Int).toNat = 2 := rfl
    have hto4 : (4 : Int).toNat = 4 := rfl
    rw [h8, h2, h4, hev, hto, hto4, benchmark_mode_parallel_S1_two 4 (by decide) sched]
    rfl

/-! ## Lemmas: when the serializer writes a result -/

/-- The serializer writes a result exactly in the insertion case and in the replacement case
with a well-terminated value. -/
theorem update_nonce_writes_iff (e : List Nat) (N : Nat) (hN : N < 2 ^ 64) :
    (update_nonce_in_json e N).isSome = (nonce_insertion_case e || nonce_replacement_case e) := by
  cases hnp : strstr e (ascii "\"nonce\"") with
  | some np =>
    cases hc : strchr e np 58 with
    | none =>
      have : update_nonce_in_json e N = none := by
        unfold update_nonce_in_json
        simp only [hnp, hc]
      simp only [this, nonce_insertion_case, nonce_replacement_case, hnp, hc]
      rfl
    | some c =>
      rw [update_nonce_replace_eq e N np c hN hnp hc]
      simp only [nonce_insertion_case, nonce_replacement_case, hnp, hc, Bool.false_or]
      by_cases hq : ((e.drop (c + 1)).dropWhile is_space_tab).headD 0 = 34
      · simp only [if_pos hq]
        cases find_byte 34 (((e.drop (c + 1)).dropWhile is_space_tab).drop 1) <;> rfl
      · simp only [if_neg hq]
        rfl
  | none =>
    cases htags : strstr e (ascii "\"tags\"") with
    | none =>
      rw [update_nonce_malformed e N hnp (by intro tp h; rw [htags] at h; cases h)]
      simp only [nonce_insertion_case, nonce_replacement_case, hnp, htags]
      rfl
    | some tp =>
      cases hk : strchr e tp 91 with
      | none =>
        rw [update_nonce_malformed e N hnp
          (by intro tp' h; rw [htags] at h; cases h; exact hk)]
        simp only [nonce_insertion_case, nonce_replacement_case, hnp, htags, hk]
        rfl
      | some k =>
        rw [update_nonce_insert_eq e N tp k hN hnp htags hk]
        simp only [nonce_insertion_case, nonce_replacement_case, hnp, htags, hk]
        rfl

/-- The insertion case, spelled out. -/
theorem nonce_insertion_case_iff (e : List Nat) :
    nonce_insertion_case e = true ↔
      strstr e (ascii "\"nonce\"") = none ∧
      ∃ tp k, strstr e (ascii "\"tags\"") = some tp ∧ strchr e tp 91 = some k := by
  cases hnp : strstr e (ascii "\"nonce\"") with
  | some np => simp [nonce_insertion_case, hnp]
  | none =>
    cases htags : strstr e (ascii "\"tags\"") with
    | none => simp [nonce_insertion_case, hnp, htags]
    | some tp =>
      cases hk : strchr e tp 91 with
      | none => simp [nonce_insertion_case, hnp, htags, hk]
      | some k => simp [nonce_insertion_case, hnp, htags, hk]

/-- The replacement case with a well-terminated value, spelled out. -/
theorem nonce_replacement_case_iff (e : List Nat) :
    nonce_replacement_case e = true ↔
      ∃ np c, strstr e (ascii "\"nonce\"") = some np ∧ strchr e np 58 = some c ∧
        (((e.drop (c + 1)).dropWhile is_space_tab).headD 0 ≠ 34 ∨
          ∃ q, ((e.drop (c + 1)).dropWhile is_space_tab).headD 0 = 34 ∧
            find_byte 34 (((e.drop (c + 1)).dropWhile is_space_tab).drop 1) = some q) := by
  cases hnp : strstr e (ascii "\"nonce\"") with
  | none => simp [nonce_replacement_case, hnp]
  | some np =>
    cases hc : strchr e np 58 with
    | none => simp [nonce_replacement_case, hnp, hc]
    | some c =>
      simp only [nonce_replacement_case, hnp, hc, Option.some.injEq, exists_and_left,
        exists_eq_left']
      by_cases hq : ((e.drop (c + 1)).dropWhile is_space_tab).headD 0 = 34
      · simp only [hq, if_true, ne_eq, not_true_eq_false, true_and, false_or,
          Option.isSome_iff_exists]
      · simp only [hq, if_false, ne_eq, not_false_eq_true, true_or]
/-! ## Lemmas: the serializer is injective in the nonce -/

/-- Two numbers with the same decimal numeral are equal. -/
theorem decimal_injective (N M : Nat) (h : decimal N = decimal M) : N = M := by
  have hN := decimal_foldl N
  rw [h, decimal_foldl] at hN
  exact hN.symm

/-- The quoted numerals of two numbers differ when the numbers do. -/
theorem quoted_decimal_injective (N M : Nat) (h : quoted_decimal N = quoted_decimal M) :
    N = M := by
  unfold quoted_decimal at h
  exact decimal_injective N M
    (List.append_cancel_left (List.append_cancel_right h))

/-- The nonce tags of two numbers differ when the numbers do. -/
theorem nonce_tag_injective (N M : Nat) (h : nonce_tag N = nonce_tag M) : N = M := by
  unfold nonce_tag at h
  exact decimal_injective N M
    (List.append_cancel_left (List.append_cancel_right h))

/-- C31: the serializer is injective in the nonce. For an event on which
`update_nonce_in_json` writes a result (the insertion case, or the replacement case with a
well-terminated value) and two different 64-bit nonces `N` and `M`, the function writes a
result for both, and the two results differ. -/
theorem C31_update_nonce_injective (e : List Nat) (N M : Nat) (hN : N < 2 ^ 64)
    (hM : M < 2 ^ 64) (hne : N ≠ M)
    (hw : (nonce_insertion_case e || nonce_replacement_case e) = true) :
    ∃ a b, update_nonce_in_json e N = some a ∧ update_nonce_in_json e M = some b ∧ a ≠ b := by
  rw [← update_nonce_writes_iff e N hN] at hw
  obtain ⟨a, ha⟩ := Option.isSome_iff_exists.mp hw
  obtain ⟨b, hb⟩ := update_nonce_some_indep e N M a ha
  refine ⟨a, b, ha, hb, ?_⟩
  intro hab
  have heq : update_nonce_in_json e N = update_nonce_in_json e M := by rw [ha, hb, hab]
  apply hne
  cases hnp : strstr e (ascii "\"nonce\"") with
  | some np =>
    cases hc : strchr e np 58 with
    | none =>
      have : update_nonce_in_json e N = none := by
        unfold update_nonce_in_json
        simp only [hnp, hc]
      rw [this] at ha
      cases ha
    | some c =>
      rw [update_nonce_replace_eq e N np c hN hnp hc,
        update_nonce_replace_eq e M np c hM hnp hc] at heq
      split_ifs at heq with hq
      · cases hf : find_byte 34 (((e.drop (c + 1)).dropWhile is_space_tab).drop 1) with
        | none =>
          rw [update_nonce_replace_eq e N np c hN hnp hc, if_pos hq] at ha
          simp only [hf] at ha
          cases ha
        | some q =>
          simp only [hf, Option.some.injEq] at heq
          exact quoted_decimal_injective N M
            (List.append_cancel_left (List.append_cancel_right heq))
      · simp only [Option.some.injEq] at heq
        exact quoted_decimal_injective N M
          (List.append_cancel_left (List.append_cancel_right heq))
  | none =>
    cases htags : strstr e (ascii "\"tags\"") with
    | none =>
      rw [update_nonce_malformed e N hnp (by intro tp h; rw [htags] at h; cases h)] at ha
      cases ha
    | some tp =>
      cases hk : strchr e tp 91 with
      | none =>
        rw [update_nonce_malformed e N hnp
          (by intro tp' h; rw [htags] at h; cases h; exact hk)] at ha
        cases ha
      | some k =>
        rw [update_nonce_insert_eq e N tp k hN hnp htags hk,
          update_nonce_insert_eq e M tp k hM hnp htags hk] at heq
        simp only [Option.some.injEq] at heq
        exact nonce_tag_injective N M
          (List.append_cancel_left (List.append_cancel_right (List.append_cancel_right heq)))

/-- C31 at the scenario event, for the nonces 1 and 2. -/
theorem C31_update_nonce_injective_witness :
    1 < 2 ^ 64 ∧ 2 < 2 ^ 64 ∧ 1 ≠ 2 ∧
    (nonce_insertion_case event_S1 || nonce_replacement_case event_S1) = true ∧
    ∃ a b, update_nonce_in_json event_S1 1 = some a ∧ update_nonce_in_json event_S1 2 = some b ∧
      a ≠ b :=
  ⟨by decide, by decide, by decide, by decide,
    C31_update_nonce_injective event_S1 1 2 (by decide) (by decide) (by decide) (by decide)⟩
/-! ## Lemmas: writing a nonce over a nonce -/

/-- The first occurrence of `c` in a list that opens with a run free of `c`, then `c`. -/
theorem find_byte_skip (c : Nat) (A R : List Nat) (hA : ∀ a ∈ A, a ≠ c) :
    find_byte c (A ++ c :: R) = some A.length := by
  induction A with
  | nil => simp [find_byte]
  | cons a A ih =>
    have ha : a ≠ c := hA a (List.mem_cons_self _ _)
    have := ih (fun x hx => hA x (List.mem_cons_of_mem _ hx))
    simp [find_byte, ha, this]

/-- The quoted numeral opens with a quote, holds no other quote before its last byte, and
what follows its closing quote is what was appended. -/
theorem quoted_decimal_shape (N : Nat) (S : List Nat) :
    (quoted_decimal N ++ S).headD 0 = 34 ∧
    find_byte 34 ((quoted_decimal N ++ S).drop 1) = some (decimal N).length ∧
    ((quoted_decimal N ++ S).drop 1).drop ((decimal N).length + 1) = S := by
  have hq : quoted_decimal N ++ S = 34 :: (decimal N ++ 34 :: S) := by
    simp [quoted_decimal, ascii]
  have hd : ∀ a ∈ decimal N, a ≠ 34 := by
    intro a ha h
    have := decimal_isdigit N a ha
    rw [h] at this
    revert this
    decide
  rw [hq]
  refine ⟨rfl, ?_, ?_⟩
  · rw [List.drop_one, List.tail_cons]
    exact find_byte_skip 34 _ _ hd
  · rw [List.drop_one, List.tail_cons]
    have h : decimal N ++ 34 :: S = (decimal N ++ [34]) ++ S := by simp
    rw [h]
    exact List.drop_left' (by simp)

/-- Writing the nonce `M` into a text whose nonce value is the quoted numeral of `N`, at the
place where `update_nonce_in_json` writes it in `e`: the numeral of `N` is replaced by that
of `M`, and nothing else changes. -/
theorem update_nonce_requote (e : List Nat) (N M np c : Nat) (hM : M < 2 ^ 64)
    (hnp : strstr e (ascii "\"nonce\"") = some np) (hc : strchr e np 58 = some c)
    (S : List Nat) :
    update_nonce_in_json
        (e.take (c + 1) ++ (e.drop (c + 1)).takeWhile is_space_tab ++ quoted_decimal N ++ S) M =
      some (e.take (c + 1) ++ (e.drop (c + 1)).takeWhile is_space_tab ++ quoted_decimal M ++ S) := by
  obtain ⟨h7, hcl⟩ := strchr_after_token e (ascii "\"nonce\"") np c (by decide) hnp hc
  have h7' : np + 7 ≤ c := h7
  have hAl : (e.take (c + 1)).length = c + 1 := by
    rw [List.length_take]; omega
  have he : e = e.take (c + 1) ++ e.drop (c + 1) := (List.take_append_drop _ _).symm
  have hassoc : e.take (c + 1) ++ (e.drop (c + 1)).takeWhile is_space_tab ++ quoted_decimal N ++ S =
      e.take (c + 1) ++ ((e.drop (c + 1)).takeWhile is_space_tab ++ (quoted_decimal N ++ S)) := by
    simp only [List.append_assoc]
  rw [hassoc]
  have hnp2 : strstr (e.take (c + 1) ++
      ((e.drop (c + 1)).takeWhile is_space_tab ++ (quoted_decimal N ++ S)))
      (ascii "\"nonce\"") = some np :=
    strstr_append_stable _ _ (e.drop (c + 1)) _ np (by rw [← he]; exact hnp)
      (by rw [hAl]; show np + 7 ≤ c + 1; omega)
  have hc2 : strchr (e.take (c + 1) ++
      ((e.drop (c + 1)).takeWhile is_space_tab ++ (quoted_decimal N ++ S))) np 58 = some c :=
    strchr_append_stable _ (e.drop (c + 1)) _ np 58 c (by rw [← he]; exact hc)
      (by rw [hAl]; omega)
  rw [update_nonce_replace_eq _ M np c hM hnp2 hc2]
  have hd : (e.take (c + 1) ++
      ((e.drop (c + 1)).takeWhile is_space_tab ++ (quoted_decimal N ++ S))).drop (c + 1) =
      (e.drop (c + 1)).takeWhile is_space_tab ++ (quoted_decimal N ++ S) :=
    List.drop_left' hAl
  have ht : (e.take (c + 1) ++
      ((e.drop (c + 1)).takeWhile is_space_tab ++ (quoted_decimal N ++ S))).take (c + 1) =
      e.take (c + 1) :=
    List.take_left' hAl
  obtain ⟨hs1, hs2, hs3⟩ := quoted_decimal_shape N S
  have hws : ∀ a ∈ (e.drop (c + 1)).takeWhile is_space_tab, is_space_tab a = true :=
    fun a ha => List.mem_takeWhile_imp ha
  have hhead : ∀ b ∈ (quoted_decimal N ++ S).head?, is_space_tab b = false := by
    intro b hb
    have : (quoted_decimal N ++ S).head? = some 34 := by simp [quoted_decimal, ascii]
    rw [this] at hb
    cases hb
    decide
  rw [hd, ht, dropWhile_blanks _ _ _ hws hhead, takeWhile_append_stop _ _ _ hws hhead,
    if_pos hs1]
  simp only [hs2, hs3]

/-- On the replacement path the text written for a nonce is the text before the value, the
quoted numeral, and a remainder that does not depend on the nonce. -/
theorem update_nonce_replacement_shape (e : List Nat) (hr : nonce_replacement_case e = true) :
    ∃ np c S, strstr e (ascii "\"nonce\"") = some np ∧ strchr e np 58 = some c ∧
      ∀ N, N < 2 ^ 64 → update_nonce_in_json e N =
        some (e.take (c + 1) ++ (e.drop (c + 1)).takeWhile is_space_tab ++ quoted_decimal N ++ S) := by
  obtain ⟨np, c, hnp, hc, hv⟩ := (nonce_replacement_case_iff e).mp hr
  rcases hv with hq | ⟨q, hq, hf⟩
  · exact ⟨np, c, ((e.drop (c + 1)).dropWhile is_space_tab).dropWhile is_value_byte, hnp, hc,
      fun N hN => by rw [update_nonce_replace_eq e N np c hN hnp hc, if_neg hq]⟩
  · exact ⟨np, c, (((e.drop (c + 1)).dropWhile is_space_tab).drop 1).drop (q + 1), hnp, hc,
      fun N hN => by
        rw [update_nonce_replace_eq e N np c hN hnp hc, if_pos hq]
        simp only [hf]⟩

/-- C32: the overwrite law on the replacement path. For an event whose first `"nonce"` token
is followed by a `:` and a well-terminated value, and 64-bit nonces `N` and `M`:
`update_nonce_in_json` writes a result for `N`, writing `M` into that result gives what
writing `M` into the event gives (and that is a result), and writing `N` again changes
nothing. -/
theorem C32_update_nonce_overwrite (e : List Nat) (N M : Nat) (hN : N < 2 ^ 64)
    (hM : M < 2 ^ 64) (hr : nonce_replacement_case e = true) :
    ∃ eN, update_nonce_in_json e N = some eN ∧
      update_nonce_in_json eN M = update_nonce_in_json e M ∧
      (update_nonce_in_json e M).isSome = true ∧
      update_nonce_in_json eN N = some eN := by
  obtain ⟨np, c, S, hnp, hc, hS⟩ := update_nonce_replacement_shape e hr
  refine ⟨_, hS N hN, ?_, ?_, ?_⟩
  · rw [hS M hM]
    exact update_nonce_requote e N M np c hM hnp hc S
  · rw [hS M hM]
    rfl
  · exact update_nonce_requote e N N np c hN hnp hc S

/-- C32 at the event `{"nonce": "0","tags":[]}`, for the nonces 5 and 77. -/
theorem C32_update_nonce_overwrite_witness :
    5 < 2 ^ 64 ∧ 77 < 2 ^ 64 ∧ nonce_replacement_case event_nonce_field = true ∧
    ∃ eN, update_nonce_in_json event_nonce_field 5 = some eN ∧
      update_nonce_in_json eN 77 = update_nonce_in_json event_nonce_field 77 ∧
      (update_nonce_in_json event_nonce_field 77).isSome = true ∧
      update_nonce_in_json eN 5 = some eN :=
  ⟨by decide, by decide, by decide,
    C32_update_nonce_overwrite event_nonce_field 5 77 (by decide) (by decide) (by decide)⟩
/-! ## Lemmas: the digest and the content of the context before sha256_init -/

/-- Two contexts initialised from different prior values and fed the same chunks give the
same digest. -/
theorem sha256_chunks_congr (ctx ctx' : sha256_ctx_t) (chunks : List (List Nat))
    (hbuf : ctx.buffer.length = 64) (hbuf' : ctx'.buffer.length = 64)
    (hb : ∀ c ∈ chunks, IsBytes c) : sha256_chunks ctx chunks = sha256_chunks ctx' chunks := by
  have hnil : IsBytes ([] : List Nat) := fun _ h => absurd h (List.not_mem_nil _)
  obtain ⟨P, t, h1, ht, he⟩ :=
    absorbed_foldl chunks _ [] [] (sha256_init_absorbed ctx hbuf) hnil hb
  obtain ⟨P', t', h2, _, he'⟩ :=
    absorbed_foldl chunks _ [] [] (sha256_init_absorbed ctx' hbuf') hnil hb
  obtain ⟨hP, hT⟩ := absorbed_unique h1 h2 (by rw [he, he'])
  subst hP hT
  exact sha256_final_congr h1 h2 ht

/-- C33: the digest does not depend on what the context holds before `sha256_init`.
`sha256_init` leaves the block buffer as it was; yet two contexts that differ in buffer,
state and count before `sha256_init` give, after `sha256_init`, the same `sha256_update`
calls and `sha256_final`, the same 32-byte digest. So the digest `sha256_hash` computes is
the same for every content of its local context: it depends on the message alone. -/
theorem C33_digest_ignores_stale_context (ctx ctx' : sha256_ctx_t) (chunks : List (List Nat))
    (m : List Nat) (hbuf : ctx.buffer.length = 64) (hbuf' : ctx'.buffer.length = 64)
    (hb : ∀ c ∈ chunks, IsBytes c) (hm : IsBytes m) :
    (sha256_init ctx).buffer = ctx.buffer ∧
    sha256_chunks ctx chunks = sha256_chunks ctx' chunks ∧
    (sha256_chunks ctx chunks).length = 32 ∧
    sha256_hash_from ctx m = sha256_hash_from ctx' m ∧
    sha256_hash_from ctx m = sha256_hash m := by
  have h1 : ∀ c ∈ [m], IsBytes c := fun c hc => by rw [List.mem_singleton.mp hc]; exact hm
  refine ⟨rfl, sha256_chunks_congr ctx ctx' chunks hbuf hbuf' hb, digest_bytes_length _, ?_, ?_⟩
  · exact sha256_chunks_congr ctx ctx' [m] hbuf hbuf' h1
  · exact sha256_chunks_congr ctx _ [m] hbuf rfl h1

/-- C33 for a context full of `0xff` and one left in the middle of another message, fed the
chunks `a`, the empty chunk and `bc`, and the message `abc`. -/
theorem C33_digest_ignores_stale_context_witness :
    ctx_dirty.buffer.length = 64 ∧ ctx_midstream.buffer.length = 64 ∧
    (∀ c ∈ [[0x61], [], [0x62, 0x63]], IsBytes c) ∧ IsBytes [0x61, 0x62, 0x63] ∧
    (sha256_init ctx_dirty).buffer = ctx_dirty.buffer ∧
    sha256_chunks ctx_dirty [[0x61], [], [0x62, 0x63]] =
      sha256_chunks ctx_midstream [[0x61], [], [0x62, 0x63]] ∧
    (sha256_chunks ctx_dirty [[0x61], [], [0x62, 0x63]]).length = 32 ∧
    sha256_hash_from ctx_dirty [0x61, 0x62, 0x63] =
      sha256_hash_from ctx_midstream [0x61, 0x62, 0x63] ∧
    sha256_hash_from ctx_dirty [0x61, 0x62, 0x63] = sha256_hash [0x61, 0x62, 0x63] :=
  ⟨by decide, by decide, by decide, by decide,
    C33_digest_ignores_stale_context ctx_dirty ctx_midstream [[0x61], [], [0x62, 0x63]]
      [0x61, 0x62, 0x63] (by decide) (by decide) (by decide) (by decide)⟩
/-- C34: the two single-threaded searches agree. For every event, difficulty and 64-bit
bound `max`, `nip13_mine(e, D, max)` and `nip13_mine_range(e, D, 0, max)` have the same
return value and store the same nonce (or both store none). Neither is cut short: the result
is undefined only when the range is non-empty and the serializer writes nothing for the
event; otherwise the return value is 1 with a nonce stored or 0 with none. -/
theorem C34_mine_agrees_with_mine_range (e : List Nat) (D : Int) (max : Nat)
    (hmax : max < 2 ^ 64) :
    nip13_mine e D max = (nip13_mine_range e D 0 max).map (fun r => (r.ret, r.found_nonce)) ∧
    (nip13_mine e D max = none ↔ nip13_mine_range e D 0 max = none) ∧
    (nip13_mine e D max = none ↔ (0 < max ∧ ∀ N, update_nonce_in_json e N = none)) ∧
    (∀ ret nonce, nip13_mine e D max = some (ret, nonce) →
      (∃ rs, nip13_mine_range e D 0 max = some rs ∧ rs.ret = ret ∧ rs.found_nonce = nonce) ∧
      ((ret = 1 ∧ ∃ N, nonce = some N ∧ N < max) ∨ (ret = 0 ∧ nonce = none))) := by
  have heq := nip13_mine_eq e D max
  have hnone : nip13_mine e D max = none ↔ nip13_mine_range e D 0 max = none := by
    rw [heq]
    cases nip13_mine_range e D 0 max <;> simp
  refine ⟨heq, hnone, ?_, ?_⟩
  · rw [hnone]
    exact nip13_mine_range_none_iff e D 0 max hmax
  · intro ret nonce h
    rw [heq] at h
    cases hr : nip13_mine_range e D 0 max with
    | none => rw [hr] at h; cases h
    | some rs =>
      rw [hr] at h
      simp only [Option.map_some', Option.some.injEq, Prod.mk.injEq] at h
      obtain ⟨h1, h2⟩ := h
      refine ⟨⟨rs, rfl, h1, h2⟩, ?_⟩
      rcases nip13_mine_range_some e D 0 max hmax rs hr with
        ⟨hret, N, hN, _, hlt, _⟩ | ⟨hret, hnn, _⟩
      · exact Or.inl ⟨by rw [← h1, hret], N, by rw [← h2, hN], hlt⟩
      · exact Or.inr ⟨by rw [← h1, hret], by rw [← h2, hnn]⟩

/-- C34 at the scenario event, difficulty 8 and one million iterations. -/
theorem C34_mine_agrees_with_mine_range_witness :
    1000000 < 2 ^ 64 ∧
    nip13_mine event_S1 8 1000000 =
      (nip13_mine_range event_S1 8 0 1000000).map (fun r => (r.ret, r.found_nonce)) ∧
    (nip13_mine event_S1 8 1000000 = none ↔ nip13_mine_range event_S1 8 0 1000000 = none) ∧
    (nip13_mine event_S1 8 1000000 = none ↔
      (0 < 1000000 ∧ ∀ N, update_nonce_in_json event_S1 N = none)) ∧
    (∀ ret nonce, nip13_mine event_S1 8 1000000 = some (ret, nonce) →
      (∃ rs, nip13_mine_range event_S1 8 0 1000000 = some rs ∧ rs.ret = ret ∧
        rs.found_nonce = nonce) ∧
      ((ret = 1 ∧ ∃ N, nonce = some N ∧ N < 1000000) ∨ (ret = 0 ∧ nonce = none))) :=
  ⟨by decide, C34_mine_agrees_with_mine_range event_S1 8 1000000 (by decide)⟩

/-! ## Lemmas: the search with a single worker -/

/-- A property that every step of a worker preserves holds after any schedule. -/
theorem par_run_preserves (e : List Nat) (D : Int) (I : ParState → Prop)
    (hstep : ∀ σ i stale, I σ → I (worker_step e D σ i stale)) (sched : List (Nat × Bool)) :
    ∀ σ, I σ → I (par_run e D σ sched) := by
  induction sched with
  | nil => intro σ h; exact h
  | cons x rest ih => intro σ h; exact ih _ (hstep σ x.1 x.2 h)

/-- A property that every step of a worker preserves holds after a `pthread_join`. -/
theorem worker_join_preserves (e : List Nat) (D : Int) (I : ParState → Prop)
    (hstep : ∀ σ i stale, I σ → I (worker_step e D σ i stale)) (fuel i : Nat) :
    ∀ σ, I σ → I (worker_join e D fuel σ i) := by
  induction fuel with
  | zero => intro σ h; exact h
  | succ fuel ih =>
    intro σ h
    unfold worker_join
    split_ifs
    · exact h
    · exact ih _ (hstep σ i false h)

/-- A property that every step of a worker preserves holds after the loop of joins. -/
theorem join_all_preserves (e : List Nat) (D : Int) (I : ParState → Prop)
    (hstep : ∀ σ i stale, I σ → I (worker_step e D σ i stale)) (W : Nat) :
    ∀ σ, I σ → I (join_all e D W σ) := by
  unfold join_all
  generalize List.range W = l
  induction l with
  | nil => intro σ h; exact h
  | cons i rest ih =>
    intro σ h
    exact ih _ (worker_join_preserves e D I hstep _ i σ h)

/-- How a step of worker `i` can set its `found_solution`: only from the loop body, on
returning, with the attempt counted and the nonce kept. -/
theorem worker_step_found (e : List Nat) (D : Int) (σ : ParState) (i : Nat) (stale : Bool)
    (h1 : ((worker_step e D σ i stale).workers i).data.found_solution = 1) :
    (worker_step e D σ i stale).workers i = σ.workers i ∨
    (σ.workers i).data.found_solution = 1 ∨
    ((σ.workers i).pc = .loop_body ∧
      ((worker_step e D σ i stale).workers i).pc = .returned ∧
      ((worker_step e D σ i stale).workers i).nonce = (σ.workers i).nonce ∧
      ((worker_step e D σ i stale).workers i).data.attempts =
        ((σ.workers i).data.attempts + 1) % 2 ^ 64) := by
  unfold worker_step at h1 ⊢
  by_cases hcr : σ.crashed = true
  · rw [if_pos hcr]; exact Or.inl rfl
  rw [if_neg hcr] at h1 ⊢
  cases hpc : (σ.workers i).pc with
  | returned => simp only [hpc]; exact Or.inl trivial
  | loop_test =>
    simp only [hpc] at h1 ⊢
    by_cases hc : (σ.workers i).nonce < (σ.workers i).data.end_nonce ∧
        (if stale = true then 0 else σ.solution_found) = 0
    · rw [if_pos hc] at h1 ⊢
      rw [set_worker_same] at h1 ⊢
      exact Or.inr (Or.inl h1)
    · rw [if_neg hc] at h1 ⊢
      rw [set_worker_same] at h1 ⊢
      exact Or.inr (Or.inl h1)
  | loop_body =>
    simp only [hpc] at h1 ⊢
    cases hu : update_nonce_in_json e (σ.workers i).nonce with
    | none => simp only [hu]; exact Or.inl trivial
    | some out =>
      simp only [hu] at h1 ⊢
      by_cases hge : (count_leading_zeros (sha256_hash out) : Int) ≥ D
      · rw [if_pos hge] at h1 ⊢
        by_cases hsf : σ.solution_found = 0
        · rw [if_pos hsf]
          refine Or.inr (Or.inr ⟨trivial, ?_, ?_, ?_⟩)
          · show (set_worker σ i _ |>.workers i).pc = _
            rw [set_worker_same]
          · show (set_worker σ i _ |>.workers i).nonce = _
            rw [set_worker_same]
          · show (set_worker σ i _ |>.workers i).data.attempts = _
            rw [set_worker_same]
        · rw [if_neg hsf] at h1 ⊢
          rw [set_worker_same] at h1 ⊢
          exact Or.inr (Or.inl h1)
      · rw [if_neg hge] at h1 ⊢
        rw [set_worker_same] at h1 ⊢
        exact Or.inr (Or.inl h1)

/-- A step of any worker preserves what holds of the `found_solution` fields. -/
theorem worker_step_found_inv {e : List Nat} {D : Int} {W s t : Nat} (hst : s ≤ t)
    (ht : t < 2 ^ 64) {σ : ParState} (h : ParInv e D W s t σ) (hf : FoundInv W s t σ)
    (i : Nat) (stale : Bool) : FoundInv W s t (worker_step e D σ i stale) where
  idle := by
    intro j hj
    rw [worker_step_returned_fixed e D σ i j stale (h.idle j hj)]
    exact hf.idle j hj
  found := by
    intro j hj h1
    by_cases hji : j = i
    · subst hji
      rcases worker_step_found e D σ j stale h1 with heq | hpre | ⟨hpc, hpc', hn', ha'⟩
      · rw [heq] at h1 ⊢
        exact hf.found j hj h1
      · have hret := (hf.found j hj hpre).1
        rw [worker_step_returned_fixed e D σ j j stale hret]
        exact hf.found j hj hpre
      · have hw := h.worker j hj
        have hb := range_parallel_bounds_within W s t j hst ht hj
        have hlt := hw.body_lt hpc
        have hlo := hw.lo
        refine ⟨hpc', ?_⟩
        rw [ha', hn']
        rcases hw.att with hatt | ⟨_, hret, _⟩
        · rw [hatt]
          exact Nat.mod_eq_of_lt (by omega)
        · rw [hpc] at hret
          cases hret
    · rw [worker_step_other e D σ i j stale hji] at h1 ⊢
      exact hf.found j hj h1

/-- At the dispatch no `found_solution` field is set. -/
theorem par_init_found_inv (W s t g0 : Nat) : FoundInv W s t (par_init W s t g0) where
  idle := fun _ _ => rfl
  found := fun _ _ h => by cases h

/-- At the dispatch the latch is clear. -/
theorem par_init_latch_inv (e : List Nat) (D : Int) (W s t g0 : Nat) :
    LatchInv e D (par_init W s t g0) where
  flag := Or.inl rfl
  writer := fun h => by cases h

/-- With one worker the subrange of worker 0 is the whole range. -/
theorem range_parallel_bounds_one (s t : Nat) (hst : s ≤ t) (ht : t < 2 ^ 64) :
    range_parallel_bounds 1 s t 0 = (s, t) := by
  rw [range_parallel_bounds_eq 1 s t 0 hst ht (by decide)]
  simp only [Nat.div_one, Nat.mod_one, zero_mul, add_zero, zero_add, one_mul,
    Nat.sub_self, if_true]
  congr 1
  omega

/-- The result of the sequential search when every nonce of the range misses. -/
theorem nip13_mine_range_exhausted (e : List Nat) (D : Int) (s t : Nat)
    (ht : t < 2 ^ 64) (hmiss : ∀ N, s ≤ N → N < t → Misses e D N) :
    nip13_mine_range e D s t = some { ret := 0, found_nonce := none, attempts := t - s } := by
  cases hr : nip13_mine_range e D s t with
  | none =>
    obtain ⟨hlt, hnone⟩ := (nip13_mine_range_none_iff e D s t ht).mp hr
    obtain ⟨out, hout, _⟩ := hmiss s (Nat.le_refl _) hlt
    rw [hnone s] at hout
    cases hout
  | some r =>
    rcases nip13_mine_range_some e D s t ht r hr with
      ⟨_, N, _, h1, h2, hs, _⟩ | ⟨h0, hn, _, ha⟩
    · exact absurd hs (misses_not_solves (hmiss N h1 h2))
    · cases r
      simp only at h0 hn ha
      rw [h0, hn, ha]

/-- C35: with a single worker the parallel search is the sequential search. With
`num_threads = 1`, for every event, difficulty and 64-bit range `start <= end`, and under
every schedule, `nip13_mine_range_parallel` hands back what `nip13_mine_range` of the
standalone tool hands back: the same return value, the same nonce stored when one is found,
and the same attempts count; the two are undefined for the same inputs. -/
theorem C35_single_worker_is_sequential (e : List Nat) (D : Int) (s t g0 : Nat)
    (sched : List (Nat × Bool)) (hst : s ≤ t) (ht : t < 2 ^ 64) :
    nip13_mine_range_parallel 1 e D s t g0 sched = nip13_mine_range e D s t := by
  have hstep : ∀ σ i stale,
      (ParInv e D 1 s t σ ∧ LatchInv e D σ ∧ FoundInv 1 s t σ) →
      (ParInv e D 1 s t (worker_step e D σ i stale) ∧ LatchInv e D (worker_step e D σ i stale) ∧
        FoundInv 1 s t (worker_step e D σ i stale)) :=
    fun σ i stale ⟨hp, hl, hf⟩ =>
      ⟨worker_step_inv hst ht hp i stale, worker_step_latch_inv e D σ i stale hl,
        worker_step_found_inv hst ht hp hf i stale⟩
  have h0 : ParInv e D 1 s t (par_init 1 s t g0) ∧ LatchInv e D (par_init 1 s t g0) ∧
      FoundInv 1 s t (par_init 1 s t g0) :=
    ⟨par_init_inv e D 1 s t g0 hst ht, par_init_latch_inv e D 1 s t g0,
      par_init_found_inv 1 s t g0⟩
  have hrun := par_run_preserves e D _ hstep sched _ h0
  obtain ⟨hp, hl, hf⟩ := join_all_preserves e D _ hstep 1 _ hrun
  have hdone := (join_all_spec hst ht hrun.1).2
  have hb := range_parallel_bounds_one s t hst ht
  unfold nip13_mine_range_parallel
  simp only []
  generalize join_all e D 1 (par_run e D (par_init 1 s t g0) sched) = σ at hp hl hf hdone
  by_cases hcr : σ.crashed = true
  · rw [if_pos hcr]
    exact ((nip13_mine_range_none_iff e D s t ht).mpr (hp.crash hcr)).symm
  rw [if_neg hcr]
  have hret : (σ.workers 0).pc = .returned := by
    rcases hdone with h | h
    · exact absurd h hcr
    · exact h 0 (by decide)
  have hw := hp.worker 0 (by decide)
  rw [hb] at hw
  have hlo : s ≤ (σ.workers 0).nonce := hw.lo
  have hhi : (σ.workers 0).nonce ≤ t := hw.hi
  have hsum : (List.range 1).foldl (fun a i => (a + (σ.workers i).data.attempts) % 2 ^ 64) 0 =
      (σ.workers 0).data.attempts % 2 ^ 64 := by
    simp [List.range_succ]
  rw [hsum]
  by_cases hsf : σ.solution_found ≠ 0
  · rw [if_pos hsf]
    have hsf1 : σ.solution_found = 1 := by
      rcases hp.flag with h | h
      · exact absurd h hsf
      · exact h
    obtain ⟨hG1, hG2, hsol⟩ := hp.latch hsf1
    obtain ⟨_, i, _, hfs, _, hn⟩ := hl.writer hsf1
    have hi : i = 0 := by
      by_contra hne
      have := hf.idle i (by omega)
      omega
    subst hi
    obtain ⟨_, hatt⟩ := hf.found 0 (by decide) hfs
    rw [hb] at hatt
    have hmissed : ∀ M, s ≤ M → M < σ.global_found_nonce → Misses e D M := by
      intro M h1 h2
      exact hw.missed M h1 (by rw [hn]; exact h2)
    obtain ⟨M, hM, _, hMle, hMs, _⟩ :=
      nip13_mine_range_finds e D s t σ.global_found_nonce ht hG1 hG2 hsol
    have hMG : M = σ.global_found_nonce := by
      by_contra hne
      exact misses_not_solves (hmissed M (by omega) (by omega)) hMs
    rw [hM, hMG, hatt, hn, Nat.mod_eq_of_lt (by omega)]
  · rw [if_neg hsf]
    have hsf0 : σ.solution_found = 0 := by omega
    obtain ⟨hmiss, hatt⟩ := par_final_exhausted (by decide) hst ht hp
      (fun i hi => by
        have : i = 0 := by omega
        subst this
        exact hret) hsf0
    have := hatt 0 (by decide)
    rw [hb] at this
    rw [this, Nat.mod_eq_of_lt (by omega), nip13_mine_range_exhausted e D s t ht hmiss]

/-- C35 at the scenario event, difficulty 8 and the range `[0, 1000)`, for a schedule of
three steps, one of them with a stale read of the flag. -/
theorem C35_single_worker_is_sequential_witness :
    0 ≤ 1000 ∧ 1000 < 2 ^ 64 ∧
    nip13_mine_range_parallel 1 event_S1 8 0 1000 7 [(0, false), (0, true), (0, false)] =
      nip13_mine_range event_S1 8 0 1000 :=
  ⟨by decide, by decide,
    C35_single_worker_is_sequential event_S1 8 0 1000 7 [(0, false), (0, true), (0, false)]
      (by decide) (by decide)⟩
/-! ## Lemmas: the length of what the serializer writes -/

/-- A 64-bit value has at least one and at most 20 decimal digits. -/
theorem decimal_length_le (N : Nat) (hN : N < 2 ^ 64) :
    1 ≤ (decimal N).length ∧ (decimal N).length ≤ 20 := by
  refine ⟨?_, ?_⟩
  · have := decimal_ne_nil N
    cases h : decimal N with
    | nil => exact absurd h this
    | cons a l => simp
  · unfold decimal
    split_ifs with h0
    · simp
    · rw [List.length_map, List.length_reverse]
      rw [Nat.digits_len 10 N (by decide) h0]
      have : Nat.log 10 N < 20 :=
        Nat.log_lt_of_lt_pow h0 (lt_of_lt_of_le hN (by norm_num))
      omega

/-- The length of the nonce tag: 12 bytes around the digits. -/
theorem nonce_tag_length (N : Nat) : (nonce_tag N).length = 12 + (decimal N).length := by
  simp [nonce_tag, ascii]
  omega

/-- The length of the quoted numeral: two quotes around the digits. -/
theorem quoted_decimal_length (N : Nat) :
    (quoted_decimal N).length = 2 + (decimal N).length := by
  simp [quoted_decimal, ascii]
  omega

/-- The bytes a `takeWhile` keeps and the bytes the `dropWhile` keeps make up the list. -/
theorem length_takeWhile_add_dropWhile (p : Nat → Bool) (l : List Nat) :
    (l.takeWhile p).length + (l.dropWhile p).length = l.length := by
  rw [← List.length_append, List.takeWhile_append_dropWhile]

/-- The length of the text written on the insertion path. -/
theorem update_nonce_insert_length (e : List Nat) (N tp k : Nat) (hN : N < 2 ^ 64)
    (hn : strstr e (ascii "\"nonce\"") = none) (htags : strstr e (ascii "\"tags\"") = some tp)
    (hk : strchr e tp 91 = some k) :
    ∃ out, update_nonce_in_json e N = some out ∧
      out.length + blanks_skipped e k =
        e.length + 12 + (decimal N).length + (if array_nonempty e k = true then 1 else 0) := by
  refine ⟨_, update_nonce_insert_eq e N tp k hN hn htags hk, ?_⟩
  have hkl : (e.take (k + 1)).length = k + 1 := by
    have := congrArg List.length (strchr_some e tp 91 k hk).2
    simp only [List.length_append, List.length_take, List.length_singleton] at this ⊢
    omega
  have hdl : (e.drop (k + 1)).length + (k + 1) = e.length := by
    rw [List.length_take] at hkl
    rw [List.length_drop]
    omega
  have hsplit := length_takeWhile_add_dropWhile is_blank (e.drop (k + 1))
  have hsep : (if ((e.drop (k + 1)).dropWhile is_blank).head? = some 93 then ([] : List Nat)
      else ascii ",").length = if array_nonempty e k = true then 1 else 0 := by
    unfold array_nonempty
    by_cases h : ((e.drop (k + 1)).dropWhile is_blank).head? = some 93
    · simp [h]
    · simp [h, ascii]
  simp only [List.length_append, hkl, nonce_tag_length, hsep, blanks_skipped]
  omega

/-- The length of the text written on the replacement path: the value is replaced by the
quoted numeral, so the text grows by at most two quotes and the digits. -/
theorem update_nonce_replace_length (e : List Nat) (N : Nat) (hN : N < 2 ^ 64)
    (hr : nonce_replacement_case e = true) :
    ∃ out, update_nonce_in_json e N = some out ∧
      out.length ≤ e.length + 2 + (decimal N).length := by
  obtain ⟨np, c, hnp, hc, hv⟩ := (nonce_replacement_case_iff e).mp hr
  have hsplit := length_takeWhile_add_dropWhile is_space_tab (e.drop (c + 1))
  have htd : (e.take (c + 1)).length + (e.drop (c + 1)).length = e.length := by
    rw [← List.length_append, List.take_append_drop]
  rcases hv with hq | ⟨q, hq, hf⟩
  · refine ⟨_, by rw [update_nonce_replace_eq e N np c hN hnp hc, if_neg hq], ?_⟩
    have := length_takeWhile_add_dropWhile is_value_byte
      ((e.drop (c + 1)).dropWhile is_space_tab)
    simp only [List.length_append, quoted_decimal_length]
    omega
  · refine ⟨(e.take (c + 1) ++ (e.drop (c + 1)).takeWhile is_space_tab ++ quoted_decimal N ++
        (((e.drop (c + 1)).dropWhile is_space_tab).drop 1).drop (q + 1)), ?_, ?_⟩
    · rw [update_nonce_replace_eq e N np c hN hnp hc, if_pos hq]
      simp only [hf]
    · simp only [List.length_append, quoted_decimal_length, List.length_drop]
      omega

/-- C36: the length of what the serializer writes. For an event on which
`update_nonce_in_json` writes a result and a 64-bit nonce `N`, the result has at most
`len(e) + 33` bytes, so with its terminator it fits the `len(e) + 100` bytes allocated; on
the replacement path it has at most `len(e) + 22` bytes; on the insertion path, with the `[`
at offset `k`, it has exactly `len(e) + 12 + digits(N) + (1 if the array is non-empty)` bytes
less the spaces, tabs and newlines skipped after the `[`. The array counts as non-empty when
the first byte after the skipped ones is not `]`. -/
theorem C36_update_nonce_length (e : List Nat) (N : Nat) (hN : N < 2 ^ 64)
    (hw : (nonce_insertion_case e || nonce_replacement_case e) = true) :
    ∃ out, update_nonce_in_json e N = some out ∧
      out.length ≤ e.length + 33 ∧
      out.length + 1 ≤ e.length + 100 ∧
      (nonce_replacement_case e = true → out.length ≤ e.length + 22) ∧
      (∀ tp k, nonce_insertion_case e = true → strstr e (ascii "\"tags\"") = some tp →
        strchr e tp 91 = some k →
        blanks_skipped e k ≤ e.length ∧
        out.length =
          e.length + 12 + (decimal N).length + (if array_nonempty e k = true then 1 else 0) -
            blanks_skipped e k) := by
  obtain ⟨hd1, hd20⟩ := decimal_length_le N hN
  rcases Bool.or_eq_true_iff.mp hw with hi | hr
  · obtain ⟨hn, tp, k, htags, hk⟩ := (nonce_insertion_case_iff e).mp hi
    obtain ⟨out, hout, hlen⟩ := update_nonce_insert_length e N tp k hN hn htags hk
    have hb : blanks_skipped e k ≤ e.length := by
      unfold blanks_skipped
      have := length_takeWhile_add_dropWhile is_blank (e.drop (k + 1))
      have := List.length_drop (k + 1) e
      omega
    have hsep : (if array_nonempty e k = true then 1 else 0) ≤ 1 := by
      split_ifs <;> omega
    have hnr : nonce_replacement_case e = false := by
      simp only [nonce_replacement_case, hn]
    refine ⟨out, hout, by omega, by omega, ?_, ?_⟩
    · intro h
      rw [hnr] at h
      cases h
    · intro tp' k' _ htags' hk'
      rw [htags] at htags'
      cases htags'
      rw [hk] at hk'
      cases hk'
      exact ⟨hb, by omega⟩
  · obtain ⟨out, hout, hlen⟩ := update_nonce_replace_length e N hN hr
    have hni : nonce_insertion_case e = false := by
      obtain ⟨np, c, hnp, _⟩ := (nonce_replacement_case_iff e).mp hr
      simp only [nonce_insertion_case, hnp]
    refine ⟨out, hout, by omega, by omega, fun _ => by omega, ?_⟩
    intro tp k h
    rw [hni] at h
    cases h

/-- C36 at the event `{"tags":[ ]}`, whose array holds one space, for the nonce 12345. -/
theorem C36_update_nonce_length_witness :
    12345 < 2 ^ 64 ∧
    (nonce_insertion_case event_blank_tags || nonce_replacement_case event_blank_tags) = true ∧
    ∃ out, update_nonce_in_json event_blank_tags 12345 = some out ∧
      out.length ≤ event_blank_tags.length + 33 ∧
      out.length + 1 ≤ event_blank_tags.length + 100 ∧
      (nonce_replacement_case event_blank_tags = true →
        out.length ≤ event_blank_tags.length + 22) ∧
      (∀ tp k, nonce_insertion_case event_blank_tags = true →
        strstr event_blank_tags (ascii "\"tags\"") = some tp →
        strchr event_blank_tags tp 91 = some k →
        blanks_skipped event_blank_tags k ≤ event_blank_tags.length ∧
        out.length =
          event_blank_tags.length + 12 + (decimal 12345).length +
              (if array_nonempty event_blank_tags k = true then 1 else 0) -
            blanks_skipped event_blank_tags k) :=
  ⟨by decide, by decide,
    C36_update_nonce_length event_blank_tags 12345 (by decide) (by decide)⟩

end Nip13
